import Mathlib

/-!
# Lokum: a verification development

A shallow embedding of parts of the lokum scripting language implementation
(runtime values, symbol tables, bytecode constant deduplication, scanner) and
theorems about them.

Conventions of the embedding

* Go `int64` / `int32` values are Lean integers kept in range by `wrap64` / `wrap32`.
* A Go `string` or `[]byte` is the list of its bytes (`GoString`).
* A `float64` is its IEEE 754 bit pattern; comparison is defined on the bits,
  arithmetic is a parameter (`FloatOps`).
* Pointer identity, where the code observes it, is an address carried by the value.
* A Go call either returns a value, returns an error, or panics (`Outcome`).
-/

namespace Lokum

/-! ## Machine integers -/

/-- Two's complement reduction of an integer into the signed 64-bit range. -/
def wrap64 (x : Int) : Int := (x + 2 ^ 63) % 2 ^ 64 - 2 ^ 63

/-- Two's complement reduction of an integer into the signed 32-bit range (`rune`). -/
def wrap32 (x : Int) : Int := (x + 2 ^ 31) % 2 ^ 32 - 2 ^ 31

/-- Conversion `uint64(x)` of an `int64`. -/
def toUint64 (x : Int) : Nat := (x % 2 ^ 64).toNat

/-- The values an `int64` can hold. -/
def isInt64 (x : Int) : Prop := -(2 ^ 63) ≤ x ∧ x < 2 ^ 63

instance (x : Int) : Decidable (isInt64 x) := by unfold isInt64; exact inferInstance

/-- Go string or byte slice: the sequence of its bytes. -/
abbrev GoString := List Nat

/-- Bytes of an ASCII literal. -/
def ascii (s : String) : GoString := s.toList.map Char.toNat

/-! ## Tokens (token/token.go) -/

inductive Token where
  | Illegal | EOF | Comment
  | Ident | Int | Float | Char | String
  | Add | Sub | Mul | Quo | Rem
  | And | Or | Xor | Shl | Shr | AndNot
  | AddAssign | SubAssign | MulAssign | QuoAssign | RemAssign
  | AndAssign | OrAssign | XorAssign | ShlAssign | ShrAssign | AndNotAssign
  | LAnd | LOr | Inc | Dec
  | Equal | Less | Greater | Assign | Not | NotEqual | LessEq | GreaterEq
  | Define | Ellipsis
  | LParen | LBrack | LBrace | Comma | Period
  | RParen | RBrack | RBrace | Semicolon | Colon | Question
  | Break | Continue | Else | For | Func | Error | Immutable | If
  | Return | Export | True | False | In | Undefined | Import
  deriving DecidableEq, Repr

/-! ## Errors and call outcomes -/

inductive GoError where
  | ErrStackOverflow | ErrObjectAllocLimit | ErrIndexOutOfBounds
  | ErrInvalidIndexType | ErrInvalidIndexValueType | ErrInvalidIndexOnError
  | ErrInvalidOperator | ErrWrongNumArguments | ErrBytesLimit | ErrStringLimit
  | ErrNotIndexable | ErrNotIndexAssignable | ErrNotImplemented | ErrInvalidRangeStep
  | ErrInvalidArgumentType (Name Expected Found : GoString)
  | Errorf (msg : String)
  deriving DecidableEq, Repr

/-- Runtime panics the modelled code can raise. -/
inductive GoPanic where
  | divideByZero
  | indexOutOfRange
  | nilDereference
  | sliceBoundsOutOfRange
  | explicit (msg : String)
  deriving DecidableEq, Repr

/-- What a Go call does: return a value, return an error, or panic. -/
inductive Outcome (α : Type) where
  | ret (v : α)
  | fail (e : GoError)
  | panicked (p : GoPanic)
  deriving DecidableEq, Repr

/-! ## Floats -/

/-- Whether a 64-bit pattern is a NaN: exponent all ones, fraction not zero. -/
def isNaNBits (b : Nat) : Bool := (b / 2 ^ 52) % 2 ^ 11 == 2047 && b % 2 ^ 52 != 0

/-- Whether a 64-bit pattern is +0 or -0. -/
def isZeroBits (b : Nat) : Bool := b % 2 ^ 63 == 0

/-- Go `==` on two `float64` given by their bits. -/
def floatEq (a b : Nat) : Bool :=
  !isNaNBits a && !isNaNBits b && ((isZeroBits a && isZeroBits b) || a % 2 ^ 64 == b % 2 ^ 64)

/-- Floating-point primitives of the host language, on bit patterns. -/
structure FloatOps where
  add : Nat → Nat → Nat
  sub : Nat → Nat → Nat
  mul : Nat → Nat → Nat
  quo : Nat → Nat → Nat
  lt : Nat → Nat → Bool
  le : Nat → Nat → Bool
  ofInt : Int → Nat

/-- Float primitives for evaluating code paths that never reach a float operation. -/
def noFloatOps : FloatOps :=
  { add := fun _ _ => 0, sub := fun _ _ => 0, mul := fun _ _ => 0, quo := fun _ _ => 0,
    lt := fun _ _ => false, le := fun _ _ => false, ofInt := fun _ => 0 }

/-! ## Runtime values (haritalar.go) -/

/-- Fields of a `CompiledFunction`. `Free` holds the addresses of its `ObjectPtr` cells,
`SourceMap` the recorded `ip ↦ position` pairs. -/
structure CompiledFunction where
  Instructions : List Nat
  NumLocals : Int
  NumParameters : Int
  VarArgs : Bool
  SourceMap : List (Int × Int)
  Free : List Nat
  deriving DecidableEq, Repr

mutual
/-- The runtime values. `addr` is the identity of the Go object for the kinds whose
identity the code observes. A host function value is an identifier `fn`. -/
inductive Object where
  | int (Value : Int)
  | float (Value : Nat)
  | bool (addr : Nat) (value : Bool)
  | char (Value : Int)
  | string (Value : GoString)
  | bytes (Value : List Nat)
  | array (Value : ObjList)
  | immutableArray (Value : ObjList)
  | map (Value : ObjMap)
  | immutableMap (addr : Nat) (Value : ObjMap)
  | undefined (addr : Nat)
  | error (addr : Nat) (Value : Object)
  | time (Value : Int)
  | compiledFunction (addr : Nat) (fn : CompiledFunction)
  | builtinFunction (Name : GoString) (Value : Nat)
  | userFunction (Name : GoString) (Value : Nat)
  | objectPtr (addr : Nat)
  deriving DecidableEq, Repr
/-- A slice of values. -/
inductive ObjList where
  | nil
  | cons (head : Object) (tail : ObjList)
  deriving DecidableEq, Repr
/-- The entries of a Go `map[string]Object`. -/
inductive ObjMap where
  | nil
  | cons (key : GoString) (value : Object) (tail : ObjMap)
  deriving DecidableEq, Repr
end

/-- The shared singletons. -/
def TrueValue : Object := .bool 0 true
def FalseValue : Object := .bool 1 false
def UndefinedValue : Object := .undefined 0

def ObjList.toList : ObjList → List Object
  | .nil => []
  | .cons h t => h :: t.toList

def ObjList.ofList : List Object → ObjList
  | [] => .nil
  | h :: t => .cons h (ObjList.ofList t)

def ObjList.length : ObjList → Nat
  | .nil => 0
  | .cons _ t => t.length + 1

def ObjMap.toList : ObjMap → List (GoString × Object)
  | .nil => []
  | .cons k v t => (k, v) :: t.toList

def ObjMap.length : ObjMap → Nat
  | .nil => 0
  | .cons _ _ t => t.length + 1

/-- Map read `m[k]`; `none` is the missing key. -/
def ObjMap.lookup (k : GoString) : ObjMap → Option Object
  | .nil => none
  | .cons k' v t => if k = k' then some v else t.lookup k

def ObjMap.keys : ObjMap → List GoString
  | .nil => []
  | .cons k _ t => k :: t.keys

/-! ### Int.BinaryOp -/

/-- Yield `TrueValue` or `FalseValue`. -/
def boolObject (b : Bool) : Object := if b then TrueValue else FalseValue

/-- `Int.BinaryOp` of haritalar.go; `o` is the receiver's `Value`. -/
def Int.BinaryOp (F : FloatOps) (o : Int) (op : Token) (rhs : Object) : Outcome Object :=
  match rhs with
  | .int rv =>
    match op with
    | .Add =>
      let r := wrap64 (o + rv)
      if r = o then .ret (.int o) else .ret (.int r)
    | .Sub =>
      let r := wrap64 (o - rv)
      if r = o then .ret (.int o) else .ret (.int r)
    | .Mul =>
      let r := wrap64 (o * rv)
      if r = o then .ret (.int o) else .ret (.int r)
    | .Quo =>
      if rv = 0 then .panicked .divideByZero else
      let r := wrap64 (Int.tdiv o rv)
      if r = o then .ret (.int o) else .ret (.int r)
    | .Rem =>
      if rv = 0 then .panicked .divideByZero else
      let r := wrap64 (Int.tmod o rv)
      if r = o then .ret (.int o) else .ret (.int r)
    | .And =>
      let r := Int.land o rv
      if r = o then .ret (.int o) else .ret (.int r)
    | .Or =>
      let r := Int.lor o rv
      if r = o then .ret (.int o) else .ret (.int r)
    | .Xor =>
      let r := Int.xor o rv
      if r = o then .ret (.int o) else .ret (.int r)
    | .AndNot =>
      let r := Int.ldiff o rv
      if r = o then .ret (.int o) else .ret (.int r)
    | .Shl =>
      let r := if 64 ≤ toUint64 rv then 0 else wrap64 (o * 2 ^ toUint64 rv)
      if r = o then .ret (.int o) else .ret (.int r)
    | .Shr =>
      let r := if 64 ≤ toUint64 rv then (if o < 0 then -1 else 0) else Int.fdiv o (2 ^ toUint64 rv)
      if r = o then .ret (.int o) else .ret (.int r)
    | .Less => .ret (boolObject (decide (o < rv)))
    | .Greater => .ret (boolObject (decide (o > rv)))
    | .LessEq => .ret (boolObject (decide (o ≤ rv)))
    | .GreaterEq => .ret (boolObject (decide (o ≥ rv)))
    | _ => .fail .ErrInvalidOperator
  | .float rv =>
    match op with
    | .Add => .ret (.float (F.add (F.ofInt o) rv))
    | .Sub => .ret (.float (F.sub (F.ofInt o) rv))
    | .Mul => .ret (.float (F.mul (F.ofInt o) rv))
    | .Quo => .ret (.float (F.quo (F.ofInt o) rv))
    | .Less => .ret (boolObject (F.lt (F.ofInt o) rv))
    | .Greater => .ret (boolObject (F.lt rv (F.ofInt o)))
    | .LessEq => .ret (boolObject (F.le (F.ofInt o) rv))
    | .GreaterEq => .ret (boolObject (F.le rv (F.ofInt o)))
    | _ => .fail .ErrInvalidOperator
  | .char rv =>
    match op with
    | .Add => .ret (.char (wrap32 (wrap32 o + rv)))
    | .Sub => .ret (.char (wrap32 (wrap32 o - rv)))
    | .Less => .ret (boolObject (decide (o < rv)))
    | .Greater => .ret (boolObject (decide (o > rv)))
    | .LessEq => .ret (boolObject (decide (o ≤ rv)))
    | .GreaterEq => .ret (boolObject (decide (o ≥ rv)))
    | _ => .fail .ErrInvalidOperator
  | _ => .fail .ErrInvalidOperator

/-! ## Symbol tables (semboller.go)

A table is kept together with its ancestors: a `Chain` is the table at the head
followed by its parent, its grandparent, and so on up to the root; the empty chain is
the nil pointer. Every method of the source follows parent pointers only, so it reads and
writes the tables of one chain. A call on a nil receiver panics (`none`). -/

inductive SymbolScope where
  | ScopeGlobal | ScopeLocal | ScopeBuiltin | ScopeFree
  deriving DecidableEq, Repr

structure Symbol where
  Name : String
  Scope : SymbolScope
  Index : Nat
  LocalAssigned : Bool
  deriving DecidableEq, Repr

structure SymbolTable where
  block : Bool
  store : List (String × Symbol)
  numDefinition : Nat
  maxDefinition : Nat
  freeSymbols : List Symbol
  builtinSymbols : List Symbol
  deriving DecidableEq, Repr

abbrev Chain := List SymbolTable

/-- Map write `store[name] = symbol`. -/
def storeSet (store : List (String × Symbol)) (name : String) (symbol : Symbol) :
    List (String × Symbol) :=
  (name, symbol) :: store.filter (fun kv => kv.1 != name)

/-- Map read `store[name]`. -/
def storeGet (store : List (String × Symbol)) (name : String) : Option Symbol :=
  store.lookup name

/-- `NewSymbolTable`. -/
def NewSymbolTable : Chain :=
  [{ block := false, store := [], numDefinition := 0, maxDefinition := 0,
     freeSymbols := [], builtinSymbols := [] }]

/-- `SymbolTable.Fork`: the new table, with the receiver as its parent. -/
def Fork (t : Chain) (block : Bool) : Chain :=
  { block := block, store := [], numDefinition := 0, maxDefinition := 0,
    freeSymbols := [], builtinSymbols := [] } :: t

/-- `SymbolTable.Parent`; the answer `some []` is the nil parent. -/
def Parent : Chain → Bool → Option Chain
  | [], _ => none
  | t :: ps, skipBlock => if skipBlock && t.block then Parent ps skipBlock else some ps

/-- `SymbolTable.MaxSymbols`. -/
def MaxSymbols : Chain → Option Nat
  | [] => none
  | t :: _ => some t.maxDefinition

/-- `SymbolTable.FreeSymbols`. -/
def FreeSymbols : Chain → Option (List Symbol)
  | [] => none
  | t :: _ => some t.freeSymbols

/-- `SymbolTable.nextIndex`. -/
def nextIndex : Chain → Option Nat
  | [] => none
  | t :: ps =>
    if t.block then (nextIndex ps).map (fun n => n + t.numDefinition)
    else some t.numDefinition

/-- `SymbolTable.updateMaxDefs`. -/
def updateMaxDefs : Chain → Nat → Option Chain
  | [], _ => none
  | t :: ps, numDefs =>
    let t1 := if numDefs > t.maxDefinition then { t with maxDefinition := numDefs } else t
    if t1.block then (updateMaxDefs ps numDefs).map (fun ps1 => t1 :: ps1)
    else some (t1 :: ps)

/-- The loop `for p.parent != nil { p = p.parent }` of `Define` followed by
`p.numDefinition++`, on the non-nil chain `p`. -/
def bumpRoot : Chain → Chain
  | [] => []
  | [p] => [{ p with numDefinition := p.numDefinition + 1 }]
  | p :: q :: ps => p :: bumpRoot (q :: ps)

/-- `SymbolTable.Define`: the updated chain and the new symbol. -/
def Define (c : Chain) (name : String) : Option (Chain × Symbol) :=
  match c with
  | [] => none
  | t :: ps =>
    match nextIndex (t :: ps) with
    | none => none
    | some index =>
      let t1 := { t with numDefinition := t.numDefinition + 1 }
      match Parent (t1 :: ps) true with
      | none => none
      | some par =>
        if par.isEmpty then
          let symbol : Symbol :=
            { Name := name, Scope := .ScopeGlobal, Index := index, LocalAssigned := false }
          let t2 := if ps.isEmpty then t1 else { t1 with numDefinition := t1.numDefinition - 1 }
          let ps2 := if ps.isEmpty then ps else bumpRoot ps
          (updateMaxDefs ({ t2 with store := storeSet t2.store name symbol } :: ps2)
            (symbol.Index + 1)).map (fun c3 => (c3, symbol))
        else
          let symbol : Symbol :=
            { Name := name, Scope := .ScopeLocal, Index := index, LocalAssigned := false }
          (updateMaxDefs ({ t1 with store := storeSet t1.store name symbol } :: ps)
            (symbol.Index + 1)).map (fun c3 => (c3, symbol))

/-- `SymbolTable.DefineBuiltin`. -/
def DefineBuiltin : Chain → Nat → String → Option (Chain × Symbol)
  | [], _, _ => none
  | [t], index, name =>
    let symbol : Symbol :=
      { Name := name, Scope := .ScopeBuiltin, Index := index, LocalAssigned := false }
    some ([{ t with store := storeSet t.store name symbol,
                    builtinSymbols := t.builtinSymbols ++ [symbol] }], symbol)
  | t :: p :: ps, index, name =>
    (DefineBuiltin (p :: ps) index name).map (fun r => (t :: r.1, r.2))

/-- `SymbolTable.defineFree` on one table. -/
def defineFree (t : SymbolTable) (original : Symbol) : SymbolTable × Symbol :=
  let freeSymbols := t.freeSymbols ++ [original]
  let symbol : Symbol :=
    { Name := original.Name, Scope := .ScopeFree, Index := freeSymbols.length - 1,
      LocalAssigned := false }
  ({ t with freeSymbols := freeSymbols, store := storeSet t.store original.Name symbol },
   symbol)

/-- The first test of `Resolve`: the table's own entry for the name, when it may be used
(it is not LOCAL, or it is assigned, or the call comes from a child table). -/
def directHit (t : SymbolTable) (name : String) (recur : Bool) : Option Symbol :=
  match storeGet t.store name with
  | some symbol =>
    if symbol.Scope ≠ .ScopeLocal ∨ symbol.LocalAssigned = true ∨ recur = true
    then some symbol else none
  | none => none

/-- The last test of `Resolve`: whether the symbol found by the parent becomes a free
symbol of the table. -/
def promotes (t : SymbolTable) (depth : Nat) (symbol : Symbol) : Bool :=
  !t.block && decide (depth > 0) && symbol.Scope != .ScopeGlobal &&
    symbol.Scope != .ScopeBuiltin

/-- `SymbolTable.Resolve`: the chain after the call and, when the name is found, the symbol
and the depth. The nil receiver does not occur: the parent is called only when it is not
nil. -/
def Resolve : Chain → String → Bool → Chain × Option (Symbol × Nat)
  | [], _, _ => ([], none)
  | t :: ps, name, recur =>
    match directHit t name recur with
    | some symbol => (t :: ps, some (symbol, 0))
    | none =>
      if ps.isEmpty then (t :: ps, none)
      else
        match Resolve ps name true with
        | (ps1, none) => (t :: ps1, none)
        | (ps1, some (symbol, depth0)) =>
          if promotes t (depth0 + 1) symbol then
            ((defineFree t symbol).1 :: ps1, some ((defineFree t symbol).2, depth0 + 1))
          else (t :: ps1, some (symbol, depth0 + 1))

/-- `symbol.LocalAssigned = true` on the symbol the table at the head stores under `name`
(what the compiler does once the local has been defined). -/
def assignLocal : Chain → String → Chain
  | [], _ => []
  | t :: ps, name =>
    { t with store := t.store.map (fun kv =>
        if kv.1 = name then (kv.1, { kv.2 with LocalAssigned := true }) else kv) } :: ps

/-- Some table of the chain is not a block: walking up from the head ends at a function
table or at the root. -/
def hasFunc (c : Chain) : Bool := c.any (fun t => !t.block)

/-- The symbol stored under `name` by the first table of the chain that stores one. -/
def nearest : Chain → String → Option Symbol
  | [], _ => none
  | t :: ps, name =>
    match storeGet t.store name with
    | some symbol => some symbol
    | none => nearest ps name

/-- `Resolve(name, false)` on the same table for each name in turn: the chain at the end and
the answers. -/
def resolveAll : Chain → List String → Chain × List (Option (Symbol × Nat))
  | c, [] => (c, [])
  | c, name :: names =>
    let r := Resolve c name false
    let rs := resolveAll r.1 names
    (rs.1, r.2 :: rs.2)

/-- The names of a list in the order of their first occurrence, added to `seen`. -/
def distinctFrom (seen : List String) : List String → List String
  | [] => seen
  | n :: names => distinctFrom (if n ∈ seen then seen else seen ++ [n]) names

/-- The table holds exactly the captures of the names `seen`, numbered in that order. -/
def capturedInv (t : SymbolTable) (seen : List String) : Prop :=
  t.block = false ∧ t.freeSymbols.map (fun s => s.Name) = seen ∧
  (∀ m, m ∈ seen →
    storeGet t.store m = some (Symbol.mk m SymbolScope.ScopeFree (seen.indexOf m) false)) ∧
  (∀ m, m ∉ seen → storeGet t.store m = none)

/-- Each of the names is stored by some ancestor, and the first ancestor that stores it
holds a LOCAL or FREE symbol of that name. -/
def capturable (ps : Chain) (names : List String) : Prop :=
  ∀ n ∈ names, ∃ h, nearest ps n = some h ∧ h.Name = n ∧
    (h.Scope = SymbolScope.ScopeLocal ∨ h.Scope = SymbolScope.ScopeFree)

/-- A function table of one assigned local `x` under the root, for evaluating examples. -/
def sampleAncestors : Chain :=
  SymbolTable.mk false [("x", Symbol.mk "x" SymbolScope.ScopeLocal 0 true)] 1 1 [] [] ::
    NewSymbolTable

/-- A fresh table, not a block. -/
def sampleFunctionTable : SymbolTable := SymbolTable.mk false [] 0 0 [] []

/-! ### All the tables of a compilation

Tables share their ancestors, so a sequence of calls on several tables is run on a store of
tables. Table `i` is `tabs[i]`; `paths[i]` lists its parent, its grandparent, and so on up
to the root (the parent pointers, which never change). A call on table `t` reads the chain
of `t` out of the store, runs the method on it, and writes the chain back. `log` records
each symbol returned by `Define` with the table it was defined on. -/

structure Tables where
  paths : List (List Nat)
  tabs : List SymbolTable
  log : List (Nat × Symbol)
  deriving DecidableEq, Repr

/-- The store after `NewSymbolTable`: the root alone. -/
def initTables : Tables := { paths := [[]], tabs := NewSymbolTable, log := [] }

/-- The tables at the given addresses. -/
def readChain (tabs : List SymbolTable) : List Nat → Option Chain
  | [] => some []
  | i :: is =>
    match tabs[i]?, readChain tabs is with
    | some t, some c => some (t :: c)
    | _, _ => none

/-- Put the tables of a chain back at their addresses. -/
def writeChain (tabs : List SymbolTable) (ids : List Nat) (c : Chain) : List SymbolTable :=
  tabs.mapIdx (fun v old => ((ids.zip c).lookup v).getD old)

/-- `Fork` on table `t` of the store: the new table gets the next address. -/
def forkAt (S : Tables) (t : Nat) (block : Bool) : Option (Tables × Nat) :=
  match S.paths[t]? with
  | none => none
  | some ps =>
    match readChain S.tabs (t :: ps) with
    | none => none
    | some c =>
      match Fork c block with
      | [] => none
      | new :: _ =>
        some ({ S with paths := S.paths ++ [t :: ps], tabs := S.tabs ++ [new] },
              S.tabs.length)

/-- `Define` on table `t` of the store. -/
def defineAt (S : Tables) (t : Nat) (name : String) : Option (Tables × Symbol) :=
  match S.paths[t]? with
  | none => none
  | some ps =>
    match readChain S.tabs (t :: ps) with
    | none => none
    | some c =>
      match Define c name with
      | none => none
      | some (c1, symbol) =>
        some ({ S with tabs := writeChain S.tabs (t :: ps) c1,
                       log := S.log ++ [(t, symbol)] }, symbol)

/-- `MaxSymbols` of table `t` of the store. -/
def maxSymbolsAt (S : Tables) (t : Nat) : Option Nat :=
  match S.tabs[t]? with
  | none => none
  | some tb => MaxSymbols [tb]

/-- A call of `Fork` or `Define` on a table of the store. -/
inductive TableOp where
  | fork (t : Nat) (block : Bool)
  | define (t : Nat) (name : String)
  deriving DecidableEq, Repr

def applyOp (S : Tables) : TableOp → Option Tables
  | .fork t block => (forkAt S t block).map (fun r => r.1)
  | .define t name => (defineAt S t name).map (fun r => r.1)

/-- Run a sequence of calls; `none` when a call names a table that does not exist. -/
def runOps : Tables → List TableOp → Option Tables
  | S, [] => some S
  | S, op :: ops =>
    match applyOp S op with
    | none => none
    | some S1 => runOps S1 ops

/-- The addresses in `ids` up to and including the first table that is not a block. -/
def uptoFunc (tabs : List SymbolTable) : List Nat → List Nat
  | [] => []
  | i :: is =>
    match tabs[i]? with
    | some t => if t.block then i :: uptoFunc tabs is else [i]
    | none => [i]

/-- Table `u` and its block ancestors up to and including its enclosing function table
(or the root). Table `u` is `t` itself or a block fork nested in the function table `t`
without crossing another function fork exactly when `t` is in this list and is not a
block. -/
def enclosing (S : Tables) (u : Nat) : List Nat :=
  uptoFunc S.tabs (u :: (S.paths[u]?).getD [])

/-- One more than the largest `Index` among the LOCAL symbols defined in `t` or in a block
nested in `t` without crossing a function fork; 0 when there is none. -/
def peakLocal (S : Tables) (t : Nat) : Nat :=
  ((S.log.filter (fun e => decide (t ∈ enclosing S e.1) &&
      e.2.Scope == SymbolScope.ScopeLocal)).map (fun e => e.2.Index + 1)).foldr max 0

/-- One more than the largest `Index` among all the symbols defined in a table whose walk
to its enclosing function table passes through `v`; 0 when there is none. -/
def peakAll (S : Tables) (v : Nat) : Nat :=
  ((S.log.filter (fun e => decide (v ∈ enclosing S e.1))).map
    (fun e => e.2.Index + 1)).foldr max 0

/-- Two chains whose tables agree on `block` and `maxDefinition`. -/
def SameRel : Chain → Chain → Prop
  | [], [] => True
  | t :: ps, t1 :: ps1 =>
    t1.block = t.block ∧ t1.maxDefinition = t.maxDefinition ∧ SameRel ps ps1
  | _, _ => False

/-- The second chain is the first with `maxDefinition` raised to at least `n` in every table
up to and including the first that is not a block. -/
def BumpRel (n : Nat) : Chain → Chain → Prop
  | [], [] => True
  | t :: ps, t1 :: ps1 =>
    t1.block = t.block ∧ t1.maxDefinition = max t.maxDefinition n ∧
      (if t.block then BumpRel n ps ps1 else SameRel ps ps1)
  | _, _ => False

/-- What holds of the store after every sequence of calls. -/
def StoreInv (S : Tables) : Prop :=
  S.paths.length = S.tabs.length ∧
  (∀ (v : Nat) (ps : List Nat), S.paths[v]? = some ps → ∀ p ∈ ps, p < S.tabs.length) ∧
  (∀ (v : Nat) (ps : List Nat), S.paths[v]? = some ps →
    ∀ (pre : List Nat) (p : Nat) (rest : List Nat), v :: ps = pre ++ p :: rest →
      S.paths[p]? = some rest) ∧
  (∀ (v : Nat) (tb : SymbolTable), S.tabs[v]? = some tb → tb.maxDefinition = peakAll S v) ∧
  (∀ e ∈ S.log, ∀ (t : Nat) (tb : SymbolTable), t ∈ enclosing S e.1 →
    S.tabs[t]? = some tb → tb.block = false →
    S.paths[t]? ≠ some [] → e.2.Scope = SymbolScope.ScopeLocal) ∧
  (∀ e ∈ S.log, e.1 < S.tabs.length)

/-- A function table forked from the root, with one symbol defined in it. -/
def sampleOps : List TableOp := [.fork 0 false, .define 1 "a"]

/-- The store after `sampleOps`. -/
def sampleStore : Tables :=
  { paths := [[], [0]],
    tabs := [SymbolTable.mk false [] 0 0 [] [],
             SymbolTable.mk false [("a", Symbol.mk "a" SymbolScope.ScopeLocal 0 false)] 1 1 [] []],
    log := [(1, Symbol.mk "a" SymbolScope.ScopeLocal 0 false)] }

/-! ### Copy and Equals (haritalar.go)

`Copy` allocates: `next` is the first address not in use, and every object that gets an
address of its own takes the next one. -/

mutual
/-- `Object.Copy` for every kind of value: the copy and the next free address. -/
def Object.Copy : Object → Nat → Object × Nat
  | .int v, next => (.int v, next)
  | .float v, next => (.float v, next)
  | .bool addr v, next => (.bool addr v, next)
  | .char v, next => (.char v, next)
  | .string v, next => (.string v, next)
  | .bytes v, next => (.bytes v, next)
  | .array vs, next => ((Object.array (ObjList.Copy vs next).1), (ObjList.Copy vs next).2)
  | .immutableArray vs, next =>
    ((Object.array (ObjList.Copy vs next).1), (ObjList.Copy vs next).2)
  | .map kvs, next => ((Object.map (ObjMap.Copy kvs next).1), (ObjMap.Copy kvs next).2)
  | .immutableMap _ kvs, next =>
    ((Object.map (ObjMap.Copy kvs next).1), (ObjMap.Copy kvs next).2)
  | .undefined addr, next => (.undefined addr, next)
  | .error _ v, next =>
    ((Object.error (Object.Copy v next).2 (Object.Copy v next).1), (Object.Copy v next).2 + 1)
  | .time v, next => (.time v, next)
  | .compiledFunction _ fn, next =>
    (.compiledFunction next
      { Instructions := fn.Instructions, NumLocals := fn.NumLocals,
        NumParameters := fn.NumParameters, VarArgs := fn.VarArgs, SourceMap := [],
        Free := fn.Free }, next + 1)
  | .builtinFunction _ value, next => (.builtinFunction [] value, next)
  | .userFunction name value, next => (.userFunction name value, next)
  | .objectPtr addr, next => (.objectPtr addr, next)
/-- The loop `for _, elem := range o.Value { c = append(c, elem.Copy()) }`. -/
def ObjList.Copy : ObjList → Nat → ObjList × Nat
  | .nil, next => (.nil, next)
  | .cons e es, next =>
    (.cons (Object.Copy e next).1 (ObjList.Copy es (Object.Copy e next).2).1,
     (ObjList.Copy es (Object.Copy e next).2).2)
/-- The loop `for k, v := range o.Value { c[k] = v.Copy() }`. -/
def ObjMap.Copy : ObjMap → Nat → ObjMap × Nat
  | .nil, next => (.nil, next)
  | .cons k v es, next =>
    (.cons k (Object.Copy v next).1 (ObjMap.Copy es (Object.Copy v next).2).1,
     (ObjMap.Copy es (Object.Copy v next).2).2)
end

mutual
/-- `Object.Equals` for every kind of receiver. -/
def Object.Equals : Object → Object → Bool
  | .int v, x => match x with
    | .int w => decide (v = w)
    | _ => false
  | .float v, x => match x with
    | .float w => floatEq v w
    | _ => false
  | .bool addr _, x => match x with
    | .bool addr1 _ => decide (addr = addr1)
    | _ => false
  | .char v, x => match x with
    | .char w => decide (v = w)
    | _ => false
  | .string v, x => match x with
    | .string w => decide (v = w)
    | _ => false
  | .bytes v, x => match x with
    | .bytes w => decide (v = w)
    | _ => false
  | .array vs, x => match x with
    | .array xs => decide (vs.length = xs.length) && ObjList.Equals vs xs
    | .immutableArray xs => decide (vs.length = xs.length) && ObjList.Equals vs xs
    | _ => false
  | .immutableArray vs, x => match x with
    | .array xs => decide (vs.length = xs.length) && ObjList.Equals vs xs
    | .immutableArray xs => decide (vs.length = xs.length) && ObjList.Equals vs xs
    | _ => false
  | .map kvs, x => match x with
    | .map xs => decide (kvs.length = xs.length) && ObjMap.Equals kvs xs
    | .immutableMap _ xs => decide (kvs.length = xs.length) && ObjMap.Equals kvs xs
    | _ => false
  | .immutableMap _ kvs, x => match x with
    | .map xs => decide (kvs.length = xs.length) && ObjMap.Equals kvs xs
    | .immutableMap _ xs => decide (kvs.length = xs.length) && ObjMap.Equals kvs xs
    | _ => false
  | .undefined addr, x => match x with
    | .undefined addr1 => decide (addr = addr1)
    | _ => false
  | .error addr _, x => match x with
    | .error addr1 _ => decide (addr = addr1)
    | _ => false
  | .time v, x => match x with
    | .time w => decide (v = w)
    | _ => false
  | .compiledFunction _ _, _ => false
  | .builtinFunction _ _, _ => false
  | .userFunction _ _, _ => false
  | .objectPtr addr, x => match x with
    | .objectPtr addr1 => decide (addr = addr1)
    | _ => false
/-- The loop `for i, e := range o.Value { if !e.Equals(xVal[i]) { return false } }`, run
when the lengths are equal. -/
def ObjList.Equals : ObjList → ObjList → Bool
  | .nil, _ => true
  | .cons e es, xs => match xs with
    | .cons x xs1 => Object.Equals e x && ObjList.Equals es xs1
    | .nil => false
/-- The loop `for k, v := range o.Value { tv := xVal[k]; if !v.Equals(tv) { return false } }`.
A key that `xVal` lacks reads as nil, and every `Equals` answers false to nil. -/
def ObjMap.Equals : ObjMap → ObjMap → Bool
  | .nil, _ => true
  | .cons k v es, xVal => (match xVal.lookup k with
    | some tv => Object.Equals v tv
    | none => false) && ObjMap.Equals es xVal
end

mutual
/-- The values on which a copy compares equal to the original: Int, Float other than NaN,
Bool, Char, String, Bytes, Undefined, Time, ObjectPtr, and Array, ImmutableArray, Map and
ImmutableMap containers of such values (a map holds each key once). -/
def Object.plain : Object → Bool
  | .int _ => true
  | .float v => !isNaNBits v
  | .bool _ _ => true
  | .char _ => true
  | .string _ => true
  | .bytes _ => true
  | .array vs => ObjList.plain vs
  | .immutableArray vs => ObjList.plain vs
  | .map kvs => ObjMap.plain kvs && decide (kvs.keys.Nodup)
  | .immutableMap _ kvs => ObjMap.plain kvs && decide (kvs.keys.Nodup)
  | .undefined _ => true
  | .error _ _ => false
  | .time _ => true
  | .compiledFunction _ _ => false
  | .builtinFunction _ _ => false
  | .userFunction _ _ => false
  | .objectPtr _ => true
def ObjList.plain : ObjList → Bool
  | .nil => true
  | .cons e es => Object.plain e && ObjList.plain es
def ObjMap.plain : ObjMap → Bool
  | .nil => true
  | .cons _ v es => Object.plain v && ObjMap.plain es
end

/-! ## Opcodes (parser/opcodes.go) -/

def OpConstant : Nat := 0
def OpBComplement : Nat := 1
def OpPop : Nat := 2
def OpTrue : Nat := 3
def OpFalse : Nat := 4
def OpEqual : Nat := 5
def OpNotEqual : Nat := 6
def OpMinus : Nat := 7
def OpLNot : Nat := 8
def OpJumpFalsy : Nat := 9
def OpAndJump : Nat := 10
def OpOrJump : Nat := 11
def OpJump : Nat := 12
def OpNull : Nat := 13
def OpArray : Nat := 14
def OpMap : Nat := 15
def OpError : Nat := 16
def OpImmutable : Nat := 17
def OpIndex : Nat := 18
def OpSliceIndex : Nat := 19
def OpCall : Nat := 20
def OpReturn : Nat := 21
def OpGetGlobal : Nat := 22
def OpSetGlobal : Nat := 23
def OpSetSelGlobal : Nat := 24
def OpGetLocal : Nat := 25
def OpSetLocal : Nat := 26
def OpDefineLocal : Nat := 27
def OpSetSelLocal : Nat := 28
def OpGetFreePtr : Nat := 29
def OpGetFree : Nat := 30
def OpSetFree : Nat := 31
def OpGetLocalPtr : Nat := 32
def OpSetSelFree : Nat := 33
def OpGetBuiltin : Nat := 34
def OpClosure : Nat := 35
def OpIteratorInit : Nat := 36
def OpIteratorNext : Nat := 37
def OpIteratorKey : Nat := 38
def OpIteratorValue : Nat := 39
def OpBinaryOp : Nat := 40
def OpSuspend : Nat := 41

/-- `OpcodeOperands`: the operand widths of each opcode, in the order of the opcodes. -/
def OpcodeOperands : List (List Nat) :=
  [ [2], [], [], [], [], [], [], [], [], [2], [2], [2], [2], [], [2], [2], [], [], [], [],
    [1, 1], [1], [2], [2], [2, 1], [1], [1], [1], [1, 1], [1], [1], [1], [1], [1, 1], [1],
    [2, 1], [], [], [], [], [1], [] ]

/-- `ReadOperands`: the operands and the number of bytes read; `none` is the panic of an
index out of range. -/
def ReadOperands : List Nat → List Nat → Option (List Nat × Nat)
  | [], _ => some ([], 0)
  | width :: widths, ins =>
    if width = 1 then
      match ins with
      | b :: rest => (ReadOperands widths rest).map (fun r => (b :: r.1, r.2 + 1))
      | [] => none
    else if width = 2 then
      match ins with
      | hi :: lo :: rest =>
        (ReadOperands widths rest).map (fun r => ((lo ||| hi <<< 8) :: r.1, r.2 + 2))
      | _ => none
    else
      (ReadOperands widths (ins.drop width)).map (fun r => (r.1, r.2 + width))

/-- Modelled from the spec: `MakeInstruction` (its source file is not among the sources).
Section 4.4: an instruction is a 1-byte opcode followed by operands of the widths listed in
the opcode table; two-byte operands are big-endian. An operand is cut to its width. -/
def encodeOperands : List Nat → List Nat → List Nat
  | [], _ => []
  | width :: widths, operands =>
    match operands with
    | [] => List.replicate (width + widths.sum) 0
    | o :: os =>
      if width = 1 then (o % 256) :: encodeOperands widths os
      else if width = 2 then (o / 256 % 256) :: (o % 256) :: encodeOperands widths os
      else List.replicate width 0 ++ encodeOperands widths os

/-- Modelled from the spec: `MakeInstruction(opcode, operands...)`, see `encodeOperands`. -/
def MakeInstruction (opcode : Nat) (operands : List Nat) : Option (List Nat) :=
  (OpcodeOperands[opcode]?).map (fun widths => opcode :: encodeOperands widths operands)

/-- The builtin `copy(dst, src)` with `dst = insts[i:]`. -/
def copyAt (insts : List Nat) (i : Nat) (src : List Nat) : List Nat :=
  insts.take i ++ src.take (insts.length - i) ++ insts.drop (i + src.length)

/-- Read of the Go map `indexMap`. -/
def indexGet (indexMap : List (Nat × Nat)) (curIdx : Nat) : Option Nat :=
  indexMap.lookup curIdx

/-- The loop of `updateConstIndexes` from position `i`; every turn moves `i` forward, so
`fuel` turns are enough when `fuel` is at least the number of bytes left. -/
def updateLoop (indexMap : List (Nat × Nat)) : Nat → List Nat → Nat → Outcome (List Nat)
  | 0, insts, _ => .ret insts
  | fuel + 1, insts, i =>
    if i < insts.length then
      let op := insts.getD i 0
      match OpcodeOperands[op]? with
      | none => .panicked .indexOutOfRange
      | some numOperands =>
        match ReadOperands numOperands (insts.drop (i + 1)) with
        | none => .panicked .indexOutOfRange
        | some (_, read) =>
          if op = OpConstant then
            let curIdx := insts.getD (i + 2) 0 ||| insts.getD (i + 1) 0 <<< 8
            match indexGet indexMap curIdx with
            | none => .panicked (.explicit "sabit index bulunamadı")
            | some newIdx =>
              match MakeInstruction op [newIdx] with
              | none => .panicked .indexOutOfRange
              | some inst => updateLoop indexMap fuel (copyAt insts i inst) (i + 1 + read)
          else if op = OpClosure then
            let curIdx := insts.getD (i + 2) 0 ||| insts.getD (i + 1) 0 <<< 8
            let numFree := insts.getD (i + 3) 0
            match indexGet indexMap curIdx with
            | none => .panicked (.explicit "index bulunamadı")
            | some newIdx =>
              match MakeInstruction op [newIdx, numFree] with
              | none => .panicked .indexOutOfRange
              | some inst => updateLoop indexMap fuel (copyAt insts i inst) (i + 1 + read)
          else updateLoop indexMap fuel insts (i + 1 + read)
    else .ret insts

/-- `updateConstIndexes`: the instruction bytes after the rewriting. -/
def updateConstIndexes (insts : List Nat) (indexMap : List (Nat × Nat)) : Outcome (List Nat) :=
  updateLoop indexMap insts.length insts 0

/-! ## Bytecode and constant deduplication (bitkod.go) -/

/-- The bytecode container (the file set plays no part in what follows). A function object
owns its instruction bytes; the main function is an object of its own. -/
structure Bytecode where
  MainFunction : CompiledFunction
  Constants : List Object
  deriving DecidableEq, Repr

/-- `inferModuleName`. -/
def inferModuleName (mod : ObjMap) : GoString :=
  match mod.lookup (ascii "__module_name__") with
  | some (.string v) => v
  | _ => []

/-- Read of a Go map keyed by `float64`: keys compare by `==`. -/
def floatGet (floats : List (Nat × Nat)) (v : Nat) : Option Nat :=
  (floats.find? (fun e => floatEq e.1 v)).map (fun e => e.2)

/-- The local variables of `RemoveDuplicates`. A Go map is the list of its writes, the
latest first. -/
structure DedupState where
  deduped : List Object
  indexMap : List (Nat × Nat)
  fns : List (Nat × Nat)
  ints : List (Int × Nat)
  strings : List (GoString × Nat)
  floats : List (Nat × Nat)
  chars : List (Int × Nat)
  immutableMaps : List (GoString × Nat)
  deriving DecidableEq, Repr

def DedupState.empty : DedupState :=
  { deduped := [], indexMap := [], fns := [], ints := [], strings := [], floats := [],
    chars := [], immutableMaps := [] }

/-- One turn of the first loop of `RemoveDuplicates`, for the constant `c` at `curIdx`. -/
def dedupStep (st : DedupState) (curIdx : Nat) (c : Object) : Outcome DedupState :=
  match c with
  | .compiledFunction addr _ =>
    match st.fns.lookup addr with
    | some newIdx => .ret { st with indexMap := (curIdx, newIdx) :: st.indexMap }
    | none =>
      .ret { st with fns := (addr, st.deduped.length) :: st.fns,
                     indexMap := (curIdx, st.deduped.length) :: st.indexMap,
                     deduped := st.deduped ++ [c] }
  | .immutableMap _ m =>
    match st.immutableMaps.lookup (inferModuleName m) with
    | some newIdx =>
      if inferModuleName m ≠ [] then
        .ret { st with indexMap := (curIdx, newIdx) :: st.indexMap }
      else
        .ret { st with immutableMaps := (inferModuleName m, st.deduped.length) :: st.immutableMaps,
                       indexMap := (curIdx, st.deduped.length) :: st.indexMap,
                       deduped := st.deduped ++ [c] }
    | none =>
      .ret { st with immutableMaps := (inferModuleName m, st.deduped.length) :: st.immutableMaps,
                     indexMap := (curIdx, st.deduped.length) :: st.indexMap,
                     deduped := st.deduped ++ [c] }
  | .int v =>
    match st.ints.lookup v with
    | some newIdx => .ret { st with indexMap := (curIdx, newIdx) :: st.indexMap }
    | none =>
      .ret { st with ints := (v, st.deduped.length) :: st.ints,
                     indexMap := (curIdx, st.deduped.length) :: st.indexMap,
                     deduped := st.deduped ++ [c] }
  | .string v =>
    match st.strings.lookup v with
    | some newIdx => .ret { st with indexMap := (curIdx, newIdx) :: st.indexMap }
    | none =>
      .ret { st with strings := (v, st.deduped.length) :: st.strings,
                     indexMap := (curIdx, st.deduped.length) :: st.indexMap,
                     deduped := st.deduped ++ [c] }
  | .float v =>
    match floatGet st.floats v with
    | some newIdx => .ret { st with indexMap := (curIdx, newIdx) :: st.indexMap }
    | none =>
      .ret { st with floats := (v, st.deduped.length) :: st.floats,
                     indexMap := (curIdx, st.deduped.length) :: st.indexMap,
                     deduped := st.deduped ++ [c] }
  | .char v =>
    match st.chars.lookup v with
    | some newIdx => .ret { st with indexMap := (curIdx, newIdx) :: st.indexMap }
    | none =>
      .ret { st with chars := (v, st.deduped.length) :: st.chars,
                     indexMap := (curIdx, st.deduped.length) :: st.indexMap,
                     deduped := st.deduped ++ [c] }
  | _ => .panicked (.explicit "geçersiz üst seviye tanımlaması")

/-- The first loop of `RemoveDuplicates` over the constants from index `curIdx` on. -/
def dedupLoop : DedupState → Nat → List Object → Outcome DedupState
  | st, _, [] => .ret st
  | st, curIdx, c :: cs =>
    match dedupStep st curIdx c with
    | .ret st1 => dedupLoop st1 (curIdx + 1) cs
    | .fail e => .fail e
    | .panicked p => .panicked p

/-- The last loop of `RemoveDuplicates`: rewrite the instructions of every function of the
deduplicated pool. -/
def updatePool (indexMap : List (Nat × Nat)) : List Object → Outcome (List Object)
  | [] => .ret []
  | c :: cs =>
    match c with
    | .compiledFunction addr fn =>
      match updateConstIndexes fn.Instructions indexMap with
      | .ret insts =>
        match updatePool indexMap cs with
        | .ret cs1 => .ret (.compiledFunction addr { fn with Instructions := insts } :: cs1)
        | .fail e => .fail e
        | .panicked p => .panicked p
      | .fail e => .fail e
      | .panicked p => .panicked p
    | _ =>
      match updatePool indexMap cs with
      | .ret cs1 => .ret (c :: cs1)
      | .fail e => .fail e
      | .panicked p => .panicked p

/-- `Bytecode.RemoveDuplicates`: the bytecode after the call. -/
def RemoveDuplicates (b : Bytecode) : Outcome Bytecode :=
  match dedupLoop DedupState.empty 0 b.Constants with
  | .ret st =>
    match updateConstIndexes b.MainFunction.Instructions st.indexMap with
    | .ret insts =>
      match updatePool st.indexMap st.deduped with
      | .ret constants =>
        .ret { MainFunction := { b.MainFunction with Instructions := insts },
               Constants := constants }
      | .fail e => .fail e
      | .panicked p => .panicked p
    | .fail e => .fail e
    | .panicked p => .panicked p
  | .fail e => .fail e
  | .panicked p => .panicked p

/-- A decoded instruction: the opcode and the bytes of its operands. -/
structure Instr where
  op : Nat
  args : List Nat
  deriving DecidableEq, Repr

/-- The opcode is in the opcode table, the operand bytes fill the widths the table lists,
and every byte is a byte. -/
def Instr.valid (x : Instr) : Bool :=
  match OpcodeOperands[x.op]? with
  | some widths => x.args.length == widths.sum && x.args.all (fun b => decide (b < 256))
  | none => false

/-- The bytes of an instruction sequence. -/
def encode : List Instr → List Nat
  | [] => []
  | x :: xs => x.op :: (x.args ++ encode xs)

/-- The constant index a CONST or CLOSURE instruction carries in its first, 16-bit
big-endian operand. -/
def constOperand (x : Instr) : Option Nat :=
  if x.op = OpConstant ∨ x.op = OpClosure then
    match x.args with
    | hi :: lo :: _ => some (lo ||| hi <<< 8)
    | _ => none
  else none

/-- The free-variable count of a CLOSURE instruction: its second operand. -/
def closureNumFree (x : Instr) : Option Nat :=
  if x.op = OpClosure then
    match x.args with
    | _ :: _ :: numFree :: _ => some numFree
    | _ => none
  else none

/-- A CONST or CLOSURE instruction with its constant index sent through `indexMap`; every
other instruction as it is. -/
def rewriteInstr (indexMap : List (Nat × Nat)) (x : Instr) : Instr :=
  match constOperand x with
  | some cur =>
    match indexGet indexMap cur, x.args with
    | some new, _ :: _ :: rest => { op := x.op, args := (new / 256 % 256) :: (new % 256) :: rest }
    | _, _ => x
  | none => x

/-- The kinds of constant `RemoveDuplicates` accepts. -/
def allowedConstant : Object → Bool
  | .compiledFunction _ _ => true
  | .immutableMap _ _ => true
  | .int _ => true
  | .float _ => true
  | .char _ => true
  | .string _ => true
  | _ => false

/-- The constant `new` stands for the constant `old`, as the maps of `RemoveDuplicates`
decide it: the same function object, an ImmutableMap with the same non-empty module name or
the very same map, or a constant of the same type and value, where two Floats have the same
value when they have the same bits or are equal under Go `==`, the comparison of the keys
of `map[float64]int` (so `+0.0` stands for `-0.0`). The reading of the claim with exact
values is `constEquivExact`. -/
def constEquiv (old new : Object) : Bool :=
  match old, new with
  | .compiledFunction a _, .compiledFunction b _ => decide (a = b)
  | .immutableMap a m, .immutableMap b m1 =>
    (decide (inferModuleName m ≠ []) && decide (inferModuleName m1 = inferModuleName m)) ||
      (decide (a = b) && decide (m1 = m))
  | .int v, .int w => decide (v = w)
  | .float v, .float w => decide (v = w) || floatEq w v
  | .char v, .char w => decide (v = w)
  | .string v, .string w => decide (v = w)
  | _, _ => false

/-- Every entry of the category maps points at a constant of its category and key. -/
def mapsOK (deduped : List Object) (st : DedupState) : Prop :=
  (∀ a i, (a, i) ∈ st.fns → ∃ fn, deduped[i]? = some (Object.compiledFunction a fn)) ∧
  (∀ v i, (v, i) ∈ st.ints → deduped[i]? = some (Object.int v)) ∧
  (∀ v i, (v, i) ∈ st.strings → deduped[i]? = some (Object.string v)) ∧
  (∀ v i, (v, i) ∈ st.floats → deduped[i]? = some (Object.float v)) ∧
  (∀ v i, (v, i) ∈ st.chars → deduped[i]? = some (Object.char v)) ∧
  (∀ n i, (n, i) ∈ st.immutableMaps →
    ∃ a m, deduped[i]? = some (Object.immutableMap a m) ∧ inferModuleName m = n)

/-- What holds after the first loop of `RemoveDuplicates` has handled the constants
`done`. -/
def DedupInv (done : List Object) (st : DedupState) : Prop :=
  st.deduped.length ≤ done.length ∧
  (∀ d ∈ st.deduped, d ∈ done) ∧
  (∀ (k : Nat) (c : Object), done[k]? = some c →
    ∃ i d, indexGet st.indexMap k = some i ∧ i ≤ k ∧ st.deduped[i]? = some d ∧
      constEquiv c d = true) ∧
  mapsOK st.deduped st

/-- How the last loop of `RemoveDuplicates` changes a constant of the pool: a function keeps
its identity and fields and gets its instructions rewritten, any other constant stays. -/
def poolRel (indexMap : List (Nat × Nat)) (d d1 : Object) : Prop :=
  match d with
  | .compiledFunction a fn =>
    ∃ insts, updateConstIndexes fn.Instructions indexMap = .ret insts ∧
      d1 = .compiledFunction a { fn with Instructions := insts }
  | _ => d1 = d

/-- The CONST and CLOSURE instructions of a sequence index the pool of `n` constants. -/
def indexesPool (n : Nat) (is : List Instr) : Prop :=
  ∀ x ∈ is, ∀ cur, constOperand x = some cur → cur < n

/-- The instructions `CONST 1; CONST 2; CLOSURE 3 0; SUSPEND`. -/
def sampleMain : List Instr :=
  [Instr.mk OpConstant [0, 1], Instr.mk OpConstant [0, 2], Instr.mk OpClosure [0, 3, 0],
   Instr.mk OpSuspend []]

/-- The function body `CONST 2; RET 1`. -/
def sampleBody : List Instr := [Instr.mk OpConstant [0, 2], Instr.mk OpReturn [1]]

/-- A bytecode whose pool holds the Int 5 twice. -/
def sampleBytecode : Bytecode :=
  Bytecode.mk (CompiledFunction.mk (encode sampleMain) 0 0 false [] [])
    [Object.int 5, Object.int 5, Object.string (ascii "a"),
     Object.compiledFunction 1 (CompiledFunction.mk (encode sampleBody) 0 0 false [] [])]

/-! ## Source files (parser/source_file.go) -/

structure SourceFile where
  Name : String
  Base : Nat
  Size : Nat
  Lines : List Nat
  deriving DecidableEq, Repr

/-- `SourceFile.AddLine`. -/
def SourceFile.AddLine (f : SourceFile) (offset : Nat) : SourceFile :=
  let i := f.Lines.length
  if (i = 0 ∨ f.Lines.getD (i - 1) 0 < offset) ∧ offset < f.Size then
    { f with Lines := f.Lines ++ [offset] }
  else f

/-- `SourceFile.FileSetPos`; `none` is the panic. -/
def SourceFile.FileSetPos (f : SourceFile) (offset : Nat) : Option Nat :=
  if offset > f.Size then none else some (f.Base + offset)

/-- `SourceFile.Offset`; `none` is the panic. -/
def SourceFile.Offset (f : SourceFile) (p : Nat) : Option Nat :=
  if p < f.Base ∨ p > f.Base + f.Size then none else some (p - f.Base)

/-! ## Runes (Go `unicode/utf8` and `unicode`) -/

def RuneError : Int := 0xFFFD
def RuneSelf : Int := 0x80
def bom : Int := 0xFEFF

/-- The letter and digit tables of Go `unicode`, consulted for runes from `RuneSelf` up. -/
structure Unicode where
  IsLetter : Int → Bool
  IsDigit : Int → Bool

/-- Tables that know the letters of the Latin supplements only, for evaluating examples. -/
def latinUnicode : Unicode :=
  { IsLetter := fun r => decide (0xC0 ≤ r ∧ r ≤ 0x24F ∧ r ≠ 0xD7 ∧ r ≠ 0xF7),
    IsDigit := fun _ => false }

/-- Go `utf8.DecodeRune`: the first rune of the bytes and its width; an invalid or short
encoding gives `(RuneError, 1)`. -/
def DecodeRune : List Nat → Int × Nat
  | [] => (RuneError, 0)
  | p0 :: rest =>
    if p0 < 0x80 then ((p0 : Int), 1)
    else if p0 < 0xC2 then (RuneError, 1)
    else if p0 < 0xE0 then
      match rest with
      | b1 :: _ =>
        if 0x80 ≤ b1 ∧ b1 ≤ 0xBF then (((p0 % 32 * 64 + b1 % 64 : Nat) : Int), 2)
        else (RuneError, 1)
      | [] => (RuneError, 1)
    else if p0 < 0xF0 then
      match rest with
      | b1 :: b2 :: _ =>
        if (if p0 = 0xE0 then 0xA0 else 0x80) ≤ b1 ∧ b1 ≤ (if p0 = 0xED then 0x9F else 0xBF) then
          if 0x80 ≤ b2 ∧ b2 ≤ 0xBF then
            (((p0 % 16 * 4096 + b1 % 64 * 64 + b2 % 64 : Nat) : Int), 3)
          else (RuneError, 1)
        else (RuneError, 1)
      | _ => (RuneError, 1)
    else if p0 < 0xF5 then
      match rest with
      | b1 :: b2 :: b3 :: _ =>
        if (if p0 = 0xF0 then 0x90 else 0x80) ≤ b1 ∧ b1 ≤ (if p0 = 0xF4 then 0x8F else 0xBF) then
          if 0x80 ≤ b2 ∧ b2 ≤ 0xBF then
            if 0x80 ≤ b3 ∧ b3 ≤ 0xBF then
              (((p0 % 8 * 262144 + b1 % 64 * 4096 + b2 % 64 * 64 + b3 % 64 : Nat) : Int), 4)
            else (RuneError, 1)
          else (RuneError, 1)
        else (RuneError, 1)
      | _ => (RuneError, 1)
    else (RuneError, 1)

/-- Go `string(rune)`: the UTF-8 bytes of a rune, of `RuneError` when it is not valid. -/
def runeBytes (r : Int) : GoString :=
  let n := r.toNat
  if r < 0 ∨ r > 0x10FFFF ∨ (0xD800 ≤ r ∧ r ≤ 0xDFFF) then [0xEF, 0xBF, 0xBD]
  else if n < 0x80 then [n]
  else if n < 0x800 then [0xC0 + n / 64, 0x80 + n % 64]
  else if n < 0x10000 then [0xE0 + n / 4096, 0x80 + n / 64 % 64, 0x80 + n % 64]
  else [0xF0 + n / 262144, 0x80 + n / 4096 % 64, 0x80 + n / 64 % 64, 0x80 + n % 64]

/-- The UTF-8 bytes of a string literal of the source. -/
def utf8 (s : String) : GoString := (s.toList.map (fun c => runeBytes (c.toNat : Int))).flatten

/-! ## Keywords (token/token.go) -/

/-- The map `keywords` that `init` fills from `tokens`. -/
def keywords : List (GoString × Token) :=
  [ (utf8 "dur", .Break), (utf8 "devam", .Continue), (utf8 "yoksa", .Else),
    (utf8 "tekrarla", .For), (utf8 "fn", .Func), (utf8 "hata", .Error),
    (utf8 "sabit", .Immutable), (utf8 "eğer", .If), (utf8 "dön", .Return),
    (utf8 "paylaş", .Export), (utf8 "doğru", .True), (utf8 "yanlış", .False),
    (utf8 "in", .In), (utf8 "tanımsız", .Undefined), (utf8 "kullan", .Import) ]

/-- `token.Lookup`. -/
def Lookup (ident : GoString) : Token :=
  match keywords.lookup ident with
  | some tok => tok
  | none => .Ident

/-! ## Scanner (parser/scanner.go)

The error handler is the log `errors`: each call appends the offset and the message (without
the character the message may print). The loops take `fuel`; every turn reads a character,
so the number of bytes of the source plus one is always enough. -/

/-- The `ScanMode` bits. -/
def ScanComments : Nat := 1
def DontInsertSemis : Nat := 2

structure Scanner where
  file : SourceFile
  src : List Nat
  ch : Int
  offset : Nat
  readOffset : Nat
  lineOffset : Nat
  insertSemi : Bool
  errors : List (Nat × String)
  errorCount : Nat
  mode : Nat
  deriving DecidableEq, Repr

/-- `Scanner.error`. -/
def Scanner.error (s : Scanner) (offset : Nat) (msg : String) : Scanner :=
  { s with errors := s.errors ++ [(offset, msg)], errorCount := s.errorCount + 1 }

/-- The line bookkeeping of `next`, run once `offset` is set. -/
def Scanner.noteLine (s : Scanner) : Scanner :=
  if s.ch = 10 then { s with lineOffset := s.offset, file := s.file.AddLine s.offset } else s

/-- `Scanner.next`. -/
def Scanner.next (s : Scanner) : Scanner :=
  if s.readOffset < s.src.length then
    let s1 := Scanner.noteLine { s with offset := s.readOffset }
    let r0 : Int := (s1.src.getD s1.readOffset 0 : Nat)
    if r0 = 0 then
      let s2 := s1.error s1.offset "Geçersiz karakter NUL"
      { s2 with readOffset := s2.readOffset + 1, ch := r0 }
    else if r0 ≥ RuneSelf then
      let rw := DecodeRune (s1.src.drop s1.readOffset)
      let s2 :=
        if rw.1 = RuneError ∧ rw.2 = 1 then s1.error s1.offset "Geçersiz UTF-8 encoding"
        else if rw.1 = bom ∧ s1.offset > 0 then s1.error s1.offset "Geçersiz byte order mark"
        else s1
      { s2 with readOffset := s2.readOffset + rw.2, ch := rw.1 }
    else { s1 with readOffset := s1.readOffset + 1, ch := r0 }
  else
    let s1 := Scanner.noteLine { s with offset := s.src.length }
    { s1 with ch := -1 }

/-- `Scanner.peek`. -/
def Scanner.peek (s : Scanner) : Nat :=
  if s.readOffset < s.src.length then s.src.getD s.readOffset 0 else 0

/-- `NewScanner`; `none` is the panic when the file size is not the length of the source. -/
def NewScanner (file : SourceFile) (src : List Nat) (mode : Nat) : Option Scanner :=
  if file.Size ≠ src.length then none
  else
    let s : Scanner :=
      { file := file, src := src, ch := 32, offset := 0, readOffset := 0, lineOffset := 0,
        insertSemi := false, errors := [], errorCount := 0, mode := mode }
    let s1 := s.next
    some (if s1.ch = bom then s1.next else s1)

def isLetter (U : Unicode) (ch : Int) : Bool :=
  decide (97 ≤ ch ∧ ch ≤ 122) || decide (65 ≤ ch ∧ ch ≤ 90) || decide (ch = 95) ||
    (decide (ch ≥ RuneSelf) && U.IsLetter ch)

def isDigit (U : Unicode) (ch : Int) : Bool :=
  decide (48 ≤ ch ∧ ch ≤ 57) || (decide (ch ≥ RuneSelf) && U.IsDigit ch)

def digitVal (ch : Int) : Int :=
  if 48 ≤ ch ∧ ch ≤ 57 then ch - 48
  else if 97 ≤ ch ∧ ch ≤ 102 then ch - 97 + 10
  else if 65 ≤ ch ∧ ch ≤ 70 then ch - 65 + 10
  else 16

/-- `lower`: the byte with the bit `'x' - 'X'` set. -/
def lower (c : Nat) : Nat := c ||| 32

/-- The bytes `src[from:to]`. -/
def Scanner.slice (s : Scanner) (lo hi : Nat) : GoString := (s.src.drop lo).take (hi - lo)

/-- `Scanner.skipWhitespace`. -/
def Scanner.skipWhitespace : Nat → Scanner → Scanner
  | 0, s => s
  | fuel + 1, s =>
    if s.ch = 32 ∨ s.ch = 9 ∨ (s.ch = 10 ∧ s.insertSemi = false) ∨ s.ch = 13 then
      Scanner.skipWhitespace fuel s.next
    else s

/-- The loop of `scanIdentifier`. -/
def Scanner.identLoop (U : Unicode) : Nat → Scanner → Scanner
  | 0, s => s
  | fuel + 1, s =>
    if isLetter U s.ch || isDigit U s.ch then Scanner.identLoop U fuel s.next else s

/-- `Scanner.scanIdentifier`. -/
def Scanner.scanIdentifier (U : Unicode) (s : Scanner) : GoString × Scanner :=
  let s1 := Scanner.identLoop U (s.src.length + 1) s
  (s1.slice s.offset s1.offset, s1)

/-- `Scanner.scanDigits`. -/
def Scanner.scanDigits (base : Int) : Nat → Scanner → Scanner
  | 0, s => s
  | fuel + 1, s =>
    if s.ch = 95 ∨ digitVal s.ch < base then Scanner.scanDigits base fuel s.next else s

/-- `Scanner.scanNumber`. -/
def Scanner.scanNumber (s : Scanner) : (Token × GoString) × Scanner :=
  let fuel := s.src.length + 1
  let offs := s.offset
  let bs : Int × Scanner :=
    if s.ch = 48 ∧ lower s.peek = 98 then (2, s.next.next)
    else if s.ch = 48 ∧ lower s.peek = 111 then (8, s.next.next)
    else if s.ch = 48 ∧ lower s.peek = 120 then (16, s.next.next)
    else (10, s)
  let base := bs.1
  let s1 := Scanner.scanDigits base fuel bs.2
  let ts : Token × Scanner :=
    if s1.ch = 46 ∧ (base = 10 ∨ base = 16) then (.Float, Scanner.scanDigits base fuel s1.next)
    else (.Int, s1)
  let s2 := ts.2
  let te : Token × Scanner :=
    if s2.ch = 101 ∨ s2.ch = 69 ∨ s2.ch = 112 ∨ s2.ch = 80 then
      let s3 := s2.next
      let s4 := if s3.ch = 45 ∨ s3.ch = 43 then s3.next else s3
      let s5 := Scanner.scanDigits 10 fuel s4
      (.Float, if s4.offset = s5.offset then s5.error s4.offset "exponentnın ardından sayı yok"
               else s5)
    else (ts.1, s2)
  ((te.1, te.2.slice offs te.2.offset), te.2)

/-- The digit loop of `scanEscape`: `n` digits in the given base, their value in `x`. -/
def Scanner.escapeDigits (base : Nat) : Nat → Nat → Scanner → Option Nat × Scanner
  | 0, x, s => (some x, s)
  | n + 1, x, s =>
    let d := (digitVal s.ch).toNat % 2 ^ 32
    if d ≥ base then
      (none, s.error s.offset (if s.ch < 0 then "kaçış karakteri yok" else "geçersiz karakter"))
    else Scanner.escapeDigits base n ((x * base + d) % 2 ^ 32) s.next

/-- `Scanner.scanEscape`. -/
def Scanner.scanEscape (s : Scanner) (quote : Int) : Bool × Scanner :=
  let offs := s.offset
  let finish (n base max : Nat) (s1 : Scanner) : Bool × Scanner :=
    match Scanner.escapeDigits base n 0 s1 with
    | (none, s2) => (false, s2)
    | (some x, s2) =>
      if x > max ∨ (0xD800 ≤ x ∧ x < 0xE000) then
        (false, s2.error offs "geçersiz Unicode kod noktası")
      else (true, s2)
  if s.ch = 97 ∨ s.ch = 98 ∨ s.ch = 102 ∨ s.ch = 110 ∨ s.ch = 114 ∨ s.ch = 116 ∨ s.ch = 118 ∨
      s.ch = 92 ∨ s.ch = quote then (true, s.next)
  else if 48 ≤ s.ch ∧ s.ch ≤ 55 then finish 3 8 255 s
  else if s.ch = 120 then finish 2 16 255 s.next
  else if s.ch = 117 then finish 4 16 0x10FFFF s.next
  else if s.ch = 85 then finish 8 16 0x10FFFF s.next
  else
    (false, s.error offs (if s.ch < 0 then "kaçış karakteri yok" else "bilinmeyen kaçış karakteri"))

/-- The loop of `scanRune`, with its variables `valid` and `n`. -/
def Scanner.runeLoop (offs : Nat) : Nat → Bool → Nat → Scanner → (Bool × Nat) × Scanner
  | 0, valid, n, s => ((valid, n), s)
  | fuel + 1, valid, n, s =>
    let ch := s.ch
    if ch = 10 ∨ ch < 0 then
      if valid then ((false, n), s.error offs "karakter dizisi bitmedi") else ((valid, n), s)
    else
      let s1 := s.next
      if ch = 39 then ((valid, n), s1)
      else if ch = 92 then
        let r := s1.scanEscape 39
        Scanner.runeLoop offs fuel (if r.1 then valid else false) (n + 1) r.2
      else Scanner.runeLoop offs fuel valid (n + 1) s1

/-- `Scanner.scanRune`. -/
def Scanner.scanRune (s : Scanner) : GoString × Scanner :=
  let offs := s.offset - 1
  let r := Scanner.runeLoop offs (s.src.length + 1) true 0 s
  let s1 := if r.1.1 ∧ r.1.2 ≠ 1 then r.2.error offs "tek karakter bekleniyor" else r.2
  (s1.slice offs s1.offset, s1)

/-- The loop of `scanString`. -/
def Scanner.stringLoop (offs : Nat) : Nat → Scanner → Scanner
  | 0, s => s
  | fuel + 1, s =>
    let ch := s.ch
    if ch = 10 ∨ ch < 0 then s.error offs "dize bitmedi"
    else
      let s1 := s.next
      if ch = 34 then s1
      else if ch = 92 then Scanner.stringLoop offs fuel (s1.scanEscape 34).2
      else Scanner.stringLoop offs fuel s1

/-- `Scanner.scanString`. -/
def Scanner.scanString (s : Scanner) : GoString × Scanner :=
  let offs := s.offset - 1
  let s1 := Scanner.stringLoop offs (s.src.length + 1) s
  (s1.slice offs s1.offset, s1)

/-- The loop of `StripCR`: `out` is `c[:i]`. -/
def stripLoop (comment : Bool) : List Nat → List Nat → List Nat
  | [], out => out
  | ch :: rest, out =>
    if ch ≠ 13 ∨ (comment = true ∧ out.length > 2 ∧ out.getLast? = some 42 ∧
        rest.head? = some 47) then
      stripLoop comment rest (out ++ [ch])
    else stripLoop comment rest out

/-- `StripCR`. -/
def StripCR (b : List Nat) (comment : Bool) : List Nat := stripLoop comment b []

/-- The loop of `scanRawString`, with its variable `hasCR`. -/
def Scanner.rawLoop (offs : Nat) : Nat → Bool → Scanner → Bool × Scanner
  | 0, hasCR, s => (hasCR, s)
  | fuel + 1, hasCR, s =>
    let ch := s.ch
    if ch < 0 then (hasCR, s.error offs "dize bitmedi")
    else
      let s1 := s.next
      if ch = 96 then (hasCR, s1)
      else Scanner.rawLoop offs fuel (if ch = 13 then true else hasCR) s1

/-- `Scanner.scanRawString`. -/
def Scanner.scanRawString (s : Scanner) : GoString × Scanner :=
  let offs := s.offset - 1
  let r := Scanner.rawLoop offs (s.src.length + 1) false s
  let lit := r.2.slice offs r.2.offset
  (if r.1 then StripCR lit false else lit, r.2)

/-- The loop of a `//` comment in `scanComment`, counting carriage returns. -/
def Scanner.lineCommentLoop : Nat → Nat → Scanner → Nat × Scanner
  | 0, numCR, s => (numCR, s)
  | fuel + 1, numCR, s =>
    if s.ch ≠ 10 ∧ s.ch ≥ 0 then
      Scanner.lineCommentLoop fuel (if s.ch = 13 then numCR + 1 else numCR) s.next
    else (numCR, s)

/-- The loop of a `/*` comment in `scanComment`; the flag tells that `*/` was found. -/
def Scanner.blockCommentLoop : Nat → Nat → Scanner → (Bool × Nat) × Scanner
  | 0, numCR, s => ((false, numCR), s)
  | fuel + 1, numCR, s =>
    if s.ch ≥ 0 then
      let ch := s.ch
      let numCR1 := if ch = 13 then numCR + 1 else numCR
      let s1 := s.next
      if ch = 42 ∧ s1.ch = 47 then ((true, numCR1), s1.next)
      else Scanner.blockCommentLoop fuel numCR1 s1
    else ((false, numCR), s)

/-- `Scanner.scanComment`. -/
def Scanner.scanComment (s : Scanner) : GoString × Scanner :=
  let offs := s.offset - 1
  let fuel := s.src.length + 1
  let r : Nat × Scanner :=
    if s.ch = 47 then Scanner.lineCommentLoop fuel 0 s.next
    else
      match Scanner.blockCommentLoop fuel 0 s.next with
      | ((true, numCR), s1) => (numCR, s1)
      | ((false, numCR), s1) => (numCR, s1.error offs "Yorum kapatılmamış")
  let lit := r.2.slice offs r.2.offset
  let trimmed : Nat × List Nat :=
    if r.1 > 0 ∧ lit.length ≥ 2 ∧ lit.getD 1 0 = 47 ∧ lit.getLast? = some 13 then
      (r.1 - 1, lit.take (lit.length - 1))
    else (r.1, lit)
  (if trimmed.1 > 0 then StripCR trimmed.2 (decide (trimmed.2.getD 1 0 = 42)) else trimmed.2,
   r.2)

/-- The inner loop of `findLineEnd` over a `/*` comment: `some true` is `return true`,
`none` is the end of the loop. -/
def Scanner.lineEndInner : Nat → Scanner → Option Bool × Scanner
  | 0, s => (none, s)
  | fuel + 1, s =>
    if s.ch ≥ 0 then
      let ch := s.ch
      if ch = 10 then (some true, s)
      else
        let s1 := s.next
        if ch = 42 ∧ s1.ch = 47 then (none, s1.next)
        else Scanner.lineEndInner fuel s1
    else (none, s)

/-- The outer loop of `findLineEnd`. -/
def Scanner.lineEndOuter : Nat → Scanner → Bool × Scanner
  | 0, s => (false, s)
  | fuel + 1, s =>
    if s.ch = 47 ∨ s.ch = 42 then
      if s.ch = 47 then (true, s)
      else
        match Scanner.lineEndInner (s.src.length + 1) s.next with
        | (some b, s1) => (b, s1)
        | (none, s1) =>
          let s2 := Scanner.skipWhitespace (s1.src.length + 1) s1
          if s2.ch < 0 ∨ s2.ch = 10 then (true, s2)
          else if s2.ch ≠ 47 then (false, s2)
          else Scanner.lineEndOuter fuel s2.next
    else (false, s)

/-- `Scanner.findLineEnd`: the answer, and the scanner set back behind the `/` by the
deferred function. -/
def Scanner.findLineEnd (s : Scanner) : Bool × Scanner :=
  let offs := s.offset - 1
  let r := Scanner.lineEndOuter (s.src.length + 1) s
  (r.1, Scanner.next { r.2 with ch := 47, offset := offs, readOffset := offs + 1 })

/-- `Scanner.switch2`. -/
def Scanner.switch2 (s : Scanner) (tok0 tok1 : Token) : Token × Scanner :=
  if s.ch = 61 then (tok1, s.next) else (tok0, s)

/-- `Scanner.switch3`. -/
def Scanner.switch3 (s : Scanner) (tok0 tok1 : Token) (ch2 : Int) (tok2 : Token) :
    Token × Scanner :=
  if s.ch = 61 then (tok1, s.next)
  else if s.ch = ch2 then (tok2, s.next)
  else (tok0, s)

/-- `Scanner.switch4`. -/
def Scanner.switch4 (s : Scanner) (tok0 tok1 : Token) (ch2 : Int) (tok2 tok3 : Token) :
    Token × Scanner :=
  if s.ch = 61 then (tok1, s.next)
  else if s.ch = ch2 then
    if s.next.ch = 61 then (tok3, s.next.next) else (tok2, s.next)
  else (tok0, s)

/-- How the body of `Scan` ends: by one of the `return` statements inside the switch
(`early`), at the end of the function with the local `insertSemi` (`normal`), or by the
call `return s.Scan()` after a comment (`again`). -/
inductive Scanned where
  | early (tok : Token) (literal : GoString) (s : Scanner)
  | normal (tok : Token) (literal : GoString) (insertSemi : Bool) (s : Scanner)
  | again (s : Scanner)
  deriving DecidableEq, Repr

/-- The kinds of identifier-like token after which `Scan` sets `insertSemi`. -/
def identInsertsSemi (tok : Token) : Bool :=
  match tok with
  | .Ident | .Break | .Continue | .Return | .Export | .True | .False | .Undefined => true
  | _ => false

/-- The comment part of the case `'/'` of `Scan`, from the state `t`. -/
def Scanner.afterComment (t : Scanner) : Scanned :=
  let c := t.scanComment
  if c.2.mode &&& ScanComments = 0 then .again { c.2 with insertSemi := false }
  else .normal .Comment c.1 false c.2

/-- The case `'/'` of the switch of `Scan`, from the state `s1` after `s.next()`: a comment,
or the operators `/` and `/=`. `none` is a panic of `SourceFile.Offset`. -/
def Scanner.scanSlash (s1 : Scanner) (pos : Nat) : Option Scanned :=
  if s1.ch = 47 ∨ s1.ch = 42 then
    if s1.insertSemi then
      let r := s1.findLineEnd
      if r.1 then
        match r.2.file.Offset pos with
        | none => none
        | some off =>
          some (.early .Semicolon [10]
            { r.2 with ch := 47, offset := off, readOffset := off + 1,
                       insertSemi := false })
      else some r.2.afterComment
    else some s1.afterComment
  else
    let r := s1.switch2 .Quo .QuoAssign
    some (.normal r.1 [] false r.2)

/-- The cases of the switch of `Scan` from `'+'` on, to the `default` case of an illegal
character; `s1` is the state after `s.next()`, `ch` the character before it. -/
def Scanner.scanOperator (s1 : Scanner) (ch : Int) (pos : Nat) : Option Scanned :=
  if ch = 43 then
    let r := s1.switch3 .Add .AddAssign 43 .Inc
    some (.normal r.1 [] (decide (r.1 = .Inc)) r.2)
  else if ch = 45 then
    let r := s1.switch3 .Sub .SubAssign 45 .Dec
    some (.normal r.1 [] (decide (r.1 = .Dec)) r.2)
  else if ch = 42 then
    let r := s1.switch2 .Mul .MulAssign
    some (.normal r.1 [] false r.2)
  else if ch = 47 then s1.scanSlash pos
  else if ch = 37 then
    let r := s1.switch2 .Rem .RemAssign
    some (.normal r.1 [] false r.2)
  else if ch = 94 then
    let r := s1.switch2 .Xor .XorAssign
    some (.normal r.1 [] false r.2)
  else if ch = 60 then
    let r := s1.switch4 .Less .LessEq 60 .Shl .ShlAssign
    some (.normal r.1 [] false r.2)
  else if ch = 62 then
    let r := s1.switch4 .Greater .GreaterEq 62 .Shr .ShrAssign
    some (.normal r.1 [] false r.2)
  else if ch = 61 then
    let r := s1.switch2 .Assign .Equal
    some (.normal r.1 [] false r.2)
  else if ch = 33 then
    let r := s1.switch2 .Not .NotEqual
    some (.normal r.1 [] false r.2)
  else if ch = 38 then
    if s1.ch = 94 then
      let r := s1.next.switch2 .AndNot .AndNotAssign
      some (.normal r.1 [] false r.2)
    else
      let r := s1.switch3 .And .AndAssign 38 .LAnd
      some (.normal r.1 [] false r.2)
  else if ch = 124 then
    let r := s1.switch3 .Or .OrAssign 124 .LOr
    some (.normal r.1 [] false r.2)
  else
    if ch ≠ bom then
      match s1.file.Offset pos with
      | none => none
      | some off =>
        some (.normal .Illegal (runeBytes ch) s1.insertSemi
          (s1.error off "Geçersiz karakter"))
    else some (.normal .Illegal (runeBytes ch) s1.insertSemi s1)

/-- The inner switch of `Scan` on the character `ch`, from the state `s1` after `s.next()`:
the cases from the end of the input to `'}'`, then those of `scanOperator`. -/
def Scanner.scanPunct (s1 : Scanner) (ch : Int) (pos : Nat) : Option Scanned :=
  if ch = -1 then
    if s1.insertSemi then some (.early .Semicolon [10] { s1 with insertSemi := false })
    else some (.normal .EOF [] false s1)
  else if ch = 10 then some (.early .Semicolon [10] { s1 with insertSemi := false })
  else if ch = 34 then
    let r := s1.scanString
    some (.normal .String r.1 true r.2)
  else if ch = 39 then
    let r := s1.scanRune
    some (.normal .Char r.1 true r.2)
  else if ch = 96 then
    let r := s1.scanRawString
    some (.normal .String r.1 true r.2)
  else if ch = 58 then
    let r := s1.switch2 .Colon .Define
    some (.normal r.1 [] false r.2)
  else if ch = 46 then
    if s1.ch = 46 ∧ s1.peek = 46 then some (.normal .Ellipsis [] false s1.next.next)
    else some (.normal .Period [] false s1)
  else if ch = 44 then some (.normal .Comma [] false s1)
  else if ch = 63 then some (.normal .Question [] false s1)
  else if ch = 59 then some (.normal .Semicolon [59] false s1)
  else if ch = 40 then some (.normal .LParen [] false s1)
  else if ch = 41 then some (.normal .RParen [] true s1)
  else if ch = 91 then some (.normal .LBrack [] false s1)
  else if ch = 93 then some (.normal .RBrack [] true s1)
  else if ch = 123 then some (.normal .LBrace [] false s1)
  else if ch = 125 then some (.normal .RBrace [] true s1)
  else s1.scanOperator ch pos

/-- The switch of `Scan`, from the state after `skipWhitespace`; `none` is a panic of
`SourceFile.Offset`. -/
def Scanner.scanSwitch (U : Unicode) (s : Scanner) (pos : Nat) : Option Scanned :=
  if isLetter U s.ch then
    let r := s.scanIdentifier U
    some (.normal (Lookup r.1) r.1 (identInsertsSemi (Lookup r.1)) r.2)
  else if (48 ≤ s.ch ∧ s.ch ≤ 57) ∨ (s.ch = 46 ∧ 48 ≤ s.peek ∧ s.peek ≤ 57) then
    let r := s.scanNumber
    some (.normal r.1.1 r.1.2 true r.2)
  else s.next.scanPunct s.ch pos

/-- `Scanner.Scan` with fuel for the call `return s.Scan()`: the token, the literal, the
position and the scanner after the call. `none` is a panic of `FileSetPos` or `Offset`, or
the fuel used up. -/
def Scanner.scanFuel (U : Unicode) : Nat → Scanner → Option (Token × GoString × Nat × Scanner)
  | 0, _ => none
  | fuel + 1, s =>
    let s0 := Scanner.skipWhitespace (s.src.length + 1) s
    match s0.file.FileSetPos s0.offset with
    | none => none
    | some pos =>
      match s0.scanSwitch U pos with
      | none => none
      | some (.early tok literal s1) => some (tok, literal, pos, s1)
      | some (.normal tok literal insertSemi s1) =>
        if s1.mode &&& DontInsertSemis = 0 then
          some (tok, literal, pos, { s1 with insertSemi := insertSemi })
        else some (tok, literal, pos, s1)
      | some (.again s1) => Scanner.scanFuel U fuel s1

/-- `Scanner.Scan`. -/
def Scanner.Scan (U : Unicode) (s : Scanner) : Option (Token × GoString × Nat × Scanner) :=
  Scanner.scanFuel U (s.src.length + 1) s

/-- The bytes of an ASCII or Latin source text, its scanner in the default mode, and the
tokens of the first `n` calls of `Scan`. -/
def scanAll (U : Unicode) : Nat → Scanner → List (Token × GoString)
  | 0, _ => []
  | n + 1, s =>
    match s.Scan U with
    | none => []
    | some (tok, literal, _, s1) => (tok, literal) :: scanAll U n s1

/-- The token kinds after which a newline becomes a semicolon, as the specification lists
them. -/
def semiKinds : List Token :=
  [.Ident, .Int, .Float, .Char, .String, .Break, .Continue, .Return, .Export, .True, .False,
   .Undefined, .Inc, .Dec, .RParen, .RBrack, .RBrace]

/-- The characters the scanner has in front of it: the current one, then the bytes not
read yet; nothing at the end of the input. -/
def Scanner.ahead (s : Scanner) : List Int :=
  if s.ch = -1 then [] else s.ch :: List.map (fun b : Nat => (b : Int)) (s.src.drop s.readOffset)

/-- Only spaces, tabs and carriage returns, then a newline or the end of the input. -/
def blankLineEnd : List Int → Bool
  | [] => true
  | c :: rest =>
    if c = 10 then true
    else if c = 32 ∨ c = 9 ∨ c = 13 then blankLineEnd rest
    else false

/-- A scanner made by `NewScanner` in the default mode, at any later time: the file has the
size of the source, the offset is inside the source, no mode bit is set. -/
def Scanner.ok (s : Scanner) : Prop :=
  s.file.Size = s.src.length ∧ s.offset ≤ s.src.length ∧ s.mode = 0

/-- What no part of the scanner changes: the source, the size and base of the file, the
mode; and the offset stays inside the source. -/
def Scanner.frame (s t : Scanner) : Prop :=
  t.src = s.src ∧ t.file.Size = s.file.Size ∧ t.file.Base = s.file.Base ∧ t.mode = s.mode ∧
    (s.offset ≤ s.src.length → t.offset ≤ t.src.length)

/-- The condition of the loop of `skipWhitespace`. -/
def Scanner.atBlank (s : Scanner) : Prop :=
  s.ch = 32 ∨ s.ch = 9 ∨ (s.ch = 10 ∧ s.insertSemi = false) ∨ s.ch = 13

/-- The frame together with the pending-semicolon flag, which only `Scan` itself sets. -/
def Scanner.keep (s t : Scanner) : Prop := s.frame t ∧ t.insertSemi = s.insertSemi

/-- What the switch of `Scan` answers from the state `s`: a semicolon for a newline only
when one is pending; at the end of the function the local `insertSemi` is set exactly for
the listed kinds, and an illegal character leaves it as the scanner had it; a comment is
skipped with nothing pending. -/
def Scanned.good (s : Scanner) : Scanned → Prop
  | .early tok lit s1 =>
    tok = .Semicolon ∧ lit = [10] ∧ s.insertSemi = true ∧ s1.insertSemi = false ∧ s.frame s1
  | .normal tok lit ins s1 =>
    (tok ≠ .Illegal → (ins = true ↔ tok ∈ semiKinds)) ∧ (tok = .Illegal → ins = s.insertSemi) ∧
      (tok = .Semicolon → lit = [59]) ∧ s.frame s1
  | .again s1 => s.ch = 47 ∧ s1.insertSemi = false ∧ s.frame s1

/-- An answer of the switch of `Scan`, when there is one, is `Scanned.good`. -/
def Scanner.answers (s : Scanner) (o : Option Scanned) : Prop := ∀ r, o = some r → r.good s

/-- The tokens of the first `n` calls of `Scan` and the scanner after them. -/
def scanStates (U : Unicode) : Nat → Scanner → Option Scanner
  | 0, s => some s
  | n + 1, s =>
    match s.Scan U with
    | none => none
    | some (_, _, _, s1) => scanStates U n s1

/-- The source file of a text of `n` bytes, as `SourceFileSet.AddFile` makes the first one. -/
def sampleFile (n : Nat) : SourceFile := SourceFile.mk "sample" 1 n [0]

/-- The scanner of a text in the default mode, as `NewScanner` returns it; the text is one
the file fits, so the state before `NewScanner` stands for the panic that cannot happen. -/
def sampleScanner (src : List Nat) : Scanner :=
  (NewScanner (sampleFile src.length) src 0).getD
    (Scanner.mk (sampleFile src.length) src 32 0 0 0 false [] 0 0)

/-- The scanner of `sampleScanner` after `n` calls of `Scan`. -/
def sampleAfter (src : List Nat) (n : Nat) : Scanner :=
  (scanStates latinUnicode n (sampleScanner src)).getD (sampleScanner src)

/-! ## Indexing (haritalar.go)

Go `int` has 64 bits, so `int(intIdx.Value)` is the value itself. A method that writes to
its receiver returns the receiver's new contents next to the error. -/

/-- Element `i` of a Go slice; outside the slice the read panics. -/
def sliceGet {α : Type} (xs : List α) (i : Int) : Outcome α :=
  if i < 0 then .panicked .indexOutOfRange
  else
    match xs[i.toNat]? with
    | some x => .ret x
    | none => .panicked .indexOutOfRange

/-- `Array.IndexGet`; `Value` is the receiver's slice. -/
def Array.IndexGet (Value : ObjList) (index : Object) : Outcome Object :=
  match index with
  | .int idxVal =>
    if idxVal < 0 ∨ idxVal ≥ (Value.length : Int) then .ret UndefinedValue
    else sliceGet Value.toList idxVal
  | _ => .fail .ErrInvalidIndexType

/-- `ImmutableArray.IndexGet`. -/
def ImmutableArray.IndexGet (Value : ObjList) (index : Object) : Outcome Object :=
  match index with
  | .int idxVal =>
    if idxVal < 0 ∨ idxVal ≥ (Value.length : Int) then .ret UndefinedValue
    else sliceGet Value.toList idxVal
  | _ => .fail .ErrInvalidIndexType

/-- `Bytes.IndexGet`. -/
def Bytes.IndexGet (Value : List Nat) (index : Object) : Outcome Object :=
  match index with
  | .int idxVal =>
    if idxVal < 0 ∨ idxVal ≥ (Value.length : Int) then .ret UndefinedValue
    else
      match sliceGet Value idxVal with
      | .ret b => .ret (.int (b : Int))
      | .fail e => .fail e
      | .panicked p => .panicked p
  | _ => .fail .ErrInvalidIndexType

/-- `ObjectImpl.IndexGet`, which the kinds without an `IndexGet` of their own inherit. -/
def ObjectImpl.IndexGet (_index : Object) : Outcome Object := .fail .ErrNotIndexable

/-- `ObjectImpl.IndexSet`, which the kinds without an `IndexSet` of their own inherit: it
touches nothing. -/
def ObjectImpl.IndexSet (_index _value : Object) : Option GoError := some .ErrNotIndexAssignable

/-- `Array.IndexSet`: the error and the slice after the call. `ToInt` is the conversion
helper of the repository, whose file is not among the sources: it is a parameter. -/
def Array.IndexSet (ToInt : Object → Int × Bool) (Value : ObjList) (index value : Object) :
    Option GoError × ObjList :=
  let r := ToInt index
  if r.2 = false then (some .ErrInvalidIndexType, Value)
  else if r.1 < 0 ∨ r.1 ≥ (Value.length : Int) then (some .ErrIndexOutOfBounds, Value)
  else (none, ObjList.ofList (Value.toList.set r.1.toNat value))

/-- `ImmutableArray.IndexSet`: the type has no method of its own, the embedded `ObjectImpl`
answers; the slice stays as it is. -/
def ImmutableArray.IndexSet (Value : ObjList) (index value : Object) :
    Option GoError × ObjList :=
  (ObjectImpl.IndexSet index value, Value)

/-- `ImmutableMap.IndexSet`: again the method of `ObjectImpl`. -/
def ImmutableMap.IndexSet (Value : ObjMap) (index value : Object) : Option GoError × ObjMap :=
  (ObjectImpl.IndexSet index value, Value)

/-- A conversion that may stand for `ToInt`: it converts an Int and nothing else. -/
def sampleToInt (o : Object) : Int × Bool :=
  match o with
  | .int v => (v, true)
  | _ => (0, false)

/-! ## Iterators (iterator.go)

The counter `i` and the length `l` are Go `int`s of 64 bits. `Next` writes to the iterator:
it returns its answer and the iterator after the call. `Key` and `Value` only read. -/

/-- `ArrayIterator`; `v` holds the elements of the slice the iterator shares with its
array, as they are while nothing is assigned through an index of that array. -/
structure ArrayIterator where
  v : List Object
  i : Int
  l : Int
  deriving DecidableEq, Repr

/-- `BytesIterator`. -/
structure BytesIterator where
  v : List Nat
  i : Int
  l : Int
  deriving DecidableEq, Repr

/-- `MapIterator`. Its field `v` is the Go map of the Map it came from, the same map and
not a copy: `Value` takes the present entries of that map as an argument. -/
structure MapIterator where
  k : List GoString
  i : Int
  l : Int
  deriving DecidableEq, Repr

/-- `StringIterator`. -/
structure StringIterator where
  v : List Int
  i : Int
  l : Int
  deriving DecidableEq, Repr

/-- `ArrayIterator.Next`. -/
def ArrayIterator.Next (it : ArrayIterator) : Bool × ArrayIterator :=
  let i1 := wrap64 (it.i + 1)
  (decide (i1 ≤ it.l), { it with i := i1 })

/-- `ArrayIterator.Key`. -/
def ArrayIterator.Key (it : ArrayIterator) : Object := .int (wrap64 (it.i - 1))

/-- `ArrayIterator.Value`. -/
def ArrayIterator.Value (it : ArrayIterator) : Outcome Object := sliceGet it.v (wrap64 (it.i - 1))

/-- `BytesIterator.Next`. -/
def BytesIterator.Next (it : BytesIterator) : Bool × BytesIterator :=
  let i1 := wrap64 (it.i + 1)
  (decide (i1 ≤ it.l), { it with i := i1 })

/-- `BytesIterator.Key`. -/
def BytesIterator.Key (it : BytesIterator) : Object := .int (wrap64 (it.i - 1))

/-- `BytesIterator.Value`. -/
def BytesIterator.Value (it : BytesIterator) : Outcome Object :=
  match sliceGet it.v (wrap64 (it.i - 1)) with
  | .ret b => .ret (.int (b : Int))
  | .fail e => .fail e
  | .panicked p => .panicked p

/-- `MapIterator.Next`. -/
def MapIterator.Next (it : MapIterator) : Bool × MapIterator :=
  let i1 := wrap64 (it.i + 1)
  (decide (i1 ≤ it.l), { it with i := i1 })

/-- `MapIterator.Key`. -/
def MapIterator.Key (it : MapIterator) : Outcome Object :=
  match sliceGet it.k (wrap64 (it.i - 1)) with
  | .ret k => .ret (.string k)
  | .fail e => .fail e
  | .panicked p => .panicked p

/-- `MapIterator.Value`, with the present entries `v` of the shared map: `i.v[k]` is the
entry of `k`, and the nil interface, here `none`, when the map has no such key. -/
def MapIterator.Value (it : MapIterator) (v : ObjMap) : Outcome (Option Object) :=
  match sliceGet it.k (wrap64 (it.i - 1)) with
  | .ret k => .ret (v.lookup k)
  | .fail e => .fail e
  | .panicked p => .panicked p

/-- `StringIterator.Next`. -/
def StringIterator.Next (it : StringIterator) : Bool × StringIterator :=
  let i1 := wrap64 (it.i + 1)
  (decide (i1 ≤ it.l), { it with i := i1 })

/-- `StringIterator.Key`. -/
def StringIterator.Key (it : StringIterator) : Object := .int (wrap64 (it.i - 1))

/-- `StringIterator.Value`. -/
def StringIterator.Value (it : StringIterator) : Outcome Object :=
  match sliceGet it.v (wrap64 (it.i - 1)) with
  | .ret r => .ret (.char r)
  | .fail e => .fail e
  | .panicked p => .panicked p

/-- `Array.Iterate`. -/
def Array.Iterate (Value : ObjList) : ArrayIterator :=
  { v := Value.toList, i := 0, l := (Value.length : Int) }

/-- `ImmutableArray.Iterate`. -/
def ImmutableArray.Iterate (Value : ObjList) : ArrayIterator :=
  { v := Value.toList, i := 0, l := (Value.length : Int) }

/-- `Bytes.Iterate`. -/
def Bytes.Iterate (Value : List Nat) : BytesIterator :=
  { v := Value, i := 0, l := (Value.length : Int) }

/-- `Map.Iterate`: the loop `for k := range o.Value` appends the keys in the order in which
the runtime walks the map, which is the order of the entries of the model. -/
def Map.Iterate (Value : ObjMap) : MapIterator :=
  { k := Value.keys, i := 0, l := (Value.keys.length : Int) }

/-- `ImmutableMap.Iterate`. -/
def ImmutableMap.Iterate (Value : ObjMap) : MapIterator :=
  { k := Value.keys, i := 0, l := (Value.keys.length : Int) }

/-- The iterator after `n` calls of `Next`. -/
def ArrayIterator.after : Nat → ArrayIterator → ArrayIterator
  | 0, it => it
  | n + 1, it => ArrayIterator.after n it.Next.2

def BytesIterator.after : Nat → BytesIterator → BytesIterator
  | 0, it => it
  | n + 1, it => BytesIterator.after n it.Next.2

def MapIterator.after : Nat → MapIterator → MapIterator
  | 0, it => it
  | n + 1, it => MapIterator.after n it.Next.2

def StringIterator.after : Nat → StringIterator → StringIterator
  | 0, it => it
  | n + 1, it => StringIterator.after n it.Next.2

/-! ## The methods that read (haritalar.go) -/

/-- `TypeName` of every kind of value. -/
def Object.TypeName : Object → GoString
  | .int _ => ascii "int"
  | .float _ => ascii "float"
  | .bool _ _ => ascii "bool"
  | .char _ => ascii "char"
  | .string _ => ascii "string"
  | .bytes _ => ascii "bytes"
  | .array _ => ascii "array"
  | .immutableArray _ => ascii "immutable-array"
  | .map _ => ascii "map"
  | .immutableMap _ _ => ascii "immutable-map"
  | .undefined _ => ascii "undefined"
  | .error _ _ => ascii "error"
  | .time _ => ascii "time"
  | .compiledFunction _ _ => ascii "compiled-function"
  | .builtinFunction name _ => ascii "builtin-function:" ++ name
  | .userFunction name _ => ascii "user-function:" ++ name
  | .objectPtr _ => ascii "<free-var>"

/-- The formatting functions of the Go library that the `String` methods call:
`strconv.FormatInt(v, 10)`, `strconv.FormatFloat(v, 'f', -1, 64)` on the bits of the float,
`strconv.Quote` and `time.Time.String`. -/
structure Formats where
  FormatInt : Int → GoString
  FormatFloat : Nat → GoString
  Quote : GoString → GoString
  TimeString : Int → GoString

/-- Formats for evaluating: decimal digits are not needed where they are used. -/
def sampleFormats : Formats :=
  { FormatInt := fun _ => ascii "0", FormatFloat := fun _ => ascii "0",
    Quote := fun s => [34] ++ s ++ [34], TimeString := fun _ => ascii "0" }

/-- Go `strings.Join`. -/
def Join : List GoString → GoString → GoString
  | [], _ => []
  | [a], _ => a
  | a :: b :: rest, sep => a ++ sep ++ Join (b :: rest) sep

mutual
/-- `String()` of every kind of value. -/
def Object.String (F : Formats) : Object → GoString
  | .int v => F.FormatInt v
  | .float v => F.FormatFloat v
  | .bool _ v => if v then ascii "true" else ascii "false"
  | .char v => runeBytes v
  | .string v => F.Quote v
  | .bytes v => v
  | .array vs => ascii "[" ++ Join (ObjList.Strings F vs) (ascii ", ") ++ ascii "]"
  | .immutableArray vs => ascii "[" ++ Join (ObjList.Strings F vs) (ascii ", ") ++ ascii "]"
  | .map kvs => ascii "\x7b" ++ Join (ObjMap.Strings F kvs) (ascii ", ") ++ ascii "\x7d"
  | .immutableMap _ kvs => ascii "\x7b" ++ Join (ObjMap.Strings F kvs) (ascii ", ") ++ ascii "\x7d"
  | .undefined _ => ascii "<undefined>"
  | .error _ v => ascii "error: " ++ Object.String F v
  | .time v => F.TimeString v
  | .compiledFunction _ _ => ascii "<compiled-function>"
  | .builtinFunction _ _ => ascii "<builtin-function>"
  | .userFunction _ _ => ascii "<user-function>"
  | .objectPtr _ => ascii "free-var"
/-- The loop `for _, e := range o.Value { elements = append(elements, e.String()) }`. -/
def ObjList.Strings (F : Formats) : ObjList → List GoString
  | .nil => []
  | .cons e es => Object.String F e :: ObjList.Strings F es
/-- The loop `for k, v := range o.Value` that appends `k: v.String()`. -/
def ObjMap.Strings (F : Formats) : ObjMap → List GoString
  | .nil => []
  | .cons k v es => (k ++ ascii ": " ++ Object.String F v) :: ObjMap.Strings F es
end

/-- `ObjectImpl.BinaryOp`, which the kinds without a `BinaryOp` of their own inherit. -/
def ObjectImpl.BinaryOp (_op : Token) (_rhs : Object) : Outcome Object :=
  .fail .ErrInvalidOperator

/-- Go `append(a, b...)` on two slices of values. -/
def ObjList.append : ObjList → ObjList → ObjList
  | .nil, ys => ys
  | .cons x xs, ys => .cons x (ObjList.append xs ys)

/-- `Array.BinaryOp`; with an empty right operand the receiver itself is handed back. -/
def Array.BinaryOp (Value : ObjList) (op : Token) (rhs : Object) : Outcome Object :=
  match rhs with
  | .array rv =>
    match op with
    | .Add => if rv.length = 0 then .ret (.array Value) else .ret (.array (Value.append rv))
    | _ => .fail .ErrInvalidOperator
  | _ => .fail .ErrInvalidOperator

/-- `ImmutableArray.BinaryOp`. -/
def ImmutableArray.BinaryOp (Value : ObjList) (op : Token) (rhs : Object) : Outcome Object :=
  match rhs with
  | .immutableArray rv =>
    match op with
    | .Add => .ret (.array (Value.append rv))
    | _ => .fail .ErrInvalidOperator
  | _ => .fail .ErrInvalidOperator

/-- `Map.BinaryOp` and `ImmutableMap.BinaryOp`: neither type has the method, the one of
`ObjectImpl` answers. -/
def Map.BinaryOp (_Value : ObjMap) (op : Token) (rhs : Object) : Outcome Object :=
  ObjectImpl.BinaryOp op rhs

def ImmutableMap.BinaryOp (_Value : ObjMap) (op : Token) (rhs : Object) : Outcome Object :=
  ObjectImpl.BinaryOp op rhs

/-- `Array.IsFalsy`, `ImmutableArray.IsFalsy`, `Map.IsFalsy`, `ImmutableMap.IsFalsy`. -/
def Array.IsFalsy (Value : ObjList) : Bool := decide (Value.length = 0)

def ImmutableArray.IsFalsy (Value : ObjList) : Bool := decide (Value.length = 0)

def Map.IsFalsy (Value : ObjMap) : Bool := decide (Value.length = 0)

def ImmutableMap.IsFalsy (Value : ObjMap) : Bool := decide (Value.length = 0)

/-- `Map.IndexGet`. `ToString` is the conversion helper of the repository, whose file is
not among the sources: it is a parameter. -/
def Map.IndexGet (ToString : Object → GoString × Bool) (Value : ObjMap) (index : Object) :
    Outcome Object :=
  let r := ToString index
  if r.2 = false then .fail .ErrInvalidIndexType
  else
    match Value.lookup r.1 with
    | some res => .ret res
    | none => .ret UndefinedValue

/-- `ImmutableMap.IndexGet`. -/
def ImmutableMap.IndexGet (ToString : Object → GoString × Bool) (Value : ObjMap)
    (index : Object) : Outcome Object :=
  let r := ToString index
  if r.2 = false then .fail .ErrInvalidIndexType
  else
    match Value.lookup r.1 with
    | some res => .ret res
    | none => .ret UndefinedValue

/-- Go `m[k] = v` on a map. -/
def ObjMap.insert (k : GoString) (v : Object) : ObjMap → ObjMap
  | .nil => .cons k v .nil
  | .cons k1 v1 t => if k = k1 then .cons k v t else .cons k1 v1 (ObjMap.insert k v t)

/-- Go `delete(m, k)`. -/
def ObjMap.erase (k : GoString) : ObjMap → ObjMap
  | .nil => .nil
  | .cons k1 v1 t => if k = k1 then ObjMap.erase k t else .cons k1 v1 (ObjMap.erase k t)

/-- `Map.IndexSet`: the error and the entries after the call. -/
def Map.IndexSet (ToString : Object → GoString × Bool) (Value : ObjMap) (index value : Object) :
    Option GoError × ObjMap :=
  let r := ToString index
  if r.2 = false then (some .ErrInvalidIndexType, Value)
  else (none, Value.insert r.1 value)

/-- A conversion that may stand for `ToString`: it converts a String and nothing else. -/
def sampleToString (o : Object) : GoString × Bool :=
  match o with
  | .string v => (v, true)
  | _ => ([], false)

/-! ## Strings (haritalar.go) -/

/-- The loop of the Go conversion `[]rune(s)`: one rune for each UTF-8 sequence, and
`RuneError` for each byte that starts none. Every turn consumes a byte, so the number of
bytes is fuel enough. -/
def runesLoop : Nat → List Nat → List Int
  | 0, _ => []
  | _ + 1, [] => []
  | fuel + 1, p0 :: rest =>
    (DecodeRune (p0 :: rest)).1 :: runesLoop fuel ((p0 :: rest).drop (DecodeRune (p0 :: rest)).2)

/-- Go `[]rune(s)`. -/
def runesOf (s : GoString) : List Int := runesLoop s.length s

/-- A `String` object: the text and the cached view `runeStr`, `none` while it is nil. -/
structure StringObj where
  Value : GoString
  runeStr : Option (List Int)
  deriving DecidableEq, Repr

/-- The statement `if o.runeStr == nil { o.runeStr = []rune(o.Value) }`. -/
def StringObj.fill (o : StringObj) : StringObj :=
  match o.runeStr with
  | none => { o with runeStr := some (runesOf o.Value) }
  | some _ => o

/-- `String.IndexGet`: the result and the object after the call. -/
def String.IndexGet (o : StringObj) (index : Object) : Outcome Object × StringObj :=
  match index with
  | .int idxVal =>
    let o1 := o.fill
    let runeStr := o1.runeStr.getD []
    if idxVal < 0 ∨ idxVal ≥ (runeStr.length : Int) then (.ret UndefinedValue, o1)
    else
      match sliceGet runeStr idxVal with
      | .ret r => (.ret (.char r), o1)
      | .fail e => (.fail e, o1)
      | .panicked p => (.panicked p, o1)
  | _ => (.fail .ErrInvalidIndexType, o)

/-- `String.Iterate`: the iterator and the object after the call. -/
def String.Iterate (o : StringObj) : StringIterator × StringObj :=
  let o1 := o.fill
  let runeStr := o1.runeStr.getD []
  ({ v := runeStr, i := 0, l := (runeStr.length : Int) }, o1)

/-- Go `<` on two strings: byte by byte. -/
def strLess : GoString → GoString → Bool
  | [], [] => false
  | [], _ :: _ => true
  | _ :: _, [] => false
  | a :: as, b :: bs => if a < b then true else if b < a then false else strLess as bs

/-- `String.BinaryOp`; `o` is the receiver's `Value`. `MaxStringLen` is a variable of the
repository whose file is not among the sources: it is a parameter. The sum of the two
lengths is a Go `int`. -/
def String.BinaryOp (F : Formats) (MaxStringLen : Int) (o : GoString) (op : Token)
    (rhs : Object) : Outcome Object :=
  match op with
  | .Add =>
    match rhs with
    | .string rv =>
      if wrap64 ((o.length : Int) + (rv.length : Int)) > MaxStringLen then .fail .ErrStringLimit
      else .ret (.string (o ++ rv))
    | _ =>
      let rhsStr := Object.String F rhs
      if wrap64 ((o.length : Int) + (rhsStr.length : Int)) > MaxStringLen then
        .fail .ErrStringLimit
      else .ret (.string (o ++ rhsStr))
  | .Less =>
    match rhs with
    | .string rv => .ret (boolObject (strLess o rv))
    | _ => .fail .ErrInvalidOperator
  | .LessEq =>
    match rhs with
    | .string rv => .ret (boolObject (!strLess rv o))
    | _ => .fail .ErrInvalidOperator
  | .Greater =>
    match rhs with
    | .string rv => .ret (boolObject (strLess rv o))
    | _ => .fail .ErrInvalidOperator
  | .GreaterEq =>
    match rhs with
    | .string rv => .ret (boolObject (!strLess o rv))
    | _ => .fail .ErrInvalidOperator
  | _ => .fail .ErrInvalidOperator

/-- A code point that UTF-8 encodes: at most U+10FFFF and no surrogate. -/
def validRune (r : Int) : Prop := 0 ≤ r ∧ r ≤ 0x10FFFF ∧ ¬ (0xD800 ≤ r ∧ r ≤ 0xDFFF)

/-- The UTF-8 text of a list of code points. -/
def encodeRunes (cps : List Int) : GoString := (cps.map runeBytes).flatten

/-- The cached view, when there is one, is the view of the text: so every `String` object
is made (with `runeStr` nil) and so `IndexGet` and `Iterate`, the only code that writes the
field, leave it. -/
def StringObj.coherent (o : StringObj) : Prop :=
  o.runeStr = none ∨ o.runeStr = some (runesOf o.Value)

/-- The text that `+` joins to a String: the `Value` of a String operand, the `String()` of
any other operand. -/
def concatOperand (F : Formats) (x : Object) : GoString :=
  match x with
  | .string v => v
  | _ => Object.String F x

/-! ## Builtin functions (fonksiyonlar.go) -/

/-- The builtin `sil`: the result, and the arguments after the call, the Map among them
with the key deleted. -/
def builtinSil (args : List Object) : Outcome Object × List Object :=
  match args with
  | [a0, a1] =>
    match a0 with
    | .map kvs =>
      match a1 with
      | .string key => (.ret UndefinedValue, [.map (kvs.erase key), a1])
      | _ =>
        (.fail (.ErrInvalidArgumentType (ascii "second") (ascii "string") a1.TypeName), args)
    | _ => (.fail (.ErrInvalidArgumentType (ascii "first") (ascii "map") a0.TypeName), args)
  | _ => (.fail .ErrWrongNumArguments, args)

/-- The loop `for i := start; i < stop; i += step` of `buildRange`, with the slice built so
far; `none` when the fuel runs out. -/
def rangeUp : Nat → Int → Int → Int → List Object → Option (List Object)
  | 0, _, _, _, _ => none
  | fuel + 1, i, stop, step, acc =>
    if i < stop then rangeUp fuel (wrap64 (i + step)) stop step (acc ++ [.int i])
    else some acc

/-- The loop `for i := start; i > stop; i -= step` of `buildRange`. -/
def rangeDown : Nat → Int → Int → Int → List Object → Option (List Object)
  | 0, _, _, _, _ => none
  | fuel + 1, i, stop, step, acc =>
    if i > stop then rangeDown fuel (wrap64 (i - step)) stop step (acc ++ [.int i])
    else some acc

/-- `buildRange`; `none` when the fuel runs out. -/
def buildRange (fuel : Nat) (start stop step : Int) : Option Object :=
  if start ≤ stop then (rangeUp fuel start stop step []).map (fun l => .array (ObjList.ofList l))
  else (rangeDown fuel start stop step []).map (fun l => .array (ObjList.ofList l))

/-- The name the builtin `aralık` gives the argument at place `i`. -/
def rangeArgName (i : Nat) : GoString :=
  match i with
  | 0 => ascii "start"
  | 1 => ascii "stop"
  | 2 => ascii "step"
  | _ => []

/-- The loop `for i, arg := range args` of the builtin `aralık`: the error of the first
argument that is not an Int, or of a step that is not positive. -/
def rangeArgsCheck : Nat → List Object → Option GoError
  | _, [] => none
  | i, arg :: rest =>
    match arg with
    | .int v =>
      if i = 2 ∧ v ≤ 0 then some .ErrInvalidRangeStep else rangeArgsCheck (i + 1) rest
    | _ => some (.ErrInvalidArgumentType (rangeArgName i) (ascii "int") arg.TypeName)

/-- The builtin `aralık`; `none` when the fuel of `buildRange` runs out. -/
def builtinAralik (fuel : Nat) (args : List Object) : Option (Outcome Object) :=
  if args.length < 2 ∨ args.length > 3 then some (.fail .ErrWrongNumArguments)
  else
    match rangeArgsCheck 0 args with
    | some e => some (.fail e)
    | none =>
      match args with
      | [.int start, .int stop] => (buildRange fuel start stop 1).map .ret
      | [.int start, .int stop, .int step] => (buildRange fuel start stop step).map .ret
      | _ => some (.panicked .nilDereference)

/-- How many Ints `start`, `start + step`, ... lie below `stop`. -/
def countUp (start stop step : Int) : Nat := ((stop - start + step - 1) / step).toNat

/-- How many Ints `start`, `start - step`, ... lie above `stop`. -/
def countDown (start stop step : Int) : Nat := ((start - stop + step - 1) / step).toNat

/-- The Array of the `n` Ints `start`, `start + step`, `start + 2*step`, ... -/
def progressionUp (start step : Int) (n : Nat) : Object :=
  .array (ObjList.ofList (List.map (fun k : Nat => Object.int (start + (k : Int) * step))
    (List.range n)))

/-- The Array of the `n` Ints `start`, `start - step`, `start - 2*step`, ... -/
def progressionDown (start step : Int) (n : Nat) : Object :=
  .array (ObjList.ofList (List.map (fun k : Nat => Object.int (start - (k : Int) * step))
    (List.range n)))

/-- The Map with the entries `a: 1` and `b: 2`, walked in that order. -/
def sampleMap : ObjMap := .cons [97] (.int 1) (.cons [98] (.int 2) .nil)

/-! ## Opcode names (parser/opcodes.go) -/

/-- The array `OpcodeNames`, in the order of the opcodes. -/
def OpcodeNames : List String :=
  [ "CONST", "NEG", "POP", "TRUE", "FALSE", "EQL", "NEQ", "NEG", "NOT", "JMPF", "ANDJMP",
    "ORJMP", "JMP", "NULL", "ARR", "MAP", "ERROR", "IMMUT", "INDEX", "SLICE", "CALL", "RET",
    "GETG", "SETG", "SETSG", "GETL", "SETL", "DEFL", "SETSL", "GETFP", "GETF", "SETF", "GETLP",
    "SETSF", "BUILTIN", "CLOSURE", "ITER", "ITNXT", "ITKEY", "ITVAL", "BINARYOP", "SUSPEND" ]

/-! ## Import expressions (parser/expr.go) -/

/-- The node `ImportExpr`. -/
structure ImportExpr where
  ModuleName : GoString
  Token : Token
  TokenPos : Int
  deriving DecidableEq, Repr

/-- `ImportExpr.String`. -/
def ImportExpr.String (e : ImportExpr) : GoString :=
  ascii "kullan(\"" ++ e.ModuleName ++ ascii "\")\""

/-! ## Source positions of a compiled function (haritalar.go) -/

/-- The loop of `CompiledFunction.SourcePos` from a position `ip` that is not negative:
every turn reads `SourceMap[ip]` and steps down by one. `NoPos` is a constant of the parser
package whose file is not among the sources: it is a parameter. -/
def sourcePosLoop (NoPos : Int) (SourceMap : List (Int × Int)) : Nat → Int
  | 0 =>
    match SourceMap.lookup 0 with
    | some p => p
    | none => NoPos
  | ip + 1 =>
    match SourceMap.lookup ((ip + 1 : Nat) : Int) with
    | some p => p
    | none => sourcePosLoop NoPos SourceMap ip

/-- `CompiledFunction.SourcePos`. -/
def CompiledFunction.SourcePos (NoPos : Int) (o : CompiledFunction) (ip : Int) : Int :=
  if ip ≥ 0 then sourcePosLoop NoPos o.SourceMap ip.toNat else NoPos

/-- A function with the source map `0 ↦ 5`, for evaluating. -/
def sampleFunction : CompiledFunction := CompiledFunction.mk [OpSuspend] 2 1 false [(0, 5)] []

/-! ## Decoded constants (bitkod.go) -/

/-- `BuiltinModule.AsImmutableMap`: the copies of the attributes, the module name among
them, in a new ImmutableMap; `next` is the first address not in use. -/
def AsImmutableMap (Attrs : ObjMap) (moduleName : GoString) (next : Nat) : Object × Nat :=
  (.immutableMap (ObjMap.Copy Attrs next).2
      ((ObjMap.Copy Attrs next).1.insert (ascii "__module_name__") (.string moduleName)),
    (ObjMap.Copy Attrs next).2 + 1)

mutual
/-- `fixDecodedObject`: the result and the next free address. `modules` is
`ModuleMap.GetBuiltinModule`: the attributes of the builtin module of a name, when there is
one. An Array and a Map are fixed in place, so the result is the same object with its new
elements. -/
def fixDecodedObject (modules : GoString → Option ObjMap) : Object → Nat → Outcome (Object × Nat)
  | .bool _ value, next => if !value then .ret (FalseValue, next) else .ret (TrueValue, next)
  | .undefined _, next => .ret (UndefinedValue, next)
  | .array vs, next =>
    match fixDecodedList modules vs next with
    | .ret (vs1, next1) => .ret (.array vs1, next1)
    | .fail e => .fail e
    | .panicked p => .panicked p
  | .immutableArray vs, next =>
    match fixDecodedList modules vs next with
    | .ret (vs1, next1) => .ret (.immutableArray vs1, next1)
    | .fail e => .fail e
    | .panicked p => .panicked p
  | .map kvs, next =>
    match fixDecodedMap modules kvs next with
    | .ret (kvs1, next1) => .ret (.map kvs1, next1)
    | .fail e => .fail e
    | .panicked p => .panicked p
  | .immutableMap addr kvs, next =>
    match modules (inferModuleName kvs) with
    | some attrs => .ret (AsImmutableMap attrs (inferModuleName kvs) next)
    | none =>
      match fixDecodedModule modules kvs next with
      | .ret (kvs1, next1) => .ret (.immutableMap addr kvs1, next1)
      | .fail e => .fail e
      | .panicked p => .panicked p
  | .int v, next => .ret (.int v, next)
  | .float v, next => .ret (.float v, next)
  | .char v, next => .ret (.char v, next)
  | .string v, next => .ret (.string v, next)
  | .bytes v, next => .ret (.bytes v, next)
  | .error addr v, next => .ret (.error addr v, next)
  | .time v, next => .ret (.time v, next)
  | .compiledFunction addr fn, next => .ret (.compiledFunction addr fn, next)
  | .builtinFunction name v, next => .ret (.builtinFunction name v, next)
  | .userFunction name v, next => .ret (.userFunction name v, next)
  | .objectPtr addr, next => .ret (.objectPtr addr, next)
/-- The loop over the elements of an Array or an ImmutableArray. -/
def fixDecodedList (modules : GoString → Option ObjMap) : ObjList → Nat → Outcome (ObjList × Nat)
  | .nil, next => .ret (.nil, next)
  | .cons v vs, next =>
    match fixDecodedObject modules v next with
    | .ret (fv, next1) =>
      match fixDecodedList modules vs next1 with
      | .ret (vs1, next2) => .ret (.cons fv vs1, next2)
      | .fail e => .fail e
      | .panicked p => .panicked p
    | .fail e => .fail e
    | .panicked p => .panicked p
/-- The loop over the entries of a Map. -/
def fixDecodedMap (modules : GoString → Option ObjMap) : ObjMap → Nat → Outcome (ObjMap × Nat)
  | .nil, next => .ret (.nil, next)
  | .cons k v kvs, next =>
    match fixDecodedObject modules v next with
    | .ret (fv, next1) =>
      match fixDecodedMap modules kvs next1 with
      | .ret (kvs1, next2) => .ret (.cons k fv kvs1, next2)
      | .fail e => .fail e
      | .panicked p => .panicked p
    | .fail e => .fail e
    | .panicked p => .panicked p
/-- The loop over the entries of an ImmutableMap that is no builtin module: a UserFunction
among them is an error. -/
def fixDecodedModule (modules : GoString → Option ObjMap) :
    ObjMap → Nat → Outcome (ObjMap × Nat)
  | .nil, next => .ret (.nil, next)
  | .cons k v kvs, next =>
    match v with
    | .userFunction _ _ =>
      .fail (.Errorf "...? bu hatayı alıyorsan ilginç bir şeyler oluyor demektir.")
    | _ =>
      match fixDecodedObject modules v next with
      | .ret (fv, next1) =>
        match fixDecodedModule modules kvs next1 with
        | .ret (kvs1, next2) => .ret (.cons k fv kvs1, next2)
        | .fail e => .fail e
        | .panicked p => .panicked p
      | .fail e => .fail e
      | .panicked p => .panicked p
end

/-- A module map without modules. -/
def noModules : GoString → Option ObjMap := fun _ => none

/-! ## Coalescing of constants (bitkod.go) -/

/-- The constants `c` and `d` fall under one key of `RemoveDuplicates`, as its Go maps
compare keys: the same function object, two ImmutableMaps with the same non-empty module
name, or two constants of the same type among Int, Float, Char and String with the same
value, where two Floats have the same value when they are equal under Go `==` (so `+0.0`
and `-0.0` share a key and a NaN shares its key with nothing, itself included). The reading
of the claim with exact values is `sameConstantExact`. -/
def sameConstant (c d : Object) : Bool :=
  match c, d with
  | .compiledFunction a _, .compiledFunction b _ => decide (a = b)
  | .immutableMap _ m, .immutableMap _ m1 =>
    decide (inferModuleName m ≠ []) && decide (inferModuleName m1 = inferModuleName m)
  | .int v, .int w => decide (v = w)
  | .float v, .float w => floatEq v w
  | .char v, .char w => decide (v = w)
  | .string v, .string w => decide (v = w)
  | _, _ => false

/-- Spec side: the constants of a pool that are the first of their key, in the order of the
pool, after the constants `seen`. -/
def firstOccurrencesFrom (seen : List Object) : List Object → List Object
  | [] => []
  | c :: cs =>
    if seen.any (fun d => sameConstant d c) then firstOccurrencesFrom (seen ++ [c]) cs
    else c :: firstOccurrencesFrom (seen ++ [c]) cs

/-- Spec side: every constant of the pool that no earlier constant of the pool shares its
key with, in the order of the pool. -/
def firstOccurrences (cs : List Object) : List Object := firstOccurrencesFrom [] cs

/-- A constant without the instruction bytes of its function: what `updateConstIndexes`
leaves alone. -/
def withoutInstructions : Object → Object
  | .compiledFunction a fn => .compiledFunction a { fn with Instructions := [] }
  | o => o

/-- Whether the first loop of `RemoveDuplicates` finds the constant `c` in the map of its
category. -/
def DedupState.seen (st : DedupState) : Object → Bool
  | .compiledFunction a _ => (st.fns.lookup a).isSome
  | .immutableMap _ m =>
    (st.immutableMaps.lookup (inferModuleName m)).isSome && decide (inferModuleName m ≠ [])
  | .int v => (st.ints.lookup v).isSome
  | .string v => (st.strings.lookup v).isSome
  | .float v => (floatGet st.floats v).isSome
  | .char v => (st.chars.lookup v).isSome
  | _ => false

/-- A pool with the Int 5 twice, the Float 0 as +0 and as -0, a NaN twice, one module
twice, two ImmutableMaps without a module name and one function twice. -/
def samplePool : Bytecode :=
  Bytecode.mk (CompiledFunction.mk (encode [Instr.mk OpSuspend []]) 0 0 false [] [])
    [Object.int 5, Object.float 0, Object.int 5, Object.float (2 ^ 63),
     Object.float 0x7ff8000000000000, Object.float 0x7ff8000000000000,
     Object.immutableMap 1 (.cons (ascii "__module_name__") (.string (ascii "m")) .nil),
     Object.immutableMap 2 (.cons (ascii "__module_name__") (.string (ascii "m")) .nil),
     Object.immutableMap 3 .nil, Object.immutableMap 4 .nil,
     Object.compiledFunction 7 (CompiledFunction.mk (encode sampleBody) 0 0 false [] []),
     Object.compiledFunction 7 (CompiledFunction.mk (encode sampleBody) 0 0 false [] []),
     Object.char 97, Object.string (ascii "a"), Object.string (ascii "a")]

/-- The equivalence of constants in the words of the claim, with `value` read exactly: the
same function object, an ImmutableMap with the same non-empty module name or the very same
map, or a constant of the same type and value (for a Float: the same `float64`, bit for
bit, so that `+0.0` and `-0.0` are two values). -/
def constEquivExact (old new : Object) : Bool :=
  match old, new with
  | .compiledFunction a _, .compiledFunction b _ => decide (a = b)
  | .immutableMap a m, .immutableMap b m1 =>
    (decide (inferModuleName m ≠ []) && decide (inferModuleName m1 = inferModuleName m)) ||
      (decide (a = b) && decide (m1 = m))
  | .int v, .int w => decide (v = w)
  | .float v, .float w => decide (v = w)
  | .char v, .char w => decide (v = w)
  | .string v, .string w => decide (v = w)
  | _, _ => false

/-- Two constants that may not both stay in the pool, in the words of the claim, with
`value` read exactly: the same function object, two ImmutableMaps with the same non-empty
module name, or two constants of the same type among Int, Float, Char and String with the
same value (for a Float: the same `float64`, bit for bit, a NaN included). -/
def sameConstantExact (c d : Object) : Bool :=
  match c, d with
  | .compiledFunction a _, .compiledFunction b _ => decide (a = b)
  | .immutableMap _ m, .immutableMap _ m1 =>
    decide (inferModuleName m ≠ []) && decide (inferModuleName m1 = inferModuleName m)
  | .int v, .int w => decide (v = w)
  | .float v, .float w => decide (v = w)
  | .char v, .char w => decide (v = w)
  | .string v, .string w => decide (v = w)
  | _, _ => false

/-- A bytecode whose pool holds the Floats `+0.0` and `-0.0` and whose main function loads
the second: `CONST 1; SUSPEND`. -/
def zerosBytecode : Bytecode :=
  Bytecode.mk
    (CompiledFunction.mk (encode [Instr.mk OpConstant [0, 1], Instr.mk OpSuspend []])
      0 0 false [] [])
    [Object.float 0, Object.float (2 ^ 63)]

/-- A bytecode whose pool holds one NaN twice and whose main function loads both:
`CONST 0; CONST 1; SUSPEND`. -/
def nansBytecode : Bytecode :=
  Bytecode.mk
    (CompiledFunction.mk (encode [Instr.mk OpConstant [0, 0], Instr.mk OpConstant [0, 1],
      Instr.mk OpSuspend []]) 0 0 false [] [])
    [Object.float 0x7ff8000000000000, Object.float 0x7ff8000000000000]

/-! ## Local slots under nested use (semboller.go) -/

/-- A call on the table in use, or the move to a fork of it or back to its parent. -/
inductive ScopeOp where
  | fork (block : Bool)
  | define (name : String)
  | builtin (index : Nat) (name : String)
  | resolve (name : String)
  | assign (name : String)
  | leave
  deriving DecidableEq, Repr

/-- One step of nested use on the chain of the table in use: `fork` moves to a new fork of
it, `leave` moves back to its parent (`Parent(false)`), every other step is the method call
on it. A step on the nil table panics (`none`). -/
def scopeStep : Chain → ScopeOp → Option Chain
  | [], _ => none
  | t :: ps, .fork block => some (Fork (t :: ps) block)
  | t :: ps, .define name => (Define (t :: ps) name).map (fun r => r.1)
  | t :: ps, .builtin index name => (DefineBuiltin (t :: ps) index name).map (fun r => r.1)
  | t :: ps, .resolve name => some (Resolve (t :: ps) name false).1
  | t :: ps, .assign name => some (assignLocal (t :: ps) name)
  | t :: ps, .leave => Parent (t :: ps) false

/-- A sequence of steps of nested use. -/
def runScope : Chain → List ScopeOp → Option Chain
  | c, [] => some c
  | c, op :: ops =>
    match scopeStep c op with
    | none => none
    | some c1 => runScope c1 ops

/-- A table with its block-fork ancestors up to and including the enclosing function
table. -/
def segment : Chain → List SymbolTable
  | [] => []
  | t :: ps => if t.block then t :: segment ps else [t]

/-- The table stores under `name` a LOCAL symbol of index `index`. -/
def holdsLocal (t : SymbolTable) (name : String) (index : Nat) : Prop :=
  ∃ s, (name, s) ∈ t.store ∧ s.Scope = SymbolScope.ScopeLocal ∧ s.Index = index

/-- The value of `nextIndex`: one past the slots of the table and of its block-fork
ancestors. -/
def slotEnd : Chain → Nat
  | [] => 0
  | t :: ps => if t.block then slotEnd ps + t.numDefinition else t.numDefinition

/-- Walking up through block forks ends at the root. -/
def rootSeg : Chain → Bool
  | [] => true
  | t :: ps => if t.block then rootSeg ps else ps.isEmpty

/-- What nested use keeps true of a chain: a block fork has a parent; a table whose blocks
lead to the root stores no LOCAL symbol; the LOCAL symbols of a table have their indexes
between the slots of its ancestors and `nextIndex`, different names at different indexes. -/
def chainOK : Chain → Prop
  | [] => True
  | t :: ps => chainOK ps ∧ (t.block = true → ps ≠ []) ∧
      (rootSeg (t :: ps) = true → ∀ n i, ¬ holdsLocal t n i) ∧
      (∀ n i, holdsLocal t n i →
        (if t.block then slotEnd ps else 0) ≤ i ∧ i < slotEnd (t :: ps)) ∧
      (∀ n i m j, holdsLocal t n i → holdsLocal t m j → n ≠ m → i ≠ j)

/-- The table `t1` is `t` with possibly fewer LOCAL symbols: same kind, same count of
definitions. -/
def tableLe (t1 t : SymbolTable) : Prop :=
  t1.block = t.block ∧ t1.numDefinition = t.numDefinition ∧
    ∀ n i, holdsLocal t1 n i → holdsLocal t n i

/-- A function with a local `a`, a block with a local `b`, a second block that defined `c`
and was left, and then a local `d` of the first block. -/
def sampleScopeOps : List ScopeOp :=
  [.fork false, .define "a", .assign "a", .fork true, .define "b", .fork true, .define "c",
   .resolve "a", .leave, .define "d"]

/-- The chain in use after `sampleScopeOps`: the first block, the function, the root. -/
def sampleScopeChain : Chain :=
  [SymbolTable.mk true
     [("d", Symbol.mk "d" SymbolScope.ScopeLocal 2 false),
      ("b", Symbol.mk "b" SymbolScope.ScopeLocal 1 false)] 2 3 [] [],
   SymbolTable.mk false [("a", Symbol.mk "a" SymbolScope.ScopeLocal 0 true)] 1 3 [] [],
   SymbolTable.mk false [] 0 0 [] []]

/-! ## Formatter (formatter.go)

The printer `pp` and its `formatter` write to one buffer, so the buffer is a field of the
printer and the methods of both take the printer. A write that goes over `MaxStringLen`
panics with `ErrStringLimit`; the panic leaves the printer as it is at that moment, and
`Format` reads its buffer afterwards. The arguments are objects, none of them nil. -/

/-- The functions of Go `strconv` that the formatter calls beside those of `Formats`:
`IsPrint`, `CanBackquote`, `AppendQuoteToASCII`, `AppendQuoteRune`,
`AppendQuoteRuneToASCII` (on an empty buffer) and `AppendFloat` (the text it appends, for
the bits of the float, the format byte and the precision, at bit size 64). -/
structure Strconv where
  IsPrint : Int → Bool
  CanBackquote : GoString → Bool
  QuoteToASCII : GoString → GoString
  QuoteRune : Int → GoString
  QuoteRuneToASCII : Int → GoString
  AppendFloat : Nat → Nat → Int → GoString

/-- What the formatter takes from outside this file: the library functions, the conversion
`ToInt64` and the limit `MaxStringLen`. -/
structure FormatEnv where
  F : Formats
  S : Strconv
  ToInt64 : Object → Int × Bool
  MaxStringLen : Int

def ldigits : GoString := ascii "0123456789abcdefx"
def udigits : GoString := ascii "0123456789ABCDEFX"

def percentBangString : GoString := ascii "%!"
def missingString : GoString := ascii "(MISSING)"
def badIndexString : GoString := ascii "(BADINDEX)"
def extraString : GoString := ascii "%!(EXTRA "
def badWidthString : GoString := ascii "%!(BADWIDTH)"
def badPrecString : GoString := ascii "%!(BADPREC)"
def noVerbString : GoString := ascii "%!(NOVERB)"
def commaSpaceString : GoString := ascii ", "
def nilParenString : GoString := ascii "(nil)"

/-- The flags the formatter reads. -/
structure fmtFlags where
  widPresent : Bool
  precPresent : Bool
  minus : Bool
  plus : Bool
  sharp : Bool
  space : Bool
  zero : Bool
  plusV : Bool
  sharpV : Bool
  deriving DecidableEq, Repr

/-- The value `fmtFlags{}`. -/
def noFlags : fmtFlags :=
  { widPresent := false, precPresent := false, minus := false, plus := false, sharp := false,
    space := false, zero := false, plusV := false, sharpV := false }

structure formatter where
  flags : fmtFlags
  wid : Int
  prec : Int
  deriving DecidableEq, Repr

structure pp where
  buf : List Nat
  fmt : formatter
  reordered : Bool
  goodArgNum : Bool
  deriving DecidableEq, Repr

/-- How a method of the printer ends: it returns, it panics with `ErrStringLimit`, or it
panics with something else. -/
inductive Printed where
  | ok (p : pp)
  | limit (p : pp)
  | crash (msg : String)
  deriving DecidableEq, Repr

/-- The next statement runs when the one before returned. -/
def Printed.bind (r : Printed) (f : pp → Printed) : Printed :=
  match r with
  | .ok p => f p
  | .limit p => .limit p
  | .crash msg => .crash msg

/-- Assignment to the flags of the formatter. -/
def pp.setFlags (p : pp) (flags : fmtFlags) : pp := { p with fmt := { p.fmt with flags := flags } }

/-- `formatter.clearFlags`. -/
def formatter.clearFlags (p : pp) : pp := p.setFlags noFlags

/-- Go `utf8.RuneLen`. -/
def RuneLen (r : Int) : Int :=
  if r < 0 then -1
  else if r < 0x80 then 1
  else if r < 0x800 then 2
  else if 0xD800 ≤ r ∧ r ≤ 0xDFFF then -1
  else if r < 0x10000 then 3
  else if r ≤ 0x10FFFF then 4
  else -1

/-- Go `utf8.RuneCount`: the number of runes the conversion `[]rune` gives. -/
def RuneCount (b : List Nat) : Int := (runesOf b).length

/-- `fmtbuf.Write`. -/
def fmtbuf.Write (E : FormatEnv) (p : pp) (b : List Nat) : Printed :=
  if (p.buf.length : Int) + (b.length : Int) > E.MaxStringLen then .limit p
  else .ok { p with buf := p.buf ++ b }

/-- `fmtbuf.WriteString`. -/
def fmtbuf.WriteString (E : FormatEnv) (p : pp) (s : GoString) : Printed :=
  if (p.buf.length : Int) + (s.length : Int) > E.MaxStringLen then .limit p
  else .ok { p with buf := p.buf ++ s }

/-- `fmtbuf.WriteSingleByte`. -/
def fmtbuf.WriteSingleByte (E : FormatEnv) (p : pp) (c : Nat) : Printed :=
  if (p.buf.length : Int) ≥ E.MaxStringLen then .limit p
  else .ok { p with buf := p.buf ++ [c] }

/-- `fmtbuf.WriteRune`. -/
def fmtbuf.WriteRune (E : FormatEnv) (p : pp) (r : Int) : Printed :=
  if (p.buf.length : Int) + RuneLen r > E.MaxStringLen then .limit p
  else if r < RuneSelf then .ok { p with buf := p.buf ++ [(r % 256).toNat] }
  else .ok { p with buf := p.buf ++ runeBytes r }

/-- `formatter.writePadding`. -/
def formatter.writePadding (E : FormatEnv) (p : pp) (n : Int) : Printed :=
  if n ≤ 0 then .ok p
  else if (p.buf.length : Int) + n > E.MaxStringLen then .limit p
  else .ok { p with buf := p.buf ++ List.replicate n.toNat (if p.fmt.flags.zero then 48 else 32) }

/-- `formatter.pad`. -/
def formatter.pad (E : FormatEnv) (p : pp) (b : List Nat) : Printed :=
  if !p.fmt.flags.widPresent || p.fmt.wid == 0 then fmtbuf.Write E p b
  else if !p.fmt.flags.minus then
    (formatter.writePadding E p (p.fmt.wid - RuneCount b)).bind
      (fun p1 => fmtbuf.Write E p1 b)
  else
    (fmtbuf.Write E p b).bind
      (fun p1 => formatter.writePadding E p1 (p.fmt.wid - RuneCount b))

/-- `formatter.padString`. -/
def formatter.padString (E : FormatEnv) (p : pp) (s : GoString) : Printed :=
  if !p.fmt.flags.widPresent || p.fmt.wid == 0 then fmtbuf.WriteString E p s
  else if !p.fmt.flags.minus then
    (formatter.writePadding E p (p.fmt.wid - RuneCount s)).bind
      (fun p1 => fmtbuf.WriteString E p1 s)
  else
    (fmtbuf.WriteString E p s).bind
      (fun p1 => formatter.writePadding E p1 (p.fmt.wid - RuneCount s))

/-- The statements `oldZero := f.zero; f.zero = false; ...; f.zero = oldZero` around a
call. -/
def withoutZero (p : pp) (call : pp → Printed) : Printed :=
  (call (p.setFlags { p.fmt.flags with zero := false })).bind
    (fun p1 => .ok (p1.setFlags { p1.fmt.flags with zero := p.fmt.flags.zero }))

/-- `formatter.fmtBoolean`. -/
def formatter.fmtBoolean (E : FormatEnv) (p : pp) (v : Bool) : Printed :=
  if v then formatter.padString E p (ascii "true") else formatter.padString E p (ascii "false")

/-- One turn of a digit loop of `fmtInteger`: the byte written and the rest of `u`. -/
def digitStep (base : Nat) (digits : GoString) (u : Nat) : Nat × Nat :=
  if base = 10 then ((48 + u - u / 10 * 10) % 256, u / 10)
  else if base = 16 then (digits.getD (u &&& 0xF) 0, u >>> 4)
  else if base = 8 then ((48 + (u &&& 7)) % 256, u >>> 3)
  else ((48 + (u &&& 1)) % 256, u >>> 1)

/-- The digit loop `for u >= base` of `fmtInteger` and `fmtUnicode` with the write of the
last digit `digits[u]`, in front of `acc`. A turn at least halves `u`, so 64 turns are fuel
enough for a `uint64`. -/
def intDigits (base : Nat) (digits : GoString) : Nat → Nat → List Nat → List Nat
  | 0, u, acc => digits.getD u 0 :: acc
  | fuel + 1, u, acc =>
    if u ≥ base then
      intDigits base digits fuel (digitStep base digits u).2 ((digitStep base digits u).1 :: acc)
    else digits.getD u 0 :: acc

/-- `formatter.fmtUnicode`. The scratch buffer is sized for the precision, so the zeros
always fit. -/
def formatter.fmtUnicode (E : FormatEnv) (p : pp) (u : Nat) : Printed :=
  let prec : Int := if p.fmt.flags.precPresent && decide (p.fmt.prec > 4) then p.fmt.prec else 4
  let quoted : List Nat :=
    if p.fmt.flags.sharp && decide (u ≤ 0x10FFFF) && E.S.IsPrint (u : Int) then
      [32, 39] ++ runeBytes (u : Int) ++ [39]
    else []
  let ds := intDigits 16 udigits 64 u []
  let zeros := List.replicate (prec - (ds.length : Int)).toNat 48
  withoutZero p (fun p1 => formatter.pad E p1 ([85, 43] ++ zeros ++ ds ++ quoted))

/-- `formatter.fmtInteger`. The scratch buffer holds 68 bytes, or `3 + wid + prec` when that
is more, which is room for every digit, prefix and sign written here. -/
def formatter.fmtInteger (E : FormatEnv) (p : pp) (u : Nat) (base : Nat) (isSigned : Bool)
    (verb : Int) (digits : GoString) : Printed :=
  let negative := isSigned && decide (u % 2 ^ 64 ≥ 2 ^ 63)
  let u1 := if negative then (2 ^ 64 - u % 2 ^ 64) % 2 ^ 64 else u
  let len : Int :=
    if (p.fmt.flags.widPresent || p.fmt.flags.precPresent) && decide (3 + p.fmt.wid + p.fmt.prec > 68)
    then 3 + p.fmt.wid + p.fmt.prec else 68
  if p.fmt.flags.precPresent && decide (p.fmt.prec = 0) && decide (u1 = 0) then
    withoutZero p (fun p1 => formatter.writePadding E p1 p1.fmt.wid)
  else if base ≠ 10 ∧ base ≠ 16 ∧ base ≠ 8 ∧ base ≠ 2 then
    .crash "fmt: unknown base; can\x27t happen"
  else
    let prec : Int :=
      if p.fmt.flags.precPresent then p.fmt.prec
      else if p.fmt.flags.zero && p.fmt.flags.widPresent then
        if negative || p.fmt.flags.plus || p.fmt.flags.space then p.fmt.wid - 1 else p.fmt.wid
      else 0
    let ds := intDigits base digits 64 u1 []
    let filled := List.replicate (min prec len - (ds.length : Int)).toNat 48 ++ ds
    let sharped :=
      if p.fmt.flags.sharp then
        if base = 2 then [48, 98] ++ filled
        else if base = 8 then (if filled.head? ≠ some 48 then 48 :: filled else filled)
        else if base = 16 then [48, digits.getD 16 0] ++ filled
        else filled
      else filled
    let lettered := if verb = 79 then [48, 111] ++ sharped else sharped
    let signed :=
      if negative then 45 :: lettered
      else if p.fmt.flags.plus then 43 :: lettered
      else if p.fmt.flags.space then 32 :: lettered
      else lettered
    withoutZero p (fun p1 => formatter.pad E p1 signed)

/-- The loop of `truncateString` and of `truncate`: the text up to the rune before which
the count `n` falls below zero. Both loops step by the width `DecodeRune` gives, and every
turn consumes a byte, so the number of bytes is fuel enough. -/
def truncateLoop : Nat → Int → List Nat → List Nat
  | _, _, [] => []
  | 0, _, c :: cs => c :: cs
  | fuel + 1, n, c :: cs =>
    if n - 1 < 0 then []
    else (c :: cs).take (DecodeRune (c :: cs)).2 ++
      truncateLoop fuel (n - 1) ((c :: cs).drop (DecodeRune (c :: cs)).2)

/-- `formatter.truncateString`. -/
def formatter.truncateString (p : pp) (s : GoString) : GoString :=
  if p.fmt.flags.precPresent then truncateLoop s.length p.fmt.prec s else s

/-- `formatter.truncate`. -/
def formatter.truncate (p : pp) (b : List Nat) : List Nat :=
  if p.fmt.flags.precPresent then truncateLoop b.length p.fmt.prec b else b

/-- `formatter.fmtS`. -/
def formatter.fmtS (E : FormatEnv) (p : pp) (s : GoString) : Printed :=
  formatter.padString E p (formatter.truncateString p s)

/-- `formatter.fmtBs`. -/
def formatter.fmtBs (E : FormatEnv) (p : pp) (b : List Nat) : Printed :=
  formatter.pad E p (formatter.truncate p b)

/-- The loop of `fmtSbx` over the first `length` bytes of the data, from index `i` on: what
it appends. `c>>4` and `c&0xF` of a byte are `c / 16` and `c % 16`. -/
def hexLoop (flags : fmtFlags) (digits : GoString) : Nat → List Nat → List Nat
  | _, [] => []
  | i, c :: cs =>
    (if flags.space && decide (i > 0) then
      32 :: (if flags.sharp then [48, digits.getD 16 0] else [])
     else []) ++
    [digits.getD (c / 16) 0, digits.getD (c % 16) 0] ++ hexLoop flags digits (i + 1) cs

/-- `formatter.fmtSbx`; `b` is `none` for the nil slice. The hexadecimal digits are
appended to the buffer as they are, with no test of its length. -/
def formatter.fmtSbx (E : FormatEnv) (p : pp) (s : GoString) (b : Option (List Nat))
    (digits : GoString) : Printed :=
  let data := match b with
    | some bytes => bytes
    | none => s
  let length : Int :=
    if p.fmt.flags.precPresent && decide (p.fmt.prec < (data.length : Int)) then p.fmt.prec
    else data.length
  let width : Int :=
    if p.fmt.flags.space then (if p.fmt.flags.sharp then 2 * length * 2 else 2 * length) + (length - 1)
    else if p.fmt.flags.sharp then 2 * length + 2
    else 2 * length
  if 2 * length > 0 then
    (if p.fmt.flags.widPresent && decide (p.fmt.wid > width) && !p.fmt.flags.minus then
      formatter.writePadding E p (p.fmt.wid - width)
     else .ok p).bind (fun p1 =>
      let appended :=
        (if p1.fmt.flags.sharp then [48, digits.getD 16 0] else []) ++
          hexLoop p1.fmt.flags digits 0 (data.take length.toNat)
      let p2 : pp := { p1 with buf := p1.buf ++ appended }
      if p2.fmt.flags.widPresent && decide (p2.fmt.wid > width) && p2.fmt.flags.minus then
        formatter.writePadding E p2 (p2.fmt.wid - width)
      else .ok p2)
  else if p.fmt.flags.widPresent then formatter.writePadding E p p.fmt.wid
  else .ok p

/-- `formatter.fmtSx`. -/
def formatter.fmtSx (E : FormatEnv) (p : pp) (s digits : GoString) : Printed :=
  formatter.fmtSbx E p s none digits

/-- `formatter.fmtBx`. -/
def formatter.fmtBx (E : FormatEnv) (p : pp) (b : List Nat) (digits : GoString) : Printed :=
  formatter.fmtSbx E p [] (some b) digits

/-- `formatter.fmtQ`. -/
def formatter.fmtQ (E : FormatEnv) (p : pp) (s : GoString) : Printed :=
  if p.fmt.flags.sharp && E.S.CanBackquote (formatter.truncateString p s) then
    formatter.padString E p ([96] ++ formatter.truncateString p s ++ [96])
  else if p.fmt.flags.plus then
    formatter.pad E p (E.S.QuoteToASCII (formatter.truncateString p s))
  else formatter.pad E p (E.F.Quote (formatter.truncateString p s))

/-- `formatter.fmtC`. -/
def formatter.fmtC (E : FormatEnv) (p : pp) (c : Nat) : Printed :=
  formatter.pad E p (runeBytes (if c > 0x10FFFF then RuneError else (c : Int)))

/-- `formatter.fmtQc`. -/
def formatter.fmtQc (E : FormatEnv) (p : pp) (c : Nat) : Printed :=
  if p.fmt.flags.plus then
    formatter.pad E p (E.S.QuoteRuneToASCII (if c > 0x10FFFF then RuneError else (c : Int)))
  else formatter.pad E p (E.S.QuoteRune (if c > 0x10FFFF then RuneError else (c : Int)))

/-- The loop `for i := 1; i < len(num); i++` of `fmtFloat` under the flag `#`, over the
bytes of `num` from index 1 on: the bytes kept, the tail cut off, the count `digits` and
whether a decimal point was seen. A cut ends the loop. -/
def sharpScan (verb : Int) : List Nat → Int → Bool → List Nat × List Nat × Int × Bool
  | [], digits, hasDecimalPoint => ([], [], digits, hasDecimalPoint)
  | c :: cs, digits, hasDecimalPoint =>
    if c = 46 then
      (c :: (sharpScan verb cs digits true).1, (sharpScan verb cs digits true).2)
    else if c = 112 ∨ c = 80 then ([], c :: cs, digits, hasDecimalPoint)
    else if (c = 101 ∨ c = 69) ∧ verb ≠ 120 ∧ verb ≠ 88 then
      ([], c :: cs, digits, hasDecimalPoint)
    else
      (c :: (sharpScan verb cs (digits - 1) hasDecimalPoint).1,
        (sharpScan verb cs (digits - 1) hasDecimalPoint).2)

/-- The part of `fmtFloat` under `f.sharp && verb != 'b'`: the number with its decimal
point, its trailing zeros and its exponent. -/
def sharpFloat (verb : Int) (prec : Int) (num : List Nat) : List Nat :=
  let digits : Int :=
    if verb = 118 ∨ verb = 103 ∨ verb = 71 ∨ verb = 120 then (if prec = -1 then 6 else prec)
    else 0
  let r := sharpScan verb num.tail digits false
  num.take 1 ++ r.1 ++ (if r.2.2.2 then [] else [46]) ++
    List.replicate r.2.2.1.toNat 48 ++ r.2.1

/-- `formatter.fmtFloat` at size 64, on the bits of the float. -/
def formatter.fmtFloat (E : FormatEnv) (p : pp) (v : Nat) (verb : Int) (prec : Int) :
    Printed :=
  let prec1 := if p.fmt.flags.precPresent then p.fmt.prec else prec
  match E.S.AppendFloat v (verb % 256).toNat prec1 with
  | [] => .crash "index out of range"
  | t :: ts =>
    let num0 := if t = 45 ∨ t = 43 then t :: ts else 43 :: t :: ts
    let num1 :=
      if p.fmt.flags.space && decide (num0.head? = some 43) && !p.fmt.flags.plus
      then 32 :: num0.tail else num0
    if num1.getD 1 0 = 73 ∨ num1.getD 1 0 = 78 then
      withoutZero p (fun p1 => formatter.pad E p1
        (if num1.getD 1 0 = 78 ∧ p.fmt.flags.space = false ∧ p.fmt.flags.plus = false
         then num1.tail else num1))
    else
      let num2 := if p.fmt.flags.sharp && decide (verb ≠ 98) then sharpFloat verb prec1 num1
                  else num1
      if p.fmt.flags.plus || decide (num2.head? ≠ some 43) then
        if p.fmt.flags.zero && p.fmt.flags.widPresent && decide (p.fmt.wid > (num2.length : Int))
        then
          (fmtbuf.WriteSingleByte E p (num2.headD 0)).bind (fun p1 =>
            (formatter.writePadding E p1 (p1.fmt.wid - (num2.length : Int))).bind (fun p2 =>
              fmtbuf.Write E p2 num2.tail))
        else formatter.pad E p num2
      else formatter.pad E p num2.tail

/-- `tooLarge`. -/
def tooLarge (x : Int) : Bool := decide (x > 1000000 ∨ x < -1000000)

/-- The loop of `parsenum`; every turn moves `newi` forward, so `fuel` turns are enough when
`fuel` is at least `end - newi`. -/
def parsenumLoop (s : GoString) (stop : Nat) : Nat → Int → Bool → Nat → Int × Bool × Nat
  | 0, num, isnum, newi => (num, isnum, newi)
  | fuel + 1, num, isnum, newi =>
    if newi < stop ∧ 48 ≤ s.getD newi 0 ∧ s.getD newi 0 ≤ 57 then
      if tooLarge num then (0, false, stop)
      else parsenumLoop s stop fuel (num * 10 + ((s.getD newi 0 : Int) - 48)) true (newi + 1)
    else (num, isnum, newi)

/-- `parsenum(s, start, end)`: the number, whether there is one, and the new index. -/
def parsenum (s : GoString) (start stop : Nat) : Int × Bool × Nat :=
  if start ≥ stop then (0, false, stop) else parsenumLoop s stop (stop - start) 0 false start

/-- The index of the first `]` of the bytes, which start at index `i` of the format. -/
def findBracket : List Nat → Nat → Option Nat
  | [], _ => none
  | c :: cs, i => if c = 93 then some i else findBracket cs (i + 1)

/-- `parseArgNumber`: the index, the width of the bracket and whether it is good. -/
def parseArgNumber (format : GoString) : Int × Nat × Bool :=
  if format.length < 3 then (0, 1, false)
  else
    match findBracket (format.drop 1) 1 with
    | some i =>
      if !(parsenum format 1 i).2.1 || decide ((parsenum format 1 i).2.2 ≠ i) then
        (0, i + 1, false)
      else ((parsenum format 1 i).1 - 1, i + 1, true)
    | none => (0, 1, false)

/-- `pp.argNumber`: the printer, `newArgNum`, `newi` and `found`. -/
def pp.argNumber (p : pp) (argNum : Nat) (format : GoString) (i : Nat) (numArgs : Nat) :
    pp × Nat × Nat × Bool :=
  if format.length ≤ i ∨ format.getD i 0 ≠ 91 then (p, argNum, i, false)
  else if (parseArgNumber (format.drop i)).2.2 = true ∧ 0 ≤ (parseArgNumber (format.drop i)).1 ∧
      (parseArgNumber (format.drop i)).1 < (numArgs : Int) then
    ({ p with reordered := true }, (parseArgNumber (format.drop i)).1.toNat,
      i + (parseArgNumber (format.drop i)).2.1, true)
  else
    ({ p with reordered := true, goodArgNum := false }, argNum,
      i + (parseArgNumber (format.drop i)).2.1, (parseArgNumber (format.drop i)).2.2)

/-- `intFromArg`: the number, whether the argument is one, and the new argument index. -/
def intFromArg (E : FormatEnv) (a : List Object) (argNum : Nat) : Int × Bool × Nat :=
  match a[argNum]? with
  | some arg =>
    if tooLarge (E.ToInt64 arg).1 then (0, false, argNum + 1)
    else ((E.ToInt64 arg).1, (E.ToInt64 arg).2, argNum + 1)
  | none => (0, false, argNum)

/-- `pp.badVerb` for the argument `p.arg`, which is not nil. Its call `printArg(p.arg, 'v')`
takes the case `'v'` of `printArg`, the call `fmtS(arg.String())`. -/
def pp.badVerb (E : FormatEnv) (p : pp) (verb : Int) (arg : Object) : Printed :=
  (fmtbuf.WriteString E p percentBangString).bind (fun p1 =>
  (fmtbuf.WriteRune E p1 verb).bind (fun p2 =>
  (fmtbuf.WriteSingleByte E p2 40).bind (fun p3 =>
  (fmtbuf.WriteString E p3 (Object.String E.F arg)).bind (fun p4 =>
  (fmtbuf.WriteSingleByte E p4 61).bind (fun p5 =>
  (formatter.fmtS E p5 (Object.String E.F arg)).bind (fun p6 =>
  fmtbuf.WriteSingleByte E p6 41))))))

/-- `pp.fmtBool`. -/
def pp.fmtBool (E : FormatEnv) (p : pp) (v : Bool) (verb : Int) (arg : Object) : Printed :=
  if verb = 116 ∨ verb = 118 then formatter.fmtBoolean E p v else pp.badVerb E p verb arg

/-- `pp.fmt0x64`. -/
def pp.fmt0x64 (E : FormatEnv) (p : pp) (v : Nat) (leading0x : Bool) : Printed :=
  (formatter.fmtInteger E (p.setFlags { p.fmt.flags with sharp := leading0x }) v 16 false 118
      ldigits).bind
    (fun p1 => .ok (p1.setFlags { p1.fmt.flags with sharp := p.fmt.flags.sharp }))

/-- `pp.fmtInteger`. -/
def pp.fmtInteger (E : FormatEnv) (p : pp) (v : Nat) (isSigned : Bool) (verb : Int)
    (arg : Object) : Printed :=
  if verb = 118 then
    if p.fmt.flags.sharpV && !isSigned then pp.fmt0x64 E p v true
    else formatter.fmtInteger E p v 10 isSigned verb ldigits
  else if verb = 100 then formatter.fmtInteger E p v 10 isSigned verb ldigits
  else if verb = 98 then formatter.fmtInteger E p v 2 isSigned verb ldigits
  else if verb = 111 ∨ verb = 79 then formatter.fmtInteger E p v 8 isSigned verb ldigits
  else if verb = 120 then formatter.fmtInteger E p v 16 isSigned verb ldigits
  else if verb = 88 then formatter.fmtInteger E p v 16 isSigned verb udigits
  else if verb = 99 then formatter.fmtC E p v
  else if verb = 113 then
    if v ≤ 0x10FFFF then formatter.fmtQc E p v else pp.badVerb E p verb arg
  else if verb = 85 then formatter.fmtUnicode E p v
  else pp.badVerb E p verb arg

/-- `pp.fmtFloat` at size 64. -/
def pp.fmtFloat (E : FormatEnv) (p : pp) (v : Nat) (verb : Int) (arg : Object) : Printed :=
  if verb = 118 then formatter.fmtFloat E p v 103 (-1)
  else if verb = 98 ∨ verb = 103 ∨ verb = 71 ∨ verb = 120 ∨ verb = 88 then
    formatter.fmtFloat E p v verb (-1)
  else if verb = 102 ∨ verb = 101 ∨ verb = 69 then formatter.fmtFloat E p v verb 6
  else if verb = 70 then formatter.fmtFloat E p v 102 6
  else pp.badVerb E p verb arg

/-- `pp.fmtString`. -/
def pp.fmtString (E : FormatEnv) (p : pp) (v : GoString) (verb : Int) (arg : Object) :
    Printed :=
  if verb = 118 then
    if p.fmt.flags.sharpV then formatter.fmtQ E p v else formatter.fmtS E p v
  else if verb = 115 then formatter.fmtS E p v
  else if verb = 120 then formatter.fmtSx E p v ldigits
  else if verb = 88 then formatter.fmtSx E p v udigits
  else if verb = 113 then formatter.fmtQ E p v
  else pp.badVerb E p verb arg

/-- The loop of `fmtBytes` under `%#v`: each byte as `0x..`, with `, ` between. -/
def bytesSharpLoop (E : FormatEnv) : pp → Nat → List Nat → Printed
  | p, _, [] => .ok p
  | p, i, c :: cs =>
    (if i > 0 then fmtbuf.WriteString E p commaSpaceString else .ok p).bind (fun p1 =>
    (pp.fmt0x64 E p1 c true).bind (fun p2 => bytesSharpLoop E p2 (i + 1) cs))

/-- The loop of `fmtBytes` under `%v` and `%d`: each byte in decimal, with a blank
between. -/
def bytesDecimalLoop (E : FormatEnv) (verb : Int) : pp → Nat → List Nat → Printed
  | p, _, [] => .ok p
  | p, i, c :: cs =>
    (if i > 0 then fmtbuf.WriteSingleByte E p 32 else .ok p).bind (fun p1 =>
    (formatter.fmtInteger E p1 c 10 false verb ldigits).bind (fun p2 =>
      bytesDecimalLoop E verb p2 (i + 1) cs))

/-- `pp.fmtBytes` for the slice of a Bytes object, which is not nil. A verb outside its
cases prints nothing. -/
def pp.fmtBytes (E : FormatEnv) (p : pp) (v : List Nat) (verb : Int) (typeString : GoString) :
    Printed :=
  if verb = 118 ∨ verb = 100 then
    if p.fmt.flags.sharpV then
      (fmtbuf.WriteString E p typeString).bind (fun p1 =>
      (fmtbuf.WriteSingleByte E p1 123).bind (fun p2 =>
      (bytesSharpLoop E p2 0 v).bind (fun p3 => fmtbuf.WriteSingleByte E p3 125)))
    else
      (fmtbuf.WriteSingleByte E p 91).bind (fun p1 =>
      (bytesDecimalLoop E verb p1 0 v).bind (fun p2 => fmtbuf.WriteSingleByte E p2 93))
  else if verb = 115 then formatter.fmtBs E p v
  else if verb = 120 then formatter.fmtBx E p v ldigits
  else if verb = 88 then formatter.fmtBx E p v udigits
  else if verb = 113 then formatter.fmtQ E p v
  else .ok p

/-- `pp.printArg`. -/
def pp.printArg (E : FormatEnv) (p : pp) (arg : Object) (verb : Int) : Printed :=
  if verb = 84 then formatter.fmtS E p (Object.TypeName arg)
  else if verb = 118 then formatter.fmtS E p (Object.String E.F arg)
  else
    match arg with
    | .bool _ value => pp.fmtBool E p value verb arg
    | .float v => pp.fmtFloat E p v verb arg
    | .int v => pp.fmtInteger E p (toUint64 v) true verb arg
    | .string v => pp.fmtString E p v verb arg
    | .bytes v => pp.fmtBytes E p v verb (ascii "[]byte")
    | _ => pp.fmtString E p (Object.String E.F arg) verb arg

/-- `pp.badArgNum`. -/
def pp.badArgNum (E : FormatEnv) (p : pp) (verb : Int) : Printed :=
  (fmtbuf.WriteString E p percentBangString).bind (fun p1 =>
  (fmtbuf.WriteRune E p1 verb).bind (fun p2 => fmtbuf.WriteString E p2 badIndexString))

/-- `pp.missingArg`. -/
def pp.missingArg (E : FormatEnv) (p : pp) (verb : Int) : Printed :=
  (fmtbuf.WriteString E p percentBangString).bind (fun p1 =>
  (fmtbuf.WriteRune E p1 verb).bind (fun p2 => fmtbuf.WriteString E p2 missingString))

/-- The loop `for i < end && format[i] != '%'` over the format from index `i` on: the index
of the next `%`, or `end`. -/
def percentFrom : List Nat → Nat → Nat
  | [], i => i
  | c :: cs, i => if c = 37 then i else percentFrom cs (i + 1)

/-- The loop `simpleFormat` of `doFormat` from index `i`: the printer with the flags read,
the index reached, and the verb when the loop ends at a letter `a`..`z` with an argument
left. Every turn moves `i` forward. -/
def simpleFormat (format : GoString) (numArgs argNum : Nat) : Nat → pp → Nat → pp × Nat × Option Nat
  | 0, p, i => (p, i, none)
  | fuel + 1, p, i =>
    if i < format.length then
      if format.getD i 0 = 35 then
        simpleFormat format numArgs argNum fuel (p.setFlags { p.fmt.flags with sharp := true }) (i + 1)
      else if format.getD i 0 = 48 then
        simpleFormat format numArgs argNum fuel
          (p.setFlags { p.fmt.flags with zero := !p.fmt.flags.minus }) (i + 1)
      else if format.getD i 0 = 43 then
        simpleFormat format numArgs argNum fuel (p.setFlags { p.fmt.flags with plus := true }) (i + 1)
      else if format.getD i 0 = 45 then
        simpleFormat format numArgs argNum fuel
          (p.setFlags { p.fmt.flags with minus := true, zero := false }) (i + 1)
      else if format.getD i 0 = 32 then
        simpleFormat format numArgs argNum fuel (p.setFlags { p.fmt.flags with space := true }) (i + 1)
      else if 97 ≤ format.getD i 0 ∧ format.getD i 0 ≤ 122 ∧ argNum < numArgs then
        (p, i, some (format.getD i 0))
      else (p, i, none)
    else (p, i, none)

/-- The statements of `doFormat` before a `printArg` with the verb `v`. -/
def pp.verbV (p : pp) : pp :=
  p.setFlags { p.fmt.flags with sharpV := p.fmt.flags.sharp, sharp := false,
                                plusV := p.fmt.flags.plus, plus := false }

/-- The width of a verb in `doFormat`, from a `*` or from digits; `k` is the rest of the
turn, with the printer, the index, the argument index and `afterIndex`. -/
def formatWidth (E : FormatEnv) (format : GoString) (a : List Object) (p : pp)
    (i argNum : Nat) (afterIndex : Bool) (k : pp → Nat → Nat → Bool → Printed) : Printed :=
  if i < format.length ∧ format.getD i 0 = 42 then
    let p1 : pp := { p with fmt := { p.fmt with wid := (intFromArg E a argNum).1 } }
    let p2 := p1.setFlags { p1.fmt.flags with widPresent := (intFromArg E a argNum).2.1 }
    (if !p2.fmt.flags.widPresent then fmtbuf.WriteString E p2 badWidthString else .ok p2).bind
      (fun p3 =>
        if p3.fmt.wid < 0 then
          k ({ p3 with fmt := { p3.fmt with wid := -p3.fmt.wid } }.setFlags
              { p3.fmt.flags with minus := true, zero := false })
            (i + 1) (intFromArg E a argNum).2.2 false
        else k p3 (i + 1) (intFromArg E a argNum).2.2 false)
  else
    let p1 : pp := { p with fmt := { p.fmt with wid := (parsenum format i format.length).1 } }
    let p2 := p1.setFlags { p1.fmt.flags with widPresent := (parsenum format i format.length).2.1 }
    k (if afterIndex && p2.fmt.flags.widPresent then { p2 with goodArgNum := false } else p2)
      (parsenum format i format.length).2.2 argNum afterIndex

/-- The precision of a verb in `doFormat`, when a `.` follows. -/
def formatPrec (E : FormatEnv) (format : GoString) (a : List Object) (p : pp)
    (i argNum : Nat) (afterIndex : Bool) (k : pp → Nat → Nat → Bool → Printed) : Printed :=
  if i + 1 < format.length ∧ format.getD i 0 = 46 then
    let p0 : pp := if afterIndex then { p with goodArgNum := false } else p
    let r := pp.argNumber p0 argNum format (i + 1) a.length
    if r.2.2.1 < format.length ∧ format.getD r.2.2.1 0 = 42 then
      let n := intFromArg E a r.2.1
      let p1 : pp :=
        if n.1 < 0 then
          { r.1 with fmt := { r.1.fmt with prec := 0 } }.setFlags
            { r.1.fmt.flags with precPresent := false }
        else
          { r.1 with fmt := { r.1.fmt with prec := n.1 } }.setFlags
            { r.1.fmt.flags with precPresent := n.2.1 }
      (if !p1.fmt.flags.precPresent then fmtbuf.WriteString E p1 badPrecString else .ok p1).bind
        (fun p2 => k p2 (r.2.2.1 + 1) n.2.2 false)
    else
      let n := parsenum format r.2.2.1 format.length
      let p1 : pp :=
        if n.2.1 then
          { r.1 with fmt := { r.1.fmt with prec := n.1 } }.setFlags
            { r.1.fmt.flags with precPresent := true }
        else
          { r.1 with fmt := { r.1.fmt with prec := 0 } }.setFlags
            { r.1.fmt.flags with precPresent := true }
      k p1 n.2.2 r.2.1 r.2.2.2
  else k p i argNum afterIndex

/-- The end of a turn of `doFormat`: the verb and what it prints. `next` is the next turn
of the loop, `stop` what follows the loop. -/
def formatVerb (E : FormatEnv) (format : GoString) (a : List Object) (p : pp)
    (i argNum : Nat) (afterIndex : Bool) (next : pp → Nat → Nat → Printed)
    (stop : pp → Nat → Printed) : Printed :=
  let r : pp × Nat × Nat × Bool :=
    if !afterIndex then pp.argNumber p argNum format i a.length else (p, argNum, i, afterIndex)
  if r.2.2.1 ≥ format.length then
    (fmtbuf.WriteString E r.1 noVerbString).bind (fun p1 => stop p1 r.2.1)
  else
    let d : Int × Nat :=
      if (format.getD r.2.2.1 0 : Int) ≥ RuneSelf then DecodeRune (format.drop r.2.2.1)
      else ((format.getD r.2.2.1 0 : Int), 1)
    if d.1 = 37 then
      (fmtbuf.WriteSingleByte E r.1 37).bind (fun p1 => next p1 (r.2.2.1 + d.2) r.2.1)
    else if r.1.goodArgNum = false then
      (pp.badArgNum E r.1 d.1).bind (fun p1 => next p1 (r.2.2.1 + d.2) r.2.1)
    else
      match a[r.2.1]? with
      | none => (pp.missingArg E r.1 d.1).bind (fun p1 => next p1 (r.2.2.1 + d.2) r.2.1)
      | some arg =>
        (pp.printArg E (if d.1 = 118 then r.1.verbV else r.1) arg d.1).bind
          (fun p1 => next p1 (r.2.2.1 + d.2) (r.2.1 + 1))

/-- The loop over `a[argNum:]` at the end of `doFormat`. -/
def extraLoop (E : FormatEnv) : pp → Nat → List Object → Printed
  | p, _, [] => .ok p
  | p, i, arg :: args =>
    (if i > 0 then fmtbuf.WriteString E p commaSpaceString else .ok p).bind (fun p1 =>
    (fmtbuf.WriteString E p1 (Object.TypeName arg)).bind (fun p2 =>
    (fmtbuf.WriteSingleByte E p2 61).bind (fun p3 =>
    (pp.printArg E p3 arg 118).bind (fun p4 => extraLoop E p4 (i + 1) args))))

/-- What follows the loop of `doFormat`: the arguments left over. -/
def formatExtra (E : FormatEnv) (a : List Object) (p : pp) (argNum : Nat) : Printed :=
  if !p.reordered && decide (argNum < a.length) then
    (fmtbuf.WriteString E (formatter.clearFlags p) extraString).bind (fun p1 =>
    (extraLoop E p1 0 (a.drop argNum)).bind (fun p2 => fmtbuf.WriteSingleByte E p2 41))
  else .ok p

/-- The loop `formatLoop` of `doFormat` from index `i`, and what follows it. Every turn
moves `i` forward, so `fuel` turns are enough when `fuel` is more than `end - i`. -/
def formatLoop (E : FormatEnv) (format : GoString) (a : List Object) :
    Nat → pp → Nat → Nat → Printed
  | 0, p, _, argNum => formatExtra E a p argNum
  | fuel + 1, p, i, argNum =>
    if i < format.length then
      (if percentFrom (format.drop i) i > i then
        fmtbuf.WriteString E { p with goodArgNum := true }
          ((format.drop i).take (percentFrom (format.drop i) i - i))
       else .ok { p with goodArgNum := true }).bind (fun p1 =>
        if percentFrom (format.drop i) i ≥ format.length then formatExtra E a p1 argNum
        else
          match simpleFormat format a.length argNum (format.length - i)
              (formatter.clearFlags p1) (percentFrom (format.drop i) i + 1) with
          | (p2, i2, some c) =>
            match a[argNum]? with
            | some arg =>
              (pp.printArg E (if c = 118 then p2.verbV else p2) arg (c : Int)).bind
                (fun p3 => formatLoop E format a fuel p3 (i2 + 1) (argNum + 1))
            | none => .crash "index out of range"
          | (p2, i2, none) =>
            let r := pp.argNumber p2 argNum format i2 a.length
            formatWidth E format a r.1 r.2.2.1 r.2.1 r.2.2.2 (fun p3 i3 argNum3 after3 =>
              formatPrec E format a p3 i3 argNum3 after3 (fun p4 i4 argNum4 after4 =>
                formatVerb E format a p4 i4 argNum4 after4
                  (fun p5 i5 argNum5 => formatLoop E format a fuel p5 i5 argNum5)
                  (fun p5 argNum5 => formatExtra E a p5 argNum5))))
    else formatExtra E a p argNum

/-- `pp.doFormat`: the printer at the end with the error returned, or the panic that is
not `ErrStringLimit`. -/
def pp.doFormat (E : FormatEnv) (p : pp) (format : GoString) (a : List Object) :
    Outcome (pp × Option GoError) :=
  match formatLoop E format a (format.length + 1) { p with reordered := false } 0 0 with
  | .ok p1 => .ret (p1, none)
  | .limit p1 => .ret (p1, some .ErrStringLimit)
  | .crash msg => .panicked (.explicit msg)

/-- `newPrinter` on the printer `pooled` the pool hands out. A printer of the pool has an
empty buffer: `New` makes it so and `free` resets it. -/
def newPrinter (pooled : pp) : pp := formatter.clearFlags { pooled with buf := [] }

/-- `Format`: the string of the buffer and the error. -/
def Format (E : FormatEnv) (pooled : pp) (format : GoString) (a : List Object) :
    Outcome (GoString × Option GoError) :=
  match pp.doFormat E (newPrinter pooled) format a with
  | .ret (p, err) => .ret (p.buf, err)
  | .fail e => .fail e
  | .panicked x => .panicked x

/-- A printer as `new(pp)` makes it. -/
def newPP : pp := { buf := [], fmt := { flags := noFlags, wid := 0, prec := 0 },
                    reordered := false, goodArgNum := false }

/-- Library functions for evaluating examples that use none of them. -/
def sampleStrconv : Strconv :=
  { IsPrint := fun _ => false, CanBackquote := fun _ => false, QuoteToASCII := fun s => s,
    QuoteRune := fun _ => [], QuoteRuneToASCII := fun _ => [], AppendFloat := fun _ _ _ => [48] }

/-- An environment with the limit `MaxStringLen` chosen. -/
def sampleEnv (MaxStringLen : Int) : FormatEnv :=
  { F := sampleFormats, S := sampleStrconv, ToInt64 := sampleToInt, MaxStringLen := MaxStringLen }

/-- Spec side: the decimal digits of a natural number, most significant first, no leading
zero; `0` for zero. -/
def decimalNat (u : Nat) : GoString :=
  if u = 0 then [48] else (Nat.digits 10 u).reverse.map (fun d => 48 + d)

/-- Spec side: the decimal representation of an integer: the digits of its absolute value,
after a `-` when it is negative. -/
def decimalInt (n : Int) : GoString :=
  if n < 0 then 45 :: decimalNat n.natAbs else decimalNat n.natAbs

/-- An environment whose `strconv.FormatInt(v, 10)` is the decimal representation. -/
def decimalEnv (MaxStringLen : Int) : FormatEnv :=
  { F := { sampleFormats with FormatInt := decimalInt }, S := sampleStrconv,
    ToInt64 := sampleToInt, MaxStringLen := MaxStringLen }

/-! ## Keyword nodes of the AST (token/token.go, parser/stmt.go, parser/expr.go) -/

/-- The method `String` of a token: the entry of the table `tokens`. Every token of the
model has an entry that is not empty, so the case `token(n)` does not arise. -/
def tokenString : Token → GoString
  | .Illegal => utf8 "YASAKLI"
  | .EOF => utf8 "DOSYA_SONU"
  | .Comment => utf8 "YORUM"
  | .Ident => utf8 "BOŞLUK"
  | .Int => utf8 "SAYI"
  | .Float => utf8 "FLOAT"
  | .Char => utf8 "KARAKTER"
  | .String => utf8 "YAZI"
  | .Add => utf8 "+"
  | .Sub => utf8 "-"
  | .Mul => utf8 "*"
  | .Quo => utf8 "/"
  | .Rem => utf8 "%"
  | .And => utf8 "&"
  | .Or => utf8 "|"
  | .Xor => utf8 "^"
  | .Shl => utf8 "<<"
  | .Shr => utf8 ">>"
  | .AndNot => utf8 "&^"
  | .AddAssign => utf8 "+="
  | .SubAssign => utf8 "-="
  | .MulAssign => utf8 "*="
  | .QuoAssign => utf8 "/="
  | .RemAssign => utf8 "%="
  | .AndAssign => utf8 "&="
  | .OrAssign => utf8 "|="
  | .XorAssign => utf8 "^="
  | .ShlAssign => utf8 "<<="
  | .ShrAssign => utf8 ">>="
  | .AndNotAssign => utf8 "&^="
  | .LAnd => utf8 "&&"
  | .LOr => utf8 "||"
  | .Inc => utf8 "++"
  | .Dec => utf8 "--"
  | .Equal => utf8 "=="
  | .Less => utf8 "<"
  | .Greater => utf8 ">"
  | .Assign => utf8 "="
  | .Not => utf8 "!"
  | .NotEqual => utf8 "!="
  | .LessEq => utf8 "<="
  | .GreaterEq => utf8 ">="
  | .Define => utf8 ":="
  | .Ellipsis => utf8 "..."
  | .LParen => utf8 "("
  | .LBrack => utf8 "["
  | .LBrace => utf8 "\x7b"
  | .Comma => utf8 ","
  | .Period => utf8 "."
  | .RParen => utf8 ")"
  | .RBrack => utf8 "]"
  | .RBrace => utf8 "\x7d"
  | .Semicolon => utf8 ";"
  | .Colon => utf8 ":"
  | .Question => utf8 "?"
  | .Break => utf8 "dur"
  | .Continue => utf8 "devam"
  | .Else => utf8 "yoksa"
  | .For => utf8 "tekrarla"
  | .Func => utf8 "fn"
  | .Error => utf8 "hata"
  | .Immutable => utf8 "sabit"
  | .If => utf8 "eğer"
  | .Return => utf8 "dön"
  | .Export => utf8 "paylaş"
  | .True => utf8 "doğru"
  | .False => utf8 "yanlış"
  | .In => utf8 "in"
  | .Undefined => utf8 "tanımsız"
  | .Import => utf8 "kullan"

/-- An identifier node. -/
structure Ident where
  Name : GoString
  NamePos : Int
  deriving DecidableEq, Repr

/-- `Ident.End`. -/
def Ident.End (e : Ident) : Int := e.NamePos + (e.Name.length : Int)

/-- A `dur` or `devam` statement; `Label` is `none` for nil. -/
structure BranchStmt where
  Token : Lokum.Token
  TokenPos : Int
  Label : Option Ident
  deriving DecidableEq, Repr

/-- `BranchStmt.Pos`. -/
def BranchStmt.Pos (s : BranchStmt) : Int := s.TokenPos

/-- `BranchStmt.End`. -/
def BranchStmt.End (s : BranchStmt) : Int :=
  match s.Label with
  | some label => label.End
  | none => s.TokenPos + ((tokenString s.Token).length : Int)

/-- A `dön` statement; `Result` is `none` for nil, and otherwise the expression, of which
only `End()` is used. -/
structure ReturnStmt (Expr : Type) where
  ReturnPos : Int
  Result : Option Expr

/-- `ReturnStmt.Pos`. -/
def ReturnStmt.Pos {Expr : Type} (s : ReturnStmt Expr) : Int := s.ReturnPos

/-- `ReturnStmt.End`; `exprEnd` is the method `End` of the expressions. -/
def ReturnStmt.End {Expr : Type} (exprEnd : Expr → Int) (s : ReturnStmt Expr) : Int :=
  match s.Result with
  | some result => exprEnd result
  | none => s.ReturnPos + 6

/-- The literal `tanımsız`. -/
structure UndefinedLit where
  TokenPos : Int
  deriving DecidableEq, Repr

/-- `UndefinedLit.Pos`. -/
def UndefinedLit.Pos (e : UndefinedLit) : Int := e.TokenPos

/-- `UndefinedLit.End`. -/
def UndefinedLit.End (e : UndefinedLit) : Int := e.TokenPos + 9

/-! ## The builtin `f` (fonksiyonlar.go) -/

/-- The builtin `f`. With the format alone it returns the format object itself. -/
def builtinF (E : FormatEnv) (pooled : pp) (args : List Object) : Outcome Object :=
  match args with
  | [] => .fail .ErrWrongNumArguments
  | a0 :: rest =>
    match a0 with
    | .string format =>
      if rest.length + 1 = 1 then .ret (.string format)
      else
        match Format E pooled format rest with
        | .ret (s, none) => .ret (.string s)
        | .ret (_, some err) => .fail err
        | .fail e => .fail e
        | .panicked x => .panicked x
    | _ => .fail (.ErrInvalidArgumentType (ascii "format") (ascii "string") a0.TypeName)

/-! ## The builtins `uzunluk` and `birleştir` (fonksiyonlar.go) -/

/-- The builtin `uzunluk`. A length is a Go `int` that is not negative, so `int64(len(..))`
is the length. -/
def builtinUzunluk (args : List Object) : Outcome Object :=
  match args with
  | [arg] =>
    match arg with
    | .array Value => .ret (.int (Value.length : Int))
    | .immutableArray Value => .ret (.int (Value.length : Int))
    | .string Value => .ret (.int (Value.length : Int))
    | .bytes Value => .ret (.int (Value.length : Int))
    | .map Value => .ret (.int (Value.length : Int))
    | .immutableMap _ Value => .ret (.int (Value.length : Int))
    | _ =>
      .fail (.ErrInvalidArgumentType (ascii "first") (ascii "array/string/bytes/map")
        arg.TypeName)
  | _ => .fail .ErrWrongNumArguments

/-- The start index the builtin `birleştir` reads from the arguments after the array. -/
def spliceStart (arrayLen : Int) : List Object → Outcome Int
  | [] => .ret 0
  | arg1 :: _ =>
    match arg1 with
    | .int v => if v < 0 ∨ v > arrayLen then .fail .ErrIndexOutOfBounds else .ret v
    | _ => .fail (.ErrInvalidArgumentType (ascii "second") (ascii "int") arg1.TypeName)

/-- The delete count the builtin `birleştir` reads from the arguments after the array. -/
def spliceCount (arrayLen : Int) : List Object → Outcome Int
  | _ :: arg2 :: _ =>
    match arg2 with
    | .int v => if v < 0 then .fail .ErrIndexOutOfBounds else .ret v
    | _ => .fail (.ErrInvalidArgumentType (ascii "third") (ascii "int") arg2.TypeName)
  | _ => .ret arrayLen

/-- The builtin `birleştir`: the result, and the arguments after the call, the Array among
them with its new elements. The sum `startIdx + delCount` is a Go `int`. After the test
against `arrayLen` the end index is at most the length, and the start index is within the
length, so of the slice expressions only `array.Value[startIdx:endIdx]` can panic, when its
bounds are out of order. -/
def builtinBirlestir (args : List Object) : Outcome Object × List Object :=
  match args with
  | [] => (.fail .ErrWrongNumArguments, args)
  | a0 :: rest =>
    match a0 with
    | .array Value =>
      match spliceStart (Value.length : Int) rest with
      | .ret startIdx =>
        match spliceCount (Value.length : Int) rest with
        | .ret delCount0 =>
          let delCount :=
            if wrap64 (startIdx + delCount0) > (Value.length : Int)
            then wrap64 ((Value.length : Int) - startIdx) else delCount0
          let endIdx := wrap64 (startIdx + delCount)
          if endIdx < startIdx then (.panicked .sliceBoundsOutOfRange, args)
          else
            let deleted := (Value.toList.drop startIdx.toNat).take (endIdx.toNat - startIdx.toNat)
            let head := Value.toList.take startIdx.toNat
            let items := rest.drop 2 ++ Value.toList.drop endIdx.toNat
            (.ret (.array (ObjList.ofList deleted)),
              .array (ObjList.ofList (head ++ items)) :: rest)
        | .fail e => (.fail e, args)
        | .panicked p => (.panicked p, args)
      | .fail e => (.fail e, args)
      | .panicked p => (.panicked p, args)
    | _ => (.fail (.ErrInvalidArgumentType (ascii "first") (ascii "array") a0.TypeName), args)

/-! ## Positions in a source file (parser/source_file.go) -/

/-- A position of a file, as `Position` reports it. -/
structure SourceFilePos where
  Filename : String
  Offset : Nat
  Line : Nat
  Column : Nat
  deriving DecidableEq, Repr

/-- The loop `for i < j` of `searchInts`: the value of `i` at its end. Every turn makes
`j - i` smaller, so the length of the slice is fuel enough. -/
def searchLoop (a : List Nat) (x : Nat) : Nat → Nat → Nat → Nat
  | 0, i, _ => i
  | fuel + 1, i, j =>
    if i < j then
      if a.getD (i + (j - i) / 2) 0 ≤ x then searchLoop a x fuel (i + (j - i) / 2 + 1) j
      else searchLoop a x fuel i (i + (j - i) / 2)
    else i

/-- `searchInts`. -/
def searchInts (a : List Nat) (x : Nat) : Int := (searchLoop a x a.length 0 a.length : Int) - 1

/-- `SourceFile.unpack`. -/
def SourceFile.unpack (f : SourceFile) (offset : Nat) : String × Nat × Nat :=
  if searchInts f.Lines offset ≥ 0 then
    (f.Name, (searchInts f.Lines offset).toNat + 1,
      offset - f.Lines.getD (searchInts f.Lines offset).toNat 0 + 1)
  else (f.Name, 0, 0)

/-- `SourceFile.position`, for a position from the base of the file on. -/
def SourceFile.position (f : SourceFile) (p : Nat) : SourceFilePos :=
  { Offset := p - f.Base, Filename := (f.unpack (p - f.Base)).1,
    Line := (f.unpack (p - f.Base)).2.1, Column := (f.unpack (p - f.Base)).2.2 }

/-- `SourceFile.Position`; `none` is the panic, and the position `NoPos` has the zero
value. -/
def SourceFile.Position (NoPos : Nat) (f : SourceFile) (p : Nat) : Option SourceFilePos :=
  if p ≠ NoPos then
    if p < f.Base ∨ p > f.Base + f.Size then none else some (f.position p)
  else some { Filename := "", Offset := 0, Line := 0, Column := 0 }

/-- `SourceFile.LineStart`; `none` is the panic. -/
def SourceFile.LineStart (f : SourceFile) (line : Int) : Option Nat :=
  if line < 1 then none
  else if line > (f.Lines.length : Int) then none
  else some (f.Base + f.Lines.getD (line - 1).toNat 0)

/-- A file of 10 bytes at base 1 whose lines start at 0, 4 and 7. -/
def sampleLines : SourceFile := { Name := "a", Base := 1, Size := 10, Lines := [0, 4, 7] }

/-- Spec side: the number of entries of `Lines` that are at most `off`. -/
def lineOf (f : SourceFile) (off : Nat) : Nat := f.Lines.countP (fun y => decide (y ≤ off))

/-! ## Stored names (semboller.go) -/

/-- Every symbol of the chain is stored under its own name: so `Define`, `DefineBuiltin` and
`defineFree`, the only code that writes a store, leave it. -/
def namesOK (c : Chain) : Prop := ∀ t ∈ c, ∀ kv ∈ t.store, kv.2.Name = kv.1

/-! ## The measure of the scanner (parser/scanner.go) -/

/-- The bytes from the current character to the end of the input; none once the end marker
has been read. -/
def Scanner.rem (s : Scanner) : Nat := if s.ch = -1 then 0 else s.src.length - s.offset

/-- Two for every byte still in front of the scanner, one for a pending semicolon. -/
def Scanner.potential (s : Scanner) : Nat := 2 * s.rem + (if s.insertSemi then 1 else 0)

/-- The offsets as `next` leaves them: the current character starts at `offset`, before
`readOffset`, inside the source; at the end marker both are at the end of the source. -/
def Scanner.wf (s : Scanner) : Prop :=
  (s.ch ≠ -1 → s.offset < s.readOffset ∧ s.readOffset ≤ s.src.length) ∧
  (s.ch = -1 → s.offset = s.src.length ∧ s.src.length ≤ s.readOffset)

/-- From a scanner with coherent offsets: the same source, coherent offsets again, and no
byte given back. -/
def Scanner.fwd (s t : Scanner) : Prop := s.wf → t.src = s.src ∧ t.wf ∧ t.rem ≤ s.rem

/-- A scanner between two calls of `Scan`: the file has the size of the source and the
offsets are coherent. -/
def Scanner.ready (s : Scanner) : Prop := s.file.Size = s.src.length ∧ s.wf

/-- What the switch of `Scan` answers from the state `s` in terms of the measure: the end
of the input is answered only at the end marker with nothing pending, every other token
and every skipped comment takes at least one byte, and a semicolon for a line end takes a
byte or the pending flag. -/
def Scanned.prog (s : Scanner) : Scanned → Prop
  | .early tok _ s1 =>
    tok ≠ .EOF ∧ s1.wf ∧ s1.insertSemi = false ∧ s1.rem ≤ s.rem ∧
      (s.insertSemi = true ∨ s1.rem < s.rem)
  | .normal tok _ ins s1 =>
    s1.wf ∧ ((tok = .EOF ∧ ins = false ∧ s1.insertSemi = false ∧ s1.ch = -1) ∨
      (tok ≠ .EOF ∧ s1.rem < s.rem))
  | .again s1 => s1.wf ∧ s1.rem < s.rem

/-- The switch of `Scan` answers, without a panic, and its answer is `Scanned.prog`. -/
def Scanner.advances (s : Scanner) (o : Option Scanned) : Prop :=
  ∃ r, o = some r ∧ r.prog s

/-- Every loop of the scanner, started in the state `s` with the fuel `Scan` gives it, ends
by its own condition: more fuel gives the same result. -/
def Scanner.loopsEnd (U : Unicode) (s : Scanner) : Prop :=
  ∀ k : Nat,
    Scanner.skipWhitespace (s.src.length + 1 + k) s
      = Scanner.skipWhitespace (s.src.length + 1) s ∧
    Scanner.identLoop U (s.src.length + 1 + k) s = Scanner.identLoop U (s.src.length + 1) s ∧
    (∀ base : Int, base ≤ 16 →
      Scanner.scanDigits base (s.src.length + 1 + k) s
        = Scanner.scanDigits base (s.src.length + 1) s) ∧
    (∀ (offs : Nat) (valid : Bool) (n : Nat),
      Scanner.runeLoop offs (s.src.length + 1 + k) valid n s
        = Scanner.runeLoop offs (s.src.length + 1) valid n s) ∧
    (∀ offs : Nat,
      Scanner.stringLoop offs (s.src.length + 1 + k) s
        = Scanner.stringLoop offs (s.src.length + 1) s) ∧
    (∀ (offs : Nat) (hasCR : Bool),
      Scanner.rawLoop offs (s.src.length + 1 + k) hasCR s
        = Scanner.rawLoop offs (s.src.length + 1) hasCR s) ∧
    (∀ numCR : Nat,
      Scanner.lineCommentLoop (s.src.length + 1 + k) numCR s
        = Scanner.lineCommentLoop (s.src.length + 1) numCR s) ∧
    (∀ numCR : Nat,
      Scanner.blockCommentLoop (s.src.length + 1 + k) numCR s
        = Scanner.blockCommentLoop (s.src.length + 1) numCR s) ∧
    Scanner.lineEndInner (s.src.length + 1 + k) s
      = Scanner.lineEndInner (s.src.length + 1) s ∧
    Scanner.lineEndOuter (s.src.length + 1 + k) s
      = Scanner.lineEndOuter (s.src.length + 1) s ∧
    (s.file.Size = s.src.length →
      Scanner.scanFuel U (s.src.length + 1 + k) s = Scanner.scanFuel U (s.src.length + 1) s)

/-! ## Theorems: integer arithmetic -/

theorem wrap64_isInt64 (x : Int) : isInt64 (wrap64 x) := by
  unfold isInt64 wrap64
  omega

theorem wrap64_emod (x : Int) : wrap64 x % 2 ^ 64 = x % 2 ^ 64 := by
  unfold wrap64
  omega

theorem wrap64_of_isInt64 (x : Int) (h : isInt64 x) : wrap64 x = x := by
  unfold isInt64 at h
  unfold wrap64
  omega

/-- C8: for an Int value a and any right operand b, `Int.BinaryOp` with Add, Sub and Mul
returns without error an Int inside the signed 64-bit range that is congruent modulo 2^64 to
a+b, a-b and a*b; the short-circuit that hands back the receiver returns that same value. -/
theorem c8_int_arith_wraps (F : FloatOps) (a b : Int) (ha : isInt64 a) :
    (∃ r, Int.BinaryOp F a .Add (.int b) = .ret (.int r) ∧ isInt64 r ∧
        r % 2 ^ 64 = (a + b) % 2 ^ 64) ∧
    (∃ r, Int.BinaryOp F a .Sub (.int b) = .ret (.int r) ∧ isInt64 r ∧
        r % 2 ^ 64 = (a - b) % 2 ^ 64) ∧
    (∃ r, Int.BinaryOp F a .Mul (.int b) = .ret (.int r) ∧ isInt64 r ∧
        r % 2 ^ 64 = (a * b) % 2 ^ 64) := by
  have key : ∀ x : Int, ∃ r, (if wrap64 x = a then Outcome.ret (Object.int a)
      else Outcome.ret (Object.int (wrap64 x))) = .ret (.int r) ∧ isInt64 r ∧
      r % 2 ^ 64 = x % 2 ^ 64 := by
    intro x
    by_cases h : wrap64 x = a
    · refine ⟨a, by simp [h], ha, ?_⟩
      rw [← h]
      exact wrap64_emod x
    · exact ⟨wrap64 x, by simp [h], wrap64_isInt64 x, wrap64_emod x⟩
  exact ⟨key (a + b), key (a - b), key (a * b)⟩

theorem c8_int_arith_wraps_witness :
    (∃ r, Int.BinaryOp noFloatOps (2 ^ 63 - 1) .Add (.int 1) = .ret (.int r) ∧ isInt64 r ∧
        r % 2 ^ 64 = (2 ^ 63 - 1 + 1) % 2 ^ 64) ∧
    (∃ r, Int.BinaryOp noFloatOps (2 ^ 63 - 1) .Sub (.int 1) = .ret (.int r) ∧ isInt64 r ∧
        r % 2 ^ 64 = (2 ^ 63 - 1 - 1) % 2 ^ 64) ∧
    (∃ r, Int.BinaryOp noFloatOps (2 ^ 63 - 1) .Mul (.int 1) = .ret (.int r) ∧ isInt64 r ∧
        r % 2 ^ 64 = ((2 ^ 63 - 1) * 1) % 2 ^ 64) :=
  c8_int_arith_wraps noFloatOps (2 ^ 63 - 1) 1 (by decide)


theorem tmod_sign_bound (a b : Int) (hb : b ≠ 0) :
    (Int.tmod a b).natAbs < b.natAbs ∧
    (Int.tmod a b = 0 ∨ (0 < Int.tmod a b ∧ 0 < a) ∨ (Int.tmod a b < 0 ∧ a < 0)) := by
  cases a with
  | ofNat m =>
    cases b with
    | ofNat n =>
      have hn : 0 < n := by
        rcases Nat.eq_zero_or_pos n with h | h
        · subst h; exact absurd rfl hb
        · exact h
      have h1 := Nat.mod_lt m hn
      have h2 : Int.tmod (Int.ofNat m) (Int.ofNat n) = ((m % n : Nat) : Int) := rfl
      rw [h2]
      simp only [Int.ofNat_eq_coe, Int.natAbs_ofNat]
      refine ⟨h1, ?_⟩
      have h3 := Nat.mod_le m n
      omega
    | negSucc n =>
      have h1 := Nat.mod_lt m (Nat.succ_pos n)
      have h2 : Int.tmod (Int.ofNat m) (Int.negSucc n) = ((m % (n+1) : Nat) : Int) := rfl
      rw [h2]
      simp only [Int.ofNat_eq_coe, Int.natAbs_ofNat, Int.natAbs_negSucc]
      refine ⟨h1, ?_⟩
      have h3 := Nat.mod_le m (n+1)
      omega
  | negSucc m =>
    cases b with
    | ofNat n =>
      have hn : 0 < n := by
        rcases Nat.eq_zero_or_pos n with h | h
        · subst h; exact absurd rfl hb
        · exact h
      have h1 := Nat.mod_lt (m+1) hn
      have h2 : Int.tmod (Int.negSucc m) (Int.ofNat n) = -(((m+1) % n : Nat) : Int) := rfl
      rw [h2]
      simp only [Int.ofNat_eq_coe, Int.natAbs_ofNat, Int.natAbs_neg]
      refine ⟨h1, ?_⟩
      have h4 : Int.negSucc m < 0 := Int.negSucc_lt_zero m
      omega
    | negSucc n =>
      have h1 := Nat.mod_lt (m+1) (Nat.succ_pos n)
      have h2 : Int.tmod (Int.negSucc m) (Int.negSucc n) = -(((m+1) % (n+1) : Nat) : Int) := rfl
      rw [h2]
      simp only [Int.natAbs_ofNat, Int.natAbs_neg, Int.natAbs_negSucc]
      refine ⟨h1, ?_⟩
      have h4 : Int.negSucc m < 0 := Int.negSucc_lt_zero m
      omega

theorem tdiv_natAbs_le (a b : Int) : (Int.tdiv a b).natAbs ≤ a.natAbs := by
  rw [Int.natAbs_tdiv]
  exact Nat.div_le_self _ _

theorem tdiv_isInt64 (a b : Int) (ha : isInt64 a) (h : ¬ (a = -(2 ^ 63) ∧ b = -1)) :
    isInt64 (Int.tdiv a b) := by
  have h1 := tdiv_natAbs_le a b
  have h2 := Int.natAbs_tdiv a b
  unfold isInt64 at ha ⊢
  by_cases hq : Int.tdiv a b = 2 ^ 63
  · exfalso
    have h3 : (Int.tdiv a b).natAbs = 2 ^ 63 := by rw [hq]; rfl
    have h4 : a.natAbs = 2 ^ 63 := by omega
    have h5 : a = -(2 ^ 63) := by omega
    apply h
    refine ⟨h5, ?_⟩
    have h6 : b.natAbs = 1 := by
      by_contra hne
      rcases Nat.lt_or_ge b.natAbs 1 with hlt | hge
      · have hz : b.natAbs = 0 := by omega
        have hdz : (a.natAbs).div (b.natAbs) = 0 := by rw [hz]; exact Nat.div_zero _
        omega
      · have hlt : 1 < b.natAbs := by omega
        have := Nat.div_lt_self (n := a.natAbs) (k := b.natAbs) (by omega) hlt
        have hd : (a.natAbs).div (b.natAbs) = a.natAbs / b.natAbs := rfl
        omega
    rcases Int.natAbs_eq b with hb | hb
    · exfalso
      rw [h6] at hb
      have hb1 : b = 1 := by simpa using hb
      rw [hb1, Int.tdiv_one] at hq
      omega
    · rw [h6] at hb
      simpa using hb
  · omega

/-- C9: for Int a and Int b other than 0, `/` returns the quotient truncated toward zero,
wrapped to 64 bits, and `%` a remainder r with a = (a/b)*b + r modulo 2^64 (exactly, unless
a is the least int64 and b is -1), |r| < |b|, and r zero or of the sign of a. -/
theorem c9_int_quo_rem (F : FloatOps) (a b : Int) (ha : isInt64 a) (hb : isInt64 b)
    (hb0 : b ≠ 0) :
    ∃ q r, Int.BinaryOp F a .Quo (.int b) = .ret (.int q) ∧
      Int.BinaryOp F a .Rem (.int b) = .ret (.int r) ∧
      q = wrap64 (Int.tdiv a b) ∧ isInt64 q ∧ isInt64 r ∧
      (¬ (a = -(2 ^ 63) ∧ b = -1) → q = Int.tdiv a b ∧ q * b + r = a) ∧
      (q * b + r) % 2 ^ 64 = a % 2 ^ 64 ∧
      r.natAbs < b.natAbs ∧
      (r = 0 ∨ (0 < r ∧ 0 < a) ∨ (r < 0 ∧ a < 0)) := by
  have hr := tmod_sign_bound a b hb0
  have hrange : isInt64 (Int.tmod a b) := by
    unfold isInt64 at hb ⊢
    omega
  have hrw : wrap64 (Int.tmod a b) = Int.tmod a b := wrap64_of_isInt64 _ hrange
  have hsum : Int.tdiv a b * b + Int.tmod a b = a := Int.tdiv_add_tmod' a b
  refine ⟨wrap64 (Int.tdiv a b), Int.tmod a b, ?_, ?_, rfl, wrap64_isInt64 _, hrange, ?_, ?_,
    hr.1, hr.2⟩
  · simp only [Int.BinaryOp, hb0, if_false]
    split <;> simp_all
  · simp only [Int.BinaryOp, hb0, if_false, hrw]
    split <;> simp_all
  · intro hno
    have := wrap64_of_isInt64 _ (tdiv_isInt64 a b ha hno)
    rw [this]
    exact ⟨rfl, hsum⟩
  · have h1 : Int.ModEq (2 ^ 64) (wrap64 (Int.tdiv a b)) (Int.tdiv a b) := wrap64_emod _
    have h2 := (h1.mul_right b).add_right (Int.tmod a b)
    rw [hsum] at h2
    exact h2

theorem c9_int_quo_rem_witness :
    ∃ q r, Int.BinaryOp noFloatOps (-7) .Quo (.int 2) = .ret (.int q) ∧
      Int.BinaryOp noFloatOps (-7) .Rem (.int 2) = .ret (.int r) ∧
      q = wrap64 (Int.tdiv (-7) 2) ∧ isInt64 q ∧ isInt64 r ∧
      (¬ ((-7 : Int) = -(2 ^ 63) ∧ (2 : Int) = -1) → q = Int.tdiv (-7) 2 ∧ q * 2 + r = -7) ∧
      (q * 2 + r) % 2 ^ 64 = (-7) % 2 ^ 64 ∧
      r.natAbs < (2 : Int).natAbs ∧
      (r = 0 ∨ (0 < r ∧ 0 < (-7 : Int)) ∨ (r < 0 ∧ (-7 : Int) < 0)) :=
  c9_int_quo_rem noFloatOps (-7) 2 (by decide) (by decide) (by decide)

/-- C10 (as stated, refuted): with right operand Int 0 the operator `/` returns no error;
the call panics with Go's integer divide by zero. -/
theorem c10_counterexample :
    Int.BinaryOp noFloatOps 1 .Quo (.int 0) = .panicked .divideByZero ∧
    ¬ ∃ e, Int.BinaryOp noFloatOps 1 .Quo (.int 0) = .fail e := by
  have h : Int.BinaryOp noFloatOps 1 .Quo (.int 0) = .panicked .divideByZero := by decide
  refine ⟨h, ?_⟩
  rintro ⟨e, he⟩
  rw [h] at he
  cases he

/-- C10 (amended): for every Int a, `Int.BinaryOp` with `/` or `%` and right operand Int 0
returns neither a value nor an error: the Go division panics (integer divide by zero) and
the panic leaves `BinaryOp`. -/
theorem c10_div_by_zero_panics (F : FloatOps) (a : Int) :
    Int.BinaryOp F a .Quo (.int 0) = .panicked .divideByZero ∧
    Int.BinaryOp F a .Rem (.int 0) = .panicked .divideByZero := by
  constructor <;> simp [Int.BinaryOp]

/-! ## Theorems: symbol tables -/

theorem nextIndex_isSome (c : Chain) (h : hasFunc c = true) : ∃ k, nextIndex c = some k := by
  induction c with
  | nil => simp [hasFunc] at h
  | cons t ps ih =>
    by_cases hb : t.block = true
    · have h2 : hasFunc ps = true := by simpa [hasFunc, hb] using h
      obtain ⟨k, hk⟩ := ih h2
      exact ⟨k + t.numDefinition, by simp [nextIndex, hb, hk]⟩
    · exact ⟨t.numDefinition, by simp [nextIndex, hb]⟩

theorem updateMaxDefs_isSome (c : Chain) (n : Nat) (h : hasFunc c = true) :
    ∃ c1, updateMaxDefs c n = some c1 := by
  induction c with
  | nil => simp [hasFunc] at h
  | cons t ps ih =>
    by_cases hb : t.block = true
    · have h2 : hasFunc ps = true := by simpa [hasFunc, hb] using h
      obtain ⟨c1, hc1⟩ := ih h2
      refine ⟨(if n > t.maxDefinition then { t with maxDefinition := n } else t) :: c1, ?_⟩
      have hb1 : (if n > t.maxDefinition then { t with maxDefinition := n } else t).block
          = true := by split <;> simp [hb]
      simp [updateMaxDefs, hb1, hc1]
    · refine ⟨(if n > t.maxDefinition then { t with maxDefinition := n } else t) :: ps, ?_⟩
      have hb1 : (if n > t.maxDefinition then { t with maxDefinition := n } else t).block
          = false := by split <;> simp [hb]
      simp [updateMaxDefs, hb1]

theorem bumpRoot_blocks (ps : Chain) :
    (bumpRoot ps).map (fun t => t.block) = ps.map (fun t => t.block) := by
  induction ps with
  | nil => rfl
  | cons p qs ih =>
    cases qs with
    | nil => rfl
    | cons q rs => simp only [bumpRoot, List.map_cons] at ih ⊢; rw [ih]

theorem hasFunc_eq_map (c : Chain) :
    hasFunc c = (c.map (fun t => t.block)).any (fun b => !b) := by
  induction c with
  | nil => rfl
  | cons t ps ih =>
    simp only [hasFunc, List.any_cons, List.map_cons] at ih ⊢
    rw [ih]

theorem hasFunc_congr (c d : Chain)
    (h : c.map (fun t => t.block) = d.map (fun t => t.block)) : hasFunc c = hasFunc d := by
  rw [hasFunc_eq_map c, hasFunc_eq_map d, h]

theorem Parent_skip (bs : List SymbolTable) (f : SymbolTable) (rest : Chain)
    (hbs : ∀ b ∈ bs, b.block = true) (hf : f.block = false) :
    Parent (bs ++ f :: rest) true = some rest := by
  induction bs with
  | nil => simp [Parent, hf]
  | cons b bs ih =>
    have hb : b.block = true := hbs b (List.mem_cons_self _ _)
    have := ih (fun x hx => hbs x (List.mem_cons_of_mem _ hx))
    simp [Parent, hb, this]

theorem hasFunc_append (bs : List SymbolTable) (f : SymbolTable) (rest : Chain)
    (hf : f.block = false) : hasFunc (bs ++ f :: rest) = true := by
  simp [hasFunc, hf]

/-- C4 (as stated, refuted): `Define` on a block fork of the root returns a GLOBAL symbol,
not a LOCAL one. -/
theorem c4_counterexample :
    (Define (Fork NewSymbolTable true) "x").map (fun r => r.2.Scope)
      = some SymbolScope.ScopeGlobal := by
  decide

theorem exists_map_pair {o : Option Chain} (S : Symbol) (h : o.isSome = true) :
    ∃ c1, o.map (fun c3 => (c3, S)) = some (c1, S) := by
  cases o with
  | none => simp at h
  | some c => exact ⟨c, rfl⟩

theorem updateMaxDefs_isSome_of_blocks (c d : Chain) (n : Nat) (h : hasFunc d = true)
    (hcd : c.map (fun t => t.block) = d.map (fun t => t.block)) :
    (updateMaxDefs c n).isSome = true := by
  obtain ⟨c1, hc1⟩ := updateMaxDefs_isSome c n ((hasFunc_congr c d hcd).trans h)
  simp [hc1]

/-- What `Define` returns when the walk to the enclosing function table or root succeeds. -/
theorem Define_some (t : SymbolTable) (ps rest : Chain) (name : String) (k : Nat)
    (hk : nextIndex (t :: ps) = some k) (hpar : Parent (t :: ps) true = some rest)
    (hfun : hasFunc (t :: ps) = true) :
    ∃ c1, Define (t :: ps) name = some (c1,
      { Name := name,
        Scope := if rest.isEmpty then SymbolScope.ScopeGlobal else SymbolScope.ScopeLocal,
        Index := k, LocalAssigned := false }) := by
  have hpar1 : Parent ({ t with numDefinition := t.numDefinition + 1 } :: ps) true
      = some rest := by
    simpa [Parent] using hpar
  simp only [Define, hk, hpar1]
  by_cases hrest : rest.isEmpty = true
  · simp only [hrest, if_true]
    apply exists_map_pair
    apply updateMaxDefs_isSome_of_blocks _ (t :: ps) _ hfun
    cases ps with
    | nil => simp
    | cons p qs => simp [bumpRoot_blocks]
  · simp only [hrest]
    apply exists_map_pair
    apply updateMaxDefs_isSome_of_blocks _ (t :: ps) _ hfun
    simp

/-- C4 (amended): on a chain made of block tables `bs`, then a table `f` that is not a
block, then the ancestors `rest` of `f`, `Define` returns a symbol of the given name whose
scope is GLOBAL when `f` is the root (so on the root itself and on every table reached from
the root through block forks only) and LOCAL when `f` has a parent (on a function table and
on every block nested in one). -/
theorem c4_define_scope (bs : List SymbolTable) (f : SymbolTable) (rest : Chain)
    (name : String) (hbs : ∀ b ∈ bs, b.block = true) (hf : f.block = false) :
    ∃ c1 sym, Define (bs ++ f :: rest) name = some (c1, sym) ∧ sym.Name = name ∧
      (rest = [] → sym.Scope = SymbolScope.ScopeGlobal) ∧
      (rest ≠ [] → sym.Scope = SymbolScope.ScopeLocal) := by
  obtain ⟨k, hk⟩ := nextIndex_isSome (bs ++ f :: rest) (hasFunc_append bs f rest hf)
  have hpar := Parent_skip bs f rest hbs hf
  have hfun := hasFunc_append bs f rest hf
  cases hc : bs ++ f :: rest with
  | nil => simp at hc
  | cons t ps =>
    rw [hc] at hk hpar hfun
    obtain ⟨c1, h1⟩ := Define_some t ps rest name k hk hpar hfun
    refine ⟨c1, _, h1, rfl, ?_, ?_⟩
    · intro h
      simp [h]
    · intro h
      cases rest with
      | nil => exact absurd rfl h
      | cons _ _ => simp

theorem c4_define_scope_witness :
    ∃ c1 sym, Define ([] ++ (SymbolTable.mk false [] 0 0 [] []) :: NewSymbolTable) "x"
        = some (c1, sym) ∧ sym.Name = "x" ∧
      (NewSymbolTable = [] → sym.Scope = SymbolScope.ScopeGlobal) ∧
      (NewSymbolTable ≠ [] → sym.Scope = SymbolScope.ScopeLocal) :=
  c4_define_scope [] (SymbolTable.mk false [] 0 0 [] []) NewSymbolTable "x" (by simp) rfl

theorem storeGet_storeSet_same (store : List (String × Symbol)) (name : String) (s : Symbol) :
    storeGet (storeSet store name s) name = some s := by
  simp [storeGet, storeSet, List.lookup]

theorem lookup_filter_ne (store : List (String × Symbol)) (name m : String) (h : m ≠ name) :
    List.lookup m (store.filter (fun kv => kv.1 != name)) = List.lookup m store := by
  induction store with
  | nil => rfl
  | cons kv rest ih =>
    obtain ⟨k, v⟩ := kv
    by_cases hk : k = name
    · subst hk
      have hmk : (m == k) = false := by simpa using h
      simp [List.filter, List.lookup, hmk, ih]
    · have hkn : (k != name) = true := by simpa using hk
      simp only [List.filter, hkn, List.lookup]
      rw [ih]

theorem storeGet_storeSet_other (store : List (String × Symbol)) (name m : String)
    (s : Symbol) (h : m ≠ name) :
    storeGet (storeSet store name s) m = storeGet store m := by
  have hmk : (m == name) = false := by simpa using h
  simp only [storeGet, storeSet, List.lookup, hmk]
  exact lookup_filter_ne store name m h

/-- Along block tables that do not store the name, `Resolve(name, true)` hands the symbol
of the first ancestor that stores it back unchanged and changes no table. -/
theorem Resolve_through_blocks (bs : List SymbolTable) (a : SymbolTable) (rest : Chain)
    (name : String) (sym : Symbol)
    (hbs : ∀ b ∈ bs, b.block = true ∧ storeGet b.store name = none)
    (ha : storeGet a.store name = some sym) :
    Resolve (bs ++ a :: rest) name true = (bs ++ a :: rest, some (sym, bs.length)) := by
  induction bs with
  | nil => simp [Resolve, directHit, ha]
  | cons b bs ih =>
    have hb := hbs b (List.mem_cons_self _ _)
    have ih1 := ih (fun x hx => hbs x (List.mem_cons_of_mem _ hx))
    simp [Resolve, directHit, promotes, hb.1, hb.2, ih1]

/-- C5: `Resolve(name, false)` on a block fork `t` whose own store gives no usable hit, when
the first ancestor `a` that stores the name is reached through block forks `bs` only: the
call returns the very symbol `a` stores (found, same scope, so LOCAL for a local of the
enclosing function, same index) and leaves every table of the chain, hence every
FreeSymbols list, as it was. -/
theorem c5_block_no_promotion (t : SymbolTable) (bs : List SymbolTable) (a : SymbolTable)
    (rest : Chain) (name : String) (sym : Symbol)
    (ht : t.block = true) (hown : directHit t name false = none)
    (hbs : ∀ b ∈ bs, b.block = true ∧ storeGet b.store name = none)
    (ha : storeGet a.store name = some sym) :
    Resolve (t :: (bs ++ a :: rest)) name false
      = (t :: (bs ++ a :: rest), some (sym, bs.length + 1)) ∧
    (Resolve (t :: (bs ++ a :: rest)) name false).1.map (fun x => x.freeSymbols)
      = (t :: (bs ++ a :: rest)).map (fun x => x.freeSymbols) := by
  have h1 := Resolve_through_blocks bs a rest name sym hbs ha
  have h2 : Resolve (t :: (bs ++ a :: rest)) name false
      = (t :: (bs ++ a :: rest), some (sym, bs.length + 1)) := by
    simp [Resolve, hown, h1, ht, promotes]
  exact ⟨h2, by rw [h2]⟩

theorem c5_block_no_promotion_witness :
    Resolve (SymbolTable.mk true [] 0 0 [] [] ::
        ([] ++ SymbolTable.mk false [("x", Symbol.mk "x" .ScopeLocal 0 true)] 1 1 [] [] ::
          NewSymbolTable)) "x" false
      = (SymbolTable.mk true [] 0 0 [] [] ::
        ([] ++ SymbolTable.mk false [("x", Symbol.mk "x" .ScopeLocal 0 true)] 1 1 [] [] ::
          NewSymbolTable), some (Symbol.mk "x" .ScopeLocal 0 true, ([] : List SymbolTable).length + 1)) ∧
    (Resolve (SymbolTable.mk true [] 0 0 [] [] ::
        ([] ++ SymbolTable.mk false [("x", Symbol.mk "x" .ScopeLocal 0 true)] 1 1 [] [] ::
          NewSymbolTable)) "x" false).1.map (fun x => x.freeSymbols)
      = (SymbolTable.mk true [] 0 0 [] [] ::
        ([] ++ SymbolTable.mk false [("x", Symbol.mk "x" .ScopeLocal 0 true)] 1 1 [] [] ::
          NewSymbolTable)).map (fun x => x.freeSymbols) :=
  c5_block_no_promotion (SymbolTable.mk true [] 0 0 [] []) []
    (SymbolTable.mk false [("x", Symbol.mk "x" .ScopeLocal 0 true)] 1 1 [] [])
    NewSymbolTable "x" (Symbol.mk "x" .ScopeLocal 0 true) rfl rfl
    (by simp) rfl

theorem Resolve_hit (t : SymbolTable) (ps : Chain) (name : String) (recur : Bool)
    (s : Symbol) (h : directHit t name recur = some s) :
    Resolve (t :: ps) name recur = (t :: ps, some (s, 0)) := by
  simp [Resolve, h]

theorem Resolve_root_miss (t : SymbolTable) (name : String) (recur : Bool)
    (h : directHit t name recur = none) :
    Resolve [t] name recur = ([t], none) := by
  simp [Resolve, h]

theorem Resolve_miss (t : SymbolTable) (ps ps1 : Chain) (name : String) (recur : Bool)
    (h : directHit t name recur = none) (hps : ps ≠ [])
    (hr : Resolve ps name true = (ps1, none)) :
    Resolve (t :: ps) name recur = (t :: ps1, none) := by
  have hne : ps.isEmpty = false := by
    cases ps with
    | nil => exact absurd rfl hps
    | cons _ _ => rfl
  simp [Resolve, h, hne, hr]

theorem Resolve_found (t : SymbolTable) (ps ps1 : Chain) (name : String) (recur : Bool)
    (s : Symbol) (d : Nat)
    (h : directHit t name recur = none) (hps : ps ≠ [])
    (hr : Resolve ps name true = (ps1, some (s, d))) :
    Resolve (t :: ps) name recur =
      if promotes t (d + 1) s then
        ((defineFree t s).1 :: ps1, some ((defineFree t s).2, d + 1))
      else (t :: ps1, some (s, d + 1)) := by
  have hne : ps.isEmpty = false := by
    cases ps with
    | nil => exact absurd rfl hps
    | cons _ _ => rfl
  simp [Resolve, h, hne, hr]

theorem Resolve_nil_chain (name : String) (recur : Bool) :
    Resolve [] name recur = ([], none) := by
  simp [Resolve]

theorem directHit_recur (t : SymbolTable) (name : String) :
    directHit t name true = storeGet t.store name := by
  unfold directHit
  cases storeGet t.store name <;> simp

/-- A miss, and a hit of scope GLOBAL or BUILTIN, leave the whole chain as it was. -/
theorem Resolve_unchanged (c : Chain) (name : String) (recur : Bool) :
    ((Resolve c name recur).2 = none ∨
      (∃ s d, (Resolve c name recur).2 = some (s, d) ∧
        (s.Scope = SymbolScope.ScopeGlobal ∨ s.Scope = SymbolScope.ScopeBuiltin))) →
    (Resolve c name recur).1 = c := by
  induction c generalizing recur with
  | nil => intro _; rfl
  | cons t ps ih =>
    intro h
    cases hd : directHit t name recur with
    | some s => rw [Resolve_hit t ps name recur s hd]
    | none =>
      by_cases hps : ps = []
      · subst hps
        rw [Resolve_root_miss t name recur hd]
      · cases hr : Resolve ps name true with
        | mk ps1 r =>
          have ih1 := ih true
          rw [hr] at ih1
          cases r with
          | none =>
            rw [Resolve_miss t ps ps1 name recur hd hps hr]
            have := ih1 (Or.inl rfl)
            simp only at this
            rw [this]
          | some sd =>
            obtain ⟨s, d⟩ := sd
            rw [Resolve_found t ps ps1 name recur s d hd hps hr] at h ⊢
            by_cases hp : promotes t (d + 1) s = true
            · exfalso
              simp only [hp, if_true] at h
              simp [defineFree] at h
            · simp only [hp] at h ⊢
              have hsc : s.Scope = SymbolScope.ScopeGlobal ∨
                  s.Scope = SymbolScope.ScopeBuiltin := by simpa using h
              have := ih1 (Or.inr ⟨s, d, rfl, hsc⟩)
              simp only at this
              simp [this]

/-- Scopes that are captured when a function boundary is crossed. -/
theorem promotes_iff (t : SymbolTable) (d : Nat) (s : Symbol) :
    promotes t (d + 1) s = true ↔
      (t.block = false ∧ s.Scope ≠ SymbolScope.ScopeGlobal ∧
        s.Scope ≠ SymbolScope.ScopeBuiltin) := by
  simp [promotes, and_assoc]

theorem nearest_cons_none (t : SymbolTable) (ps : Chain) (name : String)
    (h : storeGet t.store name = none) : nearest (t :: ps) name = nearest ps name := by
  simp [nearest, h]

theorem nearest_cons_some (t : SymbolTable) (ps : Chain) (name : String) (s : Symbol)
    (h : storeGet t.store name = some s) : nearest (t :: ps) name = some s := by
  simp [nearest, h]

theorem nearest_cons_congr (t t1 : SymbolTable) (ps ps1 : Chain) (m : String)
    (h1 : storeGet t1.store m = storeGet t.store m) (h2 : nearest ps1 m = nearest ps m) :
    nearest (t1 :: ps1) m = nearest (t :: ps) m := by
  simp only [nearest, h1, h2]

theorem defineFree_store_other (t : SymbolTable) (s : Symbol) (m : String)
    (h : m ≠ s.Name) : storeGet (defineFree t s).1.store m = storeGet t.store m := by
  simp only [defineFree]
  exact storeGet_storeSet_other _ _ _ _ h

theorem defineFree_store_same (t : SymbolTable) (s : Symbol) :
    storeGet (defineFree t s).1.store s.Name = some (defineFree t s).2 := by
  simp only [defineFree]
  exact storeGet_storeSet_same _ _ _

/-- What the ancestors answer to `Resolve(name, true)` when the first of them that stores
the name stores `h` under it. -/
theorem Resolve_ancestors (ps : Chain) (name : String) (h : Symbol)
    (hn : nearest ps name = some h) (hname : h.Name = name) :
    ∃ ps1 s d, Resolve ps name true = (ps1, some (s, d)) ∧ s.Name = name ∧
      nearest ps1 name = some s ∧
      ((h.Scope = SymbolScope.ScopeLocal ∨ h.Scope = SymbolScope.ScopeFree) →
        (s.Scope = SymbolScope.ScopeLocal ∨ s.Scope = SymbolScope.ScopeFree)) ∧
      ((h.Scope = SymbolScope.ScopeGlobal ∨ h.Scope = SymbolScope.ScopeBuiltin) →
        s = h ∧ ps1 = ps) ∧
      (∀ m, m ≠ name → nearest ps1 m = nearest ps m) := by
  induction ps with
  | nil => simp [nearest] at hn
  | cons p qs ih =>
    cases hst : storeGet p.store name with
    | some sym =>
      have hsym : sym = h := by
        rw [nearest_cons_some p qs name sym hst] at hn
        exact Option.some.inj hn
      subst hsym
      have hd : directHit p name true = some sym := by rw [directHit_recur]; exact hst
      exact ⟨p :: qs, sym, 0, Resolve_hit p qs name true sym hd, hname,
        nearest_cons_some p qs name sym hst, fun hh => hh, fun _ => ⟨rfl, rfl⟩,
        fun _ _ => rfl⟩
    | none =>
      have hn1 : nearest qs name = some h := by
        rw [nearest_cons_none p qs name hst] at hn
        exact hn
      have hqs : qs ≠ [] := by
        intro hq
        subst hq
        simp [nearest] at hn1
      obtain ⟨qs1, s0, d0, hr, hs0, hnear, hcap, hglob, hother⟩ := ih hn1
      have hd : directHit p name true = none := by rw [directHit_recur]; exact hst
      have hres := Resolve_found p qs qs1 name true s0 d0 hd hqs hr
      by_cases hp : promotes p (d0 + 1) s0 = true
      · rw [if_pos hp] at hres
        have hp1 := (promotes_iff p d0 s0).1 hp
        refine ⟨(defineFree p s0).1 :: qs1, (defineFree p s0).2, d0 + 1, hres, ?_, ?_, ?_,
          ?_, ?_⟩
        · simp [defineFree, hs0]
        · apply nearest_cons_some
          have := defineFree_store_same p s0
          rw [hs0] at this
          exact this
        · intro _
          right
          simp [defineFree]
        · intro hg
          exfalso
          have := (hglob hg).1
          rw [this] at hp1
          rcases hg with hg | hg
          · exact hp1.2.1 hg
          · exact hp1.2.2 hg
        · intro m hm
          apply nearest_cons_congr
          · exact defineFree_store_other p s0 m (by rw [hs0]; exact hm)
          · exact hother m hm
      · rw [if_neg hp] at hres
        refine ⟨p :: qs1, s0, d0 + 1, hres, hs0, ?_, hcap, ?_, ?_⟩
        · rw [nearest_cons_none p qs1 name hst]
          exact hnear
        · intro hg
          have := hglob hg
          exact ⟨this.1, by rw [this.2]⟩
        · intro m hm
          exact nearest_cons_congr p p qs qs1 m rfl (hother m hm)

theorem defineFree_symbol (t : SymbolTable) (s : Symbol) :
    (defineFree t s).2 = Symbol.mk s.Name SymbolScope.ScopeFree t.freeSymbols.length false := by
  simp [defineFree]

theorem defineFree_freeSymbols (t : SymbolTable) (s : Symbol) :
    (defineFree t s).1.freeSymbols = t.freeSymbols ++ [s] := by
  simp [defineFree]

theorem defineFree_block (t : SymbolTable) (s : Symbol) :
    (defineFree t s).1.block = t.block := by
  simp [defineFree]

/-- One capture: a function table whose own store gives no usable hit, while the first
ancestor that stores the name stores a LOCAL or FREE symbol under it. -/
theorem Resolve_capture (t : SymbolTable) (ps : Chain) (name : String) (h : Symbol)
    (ht : t.block = false) (hown : directHit t name false = none)
    (hn : nearest ps name = some h) (hname : h.Name = name)
    (hcap : h.Scope = SymbolScope.ScopeLocal ∨ h.Scope = SymbolScope.ScopeFree) :
    ∃ ps1 s d, Resolve (t :: ps) name false
        = ((defineFree t s).1 :: ps1, some ((defineFree t s).2, d + 1)) ∧
      s.Name = name ∧ nearest ps1 name = some s ∧
      (s.Scope = SymbolScope.ScopeLocal ∨ s.Scope = SymbolScope.ScopeFree) ∧
      (∀ m, m ≠ name → nearest ps1 m = nearest ps m) := by
  obtain ⟨ps1, s, d, hr, hs, hnear, hc, _, hother⟩ := Resolve_ancestors ps name h hn hname
  have hps : ps ≠ [] := by
    intro hq
    subst hq
    simp [nearest] at hn
  have hres := Resolve_found t ps ps1 name false s d hown hps hr
  have hsc := hc hcap
  have hp : promotes t (d + 1) s = true := by
    rw [promotes_iff]
    refine ⟨ht, ?_, ?_⟩
    · rcases hsc with h1 | h1 <;> rw [h1] <;> simp
    · rcases hsc with h1 | h1 <;> rw [h1] <;> simp
  rw [if_pos hp] at hres
  exact ⟨ps1, s, d, hres, hs, hnear, hsc, hother⟩

/-- A hit of scope GLOBAL or BUILTIN in an ancestor is handed back as it is and no table
changes. -/
theorem Resolve_global (t : SymbolTable) (ps : Chain) (name : String) (h : Symbol)
    (hown : directHit t name false = none)
    (hn : nearest ps name = some h) (hname : h.Name = name)
    (hg : h.Scope = SymbolScope.ScopeGlobal ∨ h.Scope = SymbolScope.ScopeBuiltin) :
    ∃ d, Resolve (t :: ps) name false = (t :: ps, some (h, d + 1)) := by
  obtain ⟨ps1, s, d, hr, _, _, _, hglob, _⟩ := Resolve_ancestors ps name h hn hname
  have hps : ps ≠ [] := by
    intro hq
    subst hq
    simp [nearest] at hn
  obtain ⟨hsh, hps1⟩ := hglob hg
  subst hsh
  subst hps1
  have hres := Resolve_found t ps1 ps1 name false s d hown hps hr
  have hp : ¬ promotes t (d + 1) s = true := by
    rw [promotes_iff]
    rintro ⟨_, h1, h2⟩
    rcases hg with hg | hg
    · exact h1 hg
    · exact h2 hg
  rw [if_neg hp] at hres
  exact ⟨d, hres⟩

theorem distinctFrom_indexOf (names : List String) (seen : List String) (m : String)
    (hm : m ∈ seen) : (distinctFrom seen names).indexOf m = seen.indexOf m := by
  induction names generalizing seen with
  | nil => rfl
  | cons n rest ih =>
    simp only [distinctFrom]
    by_cases hn : n ∈ seen
    · rw [if_pos hn]
      exact ih seen hm
    · rw [if_neg hn]
      rw [ih (seen ++ [n]) (List.mem_append_left _ hm)]
      exact List.indexOf_append_of_mem hm

theorem capturedInv_hit (t : SymbolTable) (ps : Chain) (seen : List String) (n : String)
    (hinv : capturedInv t seen) (hn : n ∈ seen) :
    Resolve (t :: ps) n false
      = (t :: ps, some (Symbol.mk n SymbolScope.ScopeFree (seen.indexOf n) false, 0)) := by
  apply Resolve_hit
  have := hinv.2.2.1 n hn
  simp [directHit, this]

theorem capturedInv_capture (t : SymbolTable) (ps : Chain) (seen : List String)
    (n : String) (rest : List String)
    (hinv : capturedInv t seen) (hn : n ∉ seen) (hcap : capturable ps (n :: rest)) :
    ∃ t1 ps1 d, Resolve (t :: ps) n false
        = (t1 :: ps1, some (Symbol.mk n SymbolScope.ScopeFree seen.length false, d)) ∧
      capturedInv t1 (seen ++ [n]) ∧ capturable ps1 (n :: rest) := by
  obtain ⟨h, hnear, hname, hsc⟩ := hcap n (List.mem_cons_self _ _)
  have hown : directHit t n false = none := by
    have := hinv.2.2.2 n hn
    simp [directHit, this]
  obtain ⟨ps1, s, d, hres, hs, hnear1, hsc1, hother⟩ :=
    Resolve_capture t ps n h hinv.1 hown hnear hname hsc
  have hlen : t.freeSymbols.length = seen.length := by
    have := congrArg List.length hinv.2.1
    simpa using this
  refine ⟨(defineFree t s).1, ps1, d + 1, ?_, ?_, ?_⟩
  · rw [hres, defineFree_symbol, hs, hlen]
  · refine ⟨?_, ?_, ?_, ?_⟩
    · rw [defineFree_block]; exact hinv.1
    · rw [defineFree_freeSymbols, List.map_append, hinv.2.1]
      simp [hs]
    · intro m hm
      by_cases hmn : m = n
      · subst hmn
        have h1 := defineFree_store_same t s
        rw [hs] at h1
        rw [h1, defineFree_symbol, hs, hlen]
        have : List.indexOf m (seen ++ [m]) = seen.length := by
          rw [List.indexOf_append_of_not_mem hn]
          simp
        rw [this]
      · have hms : m ∈ seen := by
          rcases List.mem_append.1 hm with h1 | h1
          · exact h1
          · exact absurd (List.mem_singleton.1 h1) hmn
        rw [defineFree_store_other t s m (by rw [hs]; exact hmn), hinv.2.2.1 m hms,
          List.indexOf_append_of_mem hms]
    · intro m hm
      have hmn : m ≠ n := by
        intro hmn
        apply hm
        rw [hmn]
        exact List.mem_append_right _ (List.mem_singleton_self _)
      have hms : m ∉ seen := fun h1 => hm (List.mem_append_left _ h1)
      rw [defineFree_store_other t s m (by rw [hs]; exact hmn)]
      exact hinv.2.2.2 m hms
  · intro m hm
    by_cases hmn : m = n
    · subst hmn
      exact ⟨s, hnear1, hs, hsc1⟩
    · obtain ⟨h2, hnear2, hname2, hsc2⟩ := hcap m hm
      exact ⟨h2, by rw [hother m hmn]; exact hnear2, hname2, hsc2⟩

/-- Resolving a list of capturable names one after the other on a function table that
holds the captures `seen`: every answer is the FREE symbol whose index is the position of
the name among the distinct names. -/
theorem resolveAll_indices (names : List String) (seen : List String) (t : SymbolTable)
    (ps : Chain) (hinv : capturedInv t seen) (hcap : capturable ps names) :
    ∀ j (hj : j < names.length), ∃ d, (resolveAll (t :: ps) names).2[j]?
      = some (some (Symbol.mk (names.get ⟨j, hj⟩) SymbolScope.ScopeFree
          ((distinctFrom seen names).indexOf (names.get ⟨j, hj⟩)) false, d)) := by
  induction names generalizing seen t ps with
  | nil => intro j hj; simp at hj
  | cons n rest ih =>
    intro j hj
    by_cases hn : n ∈ seen
    · have hres := capturedInv_hit t ps seen n hinv hn
      have hcap1 : capturable ps rest := fun m hm => hcap m (List.mem_cons_of_mem _ hm)
      cases j with
      | zero =>
        refine ⟨0, ?_⟩
        simp only [resolveAll, hres, distinctFrom, if_pos hn, List.getElem?_cons_zero,
          List.get_eq_getElem, List.getElem_cons_zero]
        rw [distinctFrom_indexOf rest seen n hn]
      | succ j =>
        have hj1 : j < rest.length := by simpa using hj
        obtain ⟨d, hd⟩ := ih seen t ps hinv hcap1 j hj1
        refine ⟨d, ?_⟩
        simp only [resolveAll, hres, distinctFrom, if_pos hn, List.getElem?_cons_succ,
          List.get_eq_getElem, List.getElem_cons_succ]
        simpa using hd
    · obtain ⟨t1, ps1, d0, hres, hinv1, hcap1⟩ :=
        capturedInv_capture t ps seen n rest hinv hn hcap
      have hcap2 : capturable ps1 rest := fun m hm => hcap1 m (List.mem_cons_of_mem _ hm)
      cases j with
      | zero =>
        refine ⟨d0, ?_⟩
        simp only [resolveAll, hres, distinctFrom, if_neg hn, List.getElem?_cons_zero,
          List.get_eq_getElem, List.getElem_cons_zero]
        rw [distinctFrom_indexOf rest (seen ++ [n]) n
          (List.mem_append_right _ (List.mem_singleton_self _)),
          List.indexOf_append_of_not_mem hn]
        simp
      | succ j =>
        have hj1 : j < rest.length := by simpa using hj
        obtain ⟨d, hd⟩ := ih (seen ++ [n]) t1 ps1 hinv1 hcap2 j hj1
        refine ⟨d, ?_⟩
        simp only [resolveAll, hres, distinctFrom, if_neg hn, List.getElem?_cons_succ,
          List.get_eq_getElem, List.getElem_cons_succ]
        simpa using hd

/-- C3: `Resolve(name, false)` on a function table `t` (not a block) whose own store gives
no usable hit, when the first ancestor that stores the name stores the symbol `h` of that
name. If `h` is LOCAL or FREE, the call finds a symbol of scope FREE whose index is the
number of free symbols `t` had, appends to `FreeSymbols()` the symbol `s` that the
ancestors now store under the name, so that `FreeSymbols()[index]` is `s`, and a repeated
call returns the same FREE symbol. If `h` is GLOBAL or BUILTIN, `h` itself is returned and
no table of the chain changes, so nothing is recorded. Resolving any list of capturable
names on a fresh function table gives the i-th distinct name the index i-1. -/
theorem c3_free_promotion (t : SymbolTable) (ps : Chain) (name : String) (h : Symbol)
    (ht : t.block = false) (hown : directHit t name false = none)
    (hn : nearest ps name = some h) (hname : h.Name = name) :
    ((h.Scope = SymbolScope.ScopeLocal ∨ h.Scope = SymbolScope.ScopeFree) →
      ∃ t1 ps1 s d,
        Resolve (t :: ps) name false = (t1 :: ps1,
          some (Symbol.mk name SymbolScope.ScopeFree t.freeSymbols.length false, d)) ∧
        t1.freeSymbols = t.freeSymbols ++ [s] ∧
        FreeSymbols (t1 :: ps1) = some (t.freeSymbols ++ [s]) ∧
        t1.freeSymbols[t.freeSymbols.length]? = some s ∧
        nearest ps1 name = some s ∧ s.Name = name ∧
        Resolve (t1 :: ps1) name false = (t1 :: ps1,
          some (Symbol.mk name SymbolScope.ScopeFree t.freeSymbols.length false, 0))) ∧
    ((h.Scope = SymbolScope.ScopeGlobal ∨ h.Scope = SymbolScope.ScopeBuiltin) →
      ∃ d, Resolve (t :: ps) name false = (t :: ps, some (h, d))) ∧
    (∀ names : List String, capturable ps names → ∀ j (hj : j < names.length),
      ∃ d, (resolveAll (Fork ps false) names).2[j]?
        = some (some (Symbol.mk (names.get ⟨j, hj⟩) SymbolScope.ScopeFree
            ((distinctFrom [] names).indexOf (names.get ⟨j, hj⟩)) false, d))) := by
  refine ⟨?_, ?_, ?_⟩
  · intro hcap
    obtain ⟨ps1, s, d, hres, hs, hnear, _, _⟩ :=
      Resolve_capture t ps name h ht hown hn hname hcap
    have hsym := defineFree_symbol t s
    rw [hs] at hsym
    refine ⟨(defineFree t s).1, ps1, s, d + 1, ?_, defineFree_freeSymbols t s, ?_, ?_,
      hnear, hs, ?_⟩
    · rw [hres, hsym]
    · simp [FreeSymbols, defineFree_freeSymbols]
    · rw [defineFree_freeSymbols]
      simp
    · apply Resolve_hit
      have h1 := defineFree_store_same t s
      rw [hs, hsym] at h1
      simp [directHit, h1]
  · intro hg
    obtain ⟨d, hd⟩ := Resolve_global t ps name h hown hn hname hg
    exact ⟨d + 1, hd⟩
  · intro names hcap j hj
    apply resolveAll_indices names [] _ ps _ hcap j hj
    refine ⟨rfl, rfl, ?_, ?_⟩
    · intro m hm
      simp at hm
    · intro m _
      rfl

theorem c3_free_promotion_witness :
    (((Symbol.mk "x" SymbolScope.ScopeLocal 0 true).Scope = SymbolScope.ScopeLocal ∨
        (Symbol.mk "x" SymbolScope.ScopeLocal 0 true).Scope = SymbolScope.ScopeFree) →
      ∃ t1 ps1 s d,
        Resolve (sampleFunctionTable :: sampleAncestors) "x" false = (t1 :: ps1,
          some (Symbol.mk "x" SymbolScope.ScopeFree
            sampleFunctionTable.freeSymbols.length false, d)) ∧
        t1.freeSymbols = sampleFunctionTable.freeSymbols ++ [s] ∧
        FreeSymbols (t1 :: ps1) = some (sampleFunctionTable.freeSymbols ++ [s]) ∧
        t1.freeSymbols[sampleFunctionTable.freeSymbols.length]? = some s ∧
        nearest ps1 "x" = some s ∧ s.Name = "x" ∧
        Resolve (t1 :: ps1) "x" false = (t1 :: ps1,
          some (Symbol.mk "x" SymbolScope.ScopeFree
            sampleFunctionTable.freeSymbols.length false, 0))) ∧
    (((Symbol.mk "x" SymbolScope.ScopeLocal 0 true).Scope = SymbolScope.ScopeGlobal ∨
        (Symbol.mk "x" SymbolScope.ScopeLocal 0 true).Scope = SymbolScope.ScopeBuiltin) →
      ∃ d, Resolve (sampleFunctionTable :: sampleAncestors) "x" false
        = (sampleFunctionTable :: sampleAncestors,
            some (Symbol.mk "x" SymbolScope.ScopeLocal 0 true, d))) ∧
    (∀ names : List String, capturable sampleAncestors names →
      ∀ j (hj : j < names.length),
      ∃ d, (resolveAll (Fork sampleAncestors false) names).2[j]?
        = some (some (Symbol.mk (names.get ⟨j, hj⟩) SymbolScope.ScopeFree
            ((distinctFrom [] names).indexOf (names.get ⟨j, hj⟩)) false, d))) :=
  c3_free_promotion sampleFunctionTable sampleAncestors "x"
    (Symbol.mk "x" SymbolScope.ScopeLocal 0 true) rfl rfl rfl rfl

theorem SameRel_refl (c : Chain) : SameRel c c := by
  induction c with
  | nil => trivial
  | cons t ps ih => exact ⟨rfl, rfl, ih⟩

theorem SameRel_of_maps (c d : Chain) (hb : d.map (fun t => t.block) = c.map (fun t => t.block))
    (hm : d.map (fun t => t.maxDefinition) = c.map (fun t => t.maxDefinition)) :
    SameRel c d := by
  induction c generalizing d with
  | nil =>
    cases d with
    | nil => trivial
    | cons _ _ => simp at hb
  | cons t ps ih =>
    cases d with
    | nil => simp at hb
    | cons t1 ps1 =>
      simp only [List.map_cons, List.cons.injEq] at hb hm
      exact ⟨hb.1, hm.1, ih ps1 hb.2 hm.2⟩

theorem SameRel_trans (a b c : Chain) (h1 : SameRel a b) (h2 : SameRel b c) :
    SameRel a c := by
  induction a generalizing b c with
  | nil =>
    cases b with
    | nil => exact h2
    | cons _ _ => exact absurd h1 (by simp [SameRel])
  | cons t ps ih =>
    cases b with
    | nil => exact absurd h1 (by simp [SameRel])
    | cons t1 ps1 =>
      cases c with
      | nil => exact absurd h2 (by simp [SameRel])
      | cons t2 ps2 =>
        obtain ⟨hb1, hm1, hr1⟩ := h1
        obtain ⟨hb2, hm2, hr2⟩ := h2
        exact ⟨hb2.trans hb1, hm2.trans hm1, ih ps1 ps2 hr1 hr2⟩

theorem BumpRel_of_Same (n : Nat) (a b c : Chain) (h1 : SameRel a b) (h2 : BumpRel n b c) :
    BumpRel n a c := by
  induction a generalizing b c with
  | nil =>
    cases b with
    | nil => exact h2
    | cons _ _ => exact absurd h1 (by simp [SameRel])
  | cons t ps ih =>
    cases b with
    | nil => exact absurd h1 (by simp [SameRel])
    | cons t1 ps1 =>
      cases c with
      | nil => exact absurd h2 (by simp [BumpRel])
      | cons t2 ps2 =>
        obtain ⟨hb1, hm1, hr1⟩ := h1
        obtain ⟨hb2, hm2, hr2⟩ := h2
        refine ⟨hb2.trans hb1, by rw [hm2, hm1], ?_⟩
        rw [hb1] at hr2
        by_cases hbt : t.block = true
        · rw [if_pos hbt] at hr2 ⊢
          exact ih ps1 ps2 hr1 hr2
        · rw [if_neg hbt] at hr2 ⊢
          exact SameRel_trans ps ps1 ps2 hr1 hr2

theorem updateMaxDefs_rel (c c1 : Chain) (n : Nat) (h : updateMaxDefs c n = some c1) :
    BumpRel n c c1 := by
  induction c generalizing c1 with
  | nil => simp [updateMaxDefs] at h
  | cons t ps ih =>
    have hblock : (if n > t.maxDefinition then { t with maxDefinition := n } else t).block
        = t.block := by split <;> rfl
    have hmax : (if n > t.maxDefinition then { t with maxDefinition := n } else t).maxDefinition
        = max t.maxDefinition n := by
      split
      · rename_i hgt
        simp only
        omega
      · rename_i hgt
        omega
    simp only [updateMaxDefs, hblock] at h
    by_cases hb : t.block = true
    · rw [if_pos hb] at h
      cases hu : updateMaxDefs ps n with
      | none => rw [hu] at h; simp at h
      | some ps1 =>
        rw [hu] at h
        simp only [Option.map_some', Option.some.injEq] at h
        subst h
        refine ⟨hblock, hmax, ?_⟩
        rw [if_pos hb]
        exact ih ps1 hu
    · rw [if_neg hb] at h
      simp only [Option.some.injEq] at h
      subst h
      refine ⟨hblock, hmax, ?_⟩
      rw [if_neg hb]
      exact SameRel_refl ps

theorem bumpRoot_maxDefinition (ps : Chain) :
    (bumpRoot ps).map (fun t => t.maxDefinition) = ps.map (fun t => t.maxDefinition) := by
  induction ps with
  | nil => rfl
  | cons p qs ih =>
    cases qs with
    | nil => rfl
    | cons q rs => simp only [bumpRoot, List.map_cons] at ih ⊢; rw [ih]

/-- The effect of `Define` on the `maxDefinition` fields, and the scope it assigns. -/
theorem Define_rel (c c1 : Chain) (name : String) (sym : Symbol)
    (h : Define c name = some (c1, sym)) :
    BumpRel (sym.Index + 1) c c1 ∧
    ∃ par, Parent c true = some par ∧
      sym.Scope = (if par.isEmpty then SymbolScope.ScopeGlobal else SymbolScope.ScopeLocal) := by
  cases c with
  | nil => simp [Define] at h
  | cons t ps =>
    simp only [Define] at h
    cases hk : nextIndex (t :: ps) with
    | none => rw [hk] at h; simp at h
    | some k =>
      rw [hk] at h
      simp only at h
      have hpeq : Parent ({ t with numDefinition := t.numDefinition + 1 } :: ps) true
          = Parent (t :: ps) true := by simp [Parent]
      rw [hpeq] at h
      cases hp : Parent (t :: ps) true with
      | none => rw [hp] at h; simp at h
      | some par =>
        rw [hp] at h
        simp only at h
        by_cases hpar : par.isEmpty = true
        · rw [if_pos hpar] at h
          simp only [Option.map_eq_some'] at h
          obtain ⟨c3, hc3, heq⟩ := h
          simp only [Prod.mk.injEq] at heq
          obtain ⟨h1, h2⟩ := heq
          subst h1
          subst h2
          refine ⟨?_, par, rfl, by simp [hpar]⟩
          refine BumpRel_of_Same _ _ _ _ ?_ (updateMaxDefs_rel _ _ _ hc3)
          apply SameRel_of_maps
          · cases ps with
            | nil => simp
            | cons p qs => simp [bumpRoot_blocks]
          · cases ps with
            | nil => simp
            | cons p qs => simp [bumpRoot_maxDefinition]
        · rw [if_neg hpar] at h
          simp only [Option.map_eq_some'] at h
          obtain ⟨c3, hc3, heq⟩ := h
          simp only [Prod.mk.injEq] at heq
          obtain ⟨h1, h2⟩ := heq
          subst h1
          subst h2
          refine ⟨?_, par, rfl, by simp [hpar]⟩
          refine BumpRel_of_Same _ _ _ _ ?_ (updateMaxDefs_rel _ _ _ hc3)
          apply SameRel_of_maps <;> simp

theorem writeChain_getElem (tabs : List SymbolTable) (ids : List Nat) (c1 : Chain) (v : Nat) :
    (writeChain tabs ids c1)[v]?
      = (tabs[v]?).map (fun old => ((ids.zip c1).lookup v).getD old) := by
  simp [writeChain, List.getElem?_mapIdx]

theorem writeChain_length (tabs : List SymbolTable) (ids : List Nat) (c1 : Chain) :
    (writeChain tabs ids c1).length = tabs.length := by
  simp [writeChain]

theorem uptoFunc_subset (tabs : List SymbolTable) (ids : List Nat) :
    ∀ v ∈ uptoFunc tabs ids, v ∈ ids := by
  induction ids with
  | nil => intro v hv; simp [uptoFunc] at hv
  | cons i is ih =>
    intro v hv
    simp only [uptoFunc] at hv
    cases ht : tabs[i]? with
    | none =>
      rw [ht] at hv
      simp only [List.mem_singleton] at hv
      rw [hv]
      exact List.mem_cons_self _ _
    | some t =>
      rw [ht] at hv
      simp only at hv
      by_cases hb : t.block = true
      · rw [if_pos hb] at hv
        rcases List.mem_cons.1 hv with h1 | h1
        · rw [h1]; exact List.mem_cons_self _ _
        · exact List.mem_cons_of_mem _ (ih v h1)
      · rw [if_neg hb] at hv
        simp only [List.mem_singleton] at hv
        rw [hv]
        exact List.mem_cons_self _ _

theorem uptoFunc_congr (tabs tabs1 : List SymbolTable) (ids : List Nat)
    (h : ∀ i ∈ ids, (tabs1[i]?).map (fun t => t.block) = (tabs[i]?).map (fun t => t.block)) :
    uptoFunc tabs1 ids = uptoFunc tabs ids := by
  induction ids with
  | nil => rfl
  | cons i is ih =>
    have hi := h i (List.mem_cons_self _ _)
    have ih1 := ih (fun j hj => h j (List.mem_cons_of_mem _ hj))
    simp only [uptoFunc]
    cases ht : tabs[i]? with
    | none =>
      rw [ht] at hi
      cases ht1 : tabs1[i]? with
      | none => rfl
      | some t1 => rw [ht1] at hi; simp at hi
    | some t =>
      rw [ht] at hi
      cases ht1 : tabs1[i]? with
      | none => rw [ht1] at hi; simp at hi
      | some t1 =>
        rw [ht1] at hi
        simp only [Option.map_some', Option.some.injEq] at hi
        simp only [hi, ih1]

/-- Tables that `SameRel` relates read the same `block` and `maxDefinition` at every
address. -/
theorem lookup_SameRel (tabs : List SymbolTable) (ids : List Nat) (c c1 : Chain)
    (hread : readChain tabs ids = some c) (hrel : SameRel c c1) (v : Nat)
    (old : SymbolTable) (hold : tabs[v]? = some old) :
    (((ids.zip c1).lookup v).getD old).block = old.block ∧
    (((ids.zip c1).lookup v).getD old).maxDefinition = old.maxDefinition := by
  induction ids generalizing c c1 with
  | nil => simp
  | cons i is ih =>
    simp only [readChain] at hread
    cases hti : tabs[i]? with
    | none => rw [hti] at hread; simp at hread
    | some ti =>
      cases hrest : readChain tabs is with
      | none => rw [hti, hrest] at hread; simp at hread
      | some c0 =>
        rw [hti, hrest] at hread
        simp only [Option.some.injEq] at hread
        subst hread
        cases c1 with
        | nil => exact absurd hrel (by simp [SameRel])
        | cons t1 ps1 =>
          obtain ⟨hb, hm, hr⟩ := hrel
          by_cases hvi : v = i
          · subst hvi
            rw [hti] at hold
            simp only [Option.some.injEq] at hold
            subst hold
            simp [List.lookup, hb, hm]
          · have hne : (v == i) = false := by simpa using hvi
            simp only [List.zip_cons_cons, List.lookup, hne]
            exact ih c0 ps1 hrest hr

/-- After `Define` wrote its chain back, every table has its old `block` flag, and its
`maxDefinition` is raised exactly in the tables up to the enclosing function table. -/
theorem lookup_BumpRel (tabs : List SymbolTable) (ids : List Nat) (c c1 : Chain) (n : Nat)
    (hread : readChain tabs ids = some c) (hrel : BumpRel n c c1) (v : Nat)
    (old : SymbolTable) (hold : tabs[v]? = some old) :
    (((ids.zip c1).lookup v).getD old).block = old.block ∧
    (((ids.zip c1).lookup v).getD old).maxDefinition
      = if v ∈ uptoFunc tabs ids then max old.maxDefinition n else old.maxDefinition := by
  induction ids generalizing c c1 with
  | nil => simp [uptoFunc]
  | cons i is ih =>
    simp only [readChain] at hread
    cases hti : tabs[i]? with
    | none => rw [hti] at hread; simp at hread
    | some ti =>
      cases hrest : readChain tabs is with
      | none => rw [hti, hrest] at hread; simp at hread
      | some c0 =>
        rw [hti, hrest] at hread
        simp only [Option.some.injEq] at hread
        subst hread
        cases c1 with
        | nil => exact absurd hrel (by simp [BumpRel])
        | cons t1 ps1 =>
          obtain ⟨hb, hm, hr⟩ := hrel
          by_cases hvi : v = i
          · subst hvi
            rw [hti] at hold
            simp only [Option.some.injEq] at hold
            subst hold
            have hmem : v ∈ uptoFunc tabs (v :: is) := by
              simp only [uptoFunc, hti]
              split <;> simp
            simp [List.lookup, hb, hm, hmem]
          · have hne : (v == i) = false := by simpa using hvi
            have hlook : List.lookup v ((i :: is).zip (t1 :: ps1)) = List.lookup v (is.zip ps1) := by
              rw [List.zip_cons_cons]
              simp only [List.lookup, hne]
            rw [hlook]
            by_cases hbt : ti.block = true
            · rw [if_pos hbt] at hr
              have hU : uptoFunc tabs (i :: is) = i :: uptoFunc tabs is := by
                simp only [uptoFunc, hti, hbt, if_true]
              have hiff : (v ∈ uptoFunc tabs (i :: is)) ↔ (v ∈ uptoFunc tabs is) := by
                rw [hU]
                simp [hvi]
              have := ih c0 ps1 hrest hr
              simp only [hiff]
              exact this
            · rw [if_neg hbt] at hr
              have hU : uptoFunc tabs (i :: is) = [i] := by
                simp only [uptoFunc, hti, hbt]
                simp
              have hnot : ¬ (v ∈ uptoFunc tabs (i :: is)) := by
                rw [hU]
                simp [hvi]
              have := lookup_SameRel tabs is c0 ps1 hrest hr v old hold
              rw [if_neg hnot]
              exact this

theorem foldr_max_append (xs : List Nat) (n : Nat) :
    (xs ++ [n]).foldr max 0 = max (xs.foldr max 0) n := by
  induction xs with
  | nil => simp
  | cons x xs ih =>
    simp only [List.cons_append, List.foldr_cons, ih]
    omega

theorem le_foldr_max (xs : List Nat) (x : Nat) (h : x ∈ xs) : x ≤ xs.foldr max 0 := by
  induction xs with
  | nil => simp at h
  | cons y ys ih =>
    simp only [List.foldr_cons]
    rcases List.mem_cons.1 h with h1 | h1
    · rw [h1]; exact Nat.le_max_left _ _
    · exact Nat.le_trans (ih h1) (Nat.le_max_right _ _)

theorem readChain_isEmpty (tabs : List SymbolTable) (ids : List Nat) (c : Chain)
    (h : readChain tabs ids = some c) : c.isEmpty = ids.isEmpty := by
  cases ids with
  | nil =>
    simp only [readChain, Option.some.injEq] at h
    subst h
    rfl
  | cons i is =>
    simp only [readChain] at h
    cases hti : tabs[i]? with
    | none => rw [hti] at h; simp at h
    | some ti =>
      cases hrest : readChain tabs is with
      | none => rw [hti, hrest] at h; simp at h
      | some c0 =>
        rw [hti, hrest] at h
        simp only [Option.some.injEq] at h
        subst h
        rfl

/-- The function table that encloses the head of a chain splits the chain's addresses: what
follows it is the chain `Parent(true)` answers. -/
theorem parent_of_path (tabs : List SymbolTable) (ids : List Nat) (c par : Chain)
    (hread : readChain tabs ids = some c) (hpar : Parent c true = some par)
    (f : Nat) (hf : f ∈ uptoFunc tabs ids) (tb : SymbolTable) (htb : tabs[f]? = some tb)
    (hfb : tb.block = false) :
    ∃ pre restIds, ids = pre ++ f :: restIds ∧ readChain tabs restIds = some par := by
  induction ids generalizing c with
  | nil => simp [uptoFunc] at hf
  | cons i is ih =>
    simp only [readChain] at hread
    cases hti : tabs[i]? with
    | none => rw [hti] at hread; simp at hread
    | some ti =>
      cases hrest : readChain tabs is with
      | none => rw [hti, hrest] at hread; simp at hread
      | some c0 =>
        rw [hti, hrest] at hread
        simp only [Option.some.injEq] at hread
        subst hread
        simp only [uptoFunc, hti] at hf
        by_cases hbt : ti.block = true
        · rw [if_pos hbt] at hf
          have hpar1 : Parent c0 true = some par := by
            simpa [Parent, hbt] using hpar
          rcases List.mem_cons.1 hf with h1 | h1
          · exfalso
            subst h1
            rw [hti] at htb
            simp only [Option.some.injEq] at htb
            subst htb
            rw [hbt] at hfb
            exact absurd hfb (by simp)
          · obtain ⟨pre, restIds, hsplit, hr⟩ := ih c0 hrest hpar1 h1
            exact ⟨i :: pre, restIds, by rw [hsplit]; rfl, hr⟩
        · rw [if_neg hbt] at hf
          simp only [List.mem_singleton] at hf
          subst hf
          have hpar1 : c0 = par := by
            simpa [Parent, hbt] using hpar
          subst hpar1
          exact ⟨[], is, rfl, hrest⟩

theorem enclosing_eq (S : Tables) (t : Nat) (ps : List Nat) (h : S.paths[t]? = some ps) :
    enclosing S t = uptoFunc S.tabs (t :: ps) := by
  simp [enclosing, h]

theorem peakAll_append (S S1 : Tables) (e : Nat × Symbol) (v : Nat)
    (hlog : S1.log = S.log ++ [e]) (henc : ∀ u, enclosing S1 u = enclosing S u) :
    peakAll S1 v
      = if v ∈ enclosing S e.1 then max (peakAll S v) (e.2.Index + 1) else peakAll S v := by
  have hp : (fun x : Nat × Symbol => decide (v ∈ enclosing S1 x.1))
      = (fun x : Nat × Symbol => decide (v ∈ enclosing S x.1)) := by
    funext x
    rw [henc]
  simp only [peakAll, hlog, hp, List.filter_append, List.map_append]
  by_cases hv : v ∈ enclosing S e.1
  · rw [if_pos hv]
    have : List.filter (fun x : Nat × Symbol => decide (v ∈ enclosing S x.1)) [e] = [e] := by
      simp [List.filter, hv]
    rw [this]
    exact foldr_max_append _ _
  · rw [if_neg hv]
    have : List.filter (fun x : Nat × Symbol => decide (v ∈ enclosing S x.1)) [e] = [] := by
      simp [List.filter, hv]
    rw [this]
    simp

theorem peakAll_congr (S S1 : Tables) (v : Nat) (hlog : S1.log = S.log)
    (henc : ∀ e ∈ S.log, enclosing S1 e.1 = enclosing S e.1) :
    peakAll S1 v = peakAll S v := by
  simp only [peakAll, hlog]
  congr 2
  apply List.filter_congr
  intro e he
  rw [henc e he]

theorem StoreInv_define (S S1 : Tables) (t : Nat) (name : String) (sym : Symbol)
    (hinv : StoreInv S) (h : defineAt S t name = some (S1, sym)) : StoreInv S1 := by
  obtain ⟨hlen, hlt, hsuf, hmax, hloc, hlog⟩ := hinv
  simp only [defineAt] at h
  cases hps : S.paths[t]? with
  | none => rw [hps] at h; simp at h
  | some ps =>
    rw [hps] at h
    simp only at h
    cases hread : readChain S.tabs (t :: ps) with
    | none => rw [hread] at h; simp at h
    | some c =>
      rw [hread] at h
      simp only at h
      cases hdef : Define c name with
      | none => rw [hdef] at h; simp at h
      | some r =>
        obtain ⟨c1, sym1⟩ := r
        rw [hdef] at h
        simp only [Option.some.injEq, Prod.mk.injEq] at h
        obtain ⟨hS1, hsym⟩ := h
        subst hsym
        obtain ⟨hrel, par, hpar, hscope⟩ := Define_rel c c1 name sym1 hdef
        have hpaths : S1.paths = S.paths := by rw [← hS1]
        have htabs : S1.tabs = writeChain S.tabs (t :: ps) c1 := by rw [← hS1]
        have hlog1 : S1.log = S.log ++ [(t, sym1)] := by rw [← hS1]
        have hget : ∀ v : Nat, S1.tabs[v]?
            = (S.tabs[v]?).map (fun old => (((t :: ps).zip c1).lookup v).getD old) := by
          intro v
          rw [htabs]
          exact writeChain_getElem _ _ _ _
        have hblocks : ∀ i : Nat, (S1.tabs[i]?).map (fun x : SymbolTable => x.block)
            = (S.tabs[i]?).map (fun x : SymbolTable => x.block) := by
          intro i
          rw [hget i]
          cases hold : S.tabs[i]? with
          | none => rfl
          | some old =>
            simp only [Option.map_some', Option.some.injEq]
            exact (lookup_BumpRel S.tabs (t :: ps) c c1 _ hread hrel i old hold).1
        have henc : ∀ u, enclosing S1 u = enclosing S u := by
          intro u
          simp only [enclosing, hpaths]
          exact uptoFunc_congr _ _ _ (fun i _ => hblocks i)
        have hlen1 : S1.tabs.length = S.tabs.length := by
          rw [htabs]
          exact writeChain_length _ _ _
        refine ⟨?_, ?_, ?_, ?_, ?_, ?_⟩
        · rw [hpaths, hlen1]; exact hlen
        · intro v ps1 hv p hp
          rw [hpaths] at hv
          rw [hlen1]
          exact hlt v ps1 hv p hp
        · intro v ps1 hv pre p rest hsplit
          rw [hpaths] at hv ⊢
          exact hsuf v ps1 hv pre p rest hsplit
        · intro v tb hv
          rw [hget v] at hv
          cases hold : S.tabs[v]? with
          | none => rw [hold] at hv; simp at hv
          | some old =>
            rw [hold] at hv
            simp only [Option.map_some', Option.some.injEq] at hv
            subst hv
            rw [(lookup_BumpRel S.tabs (t :: ps) c c1 _ hread hrel v old hold).2,
              peakAll_append S S1 (t, sym1) v hlog1 henc, enclosing_eq S t ps hps,
              hmax v old hold]
        · intro e he f tb hf htb hfb hpf
          rw [hlog1] at he
          rw [henc] at hf
          rw [hpaths] at hpf
          have hold : ∃ old, S.tabs[f]? = some old ∧ old.block = false := by
            have hb := hblocks f
            rw [htb] at hb
            cases ho : S.tabs[f]? with
            | none => rw [ho] at hb; simp at hb
            | some old =>
              rw [ho] at hb
              simp only [Option.map_some', Option.some.injEq] at hb
              exact ⟨old, rfl, by rw [← hb]; exact hfb⟩
          obtain ⟨old, hold1, hold2⟩ := hold
          rcases List.mem_append.1 he with he1 | he1
          · exact hloc e he1 f old hf hold1 hold2 hpf
          · simp only [List.mem_singleton] at he1
            subst he1
            simp only at hf ⊢
            rw [enclosing_eq S t ps hps] at hf
            obtain ⟨pre, restIds, hsplit, hr⟩ :=
              parent_of_path S.tabs (t :: ps) c par hread hpar f hf old hold1 hold2
            have hp1 := hsuf t ps hps pre f restIds hsplit
            have hne : restIds ≠ [] := by
              intro hnil
              rw [hnil] at hp1
              exact hpf hp1
            have hparne : par.isEmpty = false := by
              rw [readChain_isEmpty S.tabs restIds par hr]
              cases restIds with
              | nil => exact absurd rfl hne
              | cons _ _ => rfl
            rw [hscope, hparne]
            rfl
        · intro e he
          rw [hlog1] at he
          rw [hlen1]
          rcases List.mem_append.1 he with he1 | he1
          · exact hlog e he1
          · simp only [List.mem_singleton] at he1
            subst he1
            simp only
            have : t < S.paths.length := by
              by_contra hge
              have := List.getElem?_eq_none (Nat.le_of_not_lt hge)
              rw [this] at hps
              simp at hps
            rw [← hlen]
            exact this

theorem getElem?_lt_of_some {α : Type} (l : List α) (i : Nat) (a : α) (h : l[i]? = some a) :
    i < l.length := by
  by_contra hge
  rw [List.getElem?_eq_none (Nat.le_of_not_lt hge)] at h
  simp at h

theorem getElem?_append_one {α : Type} (l : List α) (x a : α) (i : Nat)
    (h : (l ++ [x])[i]? = some a) : (i < l.length ∧ l[i]? = some a) ∨ (i = l.length ∧ a = x) := by
  by_cases hi : i < l.length
  · left
    rw [List.getElem?_append_left hi] at h
    exact ⟨hi, h⟩
  · right
    have hlt := getElem?_lt_of_some _ _ _ h
    simp only [List.length_append, List.length_singleton] at hlt
    have hil : i = l.length := by omega
    subst hil
    rw [List.getElem?_concat_length] at h
    simp only [Option.some.injEq] at h
    exact ⟨rfl, h.symm⟩

theorem peakAll_eq_zero (S : Tables) (v : Nat) (h : ∀ e ∈ S.log, v ∉ enclosing S e.1) :
    peakAll S v = 0 := by
  have : S.log.filter (fun e => decide (v ∈ enclosing S e.1)) = [] := by
    rw [List.filter_eq_nil_iff]
    intro e he
    simpa using h e he
  simp [peakAll, this]

theorem StoreInv_fork (S S1 : Tables) (t : Nat) (block : Bool) (id : Nat)
    (hinv : StoreInv S) (h : forkAt S t block = some (S1, id)) : StoreInv S1 := by
  obtain ⟨hlen, hlt, hsuf, hmax, hloc, hlog⟩ := hinv
  simp only [forkAt] at h
  cases hps : S.paths[t]? with
  | none => rw [hps] at h; simp at h
  | some ps =>
    rw [hps] at h
    simp only at h
    cases hread : readChain S.tabs (t :: ps) with
    | none => rw [hread] at h; simp at h
    | some c =>
      rw [hread] at h
      simp only [Fork, Option.some.injEq, Prod.mk.injEq] at h
      obtain ⟨hS1, _⟩ := h
      have hpaths : S1.paths = S.paths ++ [t :: ps] := by rw [← hS1]
      have htabs : S1.tabs = S.tabs ++ [SymbolTable.mk block [] 0 0 [] []] := by rw [← hS1]
      have hlog1 : S1.log = S.log := by rw [← hS1]
      have htlt : t < S.tabs.length := by
        rw [← hlen]
        exact getElem?_lt_of_some _ _ _ hps
      have hlen1 : S1.tabs.length = S.tabs.length + 1 := by rw [htabs]; simp
      have hpold : ∀ v : Nat, v < S.tabs.length → S1.paths[v]? = S.paths[v]? := by
        intro v hv
        rw [hpaths]
        exact List.getElem?_append_left (by rw [hlen]; exact hv)
      have htold : ∀ v : Nat, v < S.tabs.length → S1.tabs[v]? = S.tabs[v]? := by
        intro v hv
        rw [htabs]
        exact List.getElem?_append_left hv
      have henc : ∀ u : Nat, u < S.tabs.length → enclosing S1 u = enclosing S u := by
        intro u hu
        simp only [enclosing, hpold u hu]
        apply uptoFunc_congr
        intro i hi
        have hil : i < S.tabs.length := by
          rcases List.mem_cons.1 hi with h1 | h1
          · rw [h1]; exact hu
          · cases hpu : S.paths[u]? with
            | none => rw [hpu] at h1; simp at h1
            | some pu =>
              rw [hpu] at h1
              exact hlt u pu hpu i h1
        rw [htold i hil]
      have hencsub : ∀ u : Nat, u < S.tabs.length → ∀ f ∈ enclosing S u, f < S.tabs.length := by
        intro u hu f hf
        have := uptoFunc_subset _ _ f hf
        rcases List.mem_cons.1 this with h1 | h1
        · rw [h1]; exact hu
        · cases hpu : S.paths[u]? with
          | none => rw [hpu] at h1; simp at h1
          | some pu =>
            rw [hpu] at h1
            exact hlt u pu hpu f h1
      refine ⟨?_, ?_, ?_, ?_, ?_, ?_⟩
      · rw [hpaths, htabs]; simp [hlen]
      · intro v ps1 hv p hp
        rw [hlen1]
        rw [hpaths] at hv
        rcases getElem?_append_one _ _ _ _ hv with ⟨_, h1⟩ | ⟨_, h1⟩
        · exact Nat.lt_succ_of_lt (hlt v ps1 h1 p hp)
        · subst h1
          rcases List.mem_cons.1 hp with h2 | h2
          · rw [h2]; exact Nat.lt_succ_of_lt htlt
          · exact Nat.lt_succ_of_lt (hlt t ps hps p h2)
      · intro v ps1 hv pre p rest hsplit
        rw [hpaths] at hv
        rcases getElem?_append_one _ _ _ _ hv with ⟨hvl, h1⟩ | ⟨hvl, h1⟩
        · have hold := hsuf v ps1 h1 pre p rest hsplit
          rw [hpold p (by rw [← hlen]; exact getElem?_lt_of_some _ _ _ hold)]
          exact hold
        · subst h1
          cases pre with
          | nil =>
            simp only [List.nil_append, List.cons.injEq] at hsplit
            obtain ⟨h2, h3⟩ := hsplit
            subst h2
            subst h3
            rw [hpaths, hvl]
            exact List.getElem?_concat_length _ _
          | cons q pre1 =>
            simp only [List.cons_append, List.cons.injEq] at hsplit
            have hold := hsuf t ps hps pre1 p rest hsplit.2
            rw [hpold p (by rw [← hlen]; exact getElem?_lt_of_some _ _ _ hold)]
            exact hold
      · intro v tb hv
        rw [htabs] at hv
        rcases getElem?_append_one _ _ _ _ hv with ⟨hvl, h1⟩ | ⟨hvl, h1⟩
        · rw [hmax v tb h1]
          symm
          apply peakAll_congr S S1 v hlog1
          intro e he
          exact henc e.1 (hlog e he)
        · subst h1
          simp only
          symm
          apply peakAll_eq_zero
          intro e he hmem
          rw [hlog1] at he
          rw [henc e.1 (hlog e he)] at hmem
          have := hencsub e.1 (hlog e he) v hmem
          omega
      · intro e he f tb hf htb hfb hpf
        rw [hlog1] at he
        rw [henc e.1 (hlog e he)] at hf
        have hfl := hencsub e.1 (hlog e he) f hf
        rw [htold f hfl] at htb
        rw [hpold f hfl] at hpf
        exact hloc e he f tb hf htb hfb hpf
      · intro e he
        rw [hlog1] at he
        rw [hlen1]
        exact Nat.lt_succ_of_lt (hlog e he)

theorem StoreInv_init : StoreInv initTables := by
  refine ⟨rfl, ?_, ?_, ?_, ?_, ?_⟩
  · intro v ps hv p hp
    have hvl := getElem?_lt_of_some _ _ _ hv
    simp only [initTables, List.length_singleton, Nat.lt_one_iff] at hvl
    subst hvl
    simp [initTables] at hv
    subst hv
    simp at hp
  · intro v ps hv pre p rest hsplit
    have hvl := getElem?_lt_of_some _ _ _ hv
    simp only [initTables, List.length_singleton, Nat.lt_one_iff] at hvl
    subst hvl
    simp [initTables] at hv
    subst hv
    cases pre with
    | nil =>
      simp only [List.nil_append, List.cons.injEq] at hsplit
      obtain ⟨h2, h3⟩ := hsplit
      subst h2
      subst h3
      rfl
    | cons q pre1 => simp at hsplit
  · intro v tb hv
    have hvl := getElem?_lt_of_some _ _ _ hv
    simp only [initTables, NewSymbolTable, List.length_singleton, Nat.lt_one_iff] at hvl
    subst hvl
    simp [initTables, NewSymbolTable] at hv
    subst hv
    rfl
  · intro e he
    simp [initTables] at he
  · intro e he
    simp [initTables] at he

theorem StoreInv_run (ops : List TableOp) (S S1 : Tables) (hinv : StoreInv S)
    (h : runOps S ops = some S1) : StoreInv S1 := by
  induction ops generalizing S with
  | nil =>
    simp only [runOps, Option.some.injEq] at h
    subst h
    exact hinv
  | cons op ops ih =>
    simp only [runOps] at h
    cases hop : applyOp S op with
    | none => rw [hop] at h; simp at h
    | some S2 =>
      rw [hop] at h
      simp only at h
      apply ih S2 _ h
      cases op with
      | fork t block =>
        simp only [applyOp, Option.map_eq_some'] at hop
        obtain ⟨r, hr, hr2⟩ := hop
        obtain ⟨S3, id⟩ := r
        simp only at hr2
        subst hr2
        exact StoreInv_fork S S3 t block id hinv hr
      | define t name =>
        simp only [applyOp, Option.map_eq_some'] at hop
        obtain ⟨r, hr, hr2⟩ := hop
        obtain ⟨S3, sym⟩ := r
        simp only at hr2
        subst hr2
        exact StoreInv_define S S3 t name sym hinv hr

/-- C6: after any sequence of `Fork` and `Define` calls that starts from a new root table,
for every function table `t` (not a block, with a parent) `MaxSymbols()` is one more than
the largest `Index` of the LOCAL symbols defined in `t` or in a block fork nested in `t`
without crossing another function fork, and 0 when there is none; every such symbol has
`Index < MaxSymbols()`. -/
theorem c6_max_symbols_peak (ops : List TableOp) (S : Tables)
    (hrun : runOps initTables ops = some S) (t : Nat) (tb : SymbolTable)
    (ht : S.tabs[t]? = some tb) (hfun : tb.block = false) (hpar : S.paths[t]? ≠ some []) :
    maxSymbolsAt S t = some (peakLocal S t) ∧
    ∀ e ∈ S.log, t ∈ enclosing S e.1 → e.2.Scope = SymbolScope.ScopeLocal →
      ∃ m, maxSymbolsAt S t = some m ∧ e.2.Index < m := by
  have hinv := StoreInv_run ops initTables S StoreInv_init hrun
  obtain ⟨_, _, _, hmax, hloc, _⟩ := hinv
  have hpeak : peakAll S t = peakLocal S t := by
    simp only [peakAll, peakLocal]
    congr 2
    apply List.filter_congr
    intro e he
    by_cases hmem : t ∈ enclosing S e.1
    · have := hloc e he t tb hmem ht hfun hpar
      simp [hmem, this]
    · simp [hmem]
  have hms : maxSymbolsAt S t = some (peakLocal S t) := by
    simp only [maxSymbolsAt, ht, MaxSymbols]
    rw [hmax t tb ht, hpeak]
  refine ⟨hms, ?_⟩
  intro e he hmem hsc
  refine ⟨peakLocal S t, hms, ?_⟩
  have hin : e.2.Index + 1 ∈ (S.log.filter (fun e => decide (t ∈ enclosing S e.1) &&
      e.2.Scope == SymbolScope.ScopeLocal)).map (fun e => e.2.Index + 1) := by
    apply List.mem_map_of_mem
    rw [List.mem_filter]
    exact ⟨he, by simp [hmem, hsc]⟩
  have := le_foldr_max _ _ hin
  simp only [peakLocal]
  omega

theorem c6_max_symbols_peak_witness :
    maxSymbolsAt sampleStore 1 = some (peakLocal sampleStore 1) ∧
    ∀ e ∈ sampleStore.log, 1 ∈ enclosing sampleStore e.1 →
      e.2.Scope = SymbolScope.ScopeLocal →
      ∃ m, maxSymbolsAt sampleStore 1 = some m ∧ e.2.Index < m :=
  c6_max_symbols_peak sampleOps sampleStore (by decide) 1
    (SymbolTable.mk false [("a", Symbol.mk "a" SymbolScope.ScopeLocal 0 false)] 1 1 [] [])
    rfl rfl (by decide)

/-! ## Theorems: Copy and Equals -/

theorem floatEq_self (v : Nat) (h : isNaNBits v = false) : floatEq v v = true := by
  simp [floatEq, h]

theorem floatEq_nan (v : Nat) (h : isNaNBits v = true) : floatEq v v = false := by
  simp [floatEq, h]

theorem ObjMap.mem_keys_of_mem : (m : ObjMap) → (k : GoString) → (v : Object) →
    (k, v) ∈ m.toList → k ∈ m.keys
  | .nil, _, _, h => by simp [ObjMap.toList] at h
  | .cons k1 v1 es, k, v, h => by
    simp only [ObjMap.toList, List.mem_cons, Prod.mk.injEq] at h
    simp only [ObjMap.keys, List.mem_cons]
    rcases h with ⟨h1, _⟩ | h2
    · left; exact h1
    · right; exact ObjMap.mem_keys_of_mem es k v h2

theorem ObjMap.lookup_of_mem : (m : ObjMap) → m.keys.Nodup → (k : GoString) → (v : Object) →
    (k, v) ∈ m.toList → m.lookup k = some v
  | .nil, _, _, _, hmem => by simp [ObjMap.toList] at hmem
  | .cons k1 v1 es, hnd, k, v, hmem => by
    simp only [ObjMap.keys, List.nodup_cons] at hnd
    simp only [ObjMap.toList, List.mem_cons, Prod.mk.injEq] at hmem
    simp only [ObjMap.lookup]
    rcases hmem with ⟨hk, hv⟩ | hrest
    · simp [hk, hv]
    · have hkin : k ∈ es.keys := ObjMap.mem_keys_of_mem es k v hrest
      have hne : k ≠ k1 := by
        intro heq
        rw [heq] at hkin
        exact hnd.1 hkin
      simp only [hne, if_false]
      exact ObjMap.lookup_of_mem es hnd.2 k v hrest

mutual
theorem Object.copy_equals_object : (o : Object) → o.plain = true → ∀ n : Nat,
    Object.Equals (o.Copy n).1 o = true
  | .int v, _, n => by simp [Object.Copy, Object.Equals]
  | .float v, h, n => by
    simp only [Object.plain, Bool.not_eq_true'] at h
    simp [Object.Copy, Object.Equals, floatEq_self v h]
  | .bool a v, _, n => by simp [Object.Copy, Object.Equals]
  | .char v, _, n => by simp [Object.Copy, Object.Equals]
  | .string v, _, n => by simp [Object.Copy, Object.Equals]
  | .bytes v, _, n => by simp [Object.Copy, Object.Equals]
  | .array vs, h, n => by
    simp only [Object.plain] at h
    have := ObjList.copy_equals_list vs h n
    simp [Object.Copy, Object.Equals, this.1, this.2]
  | .immutableArray vs, h, n => by
    simp only [Object.plain] at h
    have := ObjList.copy_equals_list vs h n
    simp [Object.Copy, Object.Equals, this.1, this.2]
  | .map kvs, h, n => by
    simp only [Object.plain, Bool.and_eq_true, decide_eq_true_eq] at h
    have := ObjMap.copy_equals_map kvs h.1 n kvs (fun k v hm => ObjMap.lookup_of_mem kvs h.2 k v hm)
    simp [Object.Copy, Object.Equals, this.1, this.2]
  | .immutableMap a kvs, h, n => by
    simp only [Object.plain, Bool.and_eq_true, decide_eq_true_eq] at h
    have := ObjMap.copy_equals_map kvs h.1 n kvs (fun k v hm => ObjMap.lookup_of_mem kvs h.2 k v hm)
    simp [Object.Copy, Object.Equals, this.1, this.2]
  | .undefined a, _, n => by simp [Object.Copy, Object.Equals]
  | .error a v, h, n => by simp [Object.plain] at h
  | .time v, _, n => by simp [Object.Copy, Object.Equals]
  | .compiledFunction a fn, h, n => by simp [Object.plain] at h
  | .builtinFunction nm f, h, n => by simp [Object.plain] at h
  | .userFunction nm f, h, n => by simp [Object.plain] at h
  | .objectPtr a, _, n => by simp [Object.Copy, Object.Equals]
theorem ObjList.copy_equals_list : (l : ObjList) → l.plain = true → ∀ n : Nat,
    (l.Copy n).1.length = l.length ∧ ObjList.Equals (l.Copy n).1 l = true
  | .nil, _, n => by simp [ObjList.Copy, ObjList.Equals]
  | .cons e es, h, n => by
    simp only [ObjList.plain, Bool.and_eq_true] at h
    have h1 := Object.copy_equals_object e h.1 n
    have h2 := ObjList.copy_equals_list es h.2 (e.Copy n).2
    simp [ObjList.Copy, ObjList.Equals, ObjList.length, h1, h2.1, h2.2]
theorem ObjMap.copy_equals_map : (m : ObjMap) → m.plain = true → ∀ (n : Nat) (whole : ObjMap),
    (∀ k v, (k, v) ∈ m.toList → whole.lookup k = some v) →
    (m.Copy n).1.length = m.length ∧ ObjMap.Equals (m.Copy n).1 whole = true
  | .nil, _, n, whole, _ => by simp [ObjMap.Copy, ObjMap.Equals]
  | .cons k v es, h, n, whole, hw => by
    simp only [ObjMap.plain, Bool.and_eq_true] at h
    have h1 := Object.copy_equals_object v h.1 n
    have h2 := ObjMap.copy_equals_map es h.2 (v.Copy n).2 whole
      (fun k1 v1 hm => hw k1 v1 (by simp [ObjMap.toList, hm]))
    have h3 := hw k v (by simp [ObjMap.toList])
    simp [ObjMap.Copy, ObjMap.Equals, ObjMap.length, h1, h2.1, h2.2, h3]
end

mutual
theorem Object.copy_next_le_object : (o : Object) → ∀ n : Nat, n ≤ (o.Copy n).2
  | .int _, n => by simp [Object.Copy]
  | .float _, n => by simp [Object.Copy]
  | .bool _ _, n => by simp [Object.Copy]
  | .char _, n => by simp [Object.Copy]
  | .string _, n => by simp [Object.Copy]
  | .bytes _, n => by simp [Object.Copy]
  | .array vs, n => by simpa [Object.Copy] using ObjList.copy_next_le_list vs n
  | .immutableArray vs, n => by simpa [Object.Copy] using ObjList.copy_next_le_list vs n
  | .map kvs, n => by simpa [Object.Copy] using ObjMap.copy_next_le_map kvs n
  | .immutableMap _ kvs, n => by simpa [Object.Copy] using ObjMap.copy_next_le_map kvs n
  | .undefined _, n => by simp [Object.Copy]
  | .error _ v, n => by
    have := Object.copy_next_le_object v n
    simp only [Object.Copy]
    omega
  | .time _, n => by simp [Object.Copy]
  | .compiledFunction _ _, n => by simp [Object.Copy]
  | .builtinFunction _ _, n => by simp [Object.Copy]
  | .userFunction _ _, n => by simp [Object.Copy]
  | .objectPtr _, n => by simp [Object.Copy]
theorem ObjList.copy_next_le_list : (l : ObjList) → ∀ n : Nat, n ≤ (l.Copy n).2
  | .nil, n => by simp [ObjList.Copy]
  | .cons e es, n => by
    have h1 := Object.copy_next_le_object e n
    have h2 := ObjList.copy_next_le_list es (e.Copy n).2
    simp only [ObjList.Copy]
    omega
theorem ObjMap.copy_next_le_map : (m : ObjMap) → ∀ n : Nat, n ≤ (m.Copy n).2
  | .nil, n => by simp [ObjMap.Copy]
  | .cons _ v es, n => by
    have h1 := Object.copy_next_le_object v n
    have h2 := ObjMap.copy_next_le_map es (v.Copy n).2
    simp only [ObjMap.Copy]
    omega
end

/-- C2 (as stated, refuted): the copy of a CompiledFunction does not equal the function, and
the copy of an Error value does not equal the Error. -/
theorem c2_counterexample :
    Object.Equals
      (Object.Copy (.compiledFunction 0 (CompiledFunction.mk [] 0 0 false [] [])) 1).1
      (.compiledFunction 0 (CompiledFunction.mk [] 0 0 false [] [])) = false ∧
    Object.Equals (Object.Copy (.error 0 (.int 1)) 1).1 (.error 0 (.int 1)) = false := by
  decide

/-- C2 (amended): for every value `v` that is an Int, a Float other than NaN, a Bool, Char,
String, Bytes, Undefined, Time or ObjectPtr, or an Array, ImmutableArray, Map or
ImmutableMap whose elements are such values, `v.Copy().Equals(v)` is true. It is false when
`v` is an Error (the copy is a new object and Errors compare by identity), a
CompiledFunction, a BuiltinFunction, a UserFunction (their `Equals` always answers false)
or a NaN Float. -/
theorem c2_copy_equals (v : Object) (next : Nat) :
    (v.plain = true → Object.Equals (v.Copy next).1 v = true) ∧
    (∀ addr inner, v = Object.error addr inner → addr < next →
      Object.Equals (v.Copy next).1 v = false) ∧
    (∀ addr fn, v = Object.compiledFunction addr fn →
      Object.Equals (v.Copy next).1 v = false) ∧
    (∀ name fn, v = Object.builtinFunction name fn →
      Object.Equals (v.Copy next).1 v = false) ∧
    (∀ name fn, v = Object.userFunction name fn →
      Object.Equals (v.Copy next).1 v = false) ∧
    (∀ bits, v = Object.float bits → isNaNBits bits = true →
      Object.Equals (v.Copy next).1 v = false) := by
  refine ⟨fun h => Object.copy_equals_object v h next, ?_, ?_, ?_, ?_, ?_⟩
  · intro addr inner hv hlt
    subst hv
    have := Object.copy_next_le_object inner next
    simp only [Object.Copy, Object.Equals, decide_eq_false_iff_not]
    omega
  · intro addr fn hv
    subst hv
    simp [Object.Copy, Object.Equals]
  · intro name fn hv
    subst hv
    simp [Object.Copy, Object.Equals]
  · intro name fn hv
    subst hv
    simp [Object.Copy, Object.Equals]
  · intro bits hv hnan
    subst hv
    simp [Object.Copy, Object.Equals, floatEq_nan bits hnan]

theorem c2_copy_equals_witness :
    Object.Equals
      (Object.Copy (.array (.cons (.int 3) (.cons (.map (.cons (ascii "k") (.bool 0 true) .nil))
        .nil))) 5).1
      (.array (.cons (.int 3) (.cons (.map (.cons (ascii "k") (.bool 0 true) .nil)) .nil)))
      = true :=
  (c2_copy_equals
    (.array (.cons (.int 3) (.cons (.map (.cons (ascii "k") (.bool 0 true) .nil)) .nil)))
    5).1 (by decide)

/-! ## Theorems: constant deduplication -/

theorem ReadOperands_ok (widths : List Nat) (xs : List Nat) (h : widths.sum ≤ xs.length) :
    ∃ ops, ReadOperands widths xs = some (ops, widths.sum) := by
  induction widths generalizing xs with
  | nil => exact ⟨[], rfl⟩
  | cons w ws ih =>
    simp only [List.sum_cons] at h
    by_cases h1 : w = 1
    · subst h1
      cases xs with
      | nil => simp at h
      | cons b rest =>
        obtain ⟨ops, hops⟩ := ih rest (by simp only [List.length_cons] at h; omega)
        refine ⟨b :: ops, ?_⟩
        simp only [ReadOperands, if_true, hops, Option.map_some', List.sum_cons]
        rw [Nat.add_comm]
    · by_cases h2 : w = 2
      · subst h2
        cases xs with
        | nil => simp at h
        | cons hi rest1 =>
          cases rest1 with
          | nil =>
            simp only [List.length_cons, List.length_nil] at h
            omega
          | cons lo rest =>
            obtain ⟨ops, hops⟩ := ih rest (by simp only [List.length_cons] at h; omega)
            refine ⟨(lo ||| hi <<< 8) :: ops, ?_⟩
            simp only [ReadOperands, hops, Option.map_some', List.sum_cons]
            simp
            omega
      · obtain ⟨ops, hops⟩ := ih (xs.drop w) (by simp only [List.length_drop]; omega)
        refine ⟨ops, ?_⟩
        simp only [ReadOperands, h1, h2, if_false, hops, Option.map_some', List.sum_cons]
        rw [Nat.add_comm]

theorem copyAt_append (pre old new rest : List Nat) (h : old.length = new.length) :
    copyAt (pre ++ (old ++ rest)) pre.length new = pre ++ (new ++ rest) := by
  simp only [copyAt, List.length_append]
  have h1 : List.take pre.length (pre ++ (old ++ rest)) = pre := by simp
  have h2 : List.take (pre.length + (old.length + rest.length) - pre.length) new = new := by
    apply List.take_of_length_le
    omega
  have h3 : List.drop (pre.length + new.length) (pre ++ (old ++ rest)) = rest := by
    rw [← h, ← List.length_append, ← List.append_assoc]
    simp
  rw [h1, h2, h3, List.append_assoc]

theorem getD_append_offset (pre xs : List Nat) (j d : Nat) :
    (pre ++ xs).getD (pre.length + j) d = xs.getD j d := by
  rw [List.getD_append_right _ _ _ _ (by omega)]
  simp

theorem updateLoop_done (indexMap : List (Nat × Nat)) (fuel : Nat) (insts : List Nat) :
    updateLoop indexMap fuel insts insts.length = .ret insts := by
  cases fuel with
  | zero => rfl
  | succ f => simp [updateLoop]

/-- The bytes of an instruction sequence, rewritten by `updateConstIndexes` from an
instruction boundary on, are the bytes of the rewritten instructions. -/
theorem updateLoop_encode (indexMap : List (Nat × Nat)) (is : List Instr) :
    ∀ (pre : List Nat) (fuel : Nat), (∀ x ∈ is, x.valid = true) →
      (∀ x ∈ is, ∀ cur, constOperand x = some cur → ∃ new, indexGet indexMap cur = some new) →
      (encode is).length ≤ fuel →
      updateLoop indexMap fuel (pre ++ encode is) pre.length
        = .ret (pre ++ encode (is.map (rewriteInstr indexMap))) := by
  induction is with
  | nil =>
    intro pre fuel _ _ _
    simp only [encode, List.append_nil, List.map_nil]
    exact updateLoop_done indexMap fuel pre
  | cons x xs ih =>
    intro pre fuel hvalid hidx hfuel
    have hx := hvalid x (List.mem_cons_self _ _)
    have hvalid1 : ∀ y ∈ xs, y.valid = true := fun y hy => hvalid y (List.mem_cons_of_mem _ hy)
    have hidx1 : ∀ y ∈ xs, ∀ cur, constOperand y = some cur →
        ∃ new, indexGet indexMap cur = some new :=
      fun y hy => hidx y (List.mem_cons_of_mem _ hy)
    simp only [encode, List.length_cons, List.length_append] at hfuel
    cases fuel with
    | zero => omega
    | succ f =>
      simp only [Instr.valid] at hx
      cases hw : OpcodeOperands[x.op]? with
      | none => rw [hw] at hx; simp at hx
      | some widths =>
        rw [hw] at hx
        simp only [Bool.and_eq_true, beq_iff_eq, List.all_eq_true, decide_eq_true_eq] at hx
        obtain ⟨hlen, hbytes⟩ := hx
        have hlt : pre.length < (pre ++ encode (x :: xs)).length := by
          simp [encode]
        have hop : (pre ++ encode (x :: xs)).getD pre.length 0 = x.op := by
          have := getD_append_offset pre (encode (x :: xs)) 0 0
          simpa [encode] using this
        have hdrop : (pre ++ encode (x :: xs)).drop (pre.length + 1) = x.args ++ encode xs := by
          simp [encode]
        obtain ⟨ops, hread⟩ := ReadOperands_ok widths (x.args ++ encode xs)
          (by simp only [List.length_append]; omega)
        have hstep : ∀ newargs : List Nat, newargs.length = x.args.length →
            updateLoop indexMap f (pre ++ (x.op :: (newargs ++ encode xs)))
              (pre.length + 1 + widths.sum)
            = .ret (pre ++ (x.op :: (newargs ++ encode (xs.map (rewriteInstr indexMap))))) := by
          intro newargs hna
          have := ih (pre ++ (x.op :: newargs)) f hvalid1 hidx1 (by omega)
          have hl : (pre ++ (x.op :: newargs)).length = pre.length + 1 + widths.sum := by
            simp only [List.length_append, List.length_cons]
            omega
          rw [hl] at this
          simpa [List.append_assoc] using this
        rw [updateLoop, if_pos hlt]
        simp only [hop, hw, hdrop, hread]
        by_cases hc : x.op = OpConstant
        · rw [if_pos hc]
          have hwd : widths = [2] := by
            rw [hc] at hw
            simpa [OpcodeOperands, OpConstant] using hw.symm
          subst hwd
          obtain ⟨hi, lo, hargs⟩ : ∃ hi lo, x.args = [hi, lo] := by
            match hxa : x.args, hlen with
            | [a, b], _ => exact ⟨a, b, rfl⟩
            | [], h => simp at h
            | [_], h => simp at h
            | _ :: _ :: _ :: _, h => simp at h
          have hg2 : (pre ++ encode (x :: xs)).getD (pre.length + 2) 0 = lo := by
            have := getD_append_offset pre (encode (x :: xs)) 2 0
            simpa [encode, hargs] using this
          have hg1 : (pre ++ encode (x :: xs)).getD (pre.length + 1) 0 = hi := by
            have := getD_append_offset pre (encode (x :: xs)) 1 0
            simpa [encode, hargs] using this
          have hco : constOperand x = some (lo ||| hi <<< 8) := by
            simp [constOperand, hc, hargs]
          obtain ⟨new, hnew⟩ := hidx x (List.mem_cons_self _ _) _ hco
          have hmk : MakeInstruction x.op [new] = some [x.op, new / 256 % 256, new % 256] := by
            rw [hc]
            simp [MakeInstruction, OpcodeOperands, OpConstant, encodeOperands]
          have hcopy : copyAt (pre ++ encode (x :: xs)) pre.length
              [x.op, new / 256 % 256, new % 256]
              = pre ++ (x.op :: ([new / 256 % 256, new % 256] ++ encode xs)) := by
            have := copyAt_append pre [x.op, hi, lo] [x.op, new / 256 % 256, new % 256]
              (encode xs) rfl
            simpa [encode, hargs] using this
          have hrw : rewriteInstr indexMap x
              = { op := x.op, args := [new / 256 % 256, new % 256] } := by
            simp [rewriteInstr, hco, hnew, hargs]
          simp only [hg1, hg2, hnew, hmk, hcopy]
          rw [hstep [new / 256 % 256, new % 256] (by simp [hargs])]
          simp [encode, hrw]
        · rw [if_neg hc]
          by_cases hcl : x.op = OpClosure
          · rw [if_pos hcl]
            have hwd : widths = [2, 1] := by
              rw [hcl] at hw
              simpa [OpcodeOperands, OpClosure] using hw.symm
            subst hwd
            obtain ⟨hi, lo, nf, hargs⟩ : ∃ hi lo nf, x.args = [hi, lo, nf] := by
              match hxa : x.args, hlen with
              | [a, b, c], _ => exact ⟨a, b, c, rfl⟩
              | [], h => simp at h
              | [_], h => simp at h
              | [_, _], h => simp at h
              | _ :: _ :: _ :: _ :: _, h => simp at h
            have hg3 : (pre ++ encode (x :: xs)).getD (pre.length + 3) 0 = nf := by
              have := getD_append_offset pre (encode (x :: xs)) 3 0
              simpa [encode, hargs] using this
            have hg2 : (pre ++ encode (x :: xs)).getD (pre.length + 2) 0 = lo := by
              have := getD_append_offset pre (encode (x :: xs)) 2 0
              simpa [encode, hargs] using this
            have hg1 : (pre ++ encode (x :: xs)).getD (pre.length + 1) 0 = hi := by
              have := getD_append_offset pre (encode (x :: xs)) 1 0
              simpa [encode, hargs] using this
            have hnf : nf < 256 := hbytes nf (by simp [hargs])
            have hco : constOperand x = some (lo ||| hi <<< 8) := by
              simp [constOperand, hcl, hargs]
            obtain ⟨new, hnew⟩ := hidx x (List.mem_cons_self _ _) _ hco
            have hmk : MakeInstruction x.op [new, nf]
                = some [x.op, new / 256 % 256, new % 256, nf] := by
              rw [hcl]
              simp [MakeInstruction, OpcodeOperands, OpClosure, encodeOperands,
                Nat.mod_eq_of_lt hnf]
            have hcopy : copyAt (pre ++ encode (x :: xs)) pre.length
                [x.op, new / 256 % 256, new % 256, nf]
                = pre ++ (x.op :: ([new / 256 % 256, new % 256, nf] ++ encode xs)) := by
              have := copyAt_append pre [x.op, hi, lo, nf]
                [x.op, new / 256 % 256, new % 256, nf] (encode xs) rfl
              simpa [encode, hargs] using this
            have hrw : rewriteInstr indexMap x
                = { op := x.op, args := [new / 256 % 256, new % 256, nf] } := by
              simp [rewriteInstr, hco, hnew, hargs]
            simp only [hg1, hg2, hg3, hnew, hmk, hcopy]
            rw [hstep [new / 256 % 256, new % 256, nf] (by simp [hargs])]
            simp [encode, hrw]
          · rw [if_neg hcl]
            have hrw : rewriteInstr indexMap x = x := by
              simp [rewriteInstr, constOperand, hc, hcl]
            have := hstep x.args rfl
            simp only [encode] at this ⊢
            rw [this]
            simp [encode, hrw]

theorem mem_of_lookup {α β : Type} [BEq α] [LawfulBEq α] (l : List (α × β)) (k : α) (v : β)
    (h : l.lookup k = some v) : (k, v) ∈ l := by
  induction l with
  | nil => simp at h
  | cons kv rest ih =>
    obtain ⟨k1, v1⟩ := kv
    simp only [List.lookup] at h
    by_cases hk : (k == k1) = true
    · rw [hk] at h
      simp only [Option.some.injEq] at h
      have : k = k1 := by simpa using hk
      subst this
      subst h
      exact List.mem_cons_self _ _
    · have hk1 : (k == k1) = false := by simpa using hk
      rw [hk1] at h
      exact List.mem_cons_of_mem _ (ih h)

theorem floatGet_some (floats : List (Nat × Nat)) (v i : Nat) (h : floatGet floats v = some i) :
    ∃ key, (key, i) ∈ floats ∧ floatEq key v = true := by
  simp only [floatGet, Option.map_eq_some'] at h
  obtain ⟨e, he, hei⟩ := h
  refine ⟨e.1, ?_, ?_⟩
  · have := List.mem_of_find?_eq_some he
    rw [← hei]
    exact this
  · have := List.find?_some he
    simpa using this

theorem constEquiv_refl (c : Object) (h : allowedConstant c = true) : constEquiv c c = true := by
  cases c <;> simp [allowedConstant] at h <;> simp [constEquiv]

theorem mapsOK_append (deduped : List Object) (st : DedupState) (c : Object)
    (h : mapsOK deduped st) : mapsOK (deduped ++ [c]) st := by
  have key : ∀ (i : Nat) (d : Object), deduped[i]? = some d → (deduped ++ [c])[i]? = some d := by
    intro i d hd
    rw [List.getElem?_append_left (getElem?_lt_of_some _ _ _ hd)]
    exact hd
  obtain ⟨h1, h2, h3, h4, h5, h6⟩ := h
  refine ⟨?_, ?_, ?_, ?_, ?_, ?_⟩
  · intro a i hm
    obtain ⟨fn, hfn⟩ := h1 a i hm
    exact ⟨fn, key i _ hfn⟩
  · intro v i hm
    exact key i _ (h2 v i hm)
  · intro v i hm
    exact key i _ (h3 v i hm)
  · intro v i hm
    exact key i _ (h4 v i hm)
  · intro v i hm
    exact key i _ (h5 v i hm)
  · intro n i hm
    obtain ⟨a, m, hd, hn⟩ := h6 n i hm
    exact ⟨a, m, key i _ hd, hn⟩

/-- A constant that an earlier constant stands for: only `indexMap` grows. -/
theorem DedupInv_hit (done : List Object) (st : DedupState) (c d : Object) (newIdx : Nat)
    (hinv : DedupInv done st) (hd : st.deduped[newIdx]? = some d)
    (heq : constEquiv c d = true) :
    DedupInv (done ++ [c])
      { st with indexMap := (done.length, newIdx) :: st.indexMap } := by
  obtain ⟨hlen, hsub, hidx, hmaps⟩ := hinv
  refine ⟨?_, ?_, ?_, hmaps⟩
  · simp only [List.length_append, List.length_singleton]
    omega
  · intro x hx
    exact List.mem_append_left _ (hsub x hx)
  · intro k c1 hk
    rcases getElem?_append_one _ _ _ _ hk with ⟨hkl, hk1⟩ | ⟨hkl, hk1⟩
    · obtain ⟨i, d1, hi, hle, hd1, he1⟩ := hidx k c1 hk1
      refine ⟨i, d1, ?_, hle, hd1, he1⟩
      have hne : (k == done.length) = false := by
        simp only [beq_eq_false_iff_ne, ne_eq]
        omega
      simp only [indexGet, List.lookup, hne]
      exact hi
    · subst hk1
      subst hkl
      refine ⟨newIdx, d, ?_, ?_, hd, heq⟩
      · simp [indexGet, List.lookup]
      · have := getElem?_lt_of_some _ _ _ hd
        omega

/-- A new constant: it is appended, and `indexMap` sends its index to its new place. -/
theorem DedupInv_miss (done : List Object) (st st1 : DedupState) (c : Object)
    (hinv : DedupInv done st) (hc : allowedConstant c = true)
    (hded : st1.deduped = st.deduped ++ [c])
    (hmap : st1.indexMap = (done.length, st.deduped.length) :: st.indexMap)
    (hmaps : mapsOK (st.deduped ++ [c]) st1) :
    DedupInv (done ++ [c]) st1 := by
  obtain ⟨hlen, hsub, hidx, _⟩ := hinv
  refine ⟨?_, ?_, ?_, ?_⟩
  · rw [hded]
    simp only [List.length_append, List.length_singleton]
    omega
  · intro x hx
    rw [hded] at hx
    rcases List.mem_append.1 hx with h1 | h1
    · exact List.mem_append_left _ (hsub x h1)
    · exact List.mem_append_right _ h1
  · intro k c1 hk
    rw [hded, hmap]
    rcases getElem?_append_one _ _ _ _ hk with ⟨hkl, hk1⟩ | ⟨hkl, hk1⟩
    · obtain ⟨i, d1, hi, hle, hd1, he1⟩ := hidx k c1 hk1
      refine ⟨i, d1, ?_, hle, ?_, he1⟩
      · have hne : (k == done.length) = false := by
          simp only [beq_eq_false_iff_ne, ne_eq]
          omega
        simp only [indexGet, List.lookup, hne]
        exact hi
      · rw [List.getElem?_append_left (getElem?_lt_of_some _ _ _ hd1)]
        exact hd1
    · subst hk1
      subst hkl
      refine ⟨st.deduped.length, c1, ?_, hlen, ?_, constEquiv_refl c1 hc⟩
      · simp [indexGet, List.lookup]
      · exact List.getElem?_concat_length _ _
  · rw [hded]
    exact hmaps

theorem dedupStep_inv (done : List Object) (st : DedupState) (c : Object)
    (hinv : DedupInv done st) (hc : allowedConstant c = true) :
    ∃ st1, dedupStep st done.length c = .ret st1 ∧ DedupInv (done ++ [c]) st1 := by
  have hmaps := hinv.2.2.2
  have hmapsA := mapsOK_append st.deduped st c hmaps
  obtain ⟨m1, m2, m3, m4, m5, m6⟩ := hmaps
  obtain ⟨a1, a2, a3, a4, a5, a6⟩ := hmapsA
  have hlast : (st.deduped ++ [c])[st.deduped.length]? = some c :=
    List.getElem?_concat_length _ _
  cases c with
  | compiledFunction addr fn =>
    simp only [dedupStep]
    cases hl : st.fns.lookup addr with
    | some newIdx =>
      obtain ⟨fn0, hfn0⟩ := m1 addr newIdx (mem_of_lookup _ _ _ hl)
      exact ⟨_, rfl, DedupInv_hit done st _ _ newIdx hinv hfn0 (by simp [constEquiv])⟩
    | none =>
      refine ⟨_, rfl, DedupInv_miss done st _ _ hinv hc rfl rfl ⟨?_, a2, a3, a4, a5, a6⟩⟩
      intro a i hm
      rcases List.mem_cons.1 hm with h1 | h1
      · simp only [Prod.mk.injEq] at h1
        obtain ⟨h2, h3⟩ := h1
        subst h2
        subst h3
        exact ⟨fn, hlast⟩
      · exact a1 a i h1
  | immutableMap addr m =>
    simp only [dedupStep]
    have hmiss : DedupInv (done ++ [Object.immutableMap addr m])
        { st with immutableMaps := (inferModuleName m, st.deduped.length) :: st.immutableMaps,
                  indexMap := (done.length, st.deduped.length) :: st.indexMap,
                  deduped := st.deduped ++ [Object.immutableMap addr m] } := by
      refine DedupInv_miss done st _ _ hinv hc rfl rfl ⟨a1, a2, a3, a4, a5, ?_⟩
      intro n i hm
      rcases List.mem_cons.1 hm with h1 | h1
      · simp only [Prod.mk.injEq] at h1
        obtain ⟨h2, h3⟩ := h1
        subst h2
        subst h3
        exact ⟨addr, m, hlast, rfl⟩
      · exact a6 n i h1
    cases hl : st.immutableMaps.lookup (inferModuleName m) with
    | some newIdx =>
      simp only
      by_cases hne : inferModuleName m ≠ []
      · rw [if_pos hne]
        obtain ⟨a0, m0, hd0, hn0⟩ := m6 _ newIdx (mem_of_lookup _ _ _ hl)
        exact ⟨_, rfl, DedupInv_hit done st _ _ newIdx hinv hd0 (by simp [constEquiv, hne, hn0])⟩
      · rw [if_neg hne]
        exact ⟨_, rfl, hmiss⟩
    | none => exact ⟨_, rfl, hmiss⟩
  | int v =>
    simp only [dedupStep]
    cases hl : st.ints.lookup v with
    | some newIdx =>
      have hd0 := m2 v newIdx (mem_of_lookup _ _ _ hl)
      exact ⟨_, rfl, DedupInv_hit done st _ _ newIdx hinv hd0 (by simp [constEquiv])⟩
    | none =>
      refine ⟨_, rfl, DedupInv_miss done st _ _ hinv hc rfl rfl ⟨a1, ?_, a3, a4, a5, a6⟩⟩
      intro w i hm
      rcases List.mem_cons.1 hm with h1 | h1
      · simp only [Prod.mk.injEq] at h1
        obtain ⟨h2, h3⟩ := h1
        subst h2
        subst h3
        exact hlast
      · exact a2 w i h1
  | string v =>
    simp only [dedupStep]
    cases hl : st.strings.lookup v with
    | some newIdx =>
      have hd0 := m3 v newIdx (mem_of_lookup _ _ _ hl)
      exact ⟨_, rfl, DedupInv_hit done st _ _ newIdx hinv hd0 (by simp [constEquiv])⟩
    | none =>
      refine ⟨_, rfl, DedupInv_miss done st _ _ hinv hc rfl rfl ⟨a1, a2, ?_, a4, a5, a6⟩⟩
      intro w i hm
      rcases List.mem_cons.1 hm with h1 | h1
      · simp only [Prod.mk.injEq] at h1
        obtain ⟨h2, h3⟩ := h1
        subst h2
        subst h3
        exact hlast
      · exact a3 w i h1
  | float v =>
    simp only [dedupStep]
    cases hl : floatGet st.floats v with
    | some newIdx =>
      obtain ⟨key, hkey, hfe⟩ := floatGet_some _ _ _ hl
      have hd0 := m4 key newIdx hkey
      exact ⟨_, rfl, DedupInv_hit done st _ _ newIdx hinv hd0 (by simp [constEquiv, hfe])⟩
    | none =>
      refine ⟨_, rfl, DedupInv_miss done st _ _ hinv hc rfl rfl ⟨a1, a2, a3, ?_, a5, a6⟩⟩
      intro w i hm
      rcases List.mem_cons.1 hm with h1 | h1
      · simp only [Prod.mk.injEq] at h1
        obtain ⟨h2, h3⟩ := h1
        subst h2
        subst h3
        exact hlast
      · exact a4 w i h1
  | char v =>
    simp only [dedupStep]
    cases hl : st.chars.lookup v with
    | some newIdx =>
      have hd0 := m5 v newIdx (mem_of_lookup _ _ _ hl)
      exact ⟨_, rfl, DedupInv_hit done st _ _ newIdx hinv hd0 (by simp [constEquiv])⟩
    | none =>
      refine ⟨_, rfl, DedupInv_miss done st _ _ hinv hc rfl rfl ⟨a1, a2, a3, a4, ?_, a6⟩⟩
      intro w i hm
      rcases List.mem_cons.1 hm with h1 | h1
      · simp only [Prod.mk.injEq] at h1
        obtain ⟨h2, h3⟩ := h1
        subst h2
        subst h3
        exact hlast
      · exact a5 w i h1
  | bool _ _ => simp [allowedConstant] at hc
  | bytes _ => simp [allowedConstant] at hc
  | array _ => simp [allowedConstant] at hc
  | immutableArray _ => simp [allowedConstant] at hc
  | map _ => simp [allowedConstant] at hc
  | undefined _ => simp [allowedConstant] at hc
  | error _ _ => simp [allowedConstant] at hc
  | time _ => simp [allowedConstant] at hc
  | builtinFunction _ _ => simp [allowedConstant] at hc
  | userFunction _ _ => simp [allowedConstant] at hc
  | objectPtr _ => simp [allowedConstant] at hc

theorem dedupLoop_inv (todo : List Object) :
    ∀ (done : List Object) (st : DedupState), DedupInv done st →
      (∀ c ∈ todo, allowedConstant c = true) →
      ∃ st1, dedupLoop st done.length todo = .ret st1 ∧ DedupInv (done ++ todo) st1 := by
  induction todo with
  | nil =>
    intro done st hinv _
    exact ⟨st, rfl, by simpa using hinv⟩
  | cons c cs ih =>
    intro done st hinv hall
    obtain ⟨st1, hstep, hinv1⟩ :=
      dedupStep_inv done st c hinv (hall c (List.mem_cons_self _ _))
    obtain ⟨st2, hloop, hinv2⟩ := ih (done ++ [c]) st1 hinv1
      (fun x hx => hall x (List.mem_cons_of_mem _ hx))
    refine ⟨st2, ?_, by simpa using hinv2⟩
    simp only [dedupLoop, hstep]
    simpa using hloop

theorem DedupInv_empty : DedupInv [] DedupState.empty := by
  refine ⟨by simp [DedupState.empty], ?_, ?_, ?_⟩
  · intro d hd
    simp [DedupState.empty] at hd
  · intro k c hk
    simp at hk
  · refine ⟨?_, ?_, ?_, ?_, ?_, ?_⟩ <;> intro _ _ hm <;> simp [DedupState.empty] at hm
theorem or_shift_eq (lo hi : Nat) (hlo : lo < 256) : lo ||| hi <<< 8 = hi * 256 + lo := by
  have h := Nat.mul_add_lt_is_or (i := 8) (b := lo) (by simpa using hlo) hi
  rw [Nat.shiftLeft_eq, Nat.lor_comm]
  have h8 : (2 : Nat) ^ 8 = 256 := by norm_num
  rw [h8] at h ⊢
  rw [Nat.mul_comm hi 256, ← h]

theorem or_shift_roundtrip (n : Nat) (hn : n < 65536) :
    (n % 256) ||| (n / 256 % 256) <<< 8 = n := by
  rw [or_shift_eq _ _ (Nat.mod_lt _ (by norm_num))]
  omega

theorem updateConstIndexes_encode (indexMap : List (Nat × Nat)) (is : List Instr)
    (hvalid : ∀ x ∈ is, x.valid = true)
    (hidx : ∀ x ∈ is, ∀ cur, constOperand x = some cur →
      ∃ new, indexGet indexMap cur = some new) :
    updateConstIndexes (encode is) indexMap
      = .ret (encode (is.map (rewriteInstr indexMap))) := by
  have := updateLoop_encode indexMap is [] (encode is).length hvalid hidx (Nat.le_refl _)
  simpa [updateConstIndexes] using this

theorem updatePool_spec (indexMap : List (Nat × Nat)) (cs : List Object)
    (hfn : ∀ a fn, Object.compiledFunction a fn ∈ cs →
      ∃ insts, updateConstIndexes fn.Instructions indexMap = .ret insts) :
    ∃ cs1, updatePool indexMap cs = .ret cs1 ∧
      ∀ (i : Nat) (d : Object), cs[i]? = some d →
        ∃ d1, cs1[i]? = some d1 ∧ poolRel indexMap d d1 := by
  induction cs with
  | nil => exact ⟨[], rfl, by intro i d h; simp at h⟩
  | cons c cs ih =>
    obtain ⟨cs1, hcs1, hrel⟩ := ih (fun a fn hm => hfn a fn (List.mem_cons_of_mem _ hm))
    have hother : ∀ c1 : Object, poolRel indexMap c c1 →
        ∀ (i : Nat) (d : Object), (c :: cs)[i]? = some d →
          ∃ d1, (c1 :: cs1)[i]? = some d1 ∧ poolRel indexMap d d1 := by
      intro c1 hc1 i d hd
      cases i with
      | zero =>
        simp only [List.getElem?_cons_zero, Option.some.injEq] at hd
        subst hd
        exact ⟨c1, by simp, hc1⟩
      | succ j =>
        simp only [List.getElem?_cons_succ] at hd
        obtain ⟨d1, hd1, hr⟩ := hrel j d hd
        exact ⟨d1, by simpa using hd1, hr⟩
    cases c with
    | compiledFunction a fn =>
      obtain ⟨insts, hinsts⟩ := hfn a fn (List.mem_cons_self _ _)
      refine ⟨Object.compiledFunction a { fn with Instructions := insts } :: cs1, ?_, ?_⟩
      · simp [updatePool, hinsts, hcs1]
      · exact hother _ ⟨insts, hinsts, rfl⟩
    | int v => exact ⟨_ :: cs1, by simp [updatePool, hcs1], hother _ rfl⟩
    | float v => exact ⟨_ :: cs1, by simp [updatePool, hcs1], hother _ rfl⟩
    | bool a v => exact ⟨_ :: cs1, by simp [updatePool, hcs1], hother _ rfl⟩
    | char v => exact ⟨_ :: cs1, by simp [updatePool, hcs1], hother _ rfl⟩
    | string v => exact ⟨_ :: cs1, by simp [updatePool, hcs1], hother _ rfl⟩
    | bytes v => exact ⟨_ :: cs1, by simp [updatePool, hcs1], hother _ rfl⟩
    | array v => exact ⟨_ :: cs1, by simp [updatePool, hcs1], hother _ rfl⟩
    | immutableArray v => exact ⟨_ :: cs1, by simp [updatePool, hcs1], hother _ rfl⟩
    | map v => exact ⟨_ :: cs1, by simp [updatePool, hcs1], hother _ rfl⟩
    | immutableMap a v => exact ⟨_ :: cs1, by simp [updatePool, hcs1], hother _ rfl⟩
    | undefined a => exact ⟨_ :: cs1, by simp [updatePool, hcs1], hother _ rfl⟩
    | error a v => exact ⟨_ :: cs1, by simp [updatePool, hcs1], hother _ rfl⟩
    | time v => exact ⟨_ :: cs1, by simp [updatePool, hcs1], hother _ rfl⟩
    | builtinFunction n v => exact ⟨_ :: cs1, by simp [updatePool, hcs1], hother _ rfl⟩
    | userFunction n v => exact ⟨_ :: cs1, by simp [updatePool, hcs1], hother _ rfl⟩
    | objectPtr a => exact ⟨_ :: cs1, by simp [updatePool, hcs1], hother _ rfl⟩

theorem constEquiv_poolRel (indexMap : List (Nat × Nat)) (c d d1 : Object)
    (h : constEquiv c d = true) (hr : poolRel indexMap d d1) : constEquiv c d1 = true := by
  cases d with
  | compiledFunction a fn =>
    obtain ⟨insts, _, hd1⟩ := hr
    subst hd1
    cases c <;> simp [constEquiv] at h ⊢
    exact h
  | int v => simp only [poolRel] at hr; rw [hr]; exact h
  | float v => simp only [poolRel] at hr; rw [hr]; exact h
  | bool a v => simp only [poolRel] at hr; rw [hr]; exact h
  | char v => simp only [poolRel] at hr; rw [hr]; exact h
  | string v => simp only [poolRel] at hr; rw [hr]; exact h
  | bytes v => simp only [poolRel] at hr; rw [hr]; exact h
  | array v => simp only [poolRel] at hr; rw [hr]; exact h
  | immutableArray v => simp only [poolRel] at hr; rw [hr]; exact h
  | map v => simp only [poolRel] at hr; rw [hr]; exact h
  | immutableMap a v => simp only [poolRel] at hr; rw [hr]; exact h
  | undefined a => simp only [poolRel] at hr; rw [hr]; exact h
  | error a v => simp only [poolRel] at hr; rw [hr]; exact h
  | time v => simp only [poolRel] at hr; rw [hr]; exact h
  | builtinFunction n v => simp only [poolRel] at hr; rw [hr]; exact h
  | userFunction n v => simp only [poolRel] at hr; rw [hr]; exact h
  | objectPtr a => simp only [poolRel] at hr; rw [hr]; exact h

/-- A valid CONST or CLOSURE instruction carries an index below 65536 in two bytes. -/
theorem constOperand_lt (x : Instr) (hx : x.valid = true) (cur : Nat)
    (h : constOperand x = some cur) : cur < 65536 := by
  simp only [Instr.valid] at hx
  cases hw : OpcodeOperands[x.op]? with
  | none => rw [hw] at hx; simp at hx
  | some widths =>
    rw [hw] at hx
    simp only [Bool.and_eq_true, beq_iff_eq, List.all_eq_true, decide_eq_true_eq] at hx
    obtain ⟨_, hbytes⟩ := hx
    simp only [constOperand] at h
    split at h
    · match hxa : x.args with
      | hi :: lo :: rest =>
        rw [hxa] at h hbytes
        simp only [Option.some.injEq] at h
        have hlo : lo < 256 := hbytes lo (by simp)
        have hhi : hi < 256 := hbytes hi (by simp)
        rw [or_shift_eq lo hi hlo] at h
        omega
      | [] => rw [hxa] at h; simp at h
      | [_] => rw [hxa] at h; simp at h
    · simp at h

/-- The rewritten instruction: same opcode, the new index in its first operand, every
other operand byte as before. -/
theorem rewriteInstr_spec (indexMap : List (Nat × Nat)) (x : Instr) (cur new : Nat)
    (h : constOperand x = some cur) (hnew : indexGet indexMap cur = some new)
    (hlt : new < 65536) :
    (rewriteInstr indexMap x).op = x.op ∧
    constOperand (rewriteInstr indexMap x) = some new ∧
    closureNumFree (rewriteInstr indexMap x) = closureNumFree x := by
  have hop : x.op = OpConstant ∨ x.op = OpClosure := by
    by_contra hne
    simp [constOperand, hne] at h
  match hxa : x.args with
  | hi :: lo :: rest =>
    have hrw : rewriteInstr indexMap x
        = { op := x.op, args := (new / 256 % 256) :: (new % 256) :: rest } := by
      simp [rewriteInstr, h, hnew, hxa]
    rw [hrw]
    refine ⟨rfl, ?_, ?_⟩
    · simp only [constOperand, hop, if_true]
      rw [or_shift_roundtrip new hlt]
    · simp only [closureNumFree, hxa]
      cases rest <;> rfl
  | [] => simp [constOperand, hxa] at h
  | [_] => simp [constOperand, hxa] at h

theorem mem_of_getElem?_some {α : Type} (l : List α) (i : Nat) (a : α)
    (h : l[i]? = some a) : a ∈ l := by
  obtain ⟨hi, ha⟩ := List.getElem?_eq_some.1 h
  rw [← ha]
  exact List.getElem_mem hi

/-- C1 (as stated, refuted): in the pool `[+0.0, -0.0]` the instruction `CONST 1` indexes
`-0.0`; `RemoveDuplicates` leaves the pool `[+0.0]` and rewrites the instruction to
`CONST 0`, which indexes `+0.0`: a Float equal to the old one under `==`, but not the same
value. -/
theorem c1_counterexample :
    RemoveDuplicates zerosBytecode =
      .ret (Bytecode.mk
        (CompiledFunction.mk (encode [Instr.mk OpConstant [0, 0], Instr.mk OpSuspend []])
          0 0 false [] [])
        [Object.float 0]) ∧
      zerosBytecode.Constants[1]? = some (Object.float (2 ^ 63)) ∧
      constEquivExact (Object.float (2 ^ 63)) (Object.float 0) = false ∧
      constEquiv (Object.float (2 ^ 63)) (Object.float 0) = true := by
  decide

/-- C1 (amended): for a constant pool of CompiledFunction, ImmutableMap, Int, Float, Char and
String values, when the main function and every function of the pool hold well-formed
instruction sequences whose CONST and CLOSURE instructions index the pool,
`RemoveDuplicates` returns;
the main function then holds the same instructions with every CONST and CLOSURE index sent
through the index map, and so does every function of the pool, found at the new index of
its old place; a rewritten CONST or CLOSURE instruction keeps its opcode and its
free-variable count, and its new index is the place, in the new pool, of a constant that
stands for the one it indexed before: the same function object, an ImmutableMap with the
same non-empty module name or the very same map, or a constant of the same type and value,
a Float of the same bits or equal to the old one under `==`. -/
theorem c1_remove_duplicates_keeps_references (b : Bytecode) (mainIs : List Instr)
    (hkinds : ∀ c ∈ b.Constants, allowedConstant c = true)
    (hmain : b.MainFunction.Instructions = encode mainIs)
    (hmainValid : ∀ x ∈ mainIs, x.valid = true)
    (hmainIdx : indexesPool b.Constants.length mainIs)
    (hfns : ∀ a fn, Object.compiledFunction a fn ∈ b.Constants →
      ∃ is, fn.Instructions = encode is ∧ (∀ x ∈ is, x.valid = true) ∧
        indexesPool b.Constants.length is)
    (hident : ∀ a f g, Object.compiledFunction a f ∈ b.Constants →
      Object.compiledFunction a g ∈ b.Constants → f = g) :
    ∃ b1 indexMap, RemoveDuplicates b = .ret b1 ∧
      b1.MainFunction.Instructions = encode (mainIs.map (rewriteInstr indexMap)) ∧
      (∀ (k : Nat) (a : Nat) (fn : CompiledFunction) (is : List Instr),
        b.Constants[k]? = some (Object.compiledFunction a fn) →
        fn.Instructions = encode is → (∀ x ∈ is, x.valid = true) →
        indexesPool b.Constants.length is →
        ∃ new, indexGet indexMap k = some new ∧
          b1.Constants[new]? = some (Object.compiledFunction a
            { fn with Instructions := encode (is.map (rewriteInstr indexMap)) })) ∧
      (∀ x : Instr, x.valid = true → ∀ cur, constOperand x = some cur →
        cur < b.Constants.length →
        ∃ new c d, constOperand (rewriteInstr indexMap x) = some new ∧
          (rewriteInstr indexMap x).op = x.op ∧
          closureNumFree (rewriteInstr indexMap x) = closureNumFree x ∧
          b.Constants[cur]? = some c ∧ b1.Constants[new]? = some d ∧
          constEquiv c d = true) := by
  obtain ⟨st, hloop, hinv⟩ := dedupLoop_inv b.Constants [] DedupState.empty DedupInv_empty hkinds
  simp only [List.length_nil, List.nil_append] at hloop hinv
  obtain ⟨_, hsub, hidx, _⟩ := hinv
  have hget : ∀ cur, cur < b.Constants.length →
      ∃ new c d, indexGet st.indexMap cur = some new ∧ new ≤ cur ∧
        b.Constants[cur]? = some c ∧ st.deduped[new]? = some d ∧ constEquiv c d = true := by
    intro cur hcur
    obtain ⟨i, d, hi, hle, hd, he⟩ := hidx cur (b.Constants[cur]) (List.getElem?_eq_getElem hcur)
    exact ⟨i, _, d, hi, hle, List.getElem?_eq_getElem hcur, hd, he⟩
  have hsome : ∀ is : List Instr, indexesPool b.Constants.length is →
      ∀ x ∈ is, ∀ cur, constOperand x = some cur →
        ∃ new, indexGet st.indexMap cur = some new := by
    intro is hip x hx cur hc
    obtain ⟨new, _, _, hn, _⟩ := hget cur (hip x hx cur hc)
    exact ⟨new, hn⟩
  have hmainU := updateConstIndexes_encode st.indexMap mainIs hmainValid
    (hsome mainIs hmainIdx)
  obtain ⟨cs1, hpool, hrel⟩ := updatePool_spec st.indexMap st.deduped (by
    intro a fn hm
    obtain ⟨is, his, hv, hip⟩ := hfns a fn (hsub _ hm)
    exact ⟨_, by rw [his]; exact updateConstIndexes_encode st.indexMap is hv (hsome is hip)⟩)
  refine ⟨{ MainFunction := { b.MainFunction with
              Instructions := encode (mainIs.map (rewriteInstr st.indexMap)) },
            Constants := cs1 }, st.indexMap, ?_, rfl, ?_, ?_⟩
  · simp only [RemoveDuplicates, hloop, hmain, hmainU, hpool]
  · intro k a fn is hk his hv hip
    obtain ⟨new, c, d, hnew, _, hc, hd, he⟩ := hget k (getElem?_lt_of_some _ _ _ hk)
    rw [hk] at hc
    simp only [Option.some.injEq] at hc
    subst hc
    obtain ⟨d1, hd1, hr⟩ := hrel new d hd
    refine ⟨new, hnew, ?_⟩
    cases d with
    | compiledFunction a0 fn0 =>
      have ha : a = a0 := by simpa [constEquiv] using he
      subst ha
      have hmem : Object.compiledFunction a fn0 ∈ b.Constants :=
        hsub _ (mem_of_getElem?_some _ _ _ hd)
      have hfn : fn = fn0 := hident a fn fn0 (mem_of_getElem?_some _ _ _ hk) hmem
      subst hfn
      obtain ⟨insts, hinsts, hd1eq⟩ := hr
      rw [his, updateConstIndexes_encode st.indexMap is hv (hsome is hip)] at hinsts
      simp only [Outcome.ret.injEq] at hinsts
      rw [hd1, hd1eq, ← hinsts]
    | int v => simp [constEquiv] at he
    | float v => simp [constEquiv] at he
    | bool a v => simp [constEquiv] at he
    | char v => simp [constEquiv] at he
    | string v => simp [constEquiv] at he
    | bytes v => simp [constEquiv] at he
    | array v => simp [constEquiv] at he
    | immutableArray v => simp [constEquiv] at he
    | map v => simp [constEquiv] at he
    | immutableMap a v => simp [constEquiv] at he
    | undefined a => simp [constEquiv] at he
    | error a v => simp [constEquiv] at he
    | time v => simp [constEquiv] at he
    | builtinFunction n v => simp [constEquiv] at he
    | userFunction n v => simp [constEquiv] at he
    | objectPtr a => simp [constEquiv] at he
  · intro x hx cur hc hcur
    obtain ⟨new, c, d, hnew, hle, hcc, hd, he⟩ := hget cur hcur
    obtain ⟨d1, hd1, hr⟩ := hrel new d hd
    have hlt : new < 65536 := Nat.lt_of_le_of_lt hle (constOperand_lt x hx cur hc)
    obtain ⟨h1, h2, h3⟩ := rewriteInstr_spec st.indexMap x cur new hc hnew hlt
    exact ⟨new, c, d1, h2, h1, h3, hcc, hd1, constEquiv_poolRel st.indexMap c d d1 he hr⟩

theorem c1_remove_duplicates_keeps_references_witness :
    ∃ b1 indexMap, RemoveDuplicates sampleBytecode = .ret b1 ∧
      b1.MainFunction.Instructions = encode (sampleMain.map (rewriteInstr indexMap)) ∧
      (∀ (k : Nat) (a : Nat) (fn : CompiledFunction) (is : List Instr),
        sampleBytecode.Constants[k]? = some (Object.compiledFunction a fn) →
        fn.Instructions = encode is → (∀ x ∈ is, x.valid = true) →
        indexesPool sampleBytecode.Constants.length is →
        ∃ new, indexGet indexMap k = some new ∧
          b1.Constants[new]? = some (Object.compiledFunction a
            { fn with Instructions := encode (is.map (rewriteInstr indexMap)) })) ∧
      (∀ x : Instr, x.valid = true → ∀ cur, constOperand x = some cur →
        cur < sampleBytecode.Constants.length →
        ∃ new c d, constOperand (rewriteInstr indexMap x) = some new ∧
          (rewriteInstr indexMap x).op = x.op ∧
          closureNumFree (rewriteInstr indexMap x) = closureNumFree x ∧
          sampleBytecode.Constants[cur]? = some c ∧ b1.Constants[new]? = some d ∧
          constEquiv c d = true) :=
  c1_remove_duplicates_keeps_references sampleBytecode sampleMain
    (by decide) rfl (by decide)
    (by
      intro x hx cur hc
      simp only [sampleMain, List.mem_cons, List.mem_singleton, List.not_mem_nil,
        or_false] at hx
      rcases hx with h | h | h | h <;> subst h <;>
        simp [constOperand, OpConstant, OpClosure, OpSuspend] at hc <;> subst hc <;>
        decide)
    (by
      intro a fn hm
      simp [sampleBytecode] at hm
      obtain ⟨_, hfn⟩ := hm
      subst hfn
      refine ⟨sampleBody, rfl, by decide, ?_⟩
      intro x hx cur hc
      simp only [sampleBody, List.mem_cons, List.mem_singleton, List.not_mem_nil,
        or_false] at hx
      rcases hx with h | h <;> subst h <;>
        simp [constOperand, OpConstant, OpClosure, OpReturn] at hc <;> subst hc <;>
        decide)
    (by
      intro a f g hf hg
      simp [sampleBytecode] at hf hg
      rw [hf.2, hg.2])

/-! ## Theorems: scanner -/

theorem Scanner.frame_refl (s : Scanner) : s.frame s := ⟨rfl, rfl, rfl, rfl, fun h => h⟩

theorem Scanner.frame_trans {s t u : Scanner} (h1 : s.frame t) (h2 : t.frame u) : s.frame u := by
  obtain ⟨a1, a2, a3, a4, a5⟩ := h1
  obtain ⟨b1, b2, b3, b4, b5⟩ := h2
  refine ⟨b1.trans a1, b2.trans a2, b3.trans a3, b4.trans a4, ?_⟩
  intro h
  apply b5
  have := a5 h
  rw [a1]
  rw [a1] at this
  exact this

theorem SourceFile.AddLine_Size (f : SourceFile) (o : Nat) : (f.AddLine o).Size = f.Size := by
  simp only [SourceFile.AddLine]
  split <;> rfl

theorem SourceFile.AddLine_Base (f : SourceFile) (o : Nat) : (f.AddLine o).Base = f.Base := by
  simp only [SourceFile.AddLine]
  split <;> rfl

theorem Scanner.frame_error (s : Scanner) (o : Nat) (m : String) : s.frame (s.error o m) :=
  ⟨rfl, rfl, rfl, rfl, fun h => h⟩

theorem Scanner.error_insertSemi (s : Scanner) (o : Nat) (m : String) :
    (s.error o m).insertSemi = s.insertSemi := rfl

theorem Scanner.error_ch (s : Scanner) (o : Nat) (m : String) : (s.error o m).ch = s.ch := rfl

theorem Scanner.next_fields (s : Scanner) :
    s.next.src = s.src ∧ s.next.insertSemi = s.insertSemi ∧ s.next.mode = s.mode ∧
      s.next.file.Size = s.file.Size ∧ s.next.file.Base = s.file.Base ∧
      s.next.offset ≤ s.src.length := by
  simp only [Scanner.next, Scanner.noteLine, Scanner.error]
  split_ifs <;> simp [SourceFile.AddLine_Size, SourceFile.AddLine_Base] <;> omega

theorem Scanner.next_src (s : Scanner) : s.next.src = s.src := s.next_fields.1

theorem Scanner.next_insertSemi (s : Scanner) : s.next.insertSemi = s.insertSemi :=
  s.next_fields.2.1

theorem Scanner.frame_next (s : Scanner) : s.frame s.next := by
  obtain ⟨h1, _, h3, h4, h5, h6⟩ := s.next_fields
  exact ⟨h1, h4, h5, h3, fun _ => by rw [h1]; exact h6⟩

theorem Scanner.keep_refl (s : Scanner) : s.keep s := ⟨s.frame_refl, rfl⟩

theorem Scanner.keep_trans {s t u : Scanner} (h1 : s.keep t) (h2 : t.keep u) : s.keep u :=
  ⟨Scanner.frame_trans h1.1 h2.1, h2.2.trans h1.2⟩

theorem Scanner.keep_next (s : Scanner) : s.keep s.next := ⟨s.frame_next, s.next_insertSemi⟩

theorem Scanner.keep_error (s : Scanner) (o : Nat) (m : String) : s.keep (s.error o m) :=
  ⟨s.frame_error o m, rfl⟩

theorem Scanner.keep_next_of {s t : Scanner} (h : s.keep t) : s.keep t.next :=
  Scanner.keep_trans h t.keep_next

theorem Scanner.keep_error_of {s t : Scanner} (h : s.keep t) (o : Nat) (m : String) :
    s.keep (t.error o m) :=
  Scanner.keep_trans h (t.keep_error o m)

theorem Scanner.keep_skipWhitespace (fuel : Nat) (s : Scanner) :
    s.keep (Scanner.skipWhitespace fuel s) := by
  induction fuel generalizing s with
  | zero => exact s.keep_refl
  | succ n ih =>
    simp only [Scanner.skipWhitespace]
    split_ifs
    · exact Scanner.keep_trans s.keep_next (ih _)
    · exact s.keep_refl

theorem Scanner.keep_identLoop (U : Unicode) (fuel : Nat) (s : Scanner) :
    s.keep (Scanner.identLoop U fuel s) := by
  induction fuel generalizing s with
  | zero => exact s.keep_refl
  | succ n ih =>
    simp only [Scanner.identLoop]
    split_ifs
    · exact Scanner.keep_trans s.keep_next (ih _)
    · exact s.keep_refl

theorem Scanner.keep_scanIdentifier (U : Unicode) (s : Scanner) :
    s.keep (s.scanIdentifier U).2 := Scanner.keep_identLoop U _ s

theorem Scanner.keep_scanDigits (base : Int) (fuel : Nat) (s : Scanner) :
    s.keep (Scanner.scanDigits base fuel s) := by
  induction fuel generalizing s with
  | zero => exact s.keep_refl
  | succ n ih =>
    simp only [Scanner.scanDigits]
    split_ifs
    · exact Scanner.keep_trans s.keep_next (ih _)
    · exact s.keep_refl

theorem Scanner.keep_scanDigits_of {s t : Scanner} (h : s.keep t) (base : Int) (fuel : Nat) :
    s.keep (Scanner.scanDigits base fuel t) :=
  Scanner.keep_trans h (Scanner.keep_scanDigits base fuel t)

theorem Scanner.keep_scanNumber (s : Scanner) : s.keep s.scanNumber.2 := by
  simp only [Scanner.scanNumber]
  have hbs : s.keep (if s.ch = 48 ∧ lower s.peek = 98 then ((2 : Int), s.next.next)
      else if s.ch = 48 ∧ lower s.peek = 111 then (8, s.next.next)
      else if s.ch = 48 ∧ lower s.peek = 120 then (16, s.next.next)
      else (10, s)).2 := by
    split_ifs
    · exact Scanner.keep_next_of s.keep_next
    · exact Scanner.keep_next_of s.keep_next
    · exact Scanner.keep_next_of s.keep_next
    · exact s.keep_refl
  generalize (if s.ch = 48 ∧ lower s.peek = 98 then ((2 : Int), s.next.next)
      else if s.ch = 48 ∧ lower s.peek = 111 then (8, s.next.next)
      else if s.ch = 48 ∧ lower s.peek = 120 then (16, s.next.next)
      else (10, s)) = bs at hbs
  have h1 := Scanner.keep_scanDigits_of hbs bs.1 (s.src.length + 1)
  generalize Scanner.scanDigits bs.1 (s.src.length + 1) bs.2 = s1 at h1
  split_ifs
  · exact Scanner.keep_error_of (Scanner.keep_scanDigits_of (Scanner.keep_next_of
      (Scanner.keep_next_of (Scanner.keep_scanDigits_of (Scanner.keep_next_of h1) _ _))) _ _) _ _
  · exact Scanner.keep_scanDigits_of (Scanner.keep_next_of
      (Scanner.keep_next_of (Scanner.keep_scanDigits_of (Scanner.keep_next_of h1) _ _))) _ _
  · exact Scanner.keep_error_of (Scanner.keep_scanDigits_of
      (Scanner.keep_next_of (Scanner.keep_scanDigits_of (Scanner.keep_next_of h1) _ _)) _ _) _ _
  · exact Scanner.keep_scanDigits_of
      (Scanner.keep_next_of (Scanner.keep_scanDigits_of (Scanner.keep_next_of h1) _ _)) _ _
  · exact Scanner.keep_scanDigits_of (Scanner.keep_next_of h1) _ _
  · exact Scanner.keep_error_of (Scanner.keep_scanDigits_of (Scanner.keep_next_of
      (Scanner.keep_next_of h1)) _ _) _ _
  · exact Scanner.keep_scanDigits_of (Scanner.keep_next_of (Scanner.keep_next_of h1)) _ _
  · exact Scanner.keep_error_of (Scanner.keep_scanDigits_of (Scanner.keep_next_of h1) _ _) _ _
  · exact Scanner.keep_scanDigits_of (Scanner.keep_next_of h1) _ _
  · exact h1

theorem Scanner.keep_escapeDigits (base n x : Nat) (s : Scanner) :
    s.keep (Scanner.escapeDigits base n x s).2 := by
  induction n generalizing s x with
  | zero => exact s.keep_refl
  | succ n ih =>
    simp only [Scanner.escapeDigits]
    split_ifs <;> first
      | exact s.keep_error _ _
      | exact Scanner.keep_trans s.keep_next (ih _ _)

theorem Scanner.keep_scanEscape (s : Scanner) (quote : Int) : s.keep (s.scanEscape quote).2 := by
  have hfin : ∀ (n base max o : Nat) (t : Scanner), s.keep t →
      s.keep (match Scanner.escapeDigits base n 0 t with
        | (none, s2) => (false, s2)
        | (some x, s2) =>
          if x > max ∨ (0xD800 ≤ x ∧ x < 0xE000) then
            (false, s2.error o "geçersiz Unicode kod noktası")
          else (true, s2)).2 := by
    intro n base max o t ht
    have h := Scanner.keep_trans ht (Scanner.keep_escapeDigits base n 0 t)
    generalize Scanner.escapeDigits base n 0 t = r at h
    obtain ⟨a, s2⟩ := r
    cases a with
    | none => exact h
    | some x =>
      simp only
      split_ifs
      · exact Scanner.keep_error_of h _ _
      · exact h
  simp only [Scanner.scanEscape]
  split_ifs <;> first
    | exact s.keep_next
    | exact hfin _ _ _ _ _ s.keep_refl
    | exact hfin _ _ _ _ _ s.keep_next
    | exact s.keep_error _ _

theorem Scanner.keep_runeLoop (offs fuel : Nat) (valid : Bool) (n : Nat) (s : Scanner) :
    s.keep (Scanner.runeLoop offs fuel valid n s).2 := by
  induction fuel generalizing s valid n with
  | zero => exact s.keep_refl
  | succ k ih =>
    simp only [Scanner.runeLoop]
    split_ifs <;> first
      | exact s.keep_error _ _
      | exact s.keep_refl
      | exact s.keep_next
      | exact Scanner.keep_trans (Scanner.keep_trans s.keep_next (Scanner.keep_scanEscape _ _))
          (ih _ _ _)
      | exact Scanner.keep_trans s.keep_next (ih _ _ _)

theorem Scanner.keep_scanRune (s : Scanner) : s.keep s.scanRune.2 := by
  simp only [Scanner.scanRune]
  split_ifs
  · exact Scanner.keep_error_of (Scanner.keep_runeLoop _ _ _ _ _) _ _
  · exact Scanner.keep_runeLoop _ _ _ _ _

theorem Scanner.keep_stringLoop (offs fuel : Nat) (s : Scanner) :
    s.keep (Scanner.stringLoop offs fuel s) := by
  induction fuel generalizing s with
  | zero => exact s.keep_refl
  | succ k ih =>
    simp only [Scanner.stringLoop]
    split_ifs
    · exact s.keep_error _ _
    · exact s.keep_next
    · exact Scanner.keep_trans (Scanner.keep_trans s.keep_next (Scanner.keep_scanEscape _ _))
        (ih _)
    · exact Scanner.keep_trans s.keep_next (ih _)

theorem Scanner.keep_scanString (s : Scanner) : s.keep s.scanString.2 :=
  Scanner.keep_stringLoop _ _ s

theorem Scanner.keep_rawLoop (offs fuel : Nat) (hasCR : Bool) (s : Scanner) :
    s.keep (Scanner.rawLoop offs fuel hasCR s).2 := by
  induction fuel generalizing s hasCR with
  | zero => exact s.keep_refl
  | succ k ih =>
    simp only [Scanner.rawLoop]
    split_ifs
    · exact s.keep_error _ _
    · exact s.keep_next
    · exact Scanner.keep_trans s.keep_next (ih _ _)
    · exact Scanner.keep_trans s.keep_next (ih _ _)

theorem Scanner.keep_scanRawString (s : Scanner) : s.keep s.scanRawString.2 :=
  Scanner.keep_rawLoop _ _ _ s

theorem Scanner.keep_lineCommentLoop (fuel numCR : Nat) (s : Scanner) :
    s.keep (Scanner.lineCommentLoop fuel numCR s).2 := by
  induction fuel generalizing s numCR with
  | zero => exact s.keep_refl
  | succ k ih =>
    simp only [Scanner.lineCommentLoop]
    split_ifs
    · exact Scanner.keep_trans s.keep_next (ih _ _)
    · exact Scanner.keep_trans s.keep_next (ih _ _)
    · exact s.keep_refl

theorem Scanner.keep_blockCommentLoop (fuel numCR : Nat) (s : Scanner) :
    s.keep (Scanner.blockCommentLoop fuel numCR s).2 := by
  induction fuel generalizing s numCR with
  | zero => exact s.keep_refl
  | succ k ih =>
    simp only [Scanner.blockCommentLoop]
    split_ifs
    · exact Scanner.keep_next_of s.keep_next
    · exact Scanner.keep_next_of s.keep_next
    · exact Scanner.keep_trans s.keep_next (ih _ _)
    · exact Scanner.keep_trans s.keep_next (ih _ _)
    · exact s.keep_refl

theorem Scanner.keep_scanComment (s : Scanner) : s.keep s.scanComment.2 := by
  simp only [Scanner.scanComment]
  split_ifs
  · exact Scanner.keep_trans s.keep_next (Scanner.keep_lineCommentLoop _ _ _)
  · have h := Scanner.keep_trans s.keep_next (Scanner.keep_blockCommentLoop (s.src.length + 1) 0 s.next)
    generalize Scanner.blockCommentLoop (s.src.length + 1) 0 s.next = r at h
    obtain ⟨⟨b, n⟩, s1⟩ := r
    cases b
    · exact Scanner.keep_error_of h _ _
    · exact h

theorem Scanner.keep_lineEndInner (fuel : Nat) (s : Scanner) :
    s.keep (Scanner.lineEndInner fuel s).2 := by
  induction fuel generalizing s with
  | zero => exact s.keep_refl
  | succ k ih =>
    simp only [Scanner.lineEndInner]
    split_ifs <;> first
      | exact s.keep_refl
      | exact Scanner.keep_next_of s.keep_next
      | exact Scanner.keep_trans s.keep_next (ih _)

theorem Scanner.keep_lineEndOuter (fuel : Nat) (s : Scanner) :
    s.keep (Scanner.lineEndOuter fuel s).2 := by
  induction fuel generalizing s with
  | zero => exact s.keep_refl
  | succ k ih =>
    simp only [Scanner.lineEndOuter]
    split_ifs
    · exact s.keep_refl
    · have h := Scanner.keep_trans s.keep_next (Scanner.keep_lineEndInner (s.src.length + 1) s.next)
      generalize Scanner.lineEndInner (s.src.length + 1) s.next = r at h
      obtain ⟨a, s1⟩ := r
      cases a with
      | some b => exact h
      | none =>
        have h2 := Scanner.keep_trans h (Scanner.keep_skipWhitespace (s1.src.length + 1) s1)
        simp only
        split_ifs <;> first
          | exact h2
          | exact Scanner.keep_trans (Scanner.keep_next_of h2) (ih _)
    · exact s.keep_refl

theorem Scanner.keep_reset {s t : Scanner} (h : s.keep t) (c : Int) (o r : Nat) :
    s.keep (Scanner.next { t with ch := c, offset := o, readOffset := r }) := by
  obtain ⟨h1, h2, h3, h4, h5, h6⟩ :=
    Scanner.next_fields { t with ch := c, offset := o, readOffset := r }
  obtain ⟨⟨a1, a2, a3, a4, _⟩, a6⟩ := h
  refine ⟨⟨h1.trans a1, h4.trans a2, h5.trans a3, h3.trans a4, fun _ => ?_⟩, h2.trans a6⟩
  rw [h1]
  exact h6

theorem Scanner.keep_findLineEnd (s : Scanner) : s.keep s.findLineEnd.2 :=
  Scanner.keep_reset (Scanner.keep_lineEndOuter _ s) _ _ _

theorem Scanner.keep_switch2 (s : Scanner) (t0 t1 : Token) : s.keep (s.switch2 t0 t1).2 := by
  simp only [Scanner.switch2]
  split_ifs <;> first | exact s.keep_next | exact s.keep_refl

theorem Scanner.keep_switch3 (s : Scanner) (t0 t1 : Token) (c : Int) (t2 : Token) :
    s.keep (s.switch3 t0 t1 c t2).2 := by
  simp only [Scanner.switch3]
  split_ifs <;> first | exact s.keep_next | exact s.keep_refl

theorem Scanner.keep_switch4 (s : Scanner) (t0 t1 : Token) (c : Int) (t2 t3 : Token) :
    s.keep (s.switch4 t0 t1 c t2 t3).2 := by
  simp only [Scanner.switch4]
  split_ifs <;> first
    | exact s.keep_next
    | exact s.keep_refl
    | exact Scanner.keep_next_of s.keep_next

theorem Scanner.switch2_tok (s : Scanner) (t0 t1 : Token) :
    (s.switch2 t0 t1).1 = t0 ∨ (s.switch2 t0 t1).1 = t1 := by
  simp only [Scanner.switch2]
  split_ifs <;> simp

theorem Scanner.switch3_tok (s : Scanner) (t0 t1 : Token) (c : Int) (t2 : Token) :
    (s.switch3 t0 t1 c t2).1 = t0 ∨ (s.switch3 t0 t1 c t2).1 = t1 ∨
      (s.switch3 t0 t1 c t2).1 = t2 := by
  simp only [Scanner.switch3]
  split_ifs <;> simp

theorem Scanner.switch4_tok (s : Scanner) (t0 t1 : Token) (c : Int) (t2 t3 : Token) :
    (s.switch4 t0 t1 c t2 t3).1 = t0 ∨ (s.switch4 t0 t1 c t2 t3).1 = t1 ∨
      (s.switch4 t0 t1 c t2 t3).1 = t2 ∨ (s.switch4 t0 t1 c t2 t3).1 = t3 := by
  simp only [Scanner.switch4]
  split_ifs <;> simp

theorem DecodeRune_width (p0 : Nat) (rest : List Nat) : 1 ≤ (DecodeRune (p0 :: rest)).2 := by
  simp only [DecodeRune]
  repeat (first | split | simp)

/-- Reading a character moves the reading offset on while there is input. -/
theorem Scanner.next_readOffset (s : Scanner) (hlt : s.readOffset < s.src.length) :
    s.readOffset + 1 ≤ s.next.readOffset := by
  have hw : 1 ≤ (DecodeRune (List.drop s.readOffset s.src)).2 := by
    have hne : List.drop s.readOffset s.src ≠ [] := by
      intro h
      have := congrArg List.length h
      simp at this
      omega
    cases hd : List.drop s.readOffset s.src with
    | nil => exact absurd hd hne
    | cons p0 rest => exact DecodeRune_width p0 rest
  simp only [Scanner.next, Scanner.noteLine, Scanner.error, if_pos hlt]
  split_ifs <;> simp <;> omega

/-- At the end of the input the character read is the end marker. -/
theorem Scanner.next_ch_end (s : Scanner) (h : ¬ s.readOffset < s.src.length) :
    s.next.ch = -1 := by
  simp only [Scanner.next, if_neg h]

/-- The loop of `skipWhitespace` runs to its end on the fuel `Scan` gives it: the scanner
it returns is not at a blank. -/
theorem Scanner.skipWhitespace_stops (fuel : Nat) (s : Scanner)
    (hfuel : s.src.length - s.readOffset + 1 ≤ fuel) :
    ¬ (Scanner.skipWhitespace fuel s).atBlank := by
  induction fuel generalizing s with
  | zero => omega
  | succ n ih =>
    simp only [Scanner.skipWhitespace]
    split_ifs with hb
    · by_cases hlt : s.readOffset < s.src.length
      · apply ih
        have hro := s.next_readOffset hlt
        rw [Scanner.next_src]
        omega
      · have hch : s.next.ch = -1 := s.next_ch_end hlt
        cases n with
        | zero =>
          simp only [Scanner.skipWhitespace, Scanner.atBlank, hch]
          omega
        | succ m =>
          simp only [Scanner.skipWhitespace, hch]
          simp [Scanner.atBlank, hch]
    · exact hb

theorem Scanner.ok_of_frame {s t : Scanner} (hok : s.ok) (h : s.frame t) : t.ok := by
  obtain ⟨h1, h2, h3⟩ := hok
  obtain ⟨a1, a2, _, a4, a5⟩ := h
  exact ⟨by rw [a1, a2]; exact h1, a5 h2, a4.trans h3⟩

theorem lookup_mem_snd {α β : Type} [BEq α] (l : List (α × β)) (a : α) (b : β)
    (h : l.lookup a = some b) : b ∈ l.map Prod.snd := by
  induction l with
  | nil => simp [List.lookup] at h
  | cons x xs ih =>
    obtain ⟨k, v⟩ := x
    simp only [List.lookup] at h
    split at h
    · simp only [Option.some.injEq] at h
      simp [h]
    · simp [ih h]

theorem Lookup_mem (x : GoString) : Lookup x ∈ Token.Ident :: keywords.map Prod.snd := by
  unfold Lookup
  cases h : keywords.lookup x with
  | none => simp
  | some tok => exact List.mem_cons_of_mem _ (lookup_mem_snd _ _ _ h)

theorem Lookup_flags (x : GoString) :
    Lookup x ≠ .Illegal ∧ (identInsertsSemi (Lookup x) = true ↔ Lookup x ∈ semiKinds) ∧
      Lookup x ≠ .Semicolon := by
  have h : ∀ t ∈ Token.Ident :: keywords.map Prod.snd,
      t ≠ .Illegal ∧ (identInsertsSemi t = true ↔ t ∈ semiKinds) ∧ t ≠ .Semicolon := by
    simp only [keywords, List.map]
    decide
  exact h _ (Lookup_mem x)

theorem Scanner.scanNumber_tok (s : Scanner) :
    s.scanNumber.1.1 = .Int ∨ s.scanNumber.1.1 = .Float := by
  simp only [Scanner.scanNumber]
  split_ifs <;> simp

theorem Scanned.good_normal {s s1 : Scanner} {tok : Token} {lit : GoString} {ins : Bool}
    (hf : s.keep s1) (h1 : tok ≠ .Illegal) (h2 : ins = true ↔ tok ∈ semiKinds)
    (h3 : tok ≠ .Semicolon ∨ lit = [59]) : (Scanned.normal tok lit ins s1).good s :=
  ⟨fun _ => h2, fun h => absurd h h1, fun h => h3.resolve_left (fun hn => hn h), hf.1⟩

theorem Scanned.good_two {s s1 : Scanner} {tok t0 t1 : Token} {lit : GoString} {ins : Bool}
    (hf : s.keep s1) (ht : tok = t0 ∨ tok = t1)
    (h : ∀ t ∈ [t0, t1], t ≠ .Illegal ∧ (ins = true ↔ t ∈ semiKinds) ∧ t ≠ .Semicolon) :
    (Scanned.normal tok lit ins s1).good s := by
  have := h tok (by rcases ht with h | h <;> simp [h])
  exact Scanned.good_normal hf this.1 this.2.1 (Or.inl this.2.2)

theorem Scanned.good_three {s s1 : Scanner} {tok t0 t1 t2 : Token} {lit : GoString} {ins : Bool}
    (hf : s.keep s1) (ht : tok = t0 ∨ tok = t1 ∨ tok = t2)
    (h : ∀ t ∈ [t0, t1, t2], t ≠ .Illegal ∧ (ins = true ↔ t ∈ semiKinds) ∧ t ≠ .Semicolon) :
    (Scanned.normal tok lit ins s1).good s := by
  have := h tok (by rcases ht with h | h | h <;> simp [h])
  exact Scanned.good_normal hf this.1 this.2.1 (Or.inl this.2.2)

theorem Scanned.good_four {s s1 : Scanner} {tok t0 t1 t2 t3 : Token} {lit : GoString}
    {ins : Bool} (hf : s.keep s1) (ht : tok = t0 ∨ tok = t1 ∨ tok = t2 ∨ tok = t3)
    (h : ∀ t ∈ [t0, t1, t2, t3], t ≠ .Illegal ∧ (ins = true ↔ t ∈ semiKinds) ∧ t ≠ .Semicolon) :
    (Scanned.normal tok lit ins s1).good s := by
  have := h tok (by rcases ht with h | h | h | h <;> simp [h])
  exact Scanned.good_normal hf this.1 this.2.1 (Or.inl this.2.2)

theorem Scanned.good_fn (f : Token → Bool) {s s1 : Scanner} {tok t0 t1 t2 : Token}
    {lit : GoString} (hf : s.keep s1) (ht : tok = t0 ∨ tok = t1 ∨ tok = t2)
    (h : ∀ t ∈ [t0, t1, t2], t ≠ .Illegal ∧ (f t = true ↔ t ∈ semiKinds) ∧ t ≠ .Semicolon) :
    (Scanned.normal tok lit (f tok) s1).good s := by
  have := h tok (by rcases ht with h | h | h <;> simp [h])
  exact Scanned.good_normal hf this.1 this.2.1 (Or.inl this.2.2)

theorem Scanned.good_afterComment {s t : Scanner} (hf : s.keep t) (hch : s.ch = 47) :
    t.afterComment.good s := by
  simp only [Scanner.afterComment]
  have hk := Scanner.keep_trans hf t.keep_scanComment
  split_ifs
  · exact ⟨hch, rfl, hk.1.1, hk.1.2.1, hk.1.2.2.1, hk.1.2.2.2.1, hk.1.2.2.2.2⟩
  · exact Scanned.good_normal hk (by decide) (by decide) (Or.inl (by decide))

theorem Scanner.pending_of_newline {s : Scanner} (hnb : ¬ s.atBlank) (h : s.ch = 10) :
    s.insertSemi = true := by
  cases hs : s.insertSemi with
  | true => rfl
  | false => exact absurd (Or.inr (Or.inr (Or.inl ⟨h, hs⟩))) hnb


theorem Scanner.answers_ite {s : Scanner} {c : Prop} [Decidable c] {a b : Option Scanned}
    (ha : c → s.answers a) (hb : ¬ c → s.answers b) : s.answers (if c then a else b) := by
  by_cases h : c
  · rw [if_pos h]
    exact ha h
  · rw [if_neg h]
    exact hb h

theorem Scanner.answers_some {s : Scanner} {r : Scanned} (h : r.good s) :
    s.answers (some r) := by
  intro r1 h1
  cases h1
  exact h

theorem Scanner.answers_none (s : Scanner) : s.answers none := by
  intro r1 h1
  cases h1

theorem Scanner.scanSlash_answers (s s1 : Scanner) (pos : Nat)
    (hk : s.keep s1) (hch : s.ch = 47)
    (hoff : s.offset ≤ s.src.length) (hpos : pos = s.file.Base + s.offset) :
    s.answers (s1.scanSlash pos) := by
  unfold Scanner.scanSlash
  refine Scanner.answers_ite (fun _ => Scanner.answers_ite (fun hsemi => ?_)
    (fun _ => Scanner.answers_some (Scanned.good_afterComment hk hch)))
    (fun _ => Scanner.answers_some (Scanned.good_two
      (Scanner.keep_trans hk (Scanner.keep_switch2 _ _ _)) (Scanner.switch2_tok _ _ _)
      (by decide)))
  have hk2 := Scanner.keep_trans hk (Scanner.keep_findLineEnd s1)
  refine Scanner.answers_ite (fun _ => ?_)
    (fun _ => Scanner.answers_some (Scanned.good_afterComment hk2 hch))
  cases ho : s1.findLineEnd.2.file.Offset pos with
  | none => exact Scanner.answers_none s
  | some off =>
    apply Scanner.answers_some
    have hoffv : off = s.offset := by
      simp only [SourceFile.Offset] at ho
      split_ifs at ho
      simp only [Option.some.injEq] at ho
      rw [hk2.1.2.2.1] at ho
      omega
    refine ⟨rfl, rfl, ?_, rfl, hk2.1.1, hk2.1.2.1, hk2.1.2.2.1, hk2.1.2.2.2.1, fun _ => ?_⟩
    · rw [← hk.2]
      exact hsemi
    · show off ≤ s1.findLineEnd.2.src.length
      rw [hk2.1.1, hoffv]
      exact hoff

theorem Scanner.scanOperator_answers (s s1 : Scanner) (ch : Int) (pos : Nat)
    (hk : s.keep s1) (hch : s.ch = ch)
    (hoff : s.offset ≤ s.src.length) (hpos : pos = s.file.Base + s.offset) :
    s.answers (s1.scanOperator ch pos) := by
  unfold Scanner.scanOperator
  refine Scanner.answers_ite (fun _ => Scanner.answers_some ?_) (fun _ => ?_)
  · exact Scanned.good_fn (fun t => decide (t = .Inc))
      (Scanner.keep_trans hk (Scanner.keep_switch3 _ _ _ _ _))
      (Scanner.switch3_tok _ _ _ _ _) (by decide)
  refine Scanner.answers_ite (fun _ => Scanner.answers_some ?_) (fun _ => ?_)
  · exact Scanned.good_fn (fun t => decide (t = .Dec))
      (Scanner.keep_trans hk (Scanner.keep_switch3 _ _ _ _ _))
      (Scanner.switch3_tok _ _ _ _ _) (by decide)
  refine Scanner.answers_ite (fun _ => Scanner.answers_some ?_) (fun _ => ?_)
  · exact Scanned.good_two (Scanner.keep_trans hk (Scanner.keep_switch2 _ _ _))
      (Scanner.switch2_tok _ _ _) (by decide)
  refine Scanner.answers_ite (fun h47 => ?_) (fun _ => ?_)
  · exact Scanner.scanSlash_answers s s1 pos hk (hch.trans h47) hoff hpos
  refine Scanner.answers_ite (fun _ => Scanner.answers_some ?_) (fun _ => ?_)
  · exact Scanned.good_two (Scanner.keep_trans hk (Scanner.keep_switch2 _ _ _))
      (Scanner.switch2_tok _ _ _) (by decide)
  refine Scanner.answers_ite (fun _ => Scanner.answers_some ?_) (fun _ => ?_)
  · exact Scanned.good_two (Scanner.keep_trans hk (Scanner.keep_switch2 _ _ _))
      (Scanner.switch2_tok _ _ _) (by decide)
  refine Scanner.answers_ite (fun _ => Scanner.answers_some ?_) (fun _ => ?_)
  · exact Scanned.good_four (Scanner.keep_trans hk (Scanner.keep_switch4 _ _ _ _ _ _))
      (Scanner.switch4_tok _ _ _ _ _ _) (by decide)
  refine Scanner.answers_ite (fun _ => Scanner.answers_some ?_) (fun _ => ?_)
  · exact Scanned.good_four (Scanner.keep_trans hk (Scanner.keep_switch4 _ _ _ _ _ _))
      (Scanner.switch4_tok _ _ _ _ _ _) (by decide)
  refine Scanner.answers_ite (fun _ => Scanner.answers_some ?_) (fun _ => ?_)
  · exact Scanned.good_two (Scanner.keep_trans hk (Scanner.keep_switch2 _ _ _))
      (Scanner.switch2_tok _ _ _) (by decide)
  refine Scanner.answers_ite (fun _ => Scanner.answers_some ?_) (fun _ => ?_)
  · exact Scanned.good_two (Scanner.keep_trans hk (Scanner.keep_switch2 _ _ _))
      (Scanner.switch2_tok _ _ _) (by decide)
  refine Scanner.answers_ite (fun _ => Scanner.answers_ite
    (fun _ => Scanner.answers_some ?_) (fun _ => Scanner.answers_some ?_)) (fun _ => ?_)
  · exact Scanned.good_two (Scanner.keep_trans (Scanner.keep_next_of hk) (Scanner.keep_switch2 _ _ _))
      (Scanner.switch2_tok _ _ _) (by decide)
  · exact Scanned.good_three (Scanner.keep_trans hk (Scanner.keep_switch3 _ _ _ _ _))
      (Scanner.switch3_tok _ _ _ _ _) (by decide)
  refine Scanner.answers_ite (fun _ => Scanner.answers_some ?_) (fun _ => ?_)
  · exact Scanned.good_three (Scanner.keep_trans hk (Scanner.keep_switch3 _ _ _ _ _))
      (Scanner.switch3_tok _ _ _ _ _) (by decide)
  refine Scanner.answers_ite (fun _ => ?_) (fun _ => Scanner.answers_some ?_)
  · cases ho : s1.file.Offset pos with
    | none => exact Scanner.answers_none s
    | some off =>
      exact Scanner.answers_some ⟨fun h => absurd rfl h, fun _ => hk.2, fun h => Token.noConfusion h,
        (Scanner.keep_error_of hk _ _).1⟩
  · exact ⟨fun h => absurd rfl h, fun _ => hk.2, fun h => Token.noConfusion h, hk.1⟩

theorem Scanner.scanPunct_answers (s s1 : Scanner) (ch : Int) (pos : Nat)
    (hk : s.keep s1) (hch : s.ch = ch) (hnb : ¬ s.atBlank)
    (hoff : s.offset ≤ s.src.length) (hpos : pos = s.file.Base + s.offset) :
    s.answers (s1.scanPunct ch pos) := by
  have hearly : s.insertSemi = true →
      (Scanned.early .Semicolon [10] { s1 with insertSemi := false }).good s :=
    fun h => ⟨rfl, rfl, h, rfl, hk.1.1, hk.1.2.1, hk.1.2.2.1, hk.1.2.2.2.1, hk.1.2.2.2.2⟩
  unfold Scanner.scanPunct
  refine Scanner.answers_ite (fun _ => Scanner.answers_ite
    (fun h1 => Scanner.answers_some (hearly (hk.2.symm.trans h1)))
    (fun _ => Scanner.answers_some ?_)) (fun _ => ?_)
  · exact Scanned.good_normal hk (by decide) (by decide) (by decide)
  refine Scanner.answers_ite (fun h10 => Scanner.answers_some
    (hearly (Scanner.pending_of_newline hnb (hch.trans h10)))) (fun _ => ?_)
  refine Scanner.answers_ite (fun _ => Scanner.answers_some ?_) (fun _ => ?_)
  · exact Scanned.good_normal (Scanner.keep_trans hk (Scanner.keep_scanString _)) (by decide) (by decide) (Or.inl (by decide))
  refine Scanner.answers_ite (fun _ => Scanner.answers_some ?_) (fun _ => ?_)
  · exact Scanned.good_normal (Scanner.keep_trans hk (Scanner.keep_scanRune _)) (by decide) (by decide) (Or.inl (by decide))
  refine Scanner.answers_ite (fun _ => Scanner.answers_some ?_) (fun _ => ?_)
  · exact Scanned.good_normal (Scanner.keep_trans hk (Scanner.keep_scanRawString _)) (by decide) (by decide) (Or.inl (by decide))
  refine Scanner.answers_ite (fun _ => Scanner.answers_some ?_) (fun _ => ?_)
  · exact Scanned.good_two (Scanner.keep_trans hk (Scanner.keep_switch2 _ _ _))
      (Scanner.switch2_tok _ _ _) (by decide)
  refine Scanner.answers_ite (fun _ => Scanner.answers_ite
    (fun _ => Scanner.answers_some ?_) (fun _ => Scanner.answers_some ?_)) (fun _ => ?_)
  · exact Scanned.good_normal (Scanner.keep_next_of (Scanner.keep_next_of hk)) (by decide) (by decide) (by decide)
  · exact Scanned.good_normal hk (by decide) (by decide) (by decide)
  refine Scanner.answers_ite (fun _ => Scanner.answers_some ?_) (fun _ => ?_)
  · exact Scanned.good_normal hk (by decide) (by decide) (by decide)
  refine Scanner.answers_ite (fun _ => Scanner.answers_some ?_) (fun _ => ?_)
  · exact Scanned.good_normal hk (by decide) (by decide) (by decide)
  refine Scanner.answers_ite (fun _ => Scanner.answers_some ?_) (fun _ => ?_)
  · exact Scanned.good_normal hk (by decide) (by decide) (by decide)
  refine Scanner.answers_ite (fun _ => Scanner.answers_some ?_) (fun _ => ?_)
  · exact Scanned.good_normal hk (by decide) (by decide) (by decide)
  refine Scanner.answers_ite (fun _ => Scanner.answers_some ?_) (fun _ => ?_)
  · exact Scanned.good_normal hk (by decide) (by decide) (by decide)
  refine Scanner.answers_ite (fun _ => Scanner.answers_some ?_) (fun _ => ?_)
  · exact Scanned.good_normal hk (by decide) (by decide) (by decide)
  refine Scanner.answers_ite (fun _ => Scanner.answers_some ?_) (fun _ => ?_)
  · exact Scanned.good_normal hk (by decide) (by decide) (by decide)
  refine Scanner.answers_ite (fun _ => Scanner.answers_some ?_) (fun _ => ?_)
  · exact Scanned.good_normal hk (by decide) (by decide) (by decide)
  refine Scanner.answers_ite (fun _ => Scanner.answers_some ?_) (fun _ => ?_)
  · exact Scanned.good_normal hk (by decide) (by decide) (by decide)
  exact Scanner.scanOperator_answers s s1 ch pos hk hch hoff hpos

/-- The switch of `Scan` keeps to `Scanned.good`. -/
theorem Scanner.scanSwitch_good (U : Unicode) (s : Scanner) (pos : Nat) (r : Scanned)
    (hoff : s.offset ≤ s.src.length) (hpos : pos = s.file.Base + s.offset)
    (hnb : ¬ s.atBlank) (h : s.scanSwitch U pos = some r) : r.good s := by
  have hans : s.answers (s.scanSwitch U pos) := by
    unfold Scanner.scanSwitch
    refine Scanner.answers_ite (fun _ => Scanner.answers_some ?_) (fun _ => ?_)
    · have hl := Lookup_flags (s.scanIdentifier U).1
      exact Scanned.good_normal (s.keep_scanIdentifier U) hl.1 hl.2.1 (Or.inl hl.2.2)
    refine Scanner.answers_ite (fun _ => Scanner.answers_some ?_) (fun _ => ?_)
    · exact Scanned.good_two s.keep_scanNumber s.scanNumber_tok (by decide)
    exact Scanner.scanPunct_answers s s.next s.ch pos s.keep_next rfl hnb hoff hpos
  exact hans r h

theorem Scanner.skipWhitespace_atEnd (s : Scanner) :
    ¬ (Scanner.skipWhitespace (s.src.length + 1) s).atBlank :=
  Scanner.skipWhitespace_stops _ s (by omega)

/-- What a call of `Scan` that returns leaves behind, in the default mode: the flag
`insertSemi` is set exactly after the listed kinds; after an illegal character it is what
it was, or cleared by a comment skipped on the way; and a semicolon for a newline is
returned only when the flag was set. -/
theorem Scanner.scanFuel_good (U : Unicode) (fuel : Nat) (s : Scanner) (tok : Token)
    (lit : GoString) (pos : Nat) (s1 : Scanner) (hok : s.ok)
    (h : Scanner.scanFuel U fuel s = some (tok, lit, pos, s1)) :
    s1.ok ∧ (tok ≠ .Illegal → (s1.insertSemi = true ↔ tok ∈ semiKinds)) ∧
      (tok = .Illegal → s1.insertSemi = true → s.insertSemi = true) ∧
      (tok = .Illegal → (Scanner.skipWhitespace (s.src.length + 1) s).ch ≠ 47 →
        s1.insertSemi = s.insertSemi) ∧
      (tok = .Semicolon → lit = [10] → s.insertSemi = true) := by
  induction fuel generalizing s with
  | zero => simp [Scanner.scanFuel] at h
  | succ n ih =>
    have hk0 := Scanner.keep_skipWhitespace (s.src.length + 1) s
    have hnb := s.skipWhitespace_atEnd
    have hok0 := Scanner.ok_of_frame hok hk0.1
    simp only [Scanner.scanFuel] at h
    generalize Scanner.skipWhitespace (s.src.length + 1) s = s0 at h hk0 hnb hok0
    have hpos : s0.file.FileSetPos s0.offset = some (s0.file.Base + s0.offset) := by
      simp only [SourceFile.FileSetPos]
      rw [if_neg]
      rw [hok0.1]
      have := hok0.2.1
      omega
    rw [hpos] at h
    simp only at h
    cases hsw : s0.scanSwitch U (s0.file.Base + s0.offset) with
    | none => rw [hsw] at h; simp at h
    | some r =>
      have hg := Scanner.scanSwitch_good U s0 _ r hok0.2.1 rfl hnb hsw
      rw [hsw] at h
      cases r with
      | early tok1 lit1 s2 =>
        simp only [Option.some.injEq, Prod.mk.injEq] at h
        obtain ⟨rfl, rfl, _, rfl⟩ := h
        obtain ⟨g1, g2, g3, g4, g5⟩ := hg
        subst g1
        refine ⟨Scanner.ok_of_frame hok0 g5, fun _ => ?_, fun h => Token.noConfusion h,
          fun h => Token.noConfusion h, fun _ _ => hk0.2 ▸ g3⟩
        rw [g4]
        decide
      | normal tok1 lit1 ins s2 =>
        obtain ⟨g1, g2, g3, g4⟩ := hg
        have hmode : s2.mode &&& DontInsertSemis = 0 := by
          rw [g4.2.2.2.1, hok0.2.2]
          decide
        simp only [hmode, if_true, Option.some.injEq, Prod.mk.injEq] at h
        obtain ⟨rfl, rfl, _, rfl⟩ := h
        refine ⟨⟨?_, ?_, ?_⟩, g1, fun ht hs => ?_, fun ht _ => ?_, fun ht hl => ?_⟩
        · exact (Scanner.ok_of_frame hok0 g4).1
        · exact (Scanner.ok_of_frame hok0 g4).2.1
        · exact (Scanner.ok_of_frame hok0 g4).2.2
        · have := g2 ht
          rw [← hk0.2, ← this]
          exact hs
        · have := g2 ht
          rw [← hk0.2, ← this]
        · have := g3 ht
          rw [this] at hl
          exact absurd hl (by decide)
      | again s2 =>
        simp only at h
        obtain ⟨g1, g2, g3⟩ := hg
        obtain ⟨i1, i2, i3, i4, i5⟩ := ih s2 (Scanner.ok_of_frame hok0 g3) h
        refine ⟨i1, i2, fun ht hs => ?_, fun ht hc => absurd g1 hc, fun ht hl => ?_⟩
        · have := i3 ht hs
          rw [g2] at this
          exact absurd this (by decide)
        · have := i5 ht hl
          rw [g2] at this
          exact absurd this (by decide)

/-- Reading an ASCII character other than NUL: it becomes the current character and the
reading offset moves by one. -/
theorem Scanner.next_ascii (s : Scanner) (b : Nat) (rest : List Nat)
    (h : s.src.drop s.readOffset = b :: rest) (hb0 : b ≠ 0) (hb : b < 128) :
    s.next.ch = (b : Int) ∧ s.next.readOffset = s.readOffset + 1 := by
  have hlt : s.readOffset < s.src.length := by
    by_contra hge
    rw [List.drop_eq_nil_of_le (by omega)] at h
    cases h
  have hget : s.src.getD s.readOffset 0 = b := by
    have h1 : (s.src.drop s.readOffset)[0]? = s.src[s.readOffset]? := by
      simp [List.getElem?_drop]
    rw [h] at h1
    simp only [List.getElem?_cons_zero] at h1
    simp [List.getD, ← h1]
  have hsrc : (Scanner.noteLine { s with offset := s.readOffset }).src = s.src := by
    simp only [Scanner.noteLine]
    split_ifs <;> rfl
  have hro : (Scanner.noteLine { s with offset := s.readOffset }).readOffset = s.readOffset := by
    simp only [Scanner.noteLine]
    split_ifs <;> rfl
  have h0 : ¬ ((b : Int) = 0) := by omega
  have h1 : ¬ ((b : Int) ≥ RuneSelf) := by
    simp only [RuneSelf]
    omega
  simp only [Scanner.next, if_pos hlt, hsrc, hro, hget, if_neg h0, if_neg h1, and_self]

theorem blankLineEnd_cons (c : Int) (rest : List Int) (h : blankLineEnd (c :: rest) = true) :
    c = 10 ∨ ((c = 32 ∨ c = 9 ∨ c = 13) ∧ blankLineEnd rest = true) := by
  simp only [blankLineEnd] at h
  split_ifs at h with h1 h2
  · exact Or.inl h1
  · exact Or.inr ⟨h2, h⟩

/-- Skipping a blank keeps the rest of the line blank. -/
theorem Scanner.blank_next (s : Scanner) (hblank : s.ch = 32 ∨ s.ch = 9 ∨ s.ch = 13)
    (h : blankLineEnd s.ahead = true) : blankLineEnd s.next.ahead = true := by
  have hne : ¬ s.ch = -1 := by omega
  have hne10 : ¬ s.ch = 10 := by omega
  simp only [Scanner.ahead, if_neg hne] at h
  rcases blankLineEnd_cons _ _ h with h10 | ⟨_, hrest⟩
  · exact absurd h10 hne10
  · cases hd : s.src.drop s.readOffset with
    | nil =>
      have hge : ¬ s.readOffset < s.src.length := by
        intro hlt
        have := congrArg List.length hd
        simp at this
        omega
      simp [Scanner.ahead, s.next_ch_end hge, blankLineEnd]
    | cons b rest =>
      rw [hd] at hrest
      simp only [List.map_cons] at hrest
      have hb : (b : Int) = 10 ∨ (b : Int) = 32 ∨ (b : Int) = 9 ∨ (b : Int) = 13 := by
        rcases blankLineEnd_cons _ _ hrest with h1 | ⟨h1, _⟩
        · exact Or.inl h1
        · exact Or.inr h1
      obtain ⟨hch, hro⟩ := s.next_ascii b rest hd (by omega) (by omega)
      have hdrop : s.next.src.drop s.next.readOffset = rest := by
        rw [Scanner.next_src, hro, ← List.drop_drop, hd]
        rfl
      have hne1 : ¬ s.next.ch = -1 := by omega
      simp only [Scanner.ahead, if_neg hne1, hdrop, hch]
      exact hrest

theorem Scanner.blank_skipWhitespace (fuel : Nat) (s : Scanner) (hsemi : s.insertSemi = true)
    (h : blankLineEnd s.ahead = true) :
    blankLineEnd (Scanner.skipWhitespace fuel s).ahead = true := by
  induction fuel generalizing s with
  | zero => exact h
  | succ n ih =>
    simp only [Scanner.skipWhitespace]
    split_ifs with hb
    · apply ih _ (s.next_insertSemi.trans hsemi)
      apply s.blank_next _ h
      rcases hb with hb | hb | hb | hb
      · exact Or.inl hb
      · exact Or.inr (Or.inl hb)
      · rw [hsemi] at hb
        exact absurd hb.2 (by decide)
      · exact Or.inr (Or.inr hb)
    · exact h

theorem Scanner.scanPunct_eof (s1 : Scanner) (pos : Nat) (h : s1.insertSemi = true) :
    s1.scanPunct (-1) pos = some (.early .Semicolon [10] { s1 with insertSemi := false }) := by
  unfold Scanner.scanPunct
  rw [if_pos rfl, if_pos h]

theorem Scanner.scanPunct_newline (s1 : Scanner) (pos : Nat) :
    s1.scanPunct 10 pos = some (.early .Semicolon [10] { s1 with insertSemi := false }) := by
  unfold Scanner.scanPunct
  rw [if_neg (by decide), if_pos rfl]

/-- At the end of a line or of the input, with a semicolon pending, the switch of `Scan`
answers with the semicolon. -/
theorem Scanner.scanSwitch_lineEnd (U : Unicode) (s : Scanner) (pos : Nat)
    (hch : s.ch = -1 ∨ s.ch = 10) (hsemi : s.insertSemi = true) :
    s.scanSwitch U pos = some (.early .Semicolon [10] { s.next with insertSemi := false }) := by
  have hl : ¬ (isLetter U s.ch = true) := by
    rcases hch with h | h <;> simp [isLetter, h, RuneSelf]
  have hd : ¬ ((48 ≤ s.ch ∧ s.ch ≤ 57) ∨ (s.ch = 46 ∧ 48 ≤ s.peek ∧ s.peek ≤ 57)) := by omega
  unfold Scanner.scanSwitch
  rw [if_neg hl, if_neg hd]
  rcases hch with h | h
  · rw [h]
    exact Scanner.scanPunct_eof _ _ (s.next_insertSemi.trans hsemi)
  · rw [h]
    exact Scanner.scanPunct_newline _ _

/-- With a semicolon pending, `Scan` at the end of a line that holds only blanks, or at the
end of the input, returns the semicolon with the literal of a newline. -/
theorem Scanner.Scan_pending (U : Unicode) (s : Scanner) (hok : s.ok)
    (hsemi : s.insertSemi = true) (h : blankLineEnd s.ahead = true) :
    ∃ pos s2, s.Scan U = some (.Semicolon, [10], pos, s2) := by
  have hk0 := Scanner.keep_skipWhitespace (s.src.length + 1) s
  have hnb := s.skipWhitespace_atEnd
  have hok0 := Scanner.ok_of_frame hok hk0.1
  have hb0 := Scanner.blank_skipWhitespace (s.src.length + 1) s hsemi h
  simp only [Scanner.Scan, Scanner.scanFuel]
  generalize Scanner.skipWhitespace (s.src.length + 1) s = s0 at hk0 hnb hok0 hb0
  have hsemi0 : s0.insertSemi = true := hk0.2.trans hsemi
  have hpos : s0.file.FileSetPos s0.offset = some (s0.file.Base + s0.offset) := by
    simp only [SourceFile.FileSetPos]
    rw [if_neg]
    rw [hok0.1]
    have := hok0.2.1
    omega
  have hch : s0.ch = -1 ∨ s0.ch = 10 := by
    by_cases he : s0.ch = -1
    · exact Or.inl he
    · simp only [Scanner.ahead, if_neg he] at hb0
      rcases blankLineEnd_cons _ _ hb0 with h10 | ⟨hbl, _⟩
      · exact Or.inr h10
      · exfalso
        apply hnb
        rcases hbl with hb | hb | hb
        · exact Or.inl hb
        · exact Or.inr (Or.inl hb)
        · exact Or.inr (Or.inr (Or.inr hb))
  rw [hpos]
  simp only
  rw [Scanner.scanSwitch_lineEnd U s0 _ hch hsemi0]
  exact ⟨_, _, rfl⟩

/-- C7, as the specification words it, fails on the text `a@` followed by a newline: the
illegal character `@` gives a token of kind `Illegal`, which is not in the list, it is
followed on its line by the newline alone, and the next `Scan` returns `Semicolon` with the
literal of a newline, because the semicolon pending after `a` is kept. -/
theorem c7_counterexample :
    scanAll latinUnicode 3 (sampleScanner [97, 64, 10]) =
        [(.Ident, [97]), (.Illegal, [64]), (.Semicolon, [10])] ∧
      Token.Illegal ∉ semiKinds ∧
      blankLineEnd (sampleAfter [97, 64, 10] 2).ahead = true := by
  decide

/-- C7 (amended): in the default mode, when `Scan` has returned a token and only spaces, tabs
and carriage returns stand between it and a newline or the end of the input, the next
`Scan` returns `Semicolon` with the literal of a newline if and only if the kind of the
token is one of `Ident`, `Int`, `Float`, `Char`, `String`, `Break`, `Continue`, `Return`,
`Export`, `True`, `False`, `Undefined`, `Inc`, `Dec`, `RParen`, `RBrack`, `RBrace`, for
every kind but `Illegal`. After an `Illegal` token the semicolon is returned only if one
was pending before that token, and it is returned exactly then when no comment was skipped
in front of the illegal character. -/
theorem c7_semicolon_insertion (U : Unicode) (s0 s1 : Scanner) (tok : Token) (lit : GoString)
    (pos : Nat) (hok : s0.ok) (hscan : s0.Scan U = some (tok, lit, pos, s1))
    (hline : blankLineEnd s1.ahead = true) :
    (tok ≠ .Illegal →
        ((∃ pos2 s2, s1.Scan U = some (.Semicolon, [10], pos2, s2)) ↔ tok ∈ semiKinds)) ∧
      (tok = .Illegal → (∃ pos2 s2, s1.Scan U = some (.Semicolon, [10], pos2, s2)) →
        s0.insertSemi = true) ∧
      (tok = .Illegal → (Scanner.skipWhitespace (s0.src.length + 1) s0).ch ≠ 47 →
        ((∃ pos2 s2, s1.Scan U = some (.Semicolon, [10], pos2, s2)) ↔
          s0.insertSemi = true)) := by
  obtain ⟨hok1, hkinds, hill, hsame, _⟩ := Scanner.scanFuel_good U _ s0 tok lit pos s1 hok hscan
  have hnext : (∃ pos2 s2, s1.Scan U = some (.Semicolon, [10], pos2, s2)) ↔
      s1.insertSemi = true := by
    constructor
    · rintro ⟨pos2, s2, h2⟩
      exact (Scanner.scanFuel_good U _ s1 _ _ pos2 s2 hok1 h2).2.2.2.2 rfl rfl
    · intro h
      exact Scanner.Scan_pending U s1 hok1 h hline
  refine ⟨fun ht => hnext.trans (hkinds ht), fun ht h => hill ht (hnext.mp h), fun ht hc => ?_⟩
  rw [hnext, hsame ht hc]

/-- C7 (amended) holds of the text `x)` with a space and a newline behind it: after `)` the
next `Scan` returns the semicolon. -/
theorem c7_semicolon_insertion_witness :
    (sampleAfter [120, 41, 32, 10] 1).ok ∧
      (sampleAfter [120, 41, 32, 10] 1).Scan latinUnicode =
        some (.RParen, [], 2, sampleAfter [120, 41, 32, 10] 2) ∧
      blankLineEnd (sampleAfter [120, 41, 32, 10] 2).ahead = true ∧
      ((∃ pos2 s2, (sampleAfter [120, 41, 32, 10] 2).Scan latinUnicode =
          some (.Semicolon, [10], pos2, s2)) ↔ Token.RParen ∈ semiKinds) :=
  have hok : (sampleAfter [120, 41, 32, 10] 1).ok := ⟨by decide, by decide, by decide⟩
  have hscan : (sampleAfter [120, 41, 32, 10] 1).Scan latinUnicode =
      some (.RParen, [], 2, sampleAfter [120, 41, 32, 10] 2) := by decide
  have hline : blankLineEnd (sampleAfter [120, 41, 32, 10] 2).ahead = true := by decide
  ⟨hok, hscan, hline,
    (c7_semicolon_insertion latinUnicode _ _ .RParen [] 2 hok hscan hline).1 (by decide)⟩

/-! ## Theorems: indexing -/

theorem ObjList.length_toList : (xs : ObjList) → xs.toList.length = xs.length
  | .nil => rfl
  | .cons _ t => by
    simp only [ObjList.toList, ObjList.length, List.length_cons, ObjList.length_toList t]

theorem ObjList.toList_ofList (l : List Object) : (ObjList.ofList l).toList = l := by
  induction l with
  | nil => rfl
  | cons h t ih => simp only [ObjList.ofList, ObjList.toList, ih]

theorem ObjList.ofList_toList : (xs : ObjList) → ObjList.ofList xs.toList = xs
  | .nil => rfl
  | .cons h t => by
    simp only [ObjList.toList, ObjList.ofList, ObjList.ofList_toList t]

theorem sliceGet_inside {α : Type} (xs : List α) (i : Int) (h0 : 0 ≤ i)
    (h1 : i < (xs.length : Int)) :
    ∃ x, xs[i.toNat]? = some x ∧ sliceGet xs i = .ret x := by
  have hlt : i.toNat < xs.length := by omega
  refine ⟨xs[i.toNat], List.getElem?_eq_getElem hlt, ?_⟩
  simp only [sliceGet, if_neg (not_lt.mpr h0), List.getElem?_eq_getElem hlt]

/-- C14: reading an index of an Array, an ImmutableArray or a Bytes value. An index that is
not an Int fails with `ErrInvalidIndexType`; an Int index below 0 or not below the length
gives `UndefinedValue` and no error; an Int index inside gives no error and the element at
that place (for Bytes the byte there, as an Int). -/
theorem c14_sequence_index_get (xs : ObjList) (bs : List Nat) (index : Object) :
    ((∀ i, index ≠ .int i) →
        Array.IndexGet xs index = .fail .ErrInvalidIndexType ∧
        ImmutableArray.IndexGet xs index = .fail .ErrInvalidIndexType ∧
        Bytes.IndexGet bs index = .fail .ErrInvalidIndexType) ∧
    (∀ i : Int, index = .int i →
      ((i < 0 ∨ i ≥ (xs.length : Int)) →
          Array.IndexGet xs index = .ret UndefinedValue ∧
          ImmutableArray.IndexGet xs index = .ret UndefinedValue) ∧
      ((i < 0 ∨ i ≥ (bs.length : Int)) → Bytes.IndexGet bs index = .ret UndefinedValue) ∧
      ((0 ≤ i ∧ i < (xs.length : Int)) →
          ∃ e, xs.toList[i.toNat]? = some e ∧ Array.IndexGet xs index = .ret e ∧
            ImmutableArray.IndexGet xs index = .ret e) ∧
      ((0 ≤ i ∧ i < (bs.length : Int)) →
          ∃ b, bs[i.toNat]? = some b ∧ Bytes.IndexGet bs index = .ret (.int (b : Int)))) := by
  constructor
  · intro hne
    cases index with
    | int i => exact absurd rfl (hne i)
    | _ => exact ⟨rfl, rfl, rfl⟩
  · rintro i rfl
    refine ⟨fun h => ?_, fun h => ?_, fun h => ?_, fun h => ?_⟩
    · simp only [Array.IndexGet, ImmutableArray.IndexGet, if_pos h, and_self]
    · simp only [Bytes.IndexGet, if_pos h]
    · have hn : ¬ (i < 0 ∨ i ≥ (xs.length : Int)) := by omega
      obtain ⟨e, he, hs⟩ := sliceGet_inside xs.toList i h.1
        (by rw [ObjList.length_toList]; exact h.2)
      exact ⟨e, he, by simp only [Array.IndexGet, if_neg hn, hs],
        by simp only [ImmutableArray.IndexGet, if_neg hn, hs]⟩
    · have hn : ¬ (i < 0 ∨ i ≥ (bs.length : Int)) := by omega
      obtain ⟨b, hb, hs⟩ := sliceGet_inside bs i h.1 h.2
      exact ⟨b, hb, by simp only [Bytes.IndexGet, if_neg hn, hs]⟩

/-- C14 on the Array `[7, 8]` and the Bytes `[1, 2]`, at the index 1, at the index 2 and at
an index that is a String. -/
theorem c14_sequence_index_get_witness :
    (∃ e, (ObjList.cons (.int 7) (.cons (.int 8) .nil)).toList[(1 : Int).toNat]? = some e ∧
      Array.IndexGet (.cons (.int 7) (.cons (.int 8) .nil)) (.int 1) = .ret e ∧
      ImmutableArray.IndexGet (.cons (.int 7) (.cons (.int 8) .nil)) (.int 1) = .ret e) ∧
    Array.IndexGet (.cons (.int 7) (.cons (.int 8) .nil)) (.int 1) = .ret (.int 8) ∧
    Array.IndexGet (.cons (.int 7) (.cons (.int 8) .nil)) (.int 2) = .ret UndefinedValue ∧
    Bytes.IndexGet [1, 2] (.int 1) = .ret (.int 2) ∧
    Bytes.IndexGet [1, 2] (.string []) = .fail .ErrInvalidIndexType :=
  ⟨((c14_sequence_index_get (.cons (.int 7) (.cons (.int 8) .nil)) [1, 2] (.int 1)).2 1
      rfl).2.2.1 (by decide), by decide, by decide, by decide, by decide⟩

/-- C15: `Array.IndexSet` with an Int index, for any conversion `ToInt` that hands an Int
back as it is. Below 0 or not below the length the call fails with `ErrIndexOutOfBounds`
and the array is as before; inside, it succeeds, the element at the index is the new value,
the length is the same and every other element is the one it was. -/
theorem c15_array_index_set (ToInt : Object → Int × Bool) (a : ObjList) (i : Int)
    (v : Object) (hToInt : ToInt (.int i) = (i, true)) :
    ((i < 0 ∨ i ≥ (a.length : Int)) →
        Array.IndexSet ToInt a (.int i) v = (some .ErrIndexOutOfBounds, a)) ∧
    ((0 ≤ i ∧ i < (a.length : Int)) →
        (Array.IndexSet ToInt a (.int i) v).1 = none ∧
        (Array.IndexSet ToInt a (.int i) v).2.length = a.length ∧
        (Array.IndexSet ToInt a (.int i) v).2.toList[i.toNat]? = some v ∧
        ∀ j : Nat, j ≠ i.toNat →
          (Array.IndexSet ToInt a (.int i) v).2.toList[j]? = a.toList[j]?) := by
  constructor
  · intro h
    simp only [Array.IndexSet, hToInt, if_pos h]
    simp
  · intro h
    have hn : ¬ (i < 0 ∨ i ≥ (a.length : Int)) := by omega
    have hlt : i.toNat < a.toList.length := by
      rw [ObjList.length_toList]
      omega
    simp only [Array.IndexSet, hToInt, if_neg hn]
    simp only [Bool.true_eq_false, if_false, ObjList.toList_ofList]
    refine ⟨trivial, ?_, ?_, fun j hj => ?_⟩
    · rw [← ObjList.length_toList, ObjList.toList_ofList, List.length_set,
        ObjList.length_toList]
    · rw [List.getElem?_set_self hlt]
    · rw [List.getElem?_set_ne (Ne.symm hj)]

theorem c15_array_index_set_witness :
    ((1 : Int) < 0 ∨ (1 : Int) ≥ (((ObjList.ofList [.int 7, .int 8]).length : Nat) : Int) →
        Array.IndexSet sampleToInt (ObjList.ofList [.int 7, .int 8]) (.int 1) (.int 9) =
          (some .ErrIndexOutOfBounds, ObjList.ofList [.int 7, .int 8])) ∧
    ((0 ≤ (1 : Int) ∧ (1 : Int) < (((ObjList.ofList [.int 7, .int 8]).length : Nat) : Int)) →
        (Array.IndexSet sampleToInt (ObjList.ofList [.int 7, .int 8]) (.int 1) (.int 9)).1 =
          none ∧
        (Array.IndexSet sampleToInt (ObjList.ofList [.int 7, .int 8]) (.int 1)
          (.int 9)).2.length = (ObjList.ofList [.int 7, .int 8]).length ∧
        (Array.IndexSet sampleToInt (ObjList.ofList [.int 7, .int 8]) (.int 1)
          (.int 9)).2.toList[(1 : Int).toNat]? = some (.int 9) ∧
        ∀ j : Nat, j ≠ (1 : Int).toNat →
          (Array.IndexSet sampleToInt (ObjList.ofList [.int 7, .int 8]) (.int 1)
            (.int 9)).2.toList[j]? = (ObjList.ofList [.int 7, .int 8]).toList[j]?) :=
  c15_array_index_set sampleToInt (ObjList.ofList [.int 7, .int 8]) 1 (.int 9) rfl

/-- C16: `IndexSet` on an ImmutableArray and on an ImmutableMap, with any index and any
value, fails with `ErrNotIndexAssignable` and the contents are as before. -/
theorem c16_immutable_rejects_writes (xs : ObjList) (kvs : ObjMap) (index value : Object) :
    ImmutableArray.IndexSet xs index value = (some .ErrNotIndexAssignable, xs) ∧
    ImmutableMap.IndexSet kvs index value = (some .ErrNotIndexAssignable, kvs) :=
  ⟨rfl, rfl⟩

/-! ## Theorems: immutable containers -/

/-- C17, as the specification words it, fails for `BinaryOp`: `[1] + [2]` with an Array on
the right is the Array `[1, 2]` when the receiver is an Array, and `ErrInvalidOperator` when
the receiver is the ImmutableArray of the same elements. -/
theorem c17_counterexample :
    Array.BinaryOp (.cons (.int 1) .nil) .Add (.array (.cons (.int 2) .nil)) =
        .ret (.array (.cons (.int 1) (.cons (.int 2) .nil))) ∧
      ImmutableArray.BinaryOp (.cons (.int 1) .nil) .Add (.array (.cons (.int 2) .nil)) =
        .fail .ErrInvalidOperator := by
  decide

theorem ObjList.append_nil : (xs : ObjList) → xs.append .nil = xs
  | .nil => rfl
  | .cons x xs => by simp only [ObjList.append, ObjList.append_nil xs]

theorem ObjList.length_eq_zero (xs : ObjList) (h : xs.length = 0) : xs = .nil := by
  cases xs with
  | nil => rfl
  | cons _ t => simp [ObjList.length] at h

/-- C17 (amended): the ImmutableArray of a list of elements and the Array of the same list,
and the ImmutableMap of a set of entries and the Map of the same entries, give the same
result under `IndexGet` with any index, `IsFalsy`, `Equals` against any value, `String` and
`Iterate`. Under `BinaryOp` the maps agree always (`ErrInvalidOperator`); the arrays agree
when the operator is not `+` or the right operand is neither an Array nor an
ImmutableArray (`ErrInvalidOperator`), and `+` with a right operand of the receiver's own
kind gives in both cases the Array of the elements of both; `+` with a right operand of the
other kind is `ErrInvalidOperator`. -/
theorem c17_immutable_reads_alike (F : Formats) (ToString : Object → GoString × Bool)
    (xs : ObjList) (kvs : ObjMap) (addr : Nat) (index x : Object) (op : Token) :
    (ImmutableArray.IndexGet xs index = Array.IndexGet xs index ∧
      ImmutableArray.IsFalsy xs = Array.IsFalsy xs ∧
      Object.Equals (.immutableArray xs) x = Object.Equals (.array xs) x ∧
      Object.String F (.immutableArray xs) = Object.String F (.array xs) ∧
      ImmutableArray.Iterate xs = Array.Iterate xs) ∧
    (ImmutableMap.IndexGet ToString kvs index = Map.IndexGet ToString kvs index ∧
      ImmutableMap.IsFalsy kvs = Map.IsFalsy kvs ∧
      Object.Equals (.immutableMap addr kvs) x = Object.Equals (.map kvs) x ∧
      Object.String F (.immutableMap addr kvs) = Object.String F (.map kvs) ∧
      ImmutableMap.Iterate kvs = Map.Iterate kvs ∧
      ImmutableMap.BinaryOp kvs op x = Map.BinaryOp kvs op x) ∧
    ((op ≠ .Add ∨ ((∀ ys, x ≠ .array ys) ∧ (∀ ys, x ≠ .immutableArray ys))) →
      ImmutableArray.BinaryOp xs op x = .fail .ErrInvalidOperator ∧
      Array.BinaryOp xs op x = .fail .ErrInvalidOperator) ∧
    (∀ ys : ObjList,
      ImmutableArray.BinaryOp xs .Add (.immutableArray ys) = .ret (.array (xs.append ys)) ∧
      Array.BinaryOp xs .Add (.array ys) = .ret (.array (xs.append ys)) ∧
      ImmutableArray.BinaryOp xs .Add (.array ys) = .fail .ErrInvalidOperator ∧
      Array.BinaryOp xs .Add (.immutableArray ys) = .fail .ErrInvalidOperator) := by
  refine ⟨⟨rfl, rfl, ?_, ?_, rfl⟩, ⟨rfl, rfl, ?_, ?_, rfl, rfl⟩, ?_, ?_⟩
  · cases x <;> simp only [Object.Equals]
  · simp only [Object.String]
  · cases x <;> simp only [Object.Equals]
  · simp only [Object.String]
  · rintro (hop | ⟨harr, himm⟩)
    · cases x <;> cases op <;>
        first
          | exact absurd rfl hop
          | exact ⟨rfl, rfl⟩
    · cases x with
      | array ys => exact absurd rfl (harr ys)
      | immutableArray ys => exact absurd rfl (himm ys)
      | _ => exact ⟨rfl, rfl⟩
  · intro ys
    refine ⟨rfl, ?_, rfl, rfl⟩
    simp only [Array.BinaryOp]
    split_ifs with h
    · rw [ObjList.length_eq_zero ys h, ObjList.append_nil]
    · rfl

theorem c17_immutable_reads_alike_witness :
    ImmutableArray.BinaryOp (.cons (.int 1) .nil) .Sub (.array .nil) =
        .fail .ErrInvalidOperator ∧
      Array.BinaryOp (.cons (.int 1) .nil) .Sub (.array .nil) = .fail .ErrInvalidOperator :=
  (c17_immutable_reads_alike sampleFormats sampleToString (.cons (.int 1) .nil) .nil 0
    (.int 0) (.array .nil) .Sub).2.2.1 (Or.inl (by decide))

/-! ## Theorems: strings -/

/-- Decoding the UTF-8 bytes of a code point gives the code point back and consumes exactly
those bytes. -/
theorem DecodeRune_runeBytes (n : Nat) (rest : List Nat) (hn : validRune (n : Int)) :
    DecodeRune (runeBytes (n : Int) ++ rest) = ((n : Int), (runeBytes (n : Int)).length) := by
  obtain ⟨_, hmax, hsur⟩ := hn
  have hbad : ¬ ((n : Int) < 0 ∨ (n : Int) > 0x10FFFF ∨ (0xD800 ≤ (n : Int) ∧ (n : Int) ≤ 0xDFFF)) := by
    omega
  simp only [runeBytes, if_neg hbad, Int.toNat_ofNat]
  by_cases h1 : n < 0x80
  · simp only [if_pos h1, List.singleton_append, DecodeRune, List.length_singleton]
  · rw [if_neg h1]
    by_cases h2 : n < 0x800
    · rw [if_pos h2]
      have a1 : ¬ (0xC0 + n / 64 < 0x80) := by omega
      have a2 : ¬ (0xC0 + n / 64 < 0xC2) := by omega
      have a3 : 0xC0 + n / 64 < 0xE0 := by omega
      have a4 : 0x80 ≤ 0x80 + n % 64 ∧ 0x80 + n % 64 ≤ 0xBF := by omega
      have a5 : (0xC0 + n / 64) % 32 * 64 + (0x80 + n % 64) % 64 = n := by omega
      simp only [List.cons_append, List.nil_append, DecodeRune, if_neg a1, if_neg a2, if_pos a3,
        if_pos a4, a5, List.length_cons, List.length_nil]
    · rw [if_neg h2]
      by_cases h3 : n < 0x10000
      · rw [if_pos h3]
        have a1 : ¬ (0xE0 + n / 4096 < 0x80) := by omega
        have a2 : ¬ (0xE0 + n / 4096 < 0xC2) := by omega
        have a3 : ¬ (0xE0 + n / 4096 < 0xE0) := by omega
        have a4 : 0xE0 + n / 4096 < 0xF0 := by omega
        have a5 : (if 0xE0 + n / 4096 = 0xE0 then 0xA0 else 0x80) ≤ 0x80 + n / 64 % 64 ∧
            0x80 + n / 64 % 64 ≤ (if 0xE0 + n / 4096 = 0xED then 0x9F else 0xBF) := by
          split_ifs <;> omega
        have a6 : 0x80 ≤ 0x80 + n % 64 ∧ 0x80 + n % 64 ≤ 0xBF := by omega
        have a7 : (0xE0 + n / 4096) % 16 * 4096 + (0x80 + n / 64 % 64) % 64 * 64 +
            (0x80 + n % 64) % 64 = n := by omega
        simp only [List.cons_append, List.nil_append, DecodeRune, if_neg a1, if_neg a2,
          if_neg a3, if_pos a4, if_pos a5, if_pos a6, a7, List.length_cons, List.length_nil]
      · rw [if_neg h3]
        have a1 : ¬ (0xF0 + n / 262144 < 0x80) := by omega
        have a2 : ¬ (0xF0 + n / 262144 < 0xC2) := by omega
        have a3 : ¬ (0xF0 + n / 262144 < 0xE0) := by omega
        have a4 : ¬ (0xF0 + n / 262144 < 0xF0) := by omega
        have a4b : 0xF0 + n / 262144 < 0xF5 := by omega
        have a5 : (if 0xF0 + n / 262144 = 0xF0 then 0x90 else 0x80) ≤ 0x80 + n / 4096 % 64 ∧
            0x80 + n / 4096 % 64 ≤ (if 0xF0 + n / 262144 = 0xF4 then 0x8F else 0xBF) := by
          split_ifs <;> omega
        have a6 : 0x80 ≤ 0x80 + n / 64 % 64 ∧ 0x80 + n / 64 % 64 ≤ 0xBF := by omega
        have a6b : 0x80 ≤ 0x80 + n % 64 ∧ 0x80 + n % 64 ≤ 0xBF := by omega
        have a7 : (0xF0 + n / 262144) % 8 * 262144 + (0x80 + n / 4096 % 64) % 64 * 4096 +
            (0x80 + n / 64 % 64) % 64 * 64 + (0x80 + n % 64) % 64 = n := by omega
        simp only [List.cons_append, List.nil_append, DecodeRune, if_neg a1, if_neg a2,
          if_neg a3, if_neg a4, if_pos a4b, if_pos a5, if_pos a6, if_pos a6b, a7,
          List.length_cons, List.length_nil]

theorem runeBytes_length_pos (r : Int) : 1 ≤ (runeBytes r).length := by
  simp only [runeBytes]
  split_ifs <;> simp

theorem runesLoop_nil (fuel : Nat) : runesLoop fuel [] = [] := by
  cases fuel <;> rfl

theorem runesLoop_encode (cps : List Int) (hv : ∀ r ∈ cps, validRune r) (fuel : Nat)
    (hf : (encodeRunes cps).length ≤ fuel) : runesLoop fuel (encodeRunes cps) = cps := by
  induction cps generalizing fuel with
  | nil => exact runesLoop_nil fuel
  | cons r cps ih =>
    have hr := hv r (List.mem_cons_self r cps)
    obtain ⟨n, rfl⟩ : ∃ n : Nat, r = (n : Int) := ⟨r.toNat, by have := hr.1; omega⟩
    have henc : encodeRunes ((n : Int) :: cps) = runeBytes (n : Int) ++ encodeRunes cps := by
      simp only [encodeRunes, List.map_cons, List.flatten_cons]
    have hdec := DecodeRune_runeBytes n (encodeRunes cps) hr
    have hpos := runeBytes_length_pos (n : Int)
    rw [henc] at hf ⊢
    rw [List.length_append] at hf
    cases hb : runeBytes (n : Int) with
    | nil => rw [hb] at hpos; simp at hpos
    | cons p0 tl =>
      obtain ⟨f, rfl⟩ : ∃ f, fuel = f + 1 := ⟨fuel - 1, by omega⟩
      rw [hb] at hdec
      rw [List.cons_append] at hdec ⊢
      simp only [runesLoop, hdec]
      rw [← List.cons_append, ← hb, List.drop_left]
      rw [ih (fun x hx => hv x (List.mem_cons_of_mem _ hx)) f (by omega)]

/-- `[]rune` of the UTF-8 text of a list of code points is that list. -/
theorem runesOf_encodeRunes (cps : List Int) (hv : ∀ r ∈ cps, validRune r) :
    runesOf (encodeRunes cps) = cps :=
  runesLoop_encode cps hv _ (Nat.le_refl _)

theorem StringObj.fill_of_coherent (o : StringObj) (h : o.coherent) :
    o.fill = { Value := o.Value, runeStr := some (runesOf o.Value) } := by
  obtain ⟨v, c⟩ := o
  rcases h with h | h
  · simp only at h
    subst h
    rfl
  · simp only at h
    subst h
    rfl

theorem String.IndexGet_state (o : StringObj) (h : o.coherent) (i : Int) :
    (String.IndexGet o (.int i)).2 = { Value := o.Value, runeStr := some (runesOf o.Value) } := by
  simp only [String.IndexGet, StringObj.fill_of_coherent o h]
  split_ifs
  · rfl
  · split <;> rfl

/-- C18: `String.IndexGet` on the UTF-8 text of the code points `cps`, with an Int index:
inside `0 ≤ i < n` the result is the Char of the `i`-th code point, outside it is
`UndefinedValue`; the call leaves the text as it is and the cached view in order, and the
same call again gives the same result. -/
theorem c18_string_index_code_point (cps : List Int) (hv : ∀ r ∈ cps, validRune r)
    (o : StringObj) (hval : o.Value = encodeRunes cps) (hcache : o.coherent) (i : Int) :
    ((0 ≤ i ∧ i < (cps.length : Int)) →
        ∃ r, cps[i.toNat]? = some r ∧ (String.IndexGet o (.int i)).1 = .ret (.char r)) ∧
    ((i < 0 ∨ i ≥ (cps.length : Int)) →
        (String.IndexGet o (.int i)).1 = .ret UndefinedValue) ∧
    (String.IndexGet o (.int i)).2.Value = o.Value ∧
    (String.IndexGet o (.int i)).2.coherent ∧
    (String.IndexGet (String.IndexGet o (.int i)).2 (.int i)).1 =
      (String.IndexGet o (.int i)).1 := by
  have hst := String.IndexGet_state o hcache i
  have hrunes : runesOf o.Value = cps := by rw [hval]; exact runesOf_encodeRunes cps hv
  have hco : ({ Value := o.Value, runeStr := some (runesOf o.Value) } : StringObj).coherent :=
    Or.inr rfl
  refine ⟨fun h => ?_, fun h => ?_, ?_, ?_, ?_⟩
  · obtain ⟨r, hr, hs⟩ := sliceGet_inside cps i h.1 h.2
    have hn : ¬ (i < 0 ∨ i ≥ (cps.length : Int)) := by omega
    refine ⟨r, hr, ?_⟩
    simp only [String.IndexGet, StringObj.fill_of_coherent o hcache, hrunes, Option.getD_some,
      if_neg hn, hs]
  · simp only [String.IndexGet, StringObj.fill_of_coherent o hcache, hrunes, Option.getD_some,
      if_pos h]
  · rw [hst]
  · rw [hst]
    exact hco
  · rw [hst]
    simp only [String.IndexGet, StringObj.fill_of_coherent o hcache,
      StringObj.fill_of_coherent _ hco]

/-- C18 on the text `aé`: index 1 is the code point U+00E9, whose bytes are at 1 and 2. -/
theorem c18_string_index_code_point_witness :
    (∃ r, ([97, 233] : List Int)[(1 : Int).toNat]? = some r ∧
      (String.IndexGet (StringObj.mk [97, 195, 169] none) (.int 1)).1 = .ret (.char r)) ∧
    (String.IndexGet (StringObj.mk [97, 195, 169] none) (.int 1)).1 = .ret (.char 233) :=
  ⟨(c18_string_index_code_point [97, 233] (by simp [validRune]) (StringObj.mk [97, 195, 169] none)
      (by decide) (Or.inl rfl) 1).1 (by decide), by decide⟩

/-- C19: `String.BinaryOp` with `+`, for a receiver `s` and an operand `x` whose text `t`
(the `Value` of a String, the `String()` of anything else) makes with `s` a length that a
Go `int` holds. The call fails with `ErrStringLimit` if and only if
`len(s) + len(t) > MaxStringLen`; otherwise it returns, without error, the String of `s`
followed by `t`. -/
theorem c19_string_concat (F : Formats) (MaxStringLen : Int) (s : GoString) (x : Object)
    (hlen : (s.length : Int) + ((concatOperand F x).length : Int) < 2 ^ 63) :
    (String.BinaryOp F MaxStringLen s .Add x = .fail .ErrStringLimit ↔
        (s.length : Int) + ((concatOperand F x).length : Int) > MaxStringLen) ∧
    (¬ ((s.length : Int) + ((concatOperand F x).length : Int) > MaxStringLen) →
        String.BinaryOp F MaxStringLen s .Add x = .ret (.string (s ++ concatOperand F x))) := by
  have hw : wrap64 ((s.length : Int) + ((concatOperand F x).length : Int)) =
      (s.length : Int) + ((concatOperand F x).length : Int) :=
    wrap64_of_isInt64 _ ⟨by omega, hlen⟩
  have key : String.BinaryOp F MaxStringLen s .Add x =
      if (s.length : Int) + ((concatOperand F x).length : Int) > MaxStringLen then
        .fail .ErrStringLimit
      else .ret (.string (s ++ concatOperand F x)) := by
    rw [← hw]
    cases x <;> rfl
  rw [key]
  constructor
  · constructor
    · intro h
      by_contra hn
      rw [if_neg hn] at h
      cases h
    · intro h
      rw [if_pos h]
  · intro h
    rw [if_neg h]

/-- C19 on `"ab" + 7` with a limit of 3 and of 2 bytes, the Int printing as one digit. -/
theorem c19_string_concat_witness :
    (String.BinaryOp sampleFormats 3 [97, 98] .Add (.int 7) = .fail .ErrStringLimit ↔
        (([97, 98] : GoString).length : Int) +
          ((concatOperand sampleFormats (.int 7)).length : Int) > 3) ∧
    String.BinaryOp sampleFormats 3 [97, 98] .Add (.int 7) = .ret (.string [97, 98, 48]) ∧
    String.BinaryOp sampleFormats 2 [97, 98] .Add (.int 7) = .fail .ErrStringLimit :=
  ⟨(c19_string_concat sampleFormats 3 [97, 98] (.int 7) (by decide)).1, by decide, by decide⟩

/-! ## Theorems: iterators -/

theorem wrap64_nat (k : Nat) (h : (k : Int) < 2 ^ 63) : wrap64 (k : Int) = (k : Int) :=
  wrap64_of_isInt64 _ ⟨by omega, h⟩

theorem ArrayIterator.after_succ_array (n : Nat) (it : ArrayIterator) :
    ArrayIterator.after (n + 1) it = (ArrayIterator.after n it).Next.2 := by
  induction n generalizing it with
  | zero => rfl
  | succ m ih => simp only [ArrayIterator.after] at ih ⊢; rw [ih]

theorem ArrayIterator.after_fields_array (n : Nat) (it : ArrayIterator) (hi : it.i = 0)
    (hn : (n : Int) < 2 ^ 63) :
    ArrayIterator.after n it = { v := it.v, i := (n : Int), l := it.l } := by
  induction n with
  | zero =>
    obtain ⟨v, i, l⟩ := it
    simp only at hi
    subst hi
    rfl
  | succ m ih =>
    rw [ArrayIterator.after_succ_array, ih (by omega)]
    simp only [ArrayIterator.Next]
    rw [show ((m : Int) + 1) = ((m + 1 : Nat) : Int) by push_cast; rfl, wrap64_nat _ hn]

theorem BytesIterator.after_succ_bytes (n : Nat) (it : BytesIterator) :
    BytesIterator.after (n + 1) it = (BytesIterator.after n it).Next.2 := by
  induction n generalizing it with
  | zero => rfl
  | succ m ih => simp only [BytesIterator.after] at ih ⊢; rw [ih]

theorem BytesIterator.after_fields_bytes (n : Nat) (it : BytesIterator) (hi : it.i = 0)
    (hn : (n : Int) < 2 ^ 63) :
    BytesIterator.after n it = { v := it.v, i := (n : Int), l := it.l } := by
  induction n with
  | zero =>
    obtain ⟨v, i, l⟩ := it
    simp only at hi
    subst hi
    rfl
  | succ m ih =>
    rw [BytesIterator.after_succ_bytes, ih (by omega)]
    simp only [BytesIterator.Next]
    rw [show ((m : Int) + 1) = ((m + 1 : Nat) : Int) by push_cast; rfl, wrap64_nat _ hn]

theorem StringIterator.after_succ_string (n : Nat) (it : StringIterator) :
    StringIterator.after (n + 1) it = (StringIterator.after n it).Next.2 := by
  induction n generalizing it with
  | zero => rfl
  | succ m ih => simp only [StringIterator.after] at ih ⊢; rw [ih]

theorem StringIterator.after_fields_string (n : Nat) (it : StringIterator) (hi : it.i = 0)
    (hn : (n : Int) < 2 ^ 63) :
    StringIterator.after n it = { v := it.v, i := (n : Int), l := it.l } := by
  induction n with
  | zero =>
    obtain ⟨v, i, l⟩ := it
    simp only at hi
    subst hi
    rfl
  | succ m ih =>
    rw [StringIterator.after_succ_string, ih (by omega)]
    simp only [StringIterator.Next]
    rw [show ((m : Int) + 1) = ((m + 1 : Nat) : Int) by push_cast; rfl, wrap64_nat _ hn]

theorem MapIterator.after_succ_map (n : Nat) (it : MapIterator) :
    MapIterator.after (n + 1) it = (MapIterator.after n it).Next.2 := by
  induction n generalizing it with
  | zero => rfl
  | succ m ih => simp only [MapIterator.after] at ih ⊢; rw [ih]

theorem MapIterator.after_fields_map (n : Nat) (it : MapIterator) (hi : it.i = 0)
    (hn : (n : Int) < 2 ^ 63) :
    MapIterator.after n it = { k := it.k, i := (n : Int), l := it.l } := by
  induction n with
  | zero =>
    obtain ⟨v, i, l⟩ := it
    simp only at hi
    subst hi
    rfl
  | succ m ih =>
    rw [MapIterator.after_succ_map, ih (by omega)]
    simp only [MapIterator.Next]
    rw [show ((m : Int) + 1) = ((m + 1 : Nat) : Int) by push_cast; rfl, wrap64_nat _ hn]

theorem wrap64_pred (j : Nat) (h : ((j + 1 : Nat) : Int) < 2 ^ 63) :
    wrap64 (((j + 1 : Nat) : Int) - 1) = (j : Int) := by
  rw [show (((j + 1 : Nat) : Int) - 1) = (j : Int) by push_cast; omega]
  exact wrap64_nat j (by push_cast at h; omega)

/-- C13: the iterator of an Array, an ImmutableArray, a Bytes value and a String (with `n`
elements, bytes or code points, fewer than 2^63 as in every Go slice), over the first 2^63
calls of `Next`. Call number `j + 1` answers true exactly when `j + 1 ≤ n`; after it, for
`j < n`, `Key` is the Int `j` and `Value` is what `IndexGet` gives for the Int `j`, which is
the element at `j`. `Key` and `Value` are functions of the iterator and give no new
iterator: they do not advance it. -/
theorem c13_sequence_iteration (xs : ObjList) (bs : List Nat) (o : StringObj) (j : Nat)
    (ho : o.coherent) (hj : ((j + 1 : Nat) : Int) < 2 ^ 63) :
    (((Array.Iterate xs).after j).Next.1 = decide (j + 1 ≤ xs.length) ∧
      ((ImmutableArray.Iterate xs).after j).Next.1 = decide (j + 1 ≤ xs.length) ∧
      ((Bytes.Iterate bs).after j).Next.1 = decide (j + 1 ≤ bs.length) ∧
      ((String.Iterate o).1.after j).Next.1 = decide (j + 1 ≤ (runesOf o.Value).length)) ∧
    (j < xs.length →
      ((Array.Iterate xs).after (j + 1)).Key = .int (j : Int) ∧
      ((Array.Iterate xs).after (j + 1)).Value = Array.IndexGet xs (.int (j : Int)) ∧
      ((ImmutableArray.Iterate xs).after (j + 1)).Key = .int (j : Int) ∧
      ((ImmutableArray.Iterate xs).after (j + 1)).Value =
        ImmutableArray.IndexGet xs (.int (j : Int)) ∧
      ∃ e, xs.toList[j]? = some e ∧ Array.IndexGet xs (.int (j : Int)) = .ret e) ∧
    (j < bs.length →
      ((Bytes.Iterate bs).after (j + 1)).Key = .int (j : Int) ∧
      ((Bytes.Iterate bs).after (j + 1)).Value = Bytes.IndexGet bs (.int (j : Int)) ∧
      ∃ b, bs[j]? = some b ∧ Bytes.IndexGet bs (.int (j : Int)) = .ret (.int (b : Int))) ∧
    (j < (runesOf o.Value).length →
      ((String.Iterate o).1.after (j + 1)).Key = .int (j : Int) ∧
      ((String.Iterate o).1.after (j + 1)).Value = (String.IndexGet o (.int (j : Int))).1 ∧
      ∃ r, (runesOf o.Value)[j]? = some r ∧
        (String.IndexGet o (.int (j : Int))).1 = .ret (.char r)) := by
  have hj0 : ((j : Nat) : Int) < 2 ^ 63 := by push_cast at hj; omega
  have hw : wrap64 ((j : Int) + 1) = ((j + 1 : Nat) : Int) := by
    rw [show (j : Int) + 1 = ((j + 1 : Nat) : Int) by push_cast; rfl]
    exact wrap64_nat _ hj
  have hp := wrap64_pred j hj
  have hdec : ∀ n : Nat, decide (((j + 1 : Nat) : Int) ≤ (n : Int)) = decide (j + 1 ≤ n) := by
    intro n
    simp only [Nat.cast_le]
  refine ⟨⟨?_, ?_, ?_, ?_⟩, fun h => ?_, fun h => ?_, fun h => ?_⟩
  · rw [ArrayIterator.after_fields_array j _ rfl hj0]
    simp only [ArrayIterator.Next, Array.Iterate, hw, hdec]
  · rw [ArrayIterator.after_fields_array j _ rfl hj0]
    simp only [ArrayIterator.Next, ImmutableArray.Iterate, hw, hdec]
  · rw [BytesIterator.after_fields_bytes j _ rfl hj0]
    simp only [BytesIterator.Next, Bytes.Iterate, hw, hdec]
  · rw [StringIterator.after_fields_string j _ rfl hj0]
    simp only [StringIterator.Next, String.Iterate, StringObj.fill_of_coherent o ho,
      Option.getD_some, hw, hdec]
  · have hin : ¬ ((j : Int) < 0 ∨ (j : Int) ≥ (xs.length : Int)) := by omega
    obtain ⟨e, he, hs⟩ := sliceGet_inside xs.toList (j : Int) (by omega)
      (by rw [ObjList.length_toList]; omega)
    rw [Int.toNat_ofNat] at he
    rw [ArrayIterator.after_fields_array (j + 1) _ rfl hj, ArrayIterator.after_fields_array (j + 1) _ rfl hj]
    simp only [ArrayIterator.Key, ArrayIterator.Value, Array.Iterate, ImmutableArray.Iterate,
      Array.IndexGet, ImmutableArray.IndexGet, hp, if_neg hin, true_and]
    exact ⟨e, he, hs⟩
  · have hin : ¬ ((j : Int) < 0 ∨ (j : Int) ≥ (bs.length : Int)) := by omega
    obtain ⟨b, hb, hs⟩ := sliceGet_inside bs (j : Int) (by omega) (by omega)
    rw [Int.toNat_ofNat] at hb
    rw [BytesIterator.after_fields_bytes (j + 1) _ rfl hj]
    simp only [BytesIterator.Key, BytesIterator.Value, Bytes.Iterate, Bytes.IndexGet, hp,
      if_neg hin, true_and, hs]
    exact ⟨b, hb, rfl⟩
  · have hin : ¬ ((j : Int) < 0 ∨ (j : Int) ≥ ((runesOf o.Value).length : Int)) := by omega
    obtain ⟨r, hr, hs⟩ := sliceGet_inside (runesOf o.Value) (j : Int) (by omega) (by omega)
    rw [Int.toNat_ofNat] at hr
    rw [StringIterator.after_fields_string (j + 1) _ rfl hj]
    simp only [StringIterator.Key, StringIterator.Value, String.Iterate, String.IndexGet,
      StringObj.fill_of_coherent o ho, Option.getD_some, hp, if_neg hin, true_and, hs]
    exact ⟨r, hr, rfl⟩

/-- C13 on the Array `[7, 8]`, the Bytes `[1, 2]` and the String `aé`, at the second call. -/
theorem c13_sequence_iteration_witness :
    ((Array.Iterate (.cons (.int 7) (.cons (.int 8) .nil))).after 1).Next.1 = true ∧
      ((Array.Iterate (.cons (.int 7) (.cons (.int 8) .nil))).after 2).Key = .int 1 ∧
      ((Array.Iterate (.cons (.int 7) (.cons (.int 8) .nil))).after 2).Value = .ret (.int 8) ∧
      ((String.Iterate (StringObj.mk [97, 195, 169] none)).1.after 2).Value =
        .ret (.char 233) ∧
      ((String.Iterate (StringObj.mk [97, 195, 169] none)).1.after 2).Next.1 = false :=
  have h := c13_sequence_iteration (.cons (.int 7) (.cons (.int 8) .nil)) [1, 2]
    (StringObj.mk [97, 195, 169] none) 1 (Or.inl rfl) (by decide)
  ⟨h.1.1.trans (by decide), (h.2.1 (by decide)).1, by decide, by decide, by decide⟩

/-! ## Theorems: map iteration -/

theorem ObjMap.keys_eq_map : (m : ObjMap) → m.keys = m.toList.map Prod.fst
  | .nil => rfl
  | .cons k v t => by
    simp only [ObjMap.keys, ObjMap.toList, List.map_cons, ObjMap.keys_eq_map t]

theorem ObjMap.length_keys : (m : ObjMap) → m.keys.length = m.length
  | .nil => rfl
  | .cons k v t => by
    simp only [ObjMap.keys, ObjMap.length, List.length_cons, ObjMap.length_keys t]

/-- C11: the iterator of a Map or an ImmutableMap `m` that nothing modifies, over the first
2^63 calls of `Next`; the entries of `m` have distinct keys, as those of every Go map. Call
number `j + 1` answers true exactly when `j + 1 ≤ len(m)`; after it, for `j < len(m)`, `Key`
is the key of entry `j` and `Value` is the value of that entry, which is the value `m`
holds for that key; so the keys of the successful calls are the keys of `m` in the order of
the entries, each one once. -/
theorem c11_map_iteration (m : ObjMap) (j : Nat) (hkeys : m.keys.Nodup)
    (hlen : (m.length : Int) < 2 ^ 63) (hj : ((j + 1 : Nat) : Int) < 2 ^ 63) :
    ImmutableMap.Iterate m = Map.Iterate m ∧
    ((Map.Iterate m).after j).Next.1 = decide (j + 1 ≤ m.length) ∧
    (j < m.length →
      ∃ k v, m.toList[j]? = some (k, v) ∧
        ((Map.Iterate m).after (j + 1)).Key = .ret (.string k) ∧
        ((Map.Iterate m).after (j + 1)).Value m = .ret (some v) ∧
        m.lookup k = some v) ∧
    (List.map (fun i : Nat => ((Map.Iterate m).after (i + 1)).Key) (List.range m.length) =
        m.keys.map (fun k => .ret (.string k)) ∧
      (List.map (fun i : Nat => ((Map.Iterate m).after (i + 1)).Key)
        (List.range m.length)).Nodup) := by
  have hj0 : ((j : Nat) : Int) < 2 ^ 63 := by push_cast at hj; omega
  have hw : wrap64 ((j : Int) + 1) = ((j + 1 : Nat) : Int) := by
    rw [show (j : Int) + 1 = ((j + 1 : Nat) : Int) by push_cast; rfl]
    exact wrap64_nat _ hj
  have hkey : ∀ i : Nat, i < m.length → ((i + 1 : Nat) : Int) < 2 ^ 63 →
      ∃ k, m.keys[i]? = some k ∧ ((Map.Iterate m).after (i + 1)).Key = .ret (.string k) ∧
        ((Map.Iterate m).after (i + 1)).Value m = .ret (m.lookup k) := by
    intro i hi hi63
    obtain ⟨k, hk, hs⟩ := sliceGet_inside m.keys (i : Int) (by omega)
      (by rw [ObjMap.length_keys]; omega)
    rw [Int.toNat_ofNat] at hk
    rw [MapIterator.after_fields_map (i + 1) _ rfl hi63]
    simp only [MapIterator.Key, MapIterator.Value, Map.Iterate, wrap64_pred i hi63, hs]
    exact ⟨k, hk, rfl, rfl⟩
  refine ⟨rfl, ?_, fun h => ?_, ?_⟩
  · rw [MapIterator.after_fields_map j _ rfl hj0]
    simp only [MapIterator.Next, Map.Iterate, hw, ObjMap.length_keys, Nat.cast_le]
  · obtain ⟨k, hk, hK, hV⟩ := hkey j h hj
    rw [ObjMap.keys_eq_map, List.getElem?_map] at hk
    cases he : m.toList[j]? with
    | none => rw [he] at hk; cases hk
    | some kv =>
      obtain ⟨k1, v⟩ := kv
      rw [he] at hk
      simp only [Option.map_some', Option.some.injEq] at hk
      subst hk
      have hlook := ObjMap.lookup_of_mem m hkeys k1 v (mem_of_getElem?_some _ _ _ he)
      exact ⟨k1, v, rfl, hK, by rw [hV, hlook], hlook⟩
  · have hlist : List.map (fun i : Nat => ((Map.Iterate m).after (i + 1)).Key)
        (List.range m.length) = m.keys.map (fun k => .ret (.string k)) := by
      apply List.ext_getElem?
      intro i
      rw [List.getElem?_map, List.getElem?_map]
      by_cases hi : i < m.length
      · obtain ⟨k, hk, hK, _⟩ := hkey i hi (by push_cast; omega)
        rw [List.getElem?_range hi, hk]
        simp only [Option.map_some', hK]
      · rw [List.getElem?_eq_none (by rw [List.length_range]; omega),
          List.getElem?_eq_none (by rw [ObjMap.length_keys]; omega)]
        rfl
    refine ⟨hlist, ?_⟩
    rw [hlist]
    refine List.Nodup.map ?_ hkeys
    intro a b hab
    exact Object.string.inj (Outcome.ret.inj hab)

/-- C11 on the Map `sampleMap`, at the second call of `Next`. -/
theorem c11_map_iteration_witness :
    ((Map.Iterate sampleMap).after 1).Next.1 = true ∧
      ∃ k v, sampleMap.toList[1]? = some (k, v) ∧
        ((Map.Iterate sampleMap).after 2).Key = .ret (.string k) ∧
        ((Map.Iterate sampleMap).after 2).Value sampleMap = .ret (some v) ∧
        sampleMap.lookup k = some v :=
  have h := c11_map_iteration sampleMap 1 (by decide) (by decide) (by decide)
  ⟨h.2.1.trans (by decide), h.2.2.1 (by decide)⟩

/-- After any change of the map, `Value` reads the present entry of the key the iterator
stands at: a value when the map still has the key, and nil when it has not. -/
theorem MapIterator.value_reads_present_map (m v : ObjMap) (j : Nat) (h : j < m.length)
    (hj : ((j + 1 : Nat) : Int) < 2 ^ 63) :
    ∃ k, m.keys[j]? = some k ∧
      ((Map.Iterate m).after (j + 1)).Key = .ret (.string k) ∧
      ((Map.Iterate m).after (j + 1)).Value v = .ret (v.lookup k) := by
  obtain ⟨k, hk, hs⟩ := sliceGet_inside m.keys (j : Int) (by omega)
    (by rw [ObjMap.length_keys]; omega)
  rw [Int.toNat_ofNat] at hk
  rw [MapIterator.after_fields_map (j + 1) _ rfl hj]
  simp only [MapIterator.Key, MapIterator.Value, Map.Iterate, wrap64_pred j hj, hs]
  exact ⟨k, hk, rfl, rfl⟩

/-- C12 at its failing input: the Map `sampleMap`, an iterator made from it, a first `Next`,
then `sil(m, "b")`. The second `Next` answers true and `Key` is `b`, a key of the map as it
was, but `Value` returns nil: the map has no entry for `b` any more, and `MapIterator.Value`
hands the missing entry on as it reads it, where `Map.IndexGet` puts `UndefinedValue`. -/
theorem c12_value_nil_after_delete :
    ((Map.Iterate sampleMap).after 0).Next.1 = true ∧
      builtinSil [.map sampleMap, .string [98]] =
        (.ret UndefinedValue, [.map (.cons [97] (.int 1) .nil), .string [98]]) ∧
      ((Map.Iterate sampleMap).after 1).Next.1 = true ∧
      ((Map.Iterate sampleMap).after 2).Key = .ret (.string [98]) ∧
      ((Map.Iterate sampleMap).after 2).Value (.cons [97] (.int 1) .nil) = .ret none ∧
      Map.IndexGet sampleToString (.cons [97] (.int 1) .nil) (.string [98]) =
        .ret UndefinedValue := by
  decide

/-! ## Theorems: the builtin `aralık` -/

theorem range_succ_map {α : Type} (f : Nat → α) (n : Nat) :
    (List.range (n + 1)).map f = f 0 :: (List.range n).map (fun k => f (k + 1)) := by
  rw [List.range_succ_eq_map, List.map_cons, List.map_map]
  rfl

/-- The loop of `buildRange` for `start ≤ stop`, run from `i` with `cnt` values below `stop`
ahead of it, none of which leaves the range of `int64`: on fuel `cnt + 1` it returns those
values appended to the slice. -/
theorem rangeUp_run (stop step : Int) (hstep : 0 < step) (cnt : Nat) :
    ∀ (fuel : Nat) (i : Int) (acc : List Object), cnt + 1 ≤ fuel → -(2 ^ 63) ≤ i →
      i + (cnt : Int) * step < 2 ^ 63 → (∀ k : Nat, k < cnt → i + (k : Int) * step < stop) →
      ¬ (i + (cnt : Int) * step < stop) →
      rangeUp fuel i stop step acc =
        some (acc ++ List.map (fun k : Nat => Object.int (i + (k : Int) * step)) (List.range cnt)) := by
  induction cnt with
  | zero =>
    intro fuel i acc hf _ _ _ hstop
    obtain ⟨f, rfl⟩ : ∃ f, fuel = f + 1 := ⟨fuel - 1, by omega⟩
    have : ¬ (i < stop) := by simpa using hstop
    simp [rangeUp, this]
  | succ c ih =>
    intro fuel i acc hf hlo hhi hbelow hstop
    obtain ⟨f, rfl⟩ : ∃ f, fuel = f + 1 := ⟨fuel - 1, by omega⟩
    have h0 : i < stop := by simpa using hbelow 0 (by omega)
    have hcs : (0 : Int) ≤ (c : Int) * step := by positivity
    have hw : wrap64 (i + step) = i + step := by
      apply wrap64_of_isInt64
      constructor
      · omega
      · push_cast at hhi
        nlinarith
    simp only [rangeUp, if_pos h0, hw]
    rw [ih f (i + step) (acc ++ [Object.int i]) (by omega) (by omega)
      (by push_cast at hhi; nlinarith)
      (fun k hk => by
        have := hbelow (k + 1) (by omega)
        push_cast at this
        nlinarith)
      (by push_cast at hstop; intro h; apply hstop; nlinarith)]
    rw [range_succ_map, List.append_assoc]
    simp only [List.singleton_append, Nat.cast_zero, zero_mul, add_zero, Nat.cast_add,
      Nat.cast_one]
    congr 3
    apply List.map_congr_left
    intro k _
    congr 1
    ring

/-- The loop of `buildRange` for `start > stop`. -/
theorem rangeDown_run (stop step : Int) (hstep : 0 < step) (cnt : Nat) :
    ∀ (fuel : Nat) (i : Int) (acc : List Object), cnt + 1 ≤ fuel → i < 2 ^ 63 →
      -(2 ^ 63) ≤ i - (cnt : Int) * step → (∀ k : Nat, k < cnt → i - (k : Int) * step > stop) →
      ¬ (i - (cnt : Int) * step > stop) →
      rangeDown fuel i stop step acc =
        some (acc ++ List.map (fun k : Nat => Object.int (i - (k : Int) * step)) (List.range cnt)) := by
  induction cnt with
  | zero =>
    intro fuel i acc hf _ _ _ hstop
    obtain ⟨f, rfl⟩ : ∃ f, fuel = f + 1 := ⟨fuel - 1, by omega⟩
    have : ¬ (i > stop) := by simpa using hstop
    simp [rangeDown, this]
  | succ c ih =>
    intro fuel i acc hf hhi hlo habove hstop
    obtain ⟨f, rfl⟩ : ∃ f, fuel = f + 1 := ⟨fuel - 1, by omega⟩
    have h0 : i > stop := by simpa using habove 0 (by omega)
    have hcs : (0 : Int) ≤ (c : Int) * step := by positivity
    have hw : wrap64 (i - step) = i - step := by
      apply wrap64_of_isInt64
      constructor
      · push_cast at hlo
        nlinarith
      · omega
    simp only [rangeDown, if_pos h0, hw]
    rw [ih f (i - step) (acc ++ [Object.int i]) (by omega) (by omega)
      (by push_cast at hlo; nlinarith)
      (fun k hk => by
        have := habove (k + 1) (by omega)
        push_cast at this
        nlinarith)
      (by push_cast at hstop; intro h; apply hstop; nlinarith)]
    rw [range_succ_map, List.append_assoc]
    simp only [List.singleton_append, Nat.cast_zero, zero_mul, sub_zero, Nat.cast_add,
      Nat.cast_one]
    congr 3
    apply List.map_congr_left
    intro k _
    congr 1
    ring

/-- The count of `countUp` is the number of values below `stop`. -/
theorem countUp_spec (start stop step : Int) (hstep : 0 < step) (h : start ≤ stop) (k : Nat) :
    k < countUp start stop step ↔ start + (k : Int) * step < stop := by
  unfold countUp
  have hq : 0 ≤ (stop - start + step - 1) / step := Int.ediv_nonneg (by omega) (by omega)
  have hiff : ((k : Int) + 1 ≤ (stop - start + step - 1) / step) ↔
      ((k : Int) + 1) * step ≤ stop - start + step - 1 := Int.le_ediv_iff_mul_le hstep
  constructor
  · intro hk
    have : (k : Int) + 1 ≤ (stop - start + step - 1) / step := by omega
    have := hiff.mp this
    nlinarith
  · intro hk
    have : ((k : Int) + 1) * step ≤ stop - start + step - 1 := by nlinarith
    have := hiff.mpr this
    omega

/-- The count of `countDown` is the number of values above `stop`. -/
theorem countDown_spec (start stop step : Int) (hstep : 0 < step) (h : stop ≤ start)
    (k : Nat) : k < countDown start stop step ↔ start - (k : Int) * step > stop := by
  unfold countDown
  have hq : 0 ≤ (start - stop + step - 1) / step := Int.ediv_nonneg (by omega) (by omega)
  have hiff : ((k : Int) + 1 ≤ (start - stop + step - 1) / step) ↔
      ((k : Int) + 1) * step ≤ start - stop + step - 1 := Int.le_ediv_iff_mul_le hstep
  constructor
  · intro hk
    have : (k : Int) + 1 ≤ (start - stop + step - 1) / step := by omega
    have := hiff.mp this
    nlinarith
  · intro hk
    have : ((k : Int) + 1) * step ≤ start - stop + step - 1 := by nlinarith
    have := hiff.mpr this
    omega

theorem builtinAralik_eq (fuel : Nat) (start stop step : Int) (args : List Object)
    (hargs : args = [.int start, .int stop, .int step] ∨
      (step = 1 ∧ args = [.int start, .int stop])) (hstep : 0 < step) :
    builtinAralik fuel args = (buildRange fuel start stop step).map .ret := by
  have h2 : ¬ (step ≤ 0) := by omega
  rcases hargs with rfl | ⟨rfl, rfl⟩
  · simp [builtinAralik, rangeArgsCheck, h2]
  · simp [builtinAralik, rangeArgsCheck]

/-- C20: the builtin `aralık` with Int arguments `start`, `stop` and a step above 0, or with
`start` and `stop` alone and then the step 1, when no value the loop computes leaves the
range of `int64`. For `start ≤ stop` the result is the Array of `start`, `start + step`, ...,
as many as are below `stop`, in that order; for `start > stop` it is the Array of `start`,
`start - step`, ..., as many as are above `stop`. The fuel of the model is enough when it
is above the number of values. -/
theorem c20_range_progression (start stop step : Int) (args : List Object) (fuel : Nat)
    (hargs : args = [.int start, .int stop, .int step] ∨
      (step = 1 ∧ args = [.int start, .int stop]))
    (hstart : isInt64 start) (hstep : 0 < step) :
    (start ≤ stop → start + (countUp start stop step : Int) * step < 2 ^ 63 →
      countUp start stop step + 1 ≤ fuel →
      builtinAralik fuel args =
          some (.ret (progressionUp start step (countUp start stop step))) ∧
        ∀ k : Nat, k < countUp start stop step ↔ start + (k : Int) * step < stop) ∧
    (stop < start → -(2 ^ 63) ≤ start - (countDown start stop step : Int) * step →
      countDown start stop step + 1 ≤ fuel →
      builtinAralik fuel args =
          some (.ret (progressionDown start step (countDown start stop step))) ∧
        ∀ k : Nat, k < countDown start stop step ↔ start - (k : Int) * step > stop) := by
  rw [builtinAralik_eq fuel start stop step args hargs hstep]
  constructor
  · intro hle hmax hfuel
    have hspec := countUp_spec start stop step hstep hle
    refine ⟨?_, hspec⟩
    have hrun := rangeUp_run stop step hstep (countUp start stop step) fuel start [] hfuel
      hstart.1 hmax (fun k hk => (hspec k).mp hk)
      (fun h => Nat.lt_irrefl _ ((hspec _).mpr h))
    simp only [buildRange, if_pos hle, hrun, List.nil_append, Option.map_some',
      progressionUp]
  · intro hlt hmin hfuel
    have hspec := countDown_spec start stop step hstep (le_of_lt hlt)
    refine ⟨?_, hspec⟩
    have hrun := rangeDown_run stop step hstep (countDown start stop step) fuel start []
      hfuel hstart.2 hmin (fun k hk => (hspec k).mp hk)
      (fun h => Nat.lt_irrefl _ ((hspec _).mpr h))
    simp only [buildRange, if_neg (not_le.mpr hlt), hrun, List.nil_append, Option.map_some',
      progressionDown]

/-- C20 on `aralık(0, 5)`, which is `[0, 1, 2, 3, 4]`, with `aralık(3, 3)`, the empty array,
and `aralık(5, 0, 2)`, which is `[5, 3, 1]`, beside it. -/
theorem c20_range_progression_witness :
    builtinAralik 6 [.int 0, .int 5] =
        some (.ret (.array (ObjList.ofList [.int 0, .int 1, .int 2, .int 3, .int 4]))) ∧
      builtinAralik 1 [.int 3, .int 3] = some (.ret (.array .nil)) ∧
      builtinAralik 4 [.int 5, .int 0, .int 2] =
        some (.ret (.array (ObjList.ofList [.int 5, .int 3, .int 1]))) :=
  ⟨((c20_range_progression 0 5 1 [.int 0, .int 5] 6 (Or.inr ⟨rfl, rfl⟩) (by decide)
      (by decide)).1 (by decide) (by decide) (by decide)).1.trans (by decide),
    by decide, by decide⟩

/-! ## Theorems: opcode names, import expressions, source positions -/

/-- C29 at its failing input: `OpcodeNames` gives the two distinct opcodes `OpBComplement`
and `OpMinus` the same name `NEG`; `BCOMPLEMENT` is no name of the table. -/
theorem c29_opcode_names_collide :
    OpBComplement ≠ OpMinus ∧ OpcodeNames[OpBComplement]? = some "NEG" ∧
      OpcodeNames[OpMinus]? = some "NEG" ∧ "BCOMPLEMENT" ∉ OpcodeNames ∧
      OpcodeNames.length = OpcodeOperands.length := by
  decide

/-- C28 at its failing input: for the module name `m` the printed text is `kullan("m")"`,
with a double quote after the closing parenthesis. -/
theorem c28_import_string_trailing_quote :
    ImportExpr.String (ImportExpr.mk [109] .Import 1) =
        [107, 117, 108, 108, 97, 110, 40, 34, 109, 34, 41, 34] ∧
      ImportExpr.String (ImportExpr.mk [109] .Import 1) ≠
        [107, 117, 108, 108, 97, 110, 40, 34, 109, 34, 41] := by
  decide

theorem sourcePosLoop_none (NoPos : Int) (sm : List (Int × Int)) (n : Nat)
    (h : ∀ j : Nat, j ≤ n → sm.lookup (j : Int) = none) : sourcePosLoop NoPos sm n = NoPos := by
  induction n with
  | zero =>
    have := h 0 (Nat.le_refl 0)
    simp only [Nat.cast_zero] at this
    simp only [sourcePosLoop, this]
  | succ m ih =>
    simp only [sourcePosLoop, h (m + 1) (Nat.le_refl _)]
    exact ih (fun j hj => h j (by omega))

theorem sourcePosLoop_some (NoPos : Int) (sm : List (Int × Int)) (n j : Nat) (p : Int)
    (hj : j ≤ n) (hp : sm.lookup (j : Int) = some p)
    (hgap : ∀ k : Nat, j < k → k ≤ n → sm.lookup (k : Int) = none) :
    sourcePosLoop NoPos sm n = p := by
  induction n with
  | zero =>
    obtain rfl : j = 0 := by omega
    simp only [Nat.cast_zero] at hp
    simp only [sourcePosLoop, hp]
  | succ m ih =>
    by_cases hjm : j = m + 1
    · subst hjm
      simp only [sourcePosLoop, hp]
    · simp only [sourcePosLoop, hgap (m + 1) (by omega) (Nat.le_refl _)]
      exact ih (by omega) (fun k hk hkm => hgap k hk (by omega))

/-- C22: `SourcePos(ip)` is the position recorded for the greatest key `j` of the source map
with `0 ≤ j ≤ ip`, and `NoPos` when the map has no key in that range, as for every negative
`ip`. The function is total: the loop ends after at most `ip + 1` turns. -/
theorem c22_source_pos_nearest (NoPos : Int) (f : CompiledFunction) (ip : Int) :
    (∀ j p : Int, 0 ≤ j → j ≤ ip → f.SourceMap.lookup j = some p →
        (∀ k : Int, j < k → k ≤ ip → f.SourceMap.lookup k = none) →
        f.SourcePos NoPos ip = p) ∧
    ((∀ j : Int, 0 ≤ j → j ≤ ip → f.SourceMap.lookup j = none) →
        f.SourcePos NoPos ip = NoPos) ∧
    (ip < 0 → f.SourcePos NoPos ip = NoPos) := by
  refine ⟨fun j p h0 hle hp hgap => ?_, fun hnone => ?_, fun hneg => ?_⟩
  · have hip : ip ≥ 0 := by omega
    simp only [CompiledFunction.SourcePos, if_pos hip]
    obtain ⟨jn, rfl⟩ : ∃ jn : Nat, j = (jn : Int) := ⟨j.toNat, by omega⟩
    exact sourcePosLoop_some NoPos _ _ jn p (by omega) hp
      (fun k hk hkn => hgap k (by omega) (by omega))
  · by_cases hip : ip ≥ 0
    · simp only [CompiledFunction.SourcePos, if_pos hip]
      exact sourcePosLoop_none NoPos _ _ (fun j hj => hnone j (by omega) (by omega))
    · simp only [CompiledFunction.SourcePos, if_neg hip]
  · simp only [CompiledFunction.SourcePos, if_neg (not_le.mpr hneg)]

/-- C22 on the source map `0 ↦ 5`: at `ip = 3` the position is 5, at `ip = -1` it is `NoPos`. -/
theorem c22_source_pos_nearest_witness :
    sampleFunction.SourcePos 0 3 = 5 ∧ sampleFunction.SourcePos 0 (-1) = 0 :=
  ⟨(c22_source_pos_nearest 0 sampleFunction 3).1 0 5 (by decide) (by decide) (by decide)
      (by
        intro k hk hk3
        have h : k = 1 ∨ k = 2 ∨ k = 3 := by omega
        rcases h with rfl | rfl | rfl <;> decide),
    (c22_source_pos_nearest 0 sampleFunction (-1)).2.2 (by decide)⟩

/-- C23 at its failing input: the copy of a function with the source map `0 ↦ 5` has the
same instructions, `NumLocals`, `NumParameters` and `VarArgs`, but an empty source map, and
`SourcePos(0)` is `NoPos` on the copy and 5 on the function. -/
theorem c23_copy_drops_source_map :
    (Object.Copy (.compiledFunction 7 sampleFunction) 8).1 =
        .compiledFunction 8 (CompiledFunction.mk [OpSuspend] 2 1 false [] []) ∧
      (CompiledFunction.mk [OpSuspend] 2 1 false [] []).SourcePos 0 0 = 0 ∧
      sampleFunction.SourcePos 0 0 = 5 := by
  decide

/-! ## Theorems: the flag `LocalAssigned` -/

theorem lookup_map_assign (store : List (String × Symbol)) (x : String) (sym : Symbol)
    (h : store.lookup x = some sym) :
    (store.map (fun kv =>
      if kv.1 = x then (kv.1, { kv.2 with LocalAssigned := true }) else kv)).lookup x =
      some { sym with LocalAssigned := true } := by
  induction store with
  | nil => simp at h
  | cons kv rest ih =>
    obtain ⟨k, v⟩ := kv
    by_cases hk : x = k
    · subst hk
      simp only [List.lookup, beq_self_eq_true, Option.some.injEq] at h
      subst h
      rw [List.map_cons]
      dsimp only
      rw [if_pos rfl]
      simp only [List.lookup, beq_self_eq_true]
    · have hb : (x == k) = false := by simpa using hk
      simp only [List.lookup, hb] at h
      have hk2 : ¬ k = x := fun e => hk e.symm
      rw [List.map_cons]
      dsimp only
      rw [if_neg hk2]
      simp only [List.lookup, hb]
      exact ih h

/-- C25: a table `t` that stores under `x` a LOCAL symbol whose `LocalAssigned` is false.
`Resolve(x, false)` on `t` passes the symbol by and answers from the parent chain: not found
when `t` has no parent or the parent chain does not find `x`; the symbol the parent chain
finds, one level deeper, when `t` is a block or that symbol is GLOBAL or BUILTIN; and the
FREE capture of that symbol when `t` is a function table and the symbol is LOCAL or FREE.
With `LocalAssigned` set, the same call returns the table's own symbol at depth 0. -/
theorem c25_unassigned_local_hidden (t : SymbolTable) (ps : Chain) (x : String) (sym : Symbol)
    (hstore : storeGet t.store x = some sym) (hlocal : sym.Scope = SymbolScope.ScopeLocal)
    (hflag : sym.LocalAssigned = false) :
    (ps = [] → Resolve (t :: ps) x false = (t :: ps, none)) ∧
    (ps ≠ [] → (Resolve ps x true).2 = none →
      Resolve (t :: ps) x false = (t :: (Resolve ps x true).1, none)) ∧
    (ps ≠ [] → ∀ (outer : Symbol) (d : Nat), (Resolve ps x true).2 = some (outer, d) →
      ((t.block = true ∨ outer.Scope = SymbolScope.ScopeGlobal ∨
          outer.Scope = SymbolScope.ScopeBuiltin) →
        Resolve (t :: ps) x false = (t :: (Resolve ps x true).1, some (outer, d + 1))) ∧
      ((t.block = false ∧ outer.Scope ≠ SymbolScope.ScopeGlobal ∧
          outer.Scope ≠ SymbolScope.ScopeBuiltin) →
        Resolve (t :: ps) x false =
          ((defineFree t outer).1 :: (Resolve ps x true).1,
            some (Symbol.mk outer.Name SymbolScope.ScopeFree t.freeSymbols.length false,
              d + 1)))) ∧
    Resolve (assignLocal (t :: ps) x) x false =
      (assignLocal (t :: ps) x, some ({ sym with LocalAssigned := true }, 0)) := by
  have hmiss : directHit t x false = none := by
    simp [directHit, hstore, hlocal, hflag]
  refine ⟨?_, ?_, ?_, ?_⟩
  · rintro rfl
    exact Resolve_root_miss t x false hmiss
  · intro hps hnone
    exact Resolve_miss t ps _ x false hmiss hps (Prod.ext rfl hnone)
  · intro hps outer d hfound
    have hr := Resolve_found t ps _ x false outer d hmiss hps (Prod.ext rfl hfound)
    constructor
    · intro hcase
      have hp : promotes t (d + 1) outer = false := by
        cases hpr : promotes t (d + 1) outer with
        | false => rfl
        | true =>
          obtain ⟨h1, h2, h3⟩ := (promotes_iff t d outer).mp hpr
          rcases hcase with h | h | h
          · rw [h] at h1; cases h1
          · exact absurd h h2
          · exact absurd h h3
      rw [hr, hp]
      simp
    · intro hcase
      have hp : promotes t (d + 1) outer = true := (promotes_iff t d outer).mpr hcase
      rw [hr, hp, defineFree_symbol]
      simp
  · apply Resolve_hit
    simp only [assignLocal, directHit, storeGet]
    rw [lookup_map_assign t.store x sym hstore]
    simp

/-- C25 on a block that stores an unassigned local `x` under a function table whose local
`x` is assigned. -/
theorem c25_unassigned_local_hidden_witness :
    Resolve (SymbolTable.mk true [("x", Symbol.mk "x" .ScopeLocal 1 false)] 1 2 [] [] ::
        sampleAncestors) "x" false =
      (SymbolTable.mk true [("x", Symbol.mk "x" .ScopeLocal 1 false)] 1 2 [] [] ::
        sampleAncestors, some (Symbol.mk "x" .ScopeLocal 0 true, 1)) ∧
    Resolve (assignLocal (SymbolTable.mk true [("x", Symbol.mk "x" .ScopeLocal 1 false)] 1 2
        [] [] :: sampleAncestors) "x") "x" false =
      (assignLocal (SymbolTable.mk true [("x", Symbol.mk "x" .ScopeLocal 1 false)] 1 2 [] [] ::
        sampleAncestors) "x", some (Symbol.mk "x" .ScopeLocal 1 true, 0)) :=
  have h := c25_unassigned_local_hidden
    (SymbolTable.mk true [("x", Symbol.mk "x" .ScopeLocal 1 false)] 1 2 [] [])
    sampleAncestors "x" (Symbol.mk "x" .ScopeLocal 1 false) rfl rfl rfl
  ⟨((h.2.2.1 (by decide) (Symbol.mk "x" .ScopeLocal 0 true) 0 (by decide)).1
      (Or.inl rfl)).trans (by decide), h.2.2.2⟩

/-! ## Theorems: decoded constants -/

/-- C24 at its failing input: an Error that wraps a decoded Bool, one that is true and is
not the object `TrueValue`. `fixDecodedObject` succeeds and returns the Error as it is, the
Bool inside it not rebound, while the same Bool inside an Array is rebound to `TrueValue`:
the type switch has no case for Error. -/
theorem c24_error_not_fixed :
    fixDecodedObject noModules (.error 9 (.bool 5 true)) 10 =
        .ret (.error 9 (.bool 5 true), 10) ∧
      Object.bool 5 true ≠ TrueValue ∧ Object.bool 5 true ≠ FalseValue ∧
      fixDecodedObject noModules (.array (.cons (.bool 5 true) .nil)) 10 =
        .ret (.array (.cons TrueValue .nil), 10) := by
  decide

/-! ## Theorems: coalescing of constants -/

theorem floatEq_trans (a b c : Nat) (h1 : floatEq a b = true) (h2 : floatEq b c = true) :
    floatEq a c = true := by
  simp only [floatEq, isZeroBits, Bool.and_eq_true, Bool.not_eq_true', Bool.or_eq_true,
    beq_iff_eq] at h1 h2 ⊢
  obtain ⟨⟨ha, hb⟩, h1⟩ := h1
  obtain ⟨⟨_, hc⟩, h2⟩ := h2
  refine ⟨⟨ha, hc⟩, ?_⟩
  norm_num at h1 h2 ⊢
  omega

theorem sameConstant_trans (c d e : Object) (h1 : sameConstant c d = true)
    (h2 : sameConstant d e = true) : sameConstant c e = true := by
  cases c <;> cases d <;> simp [sameConstant] at h1 <;>
    cases e <;> simp [sameConstant] at h2 ⊢
  · subst h1; exact h2
  · exact floatEq_trans _ _ _ h1 h2
  · subst h1; exact h2
  · subst h1; exact h2
  · obtain ⟨h3, h4⟩ := h1
    obtain ⟨_, h5⟩ := h2
    exact ⟨h3, by rw [h5, h4]⟩
  · omega

theorem lookup_cons_isSome {α β : Type} [BEq α] [LawfulBEq α] [DecidableEq α]
    (l : List (α × β)) (k k1 : α) (v : β) :
    (List.lookup k ((k1, v) :: l)).isSome = ((List.lookup k l).isSome || decide (k1 = k)) := by
  simp only [List.lookup]
  by_cases h : k1 = k
  · subst h
    simp
  · have h1 : (k == k1) = false := by simpa using fun h2 => h h2.symm
    simp [h1, h]

theorem floatGet_cons_isSome (l : List (Nat × Nat)) (k k1 v : Nat) :
    (floatGet ((k1, v) :: l) k).isSome = ((floatGet l k).isSome || floatEq k1 k) := by
  simp only [floatGet, List.find?_cons]
  cases floatEq k1 k <;> simp

/-- One turn of the first loop: the constant joins the new pool unless its category map
holds its key, and the category maps then hold its key too. -/
theorem dedupStep_first (st : DedupState) (k : Nat) (c : Object)
    (hc : allowedConstant c = true) :
    ∃ st1, dedupStep st k c = .ret st1 ∧
      st1.deduped = st.deduped ++ (if st.seen c = true then [] else [c]) ∧
      ∀ c1, st1.seen c1 = (st.seen c1 || (!st.seen c && sameConstant c c1)) := by
  cases c with
  | compiledFunction addr fn =>
    simp only [dedupStep]
    cases hl : st.fns.lookup addr with
    | some i =>
      refine ⟨_, rfl, by simp [DedupState.seen, hl], ?_⟩
      intro c1
      cases c1 <;> simp [DedupState.seen, hl]
    | none =>
      refine ⟨_, rfl, by simp [DedupState.seen, hl], ?_⟩
      intro c1
      cases c1 <;> simp [DedupState.seen, hl, sameConstant, lookup_cons_isSome]
  | immutableMap addr m =>
    simp only [dedupStep]
    cases hl : st.immutableMaps.lookup (inferModuleName m) with
    | some i =>
      by_cases hne : inferModuleName m ≠ []
      · simp only [if_pos hne]
        refine ⟨_, rfl, by simp [DedupState.seen, hl, hne], ?_⟩
        intro c1
        cases c1 <;> simp [DedupState.seen, hl, hne]
      · simp only [if_neg hne]
        refine ⟨_, rfl, by simp [DedupState.seen, hl, hne], ?_⟩
        intro c1
        have hne1 : inferModuleName m = [] := by simpa using hne
        cases c1 <;> simp [DedupState.seen, hl, hne1, sameConstant, lookup_cons_isSome]
        rename_i a1 m1
        by_cases h1 : inferModuleName m1 = [] <;> simp [h1]
    | none =>
      refine ⟨_, rfl, by simp [DedupState.seen, hl], ?_⟩
      intro c1
      cases c1 <;> simp [DedupState.seen, hl, sameConstant, lookup_cons_isSome]
      rename_i a1 m1
      by_cases h1 : inferModuleName m = inferModuleName m1
      · simp [← h1, hl]
      · have h2 : ¬ inferModuleName m1 = inferModuleName m := fun h => h1 h.symm
        simp [h1, h2]
  | int v =>
    simp only [dedupStep]
    cases hl : st.ints.lookup v with
    | some i =>
      refine ⟨_, rfl, by simp [DedupState.seen, hl], ?_⟩
      intro c1
      cases c1 <;> simp [DedupState.seen, hl]
    | none =>
      refine ⟨_, rfl, by simp [DedupState.seen, hl], ?_⟩
      intro c1
      cases c1 <;> simp [DedupState.seen, hl, sameConstant, lookup_cons_isSome]
  | string v =>
    simp only [dedupStep]
    cases hl : st.strings.lookup v with
    | some i =>
      refine ⟨_, rfl, by simp [DedupState.seen, hl], ?_⟩
      intro c1
      cases c1 <;> simp [DedupState.seen, hl]
    | none =>
      refine ⟨_, rfl, by simp [DedupState.seen, hl], ?_⟩
      intro c1
      cases c1 <;> simp [DedupState.seen, hl, sameConstant, lookup_cons_isSome]
  | float v =>
    simp only [dedupStep]
    cases hl : floatGet st.floats v with
    | some i =>
      refine ⟨_, rfl, by simp [DedupState.seen, hl], ?_⟩
      intro c1
      cases c1 <;> simp [DedupState.seen, hl]
    | none =>
      refine ⟨_, rfl, by simp [DedupState.seen, hl], ?_⟩
      intro c1
      cases c1 <;> simp [DedupState.seen, hl, sameConstant, floatGet_cons_isSome]
  | char v =>
    simp only [dedupStep]
    cases hl : st.chars.lookup v with
    | some i =>
      refine ⟨_, rfl, by simp [DedupState.seen, hl], ?_⟩
      intro c1
      cases c1 <;> simp [DedupState.seen, hl]
    | none =>
      refine ⟨_, rfl, by simp [DedupState.seen, hl], ?_⟩
      intro c1
      cases c1 <;> simp [DedupState.seen, hl, sameConstant, lookup_cons_isSome]
  | bool _ _ => simp [allowedConstant] at hc
  | bytes _ => simp [allowedConstant] at hc
  | array _ => simp [allowedConstant] at hc
  | immutableArray _ => simp [allowedConstant] at hc
  | map _ => simp [allowedConstant] at hc
  | undefined _ => simp [allowedConstant] at hc
  | error _ _ => simp [allowedConstant] at hc
  | time _ => simp [allowedConstant] at hc
  | builtinFunction _ _ => simp [allowedConstant] at hc
  | userFunction _ _ => simp [allowedConstant] at hc
  | objectPtr _ => simp [allowedConstant] at hc

/-- The first loop of `RemoveDuplicates` appends to the new pool the first occurrences among
the constants it handles. -/
theorem dedupLoop_first (todo : List Object) :
    ∀ (done : List Object) (st : DedupState) (k : Nat),
      (∀ c1, st.seen c1 = done.any (fun d => sameConstant d c1)) →
      (∀ c ∈ todo, allowedConstant c = true) →
      ∃ st1, dedupLoop st k todo = .ret st1 ∧
        st1.deduped = st.deduped ++ firstOccurrencesFrom done todo := by
  induction todo with
  | nil =>
    intro done st k _ _
    exact ⟨st, rfl, by simp [firstOccurrencesFrom]⟩
  | cons c cs ih =>
    intro done st k hseen hall
    obtain ⟨st1, hstep, hded, hseen1⟩ :=
      dedupStep_first st k c (hall c (List.mem_cons_self _ _))
    have hseen2 : ∀ c1, st1.seen c1 = (done ++ [c]).any (fun d => sameConstant d c1) := by
      intro c1
      rw [hseen1 c1, hseen c1, hseen c, List.any_append]
      simp only [List.any_cons, List.any_nil, Bool.or_false]
      cases h1 : done.any (fun d => sameConstant d c) with
      | false => simp
      | true =>
        cases h2 : sameConstant c c1 with
        | false => simp
        | true =>
          obtain ⟨d, hd, hdc⟩ := List.any_eq_true.1 h1
          have h3 : done.any (fun d => sameConstant d c1) = true :=
            List.any_eq_true.2 ⟨d, hd, sameConstant_trans d c c1 hdc h2⟩
          simp [h3]
    obtain ⟨st2, hloop, hded2⟩ := ih (done ++ [c]) st1 (k + 1) hseen2
      (fun x hx => hall x (List.mem_cons_of_mem _ hx))
    refine ⟨st2, by simp only [dedupLoop, hstep]; exact hloop, ?_⟩
    rw [hded2, hded, hseen c]
    simp only [firstOccurrencesFrom]
    cases done.any (fun d => sameConstant d c) <;> simp

theorem firstOccurrencesFrom_not_seen (cs : List Object) :
    ∀ (seen : List Object), ∀ x ∈ firstOccurrencesFrom seen cs, ∀ s ∈ seen,
      sameConstant s x = false := by
  induction cs with
  | nil => intro seen x hx; simp [firstOccurrencesFrom] at hx
  | cons c cs ih =>
    intro seen x hx s hs
    simp only [firstOccurrencesFrom] at hx
    cases h1 : seen.any (fun d => sameConstant d c) with
    | true =>
      rw [h1] at hx
      exact ih (seen ++ [c]) x (by simpa using hx) s (List.mem_append_left _ hs)
    | false =>
      rw [h1] at hx
      simp only [Bool.false_eq_true, if_false, List.mem_cons] at hx
      rcases hx with h | h
      · subst h
        have := List.any_eq_false.1 h1 s hs
        simpa using this
      · exact ih (seen ++ [c]) x h s (List.mem_append_left _ hs)

theorem firstOccurrencesFrom_pairwise (cs : List Object) :
    ∀ (seen : List Object),
      (firstOccurrencesFrom seen cs).Pairwise (fun c d => sameConstant c d = false) := by
  induction cs with
  | nil => intro seen; simp [firstOccurrencesFrom]
  | cons c cs ih =>
    intro seen
    simp only [firstOccurrencesFrom]
    cases h1 : seen.any (fun d => sameConstant d c) with
    | true => simpa using ih (seen ++ [c])
    | false =>
      simp only [Bool.false_eq_true, if_false, List.pairwise_cons]
      exact ⟨fun d hd => firstOccurrencesFrom_not_seen cs (seen ++ [c]) d hd c (by simp),
        ih (seen ++ [c])⟩

theorem sameConstant_withoutInstructions (c d : Object) :
    sameConstant (withoutInstructions c) (withoutInstructions d) = sameConstant c d := by
  cases c <;> cases d <;> rfl

theorem updatePool_without (indexMap : List (Nat × Nat)) (cs : List Object) :
    ∀ cs1, updatePool indexMap cs = .ret cs1 →
      cs1.map withoutInstructions = cs.map withoutInstructions := by
  induction cs with
  | nil =>
    intro cs1 h
    simp only [updatePool, Outcome.ret.injEq] at h
    subst h
    rfl
  | cons c cs ih =>
    intro cs1 h
    cases hrest : updatePool indexMap cs with
    | ret r =>
      have hr := ih r hrest
      cases c with
      | compiledFunction a fn =>
        simp only [updatePool, hrest] at h
        cases hu : updateConstIndexes fn.Instructions indexMap with
        | ret insts =>
          rw [hu] at h
          simp only [Outcome.ret.injEq] at h
          subst h
          simp [withoutInstructions, hr]
        | fail e => rw [hu] at h; simp at h
        | panicked p => rw [hu] at h; simp at h
      | int v => simp only [updatePool, hrest, Outcome.ret.injEq] at h; subst h; simp [hr]
      | float v => simp only [updatePool, hrest, Outcome.ret.injEq] at h; subst h; simp [hr]
      | bool a v => simp only [updatePool, hrest, Outcome.ret.injEq] at h; subst h; simp [hr]
      | char v => simp only [updatePool, hrest, Outcome.ret.injEq] at h; subst h; simp [hr]
      | string v => simp only [updatePool, hrest, Outcome.ret.injEq] at h; subst h; simp [hr]
      | bytes v => simp only [updatePool, hrest, Outcome.ret.injEq] at h; subst h; simp [hr]
      | array v => simp only [updatePool, hrest, Outcome.ret.injEq] at h; subst h; simp [hr]
      | immutableArray v =>
        simp only [updatePool, hrest, Outcome.ret.injEq] at h; subst h; simp [hr]
      | map v => simp only [updatePool, hrest, Outcome.ret.injEq] at h; subst h; simp [hr]
      | immutableMap a v =>
        simp only [updatePool, hrest, Outcome.ret.injEq] at h; subst h; simp [hr]
      | undefined a => simp only [updatePool, hrest, Outcome.ret.injEq] at h; subst h; simp [hr]
      | error a v => simp only [updatePool, hrest, Outcome.ret.injEq] at h; subst h; simp [hr]
      | time v => simp only [updatePool, hrest, Outcome.ret.injEq] at h; subst h; simp [hr]
      | builtinFunction n v =>
        simp only [updatePool, hrest, Outcome.ret.injEq] at h; subst h; simp [hr]
      | userFunction n v =>
        simp only [updatePool, hrest, Outcome.ret.injEq] at h; subst h; simp [hr]
      | objectPtr a => simp only [updatePool, hrest, Outcome.ret.injEq] at h; subst h; simp [hr]
    | fail e =>
      cases c <;> simp only [updatePool, hrest] at h <;> try (simp at h)
      rename_i a fn
      cases hu : updateConstIndexes fn.Instructions indexMap <;> rw [hu] at h <;> simp at h
    | panicked p =>
      cases c <;> simp only [updatePool, hrest] at h <;> try (simp at h)
      rename_i a fn
      cases hu : updateConstIndexes fn.Instructions indexMap <;> rw [hu] at h <;> simp at h

theorem constEquiv_same (c d : Object) (h : constEquiv c d = true) :
    d = c ∨ sameConstant d c = true := by
  cases c <;> cases d <;> simp [constEquiv] at h <;> simp [sameConstant]
  · exact h.symm
  · rcases h with h | h
    · exact Or.inl h.symm
    · exact Or.inr h
  · exact h.symm
  · exact h.symm
  · rcases h with ⟨h1, h2⟩ | ⟨h1, h2⟩
    · exact Or.inr ⟨by rw [h2]; exact h1, h2.symm⟩
    · exact Or.inl ⟨h1.symm, h2⟩
  · exact Or.inr h.symm

/-- C21 (as stated, refuted): a pool that holds one NaN twice keeps both after
`RemoveDuplicates`, two Float constants of the same value, since a NaN is a key no lookup of
the Go map finds; and of the pool `[+0.0, -0.0]` only `+0.0` is left, so that `-0.0` is
represented by a Float that is equal to it under `==` and is not the same value. -/
theorem c21_counterexample :
    RemoveDuplicates nansBytecode = .ret nansBytecode ∧
      nansBytecode.Constants =
        [Object.float 0x7ff8000000000000, Object.float 0x7ff8000000000000] ∧
      sameConstantExact (Object.float 0x7ff8000000000000) (Object.float 0x7ff8000000000000)
        = true ∧
      sameConstant (Object.float 0x7ff8000000000000) (Object.float 0x7ff8000000000000)
        = false ∧
      RemoveDuplicates zerosBytecode =
        .ret (Bytecode.mk
          (CompiledFunction.mk (encode [Instr.mk OpConstant [0, 0], Instr.mk OpSuspend []])
            0 0 false [] [])
          [Object.float 0]) ∧
      zerosBytecode.Constants = [Object.float 0, Object.float (2 ^ 63)] ∧
      sameConstantExact (Object.float 0) (Object.float (2 ^ 63)) = false ∧
      sameConstant (Object.float 0) (Object.float (2 ^ 63)) = true := by
  decide

/-- C21 (amended): for a constant pool of CompiledFunction, ImmutableMap, Int, Float, Char
and String values, with well-formed instruction sequences in the main function and in the
functions of the pool, `RemoveDuplicates` returns, and in the new pool no constant shares
its key with one before it: no two Ints, no two Chars and no two Strings have the same
value, no two Floats are equal under `==` (so every NaN stays), no two ImmutableMaps carry
the same non-empty module name and no function object is there twice. Every constant of the
old pool is in the new one, itself or as a constant of the same key (for a Float: one equal
to it under `==`), and the new pool is, up to the rewritten instruction bytes
of its functions, the list of the first occurrences of the old pool in their order. -/
theorem c21_remove_duplicates_coalesces (b : Bytecode) (mainIs : List Instr)
    (hkinds : ∀ c ∈ b.Constants, allowedConstant c = true)
    (hmain : b.MainFunction.Instructions = encode mainIs)
    (hmainValid : ∀ x ∈ mainIs, x.valid = true)
    (hmainIdx : indexesPool b.Constants.length mainIs)
    (hfns : ∀ a fn, Object.compiledFunction a fn ∈ b.Constants →
      ∃ is, fn.Instructions = encode is ∧ (∀ x ∈ is, x.valid = true) ∧
        indexesPool b.Constants.length is) :
    ∃ b1, RemoveDuplicates b = .ret b1 ∧
      b1.Constants.Pairwise (fun c d => sameConstant c d = false) ∧
      (∀ c ∈ b.Constants, ∃ d ∈ b1.Constants, d = c ∨ sameConstant d c = true) ∧
      b1.Constants.map withoutInstructions =
        (firstOccurrences b.Constants).map withoutInstructions := by
  obtain ⟨st, hloop, hinv⟩ := dedupLoop_inv b.Constants [] DedupState.empty DedupInv_empty hkinds
  simp only [List.length_nil, List.nil_append] at hloop hinv
  obtain ⟨st0, hloop0, hfirst⟩ := dedupLoop_first b.Constants [] DedupState.empty 0
    (by intro c1; cases c1 <;> rfl) hkinds
  rw [hloop] at hloop0
  simp only [Outcome.ret.injEq] at hloop0
  subst hloop0
  simp only [DedupState.empty, List.nil_append] at hfirst
  obtain ⟨_, hsub, hidx, _⟩ := hinv
  have hsome : ∀ is : List Instr, indexesPool b.Constants.length is →
      ∀ x ∈ is, ∀ cur, constOperand x = some cur →
        ∃ new, indexGet st.indexMap cur = some new := by
    intro is hip x hx cur hc
    have hcur := hip x hx cur hc
    obtain ⟨i, _, hi, _⟩ := hidx cur (b.Constants[cur]) (List.getElem?_eq_getElem hcur)
    exact ⟨i, hi⟩
  have hmainU := updateConstIndexes_encode st.indexMap mainIs hmainValid
    (hsome mainIs hmainIdx)
  obtain ⟨cs1, hpool, hrel⟩ := updatePool_spec st.indexMap st.deduped (by
    intro a fn hm
    obtain ⟨is, his, hv, hip⟩ := hfns a fn (hsub _ hm)
    exact ⟨_, by rw [his]; exact updateConstIndexes_encode st.indexMap is hv (hsome is hip)⟩)
  have hwo := updatePool_without st.indexMap st.deduped cs1 hpool
  rw [hfirst] at hwo
  change cs1.map withoutInstructions = (firstOccurrences b.Constants).map withoutInstructions
    at hwo
  refine ⟨{ MainFunction := { b.MainFunction with
              Instructions := encode (mainIs.map (rewriteInstr st.indexMap)) },
            Constants := cs1 }, ?_, ?_, ?_, hwo⟩
  · simp only [RemoveDuplicates, hloop, hmain, hmainU, hpool]
  · have hp : ((firstOccurrences b.Constants).map withoutInstructions).Pairwise
        (fun c d => sameConstant c d = false) := by
      rw [List.pairwise_map]
      simp only [sameConstant_withoutInstructions]
      exact firstOccurrencesFrom_pairwise b.Constants []
    rw [← hwo, List.pairwise_map] at hp
    simp only [sameConstant_withoutInstructions] at hp
    exact hp
  · intro c hc
    obtain ⟨k, hk, hkc⟩ := List.getElem_of_mem hc
    obtain ⟨i, d, _, _, hd, he⟩ := hidx k c (by rw [List.getElem?_eq_getElem hk, hkc])
    obtain ⟨d1, hd1, hr⟩ := hrel i d hd
    exact ⟨d1, mem_of_getElem?_some _ _ _ hd1,
      constEquiv_same c d1 (constEquiv_poolRel st.indexMap c d d1 he hr)⟩

theorem c21_remove_duplicates_coalesces_witness :
    ∃ b1, RemoveDuplicates samplePool = .ret b1 ∧
      b1.Constants.Pairwise (fun c d => sameConstant c d = false) ∧
      (∀ c ∈ samplePool.Constants, ∃ d ∈ b1.Constants, d = c ∨ sameConstant d c = true) ∧
      b1.Constants.map withoutInstructions =
        (firstOccurrences samplePool.Constants).map withoutInstructions :=
  c21_remove_duplicates_coalesces samplePool [Instr.mk OpSuspend []]
    (by decide) rfl (by decide)
    (by
      intro x hx cur hc
      simp only [List.mem_singleton] at hx
      subst hx
      simp [constOperand, OpConstant, OpClosure, OpSuspend] at hc)
    (by
      intro a fn hm
      simp [samplePool] at hm
      obtain ⟨_, hfn⟩ := hm
      subst hfn
      refine ⟨sampleBody, rfl, by decide, ?_⟩
      intro x hx cur hc
      simp only [sampleBody, List.mem_cons, List.mem_singleton, List.not_mem_nil,
        or_false] at hx
      rcases hx with h | h <;> subst h <;>
        simp [constOperand, OpConstant, OpClosure, OpReturn] at hc
      subst hc
      decide)

/-! ## Theorems: local slots under nested use -/

theorem mem_storeSet (store : List (String × Symbol)) (name n : String) (sym s : Symbol)
    (h : (n, s) ∈ storeSet store name sym) :
    (n = name ∧ s = sym) ∨ ((n, s) ∈ store ∧ n ≠ name) := by
  simp only [storeSet, List.mem_cons, Prod.mk.injEq, List.mem_filter, bne_iff_ne, ne_eq] at h
  exact h

theorem holdsLocal_storeSet (t t1 : SymbolTable) (name : String) (sym : Symbol)
    (hstore : t1.store = storeSet t.store name sym) (n : String) (i : Nat)
    (h : holdsLocal t1 n i) :
    (n = name ∧ sym.Scope = SymbolScope.ScopeLocal ∧ sym.Index = i) ∨
      (holdsLocal t n i ∧ n ≠ name) := by
  obtain ⟨s, hs, hl, hi⟩ := h
  rw [hstore] at hs
  rcases mem_storeSet _ _ _ _ _ hs with ⟨h1, h2⟩ | ⟨h1, h2⟩
  · subst h2
    exact Or.inl ⟨h1, hl, hi⟩
  · exact Or.inr ⟨⟨s, h1, hl, hi⟩, h2⟩

theorem tableLe_refl (t : SymbolTable) : tableLe t t := ⟨rfl, rfl, fun _ _ h => h⟩

theorem chainLe_refl (c : Chain) : List.Forall₂ tableLe c c := by
  induction c with
  | nil => exact List.Forall₂.nil
  | cons t ps ih => exact List.Forall₂.cons (tableLe_refl t) ih

theorem chainLe_trans (a b c : Chain) (h1 : List.Forall₂ tableLe a b)
    (h2 : List.Forall₂ tableLe b c) : List.Forall₂ tableLe a c := by
  induction h1 generalizing c with
  | nil => cases h2; exact List.Forall₂.nil
  | cons hab _ ih =>
    cases h2 with
    | cons hbc hrest =>
      exact List.Forall₂.cons
        ⟨hab.1.trans hbc.1, hab.2.1.trans hbc.2.1, fun n i h => hbc.2.2 n i (hab.2.2 n i h)⟩
        (ih _ hrest)

theorem chainLe_shape (c1 c : Chain) (h : List.Forall₂ tableLe c1 c) :
    slotEnd c1 = slotEnd c ∧ rootSeg c1 = rootSeg c ∧ (c1 = [] ↔ c = []) := by
  induction h with
  | nil => exact ⟨rfl, rfl, Iff.rfl⟩
  | @cons t1 t ps1 ps hab hrest ih =>
    obtain ⟨hb, hn, _⟩ := hab
    obtain ⟨h1, h2, h3⟩ := ih
    refine ⟨?_, ?_, by simp⟩
    · simp only [slotEnd, hb, hn, h1]
    · simp only [rootSeg, hb, h2]
      have h4 : ps1.isEmpty = ps.isEmpty := by
        rw [Bool.eq_iff_iff, List.isEmpty_iff, List.isEmpty_iff]
        exact h3
      rw [h4]

theorem chainOK_le (c1 c : Chain) (h : List.Forall₂ tableLe c1 c) (hc : chainOK c) :
    chainOK c1 := by
  induction h with
  | nil => trivial
  | @cons t1 t ps1 ps hab hrest ih =>
    obtain ⟨hps, hpar, hroot, hrange, hinj⟩ := hc
    obtain ⟨hb, hn, hsub⟩ := hab
    obtain ⟨h1, h2, h3⟩ := chainLe_shape ps1 ps hrest
    have hroot1 : rootSeg (t1 :: ps1) = rootSeg (t :: ps) :=
      (chainLe_shape (t1 :: ps1) (t :: ps) (List.Forall₂.cons ⟨hb, hn, hsub⟩ hrest)).2.1
    have hend1 : slotEnd (t1 :: ps1) = slotEnd (t :: ps) :=
      (chainLe_shape (t1 :: ps1) (t :: ps) (List.Forall₂.cons ⟨hb, hn, hsub⟩ hrest)).1
    refine ⟨ih hps, ?_, ?_, ?_, ?_⟩
    · intro hb1 he
      exact hpar (hb ▸ hb1) (h3.1 he)
    · intro hr n i hh
      exact hroot (hroot1 ▸ hr) n i (hsub n i hh)
    · intro n i hh
      rw [hb, h1, hend1]
      exact hrange n i (hsub n i hh)
    · intro n i m j hn1 hm1 hne
      exact hinj n i m j (hsub n i hn1) (hsub m j hm1) hne

theorem nextIndex_slotEnd (c : Chain) (hc : chainOK c) (hne : c ≠ []) :
    nextIndex c = some (slotEnd c) := by
  induction c with
  | nil => exact absurd rfl hne
  | cons t ps ih =>
    obtain ⟨hps, hpar, _⟩ := hc
    by_cases hb : t.block = true
    · simp [nextIndex, slotEnd, hb, ih hps (hpar hb)]
    · simp [nextIndex, slotEnd, hb]

theorem Parent_rootSeg (t : SymbolTable) (ps : Chain) (hc : chainOK ps)
    (hpar : t.block = true → ps ≠ []) :
    ∃ par, Parent (t :: ps) true = some par ∧ par.isEmpty = rootSeg (t :: ps) := by
  induction ps generalizing t with
  | nil =>
    have hb : t.block = false := by
      cases h : t.block with
      | false => rfl
      | true => exact absurd rfl (hpar h)
    exact ⟨[], by simp [Parent, hb], by simp [rootSeg, hb]⟩
  | cons p ps ih =>
    by_cases hb : t.block = true
    · obtain ⟨par, h1, h2⟩ := ih p hc.1 hc.2.1
      refine ⟨par, ?_, by rw [h2]; simp [rootSeg, hb]⟩
      rw [← h1]
      simp [Parent, hb]
    · exact ⟨p :: ps, by simp [Parent, hb], by simp [rootSeg, hb]⟩

theorem updateMaxDefs_le (c : Chain) (n : Nat) (hne : c ≠ [])
    (hwf : ∀ (pre : Chain) (t : SymbolTable) (ps : Chain), c = pre ++ t :: ps →
      t.block = true → ps ≠ []) :
    ∃ c1, updateMaxDefs c n = some c1 ∧ List.Forall₂ tableLe c1 c := by
  induction c with
  | nil => exact absurd rfl hne
  | cons t ps ih =>
    have hle : tableLe (if n > t.maxDefinition then { t with maxDefinition := n } else t) t := by
      split
      · exact ⟨rfl, rfl, fun _ _ h => h⟩
      · exact tableLe_refl t
    have hblock : (if n > t.maxDefinition then { t with maxDefinition := n } else t).block
        = t.block := hle.1
    simp only [updateMaxDefs, hblock]
    by_cases hb : t.block = true
    · have hps : ps ≠ [] := hwf [] t ps rfl hb
      obtain ⟨c1, h1, h2⟩ := ih hps (fun pre t1 ps1 he => hwf (t :: pre) t1 ps1 (by rw [he]; rfl))
      exact ⟨_ :: c1, by simp [hb, h1], List.Forall₂.cons hle h2⟩
    · exact ⟨_ :: ps, by simp [hb], List.Forall₂.cons hle (chainLe_refl ps)⟩

theorem chainOK_wf (c : Chain) (hc : chainOK c) :
    ∀ (pre : Chain) (t : SymbolTable) (ps : Chain), c = pre ++ t :: ps →
      t.block = true → ps ≠ [] := by
  induction c with
  | nil => intro pre t ps he; simp at he
  | cons t0 ps0 ih =>
    intro pre t ps he hb
    cases pre with
    | nil =>
      simp only [List.nil_append, List.cons.injEq] at he
      obtain ⟨h1, h2⟩ := he
      subst h1
      subst h2
      exact hc.2.1 hb
    | cons p pre1 =>
      simp only [List.cons_append, List.cons.injEq] at he
      exact ih hc.1 pre1 t ps he.2 hb

theorem defineFree_le (t : SymbolTable) (s : Symbol) : tableLe (defineFree t s).1 t := by
  refine ⟨rfl, rfl, ?_⟩
  intro n i h
  rcases holdsLocal_storeSet t (defineFree t s).1 s.Name
      (Symbol.mk s.Name SymbolScope.ScopeFree (t.freeSymbols ++ [s]).length.pred false)
      (by simp [defineFree]) n i h with ⟨_, h2, _⟩ | ⟨h1, _⟩
  · cases h2
  · exact h1

theorem Resolve_le (c : Chain) :
    ∀ (name : String) (recur : Bool), List.Forall₂ tableLe (Resolve c name recur).1 c := by
  induction c with
  | nil => intro name recur; simp [Resolve]
  | cons t ps ih =>
    intro name recur
    cases hd : directHit t name recur with
    | some s =>
      rw [Resolve_hit t ps name recur s hd]
      exact chainLe_refl _
    | none =>
      cases ps with
      | nil =>
        rw [Resolve_root_miss t name recur hd]
        exact chainLe_refl _
      | cons p ps =>
        have ih1 := ih name true
        rcases hr : Resolve (p :: ps) name true with ⟨ps1, _ | ⟨s, d⟩⟩
        · rw [hr] at ih1
          rw [Resolve_miss t (p :: ps) ps1 name recur hd (by simp) hr]
          exact List.Forall₂.cons (tableLe_refl t) ih1
        · rw [hr] at ih1
          rw [Resolve_found t (p :: ps) ps1 name recur s d hd (by simp) hr]
          split
          · exact List.Forall₂.cons (defineFree_le t s) ih1
          · exact List.Forall₂.cons (tableLe_refl t) ih1

theorem assignLocal_le (c : Chain) (name : String) :
    List.Forall₂ tableLe (assignLocal c name) c := by
  cases c with
  | nil => simp [assignLocal]
  | cons t ps =>
    refine List.Forall₂.cons ⟨rfl, rfl, ?_⟩ (chainLe_refl ps)
    rintro n i ⟨s, hs, hl, hi⟩
    simp only [List.mem_map] at hs
    obtain ⟨kv, hkv, he⟩ := hs
    by_cases hk : kv.1 = name
    · rw [if_pos hk] at he
      simp only [Prod.mk.injEq] at he
      obtain ⟨h1, h2⟩ := he
      subst h2
      exact ⟨kv.2, by rw [← h1]; exact hkv, hl, hi⟩
    · rw [if_neg hk] at he
      subst he
      exact ⟨_, hkv, hl, hi⟩

theorem DefineBuiltin_le (c : Chain) (index : Nat) (name : String) (hne : c ≠ []) :
    ∃ r, DefineBuiltin c index name = some r ∧ List.Forall₂ tableLe r.1 c := by
  induction c with
  | nil => exact absurd rfl hne
  | cons t ps ih =>
    cases ps with
    | nil =>
      refine ⟨_, rfl, List.Forall₂.cons ⟨rfl, rfl, ?_⟩ List.Forall₂.nil⟩
      intro n i h
      rcases holdsLocal_storeSet t _ name
          (Symbol.mk name SymbolScope.ScopeBuiltin index false) rfl n i h with
        ⟨_, h2, _⟩ | ⟨h1, _⟩
      · cases h2
      · exact h1
    | cons p ps =>
      obtain ⟨r, hr, hle⟩ := ih (by simp)
      exact ⟨(t :: r.1, r.2), by simp [DefineBuiltin, hr],
        List.Forall₂.cons (tableLe_refl t) hle⟩

/-- A chain whose blocks lead to the root is in order when none of its tables stores a
LOCAL symbol. -/
theorem chainOK_of_no_locals (c : Chain)
    (hwf : ∀ (pre : Chain) (t : SymbolTable) (ps : Chain), c = pre ++ t :: ps →
      t.block = true → ps ≠ [])
    (hno : ∀ t ∈ c, ∀ n i, ¬ holdsLocal t n i) : chainOK c := by
  induction c with
  | nil => trivial
  | cons t ps ih =>
    have ht := hno t (List.mem_cons_self _ _)
    refine ⟨ih (fun pre t1 ps1 he => hwf (t :: pre) t1 ps1 (by rw [he]; rfl))
      (fun x hx => hno x (List.mem_cons_of_mem _ hx)), hwf [] t ps rfl, fun _ => ht, ?_, ?_⟩
    · intro n i h
      exact absurd h (ht n i)
    · intro n i m j h
      exact absurd h (ht n i)

theorem no_locals_of_rootSeg (c : Chain) (hc : chainOK c) (hr : rootSeg c = true) :
    ∀ t ∈ c, ∀ n i, ¬ holdsLocal t n i := by
  induction c with
  | nil => intro t ht; simp at ht
  | cons t0 ps ih =>
    obtain ⟨hps, hpar, hroot, _⟩ := hc
    intro t ht
    rcases List.mem_cons.1 ht with h | h
    · subst h
      exact hroot hr
    · by_cases hb : t0.block = true
      · exact ih hps (by simpa [rootSeg, hb] using hr) t h
      · have : ps = [] := by simpa [rootSeg, hb] using hr
        subst this
        simp at h

theorem bumpRoot_shape (c : Chain) :
    (∀ t1 ∈ bumpRoot c, ∃ t ∈ c, t1.store = t.store ∧ t1.block = t.block) ∧
    (bumpRoot c = [] ↔ c = []) ∧
    (∀ (pre : Chain) (t : SymbolTable) (ps : Chain), bumpRoot c = pre ++ t :: ps →
      ∃ pre0 t0 ps0, c = pre0 ++ t0 :: ps0 ∧ t0.block = t.block ∧ (ps0 = [] ↔ ps = [])) := by
  induction c with
  | nil => simp [bumpRoot]
  | cons p ps ih =>
    cases ps with
    | nil =>
      refine ⟨?_, by simp [bumpRoot], ?_⟩
      · intro t1 h1
        simp only [bumpRoot, List.mem_singleton] at h1
        subst h1
        exact ⟨p, by simp, rfl, rfl⟩
      · intro pre t ps he
        cases pre with
        | nil =>
          simp only [bumpRoot, List.nil_append, List.cons.injEq] at he
          obtain ⟨h1, h2⟩ := he
          subst h1
          subst h2
          exact ⟨[], p, [], rfl, rfl, Iff.rfl⟩
        | cons a pre1 =>
          simp only [bumpRoot, List.cons_append, List.cons.injEq] at he
          have := he.2
          simp at this
    | cons q qs =>
      obtain ⟨h1, h2, h3⟩ := ih
      refine ⟨?_, by simp [bumpRoot], ?_⟩
      · intro t1 ht1
        simp only [bumpRoot, List.mem_cons] at ht1
        rcases ht1 with h | h
        · subst h
          exact ⟨t1, by simp, rfl, rfl⟩
        · obtain ⟨t, ht, hs⟩ := h1 t1 (by simpa [bumpRoot] using h)
          exact ⟨t, List.mem_cons_of_mem _ ht, hs⟩
      · intro pre t ps he
        cases pre with
        | nil =>
          simp only [bumpRoot, List.nil_append, List.cons.injEq] at he
          obtain ⟨he1, he2⟩ := he
          subst he1
          refine ⟨[], p, q :: qs, rfl, rfl, ?_⟩
          constructor
          · intro h; simp at h
          · intro h
            rw [h] at he2
            exact absurd (h2.1 he2) (by simp)
        | cons a pre1 =>
          simp only [bumpRoot, List.cons_append, List.cons.injEq] at he
          obtain ⟨he1, he2⟩ := he
          obtain ⟨pre0, t0, ps0, hc0, hb0, hp0⟩ := h3 pre1 t ps he2
          exact ⟨p :: pre0, t0, ps0, by rw [hc0]; rfl, hb0, hp0⟩

theorem holdsLocal_store (t1 t : SymbolTable) (h : t1.store = t.store) (n : String) (i : Nat)
    (h1 : holdsLocal t1 n i) : holdsLocal t n i := by
  obtain ⟨s, hs, hl, hi⟩ := h1
  exact ⟨s, h ▸ hs, hl, hi⟩

theorem define_finish (chain0 : Chain) (sym : Symbol) (n : Nat) (hok : chainOK chain0)
    (hne : chain0 ≠ []) :
    ∃ r, Option.map (fun c3 => (c3, sym)) (updateMaxDefs chain0 n) = some r ∧ chainOK r.1 := by
  obtain ⟨c3, hu, hle⟩ := updateMaxDefs_le chain0 n hne (chainOK_wf chain0 hok)
  exact ⟨(c3, sym), by rw [hu]; rfl, chainOK_le c3 chain0 hle hok⟩

theorem slotEnd_base_le (t : SymbolTable) (ps : Chain) :
    (if t.block then slotEnd ps else 0) ≤ slotEnd (t :: ps) := by
  by_cases hb : t.block = true <;> simp [slotEnd, hb]

theorem Define_ok (t : SymbolTable) (ps : Chain) (name : String) (hc : chainOK (t :: ps)) :
    ∃ r, Define (t :: ps) name = some r ∧ chainOK r.1 := by
  have hidx := nextIndex_slotEnd (t :: ps) hc (by simp)
  obtain ⟨par, hpar, hemp⟩ :=
    Parent_rootSeg { t with numDefinition := t.numDefinition + 1 } ps hc.1 hc.2.1
  have hroot1 : rootSeg ({ t with numDefinition := t.numDefinition + 1 } :: ps)
      = rootSeg (t :: ps) := rfl
  rw [hroot1] at hemp
  by_cases hr : rootSeg (t :: ps) = true
  · rw [hr] at hemp
    have hno := no_locals_of_rootSeg (t :: ps) hc hr
    have hhead : ∀ (t1 : SymbolTable),
        t1.store = storeSet t.store name
          (Symbol.mk name SymbolScope.ScopeGlobal (slotEnd (t :: ps)) false) →
        ∀ n i, ¬ holdsLocal t1 n i := by
      intro t1 hst n i h
      rcases holdsLocal_storeSet t t1 name _ hst n i h with ⟨_, h2, _⟩ | ⟨h1, _⟩
      · cases h2
      · exact hno t (List.mem_cons_self _ _) n i h1
    cases ps with
    | nil =>
      simp only [Define, hidx, hpar, hemp, if_true, List.isEmpty_nil]
      apply define_finish _ _ _ _ (by simp)
      apply chainOK_of_no_locals
      · intro pre t1 ps1 he hb
        cases pre with
        | nil =>
          simp only [List.nil_append, List.cons.injEq] at he
          obtain ⟨h1, h2⟩ := he
          subst h1
          exact absurd rfl (hc.2.1 hb)
        | cons a pre1 => simp at he
      · intro x hx
        simp only [List.mem_singleton] at hx
        subst hx
        exact hhead _ rfl
    | cons p qs =>
      simp only [Define, hidx, hpar, hemp, if_true, List.isEmpty_cons, Bool.false_eq_true,
        if_false]
      apply define_finish _ _ _ _ (by simp)
      obtain ⟨b1, b2, b3⟩ := bumpRoot_shape (p :: qs)
      apply chainOK_of_no_locals
      · intro pre t1 ps1 he hb
        cases pre with
        | nil =>
          simp only [List.nil_append, List.cons.injEq] at he
          obtain ⟨h1, h2⟩ := he
          subst h2
          intro hemp2
          exact absurd (b2.1 hemp2) (by simp)
        | cons a pre1 =>
          simp only [List.cons_append, List.cons.injEq] at he
          obtain ⟨pre0, t0, ps0, hc0, hb0, hp0⟩ := b3 pre1 t1 ps1 he.2
          have := chainOK_wf (p :: qs) hc.1 pre0 t0 ps0 hc0 (hb0.trans hb)
          exact fun h => this (hp0.2 h)
      · intro x hx
        rcases List.mem_cons.1 hx with h | h
        · subst h
          exact hhead _ rfl
        · obtain ⟨t0, ht0, hs0, _⟩ := b1 x h
          intro n i hl
          exact hno t0 (List.mem_cons_of_mem _ ht0) n i (holdsLocal_store x t0 hs0 n i hl)
  · have hr1 : rootSeg (t :: ps) = false := by simpa using hr
    rw [hr1] at hemp
    simp only [Define, hidx, hpar, hemp, Bool.false_eq_true, if_false]
    apply define_finish _ _ _ _ (by simp)
    obtain ⟨hps, hparent, _, hrange, hinj⟩ := hc
    have hcase : ∀ n i,
        holdsLocal (SymbolTable.mk t.block (storeSet t.store name
            (Symbol.mk name SymbolScope.ScopeLocal (slotEnd (t :: ps)) false))
            (t.numDefinition + 1) t.maxDefinition t.freeSymbols t.builtinSymbols) n i →
        (n = name ∧ i = slotEnd (t :: ps)) ∨ (holdsLocal t n i ∧ n ≠ name) := by
      intro n i h
      rcases holdsLocal_storeSet t _ name _ rfl n i h with ⟨h1, _, h3⟩ | h1
      · exact Or.inl ⟨h1, h3.symm⟩
      · exact Or.inr h1
    have hend : slotEnd (SymbolTable.mk t.block (storeSet t.store name
            (Symbol.mk name SymbolScope.ScopeLocal (slotEnd (t :: ps)) false))
            (t.numDefinition + 1) t.maxDefinition t.freeSymbols t.builtinSymbols :: ps)
        = slotEnd (t :: ps) + 1 := by
      by_cases hb : t.block = true
      · simp [slotEnd, hb]
        omega
      · simp [slotEnd, hb]
    refine ⟨hps, hparent, ?_, ?_, ?_⟩
    · intro h
      have h2 : rootSeg (t :: ps) = true := h
      rw [hr1] at h2
      cases h2
    · intro n i h
      rw [hend]
      rcases hcase n i h with ⟨_, h2⟩ | ⟨h1, _⟩
      · subst h2
        exact ⟨slotEnd_base_le t ps, Nat.lt_succ_self _⟩
      · have := hrange n i h1
        exact ⟨this.1, by omega⟩
    · intro n i m j hn hm hne
      rcases hcase n i hn with ⟨h1, h2⟩ | ⟨h1, h1n⟩ <;>
        rcases hcase m j hm with ⟨h3, h4⟩ | ⟨h3, h3n⟩
      · exact absurd (h1.trans h3.symm) hne
      · have := (hrange m j h3).2
        omega
      · have := (hrange n i h1).2
        omega
      · exact hinj n i m j h1 h3 hne

theorem scopeStep_ok (c c1 : Chain) (op : ScopeOp) (hc : chainOK c)
    (h : scopeStep c op = some c1) : chainOK c1 := by
  cases c with
  | nil => simp [scopeStep] at h
  | cons t ps =>
    cases op with
    | fork block =>
      simp only [scopeStep, Option.some.injEq] at h
      subst h
      have hno : ∀ n i, ¬ holdsLocal (SymbolTable.mk block [] 0 0 [] []) n i := by
        rintro n i ⟨s, hs, _⟩
        simp at hs
      exact ⟨hc, fun _ => by simp, fun _ => hno, fun n i hh => absurd hh (hno n i),
        fun n i _ _ hh => absurd hh (hno n i)⟩
    | define name =>
      obtain ⟨r, hr, hok⟩ := Define_ok t ps name hc
      simp only [scopeStep, hr, Option.map_some', Option.some.injEq] at h
      subst h
      exact hok
    | builtin index name =>
      obtain ⟨r, hr, hle⟩ := DefineBuiltin_le (t :: ps) index name (by simp)
      simp only [scopeStep, hr, Option.map_some', Option.some.injEq] at h
      subst h
      exact chainOK_le _ _ hle hc
    | resolve name =>
      simp only [scopeStep, Option.some.injEq] at h
      subst h
      exact chainOK_le _ _ (Resolve_le (t :: ps) name false) hc
    | assign name =>
      simp only [scopeStep, Option.some.injEq] at h
      subst h
      exact chainOK_le _ _ (assignLocal_le (t :: ps) name) hc
    | leave =>
      simp [scopeStep, Parent] at h
      subst h
      exact hc.1

theorem runScope_ok (ops : List ScopeOp) :
    ∀ (c c1 : Chain), chainOK c → runScope c ops = some c1 → chainOK c1 := by
  induction ops with
  | nil =>
    intro c c1 hc h
    simp only [runScope, Option.some.injEq] at h
    subst h
    exact hc
  | cons op ops ih =>
    intro c c1 hc h
    simp only [runScope] at h
    cases hs : scopeStep c op with
    | none => rw [hs] at h; simp at h
    | some c2 =>
      rw [hs] at h
      exact ih c2 c1 (scopeStep_ok c c2 op hc hs) h

theorem chainOK_new : chainOK NewSymbolTable := by
  have hno : ∀ n i, ¬ holdsLocal (SymbolTable.mk false [] 0 0 [] []) n i := by
    rintro n i ⟨s, hs, _⟩
    simp at hs
  refine ⟨trivial, ?_, fun _ => hno, ?_, ?_⟩
  · intro h
    cases h
  · intro n i hh
    exact absurd hh (hno n i)
  · intro n i _ _ hh
    exact absurd hh (hno n i)

theorem chainOK_suffix (pre suf : Chain) (h : chainOK (pre ++ suf)) : chainOK suf := by
  induction pre with
  | nil => exact h
  | cons p pre ih => exact ih h.1

theorem segment_bound (c : Chain) (hc : chainOK c) :
    ∀ (j : Nat) (t : SymbolTable) (m : String) (k : Nat),
      (segment c)[j]? = some t → holdsLocal t m k → k < slotEnd c := by
  induction c with
  | nil => intro j t m k h; simp [segment] at h
  | cons t0 ps ih =>
    intro j t m k h hl
    obtain ⟨hps, _, _, hrange, _⟩ := hc
    by_cases hb : t0.block = true
    · simp only [segment, hb, if_true] at h
      cases j with
      | zero =>
        simp only [List.getElem?_cons_zero, Option.some.injEq] at h
        subst h
        exact (hrange m k hl).2
      | succ j =>
        simp only [List.getElem?_cons_succ] at h
        have := ih hps j t m k h hl
        simp only [slotEnd, hb, if_true]
        omega
    · simp only [segment, hb, Bool.false_eq_true, if_false] at h
      cases j with
      | zero =>
        simp only [List.getElem?_cons_zero, Option.some.injEq] at h
        subst h
        exact (hrange m k hl).2
      | succ j => simp at h

theorem segment_apart (c : Chain) (hc : chainOK c) :
    ∀ (i j : Nat) (ti tj : SymbolTable) (n m : String) (a b : Nat), i < j →
      (segment c)[i]? = some ti → (segment c)[j]? = some tj →
      holdsLocal ti n a → holdsLocal tj m b → a ≠ b := by
  induction c with
  | nil => intro i j ti tj n m a b _ h; simp [segment] at h
  | cons t0 ps ih =>
    intro i j ti tj n m a b hij hi hj hla hlb
    obtain ⟨hps, _, _, hrange, _⟩ := hc
    by_cases hb : t0.block = true
    · simp only [segment, hb, if_true] at hi hj
      cases j with
      | zero => omega
      | succ j =>
        simp only [List.getElem?_cons_succ] at hj
        cases i with
        | zero =>
          simp only [List.getElem?_cons_zero, Option.some.injEq] at hi
          subst hi
          have h1 := (hrange n a hla).1
          rw [if_pos hb] at h1
          have h2 := segment_bound ps hps j tj m b hj hlb
          omega
        | succ i =>
          simp only [List.getElem?_cons_succ] at hi
          exact ih hps i j ti tj n m a b (by omega) hi hj hla hlb
    · simp only [segment, hb, Bool.false_eq_true, if_false] at hj
      cases j with
      | zero => omega
      | succ j => simp at hj

theorem segment_mem (c : Chain) : ∀ t ∈ segment c, t ∈ c := by
  induction c with
  | nil => intro t h; simp [segment] at h
  | cons t0 ps ih =>
    intro t h
    by_cases hb : t0.block = true
    · simp only [segment, hb, if_true, List.mem_cons] at h
      rcases h with h | h
      · exact h ▸ List.mem_cons_self _ _
      · exact List.mem_cons_of_mem _ (ih t h)
    · simp only [segment, hb, Bool.false_eq_true, if_false, List.mem_singleton] at h
      exact h ▸ List.mem_cons_self _ _

theorem chainOK_inj (c : Chain) (hc : chainOK c) :
    ∀ t ∈ c, ∀ n i m j, holdsLocal t n i → holdsLocal t m j → n ≠ m → i ≠ j := by
  induction c with
  | nil => intro t h; simp at h
  | cons t0 ps ih =>
    intro t h
    rcases List.mem_cons.1 h with h1 | h1
    · subst h1
      exact hc.2.2.2.2
    · exact ih hc.1 t h1

theorem holdsLocal_of_storeGet (t : SymbolTable) (n : String) (s : Symbol)
    (h : storeGet t.store n = some s) (hl : s.Scope = SymbolScope.ScopeLocal) :
    holdsLocal t n s.Index :=
  ⟨s, mem_of_lookup _ _ _ h, hl, rfl⟩

/-- C30: tables used in nested order, from `NewSymbolTable` on: every call is made on the
table in use, a fork becomes the table in use, and leaving it gives the use back to its
parent. For each table of the chain then in use, taken with its block-fork ancestors up to
and including the enclosing function table, two LOCAL symbols stored there in different
tables or under different names have different indexes. -/
theorem c30_locals_distinct (ops : List ScopeOp) (c pre suf : Chain)
    (hrun : runScope NewSymbolTable ops = some c) (hsuf : c = pre ++ suf)
    (i j : Nat) (ti tj : SymbolTable) (n m : String) (s1 s2 : Symbol)
    (hi : (segment suf)[i]? = some ti) (hj : (segment suf)[j]? = some tj)
    (h1 : storeGet ti.store n = some s1) (h2 : storeGet tj.store m = some s2)
    (hl1 : s1.Scope = SymbolScope.ScopeLocal) (hl2 : s2.Scope = SymbolScope.ScopeLocal)
    (hne : i ≠ j ∨ n ≠ m) : s1.Index ≠ s2.Index := by
  have hc : chainOK suf :=
    chainOK_suffix pre suf (hsuf ▸ runScope_ok ops NewSymbolTable c chainOK_new hrun)
  have ha := holdsLocal_of_storeGet ti n s1 h1 hl1
  have hb := holdsLocal_of_storeGet tj m s2 h2 hl2
  rcases Nat.lt_trichotomy i j with hlt | heq | hgt
  · exact segment_apart suf hc i j ti tj n m _ _ hlt hi hj ha hb
  · subst heq
    rw [hi] at hj
    simp only [Option.some.injEq] at hj
    subst hj
    have hnm : n ≠ m := by
      rcases hne with h | h
      · exact absurd rfl h
      · exact h
    exact chainOK_inj suf hc ti (segment_mem suf ti (mem_of_getElem?_some _ _ _ hi))
      n _ m _ ha hb hnm
  · exact fun h => segment_apart suf hc j i tj ti m n _ _ hgt hj hi hb ha h.symm

theorem c30_locals_distinct_witness :
    runScope NewSymbolTable sampleScopeOps = some sampleScopeChain ∧
      (Symbol.mk "d" SymbolScope.ScopeLocal 2 false).Index ≠
        (Symbol.mk "a" SymbolScope.ScopeLocal 0 true).Index :=
  ⟨by decide,
    c30_locals_distinct sampleScopeOps sampleScopeChain [] sampleScopeChain (by decide) rfl 0 1
      (SymbolTable.mk true
        [("d", Symbol.mk "d" SymbolScope.ScopeLocal 2 false),
         ("b", Symbol.mk "b" SymbolScope.ScopeLocal 1 false)] 2 3 [] [])
      (SymbolTable.mk false [("a", Symbol.mk "a" SymbolScope.ScopeLocal 0 true)] 1 3 [] [])
      "d" "a" (Symbol.mk "d" SymbolScope.ScopeLocal 2 false)
      (Symbol.mk "a" SymbolScope.ScopeLocal 0 true)
      (by decide) (by decide) (by decide) (by decide) rfl rfl (Or.inl (by decide))⟩

/-! ## Theorems: formatter -/

theorem ascii_percent_x : ascii "%x" = [37, 120] := by decide

theorem hexLoop_length (flags : fmtFlags) (digits : GoString) (hs : flags.space = false)
    (s : List Nat) : ∀ i, (hexLoop flags digits i s).length = 2 * s.length := by
  induction s with
  | nil => intro i; rfl
  | cons c cs ih =>
    intro i
    simp only [hexLoop, hs, Bool.false_and, Bool.false_eq_true, if_false, List.nil_append,
      List.cons_append, List.length_cons, ih (i + 1)]
    omega

/-- C26 at its failing inputs: `Format("%x", s)` for a String `s`. Whatever `MaxStringLen`
is, the call returns the two hexadecimal digits of every byte of `s` with a nil error: a
text of `2 * len(s)` bytes, which is over the limit as soon as `s` is longer than half of
it. With `MaxStringLen = 3` and `s = "ab"` the result is the four bytes `6162`, while the
same text written through `fmtbuf.Write` by `%s` ends in `ErrStringLimit`. -/
theorem c26_hex_ignores_limit (E : FormatEnv) (pooled : pp) (s : GoString) :
    Format E pooled (ascii "%x") [.string s] = .ret (hexLoop noFlags ldigits 0 s, none) ∧
      (hexLoop noFlags ldigits 0 s).length = 2 * s.length ∧
      Format (sampleEnv 3) newPP (ascii "%x") [.string (ascii "ab")] =
        .ret (ascii "6162", none) ∧
      Format (sampleEnv 3) newPP (ascii "%s") [.string (ascii "6162")] =
        .ret ([], some .ErrStringLimit) := by
  refine ⟨?_, hexLoop_length noFlags ldigits rfl s 0, by decide, by decide⟩
  rw [ascii_percent_x]
  simp only [Format, pp.doFormat, formatLoop]
  simp [percentFrom, simpleFormat, newPrinter, formatter.clearFlags, pp.setFlags, noFlags,
    pp.printArg, pp.fmtString, formatter.fmtSx, formatter.fmtSbx, Printed.bind, formatExtra]
  cases s with
  | nil => simp [hexLoop]
  | cons c cs => simp

/-! ## Theorems: the verb `%d` -/

theorem ascii_percent_d : ascii "%d" = [37, 100] := by decide

theorem ascii_percent_v : ascii "%v" = [37, 118] := by decide

theorem ldigits_getD (u : Nat) (hu : u < 10) : ldigits.getD u 0 = 48 + u := by
  interval_cases u <;> decide

theorem decimalNat_small (u : Nat) (hu : u < 10) : decimalNat u = [48 + u] := by
  by_cases h0 : u = 0
  · subst h0
    rfl
  · simp only [decimalNat, h0, if_false]
    rw [Nat.digits_of_lt 10 u h0 hu]
    rfl

theorem decimalNat_step (u : Nat) (hu : 10 ≤ u) :
    decimalNat u = decimalNat (u / 10) ++ [48 + u % 10] := by
  have h0 : u ≠ 0 := by omega
  have h1 : u / 10 ≠ 0 := by omega
  simp only [decimalNat, h0, h1, if_false]
  rw [Nat.digits_def' (by norm_num) (by omega)]
  simp

/-- The digit loop of `fmtInteger` in base 10 writes the decimal digits, when the fuel
covers them. -/
theorem intDigits_decimal (fuel : Nat) :
    ∀ (u : Nat) (acc : List Nat), u < 10 ^ (fuel + 1) →
      intDigits 10 ldigits fuel u acc = decimalNat u ++ acc := by
  induction fuel with
  | zero =>
    intro u acc hu
    have hu1 : u < 10 := by simpa using hu
    simp only [intDigits]
    rw [ldigits_getD u hu1, decimalNat_small u hu1]
    rfl
  | succ fuel ih =>
    intro u acc hu
    by_cases h10 : u ≥ 10
    · have hdiv : u / 10 < 10 ^ (fuel + 1) := by
        rw [Nat.div_lt_iff_lt_mul (by norm_num)]
        rw [pow_succ] at hu
        exact hu
      have hd : (48 + u - u / 10 * 10) % 256 = 48 + u % 10 := by omega
      simp only [intDigits, h10, if_true, digitStep, hd]
      rw [ih (u / 10) _ hdiv, decimalNat_step u h10]
      simp
    · have hu1 : u < 10 := by omega
      simp only [intDigits, h10, if_false]
      rw [ldigits_getD u hu1, decimalNat_small u hu1]
      rfl

theorem decimalNat_length (u : Nat) (k : Nat) (hk : 0 < k) (hu : u < 10 ^ k) :
    (decimalNat u).length ≤ k := by
  by_cases h0 : u = 0
  · subst h0
    simpa [decimalNat] using hk
  · simp only [decimalNat, h0, if_false, List.length_map, List.length_reverse]
    rw [Nat.digits_len 10 u (by norm_num) h0]
    exact Nat.log_lt_of_lt_pow h0 hu

/-- The text `fmtInteger` hands to `pad` for a signed value in base 10 without flags. -/
theorem fmtInteger_plain (E : FormatEnv) (p : pp) (u : Nat) (hflags : p.fmt.flags = noFlags) :
    formatter.fmtInteger E p u 10 true 100 ldigits =
      withoutZero p (fun p1 => formatter.pad E p1
        (if u % 2 ^ 64 ≥ 2 ^ 63 then
          45 :: intDigits 10 ldigits 64 ((2 ^ 64 - u % 2 ^ 64) % 2 ^ 64) []
         else intDigits 10 ldigits 64 u [])) := by
  simp only [formatter.fmtInteger, hflags, noFlags]
  by_cases h : (9223372036854775808 : Nat) ≤ u % 18446744073709551616 <;> simp [h]

theorem toUint64_nonneg (n : Int) (h0 : 0 ≤ n) (h1 : n < 2 ^ 63) :
    toUint64 n = n.natAbs ∧ n.natAbs < 2 ^ 63 := by
  have h2 : n % 2 ^ 64 = n := Int.emod_eq_of_lt h0 (by omega)
  simp only [toUint64, h2]
  omega

theorem toUint64_neg (n : Int) (h0 : n < 0) (h1 : -(2 ^ 63) ≤ n) :
    toUint64 n = 2 ^ 64 - n.natAbs ∧ 0 < n.natAbs ∧ n.natAbs ≤ 2 ^ 63 := by
  have h2 : n % 2 ^ 64 = n + 2 ^ 64 := by
    rw [← Int.add_mul_emod_self (a := n) (b := 1) (c := 2 ^ 64)]
    simp only [one_mul]
    exact Int.emod_eq_of_lt (by omega) (by omega)
  simp only [toUint64, h2]
  omega

/-- The signed text of an `int64`: what `fmtInteger` computes is its decimal
representation, of at most 20 bytes. -/
theorem signed_decimal (n : Int) (hn : isInt64 n) :
    (if toUint64 n % 2 ^ 64 ≥ 2 ^ 63 then
        45 :: intDigits 10 ldigits 64 ((2 ^ 64 - toUint64 n % 2 ^ 64) % 2 ^ 64) []
      else intDigits 10 ldigits 64 (toUint64 n) []) = decimalInt n ∧
      (decimalInt n).length ≤ 20 := by
  obtain ⟨hlo, hhi⟩ := hn
  by_cases h0 : n < 0
  · obtain ⟨hu, hpos, hle⟩ := toUint64_neg n h0 hlo
    have hge : toUint64 n % 2 ^ 64 ≥ 2 ^ 63 := by rw [hu]; omega
    have hback : (2 ^ 64 - toUint64 n % 2 ^ 64) % 2 ^ 64 = n.natAbs := by rw [hu]; omega
    rw [if_pos hge, hback, intDigits_decimal 64 n.natAbs [] (by
      calc n.natAbs ≤ 2 ^ 63 := hle
        _ < 10 ^ (64 + 1) := by norm_num)]
    simp only [decimalInt, h0, if_true, List.append_nil, List.length_cons, true_and]
    have := decimalNat_length n.natAbs 19 (by norm_num) (by
      calc n.natAbs ≤ 2 ^ 63 := hle
        _ < 10 ^ 19 := by norm_num)
    omega
  · obtain ⟨hu, hlt⟩ := toUint64_nonneg n (by omega) hhi
    have hge : ¬ toUint64 n % 2 ^ 64 ≥ 2 ^ 63 := by rw [hu]; omega
    rw [if_neg hge, hu, intDigits_decimal 64 n.natAbs [] (by
      calc n.natAbs < 2 ^ 63 := hlt
        _ < 10 ^ (64 + 1) := by norm_num)]
    simp only [decimalInt, h0, if_false, List.append_nil, true_and]
    have := decimalNat_length n.natAbs 19 (by norm_num) (by
      calc n.natAbs < 2 ^ 63 := hlt
        _ < 10 ^ 19 := by norm_num)
    omega

/-- `Format` with a format of one verb among `a`..`z` other than `v`, and one argument: the
printer made new prints the argument, and nothing else is written. -/
theorem Format_one_verb (E : FormatEnv) (pooled : pp) (c : Nat) (arg : Object)
    (hc : 97 ≤ c ∧ c ≤ 122) (hv : c ≠ 118) :
    Format E pooled [37, c] [arg] =
      match pp.printArg E
          { buf := [], fmt := { flags := noFlags, wid := pooled.fmt.wid, prec := pooled.fmt.prec },
            reordered := false, goodArgNum := true } arg (c : Int) with
      | .ok p => .ret (p.buf, none)
      | .limit p => .ret (p.buf, some .ErrStringLimit)
      | .crash msg => .panicked (.explicit msg) := by
  obtain ⟨h1, h2⟩ := hc
  have e1 : c ≠ 35 := by omega
  have e2 : c ≠ 48 := by omega
  have e3 : c ≠ 43 := by omega
  have e4 : c ≠ 45 := by omega
  have e5 : c ≠ 32 := by omega
  simp only [Format, pp.doFormat, formatLoop]
  simp [percentFrom, simpleFormat, newPrinter, formatter.clearFlags, pp.setFlags, noFlags,
    Printed.bind, formatExtra, e1, e2, e3, e4, e5, h1, h2, hv]
  cases pp.printArg E _ arg (c : Int) <;> rfl

/-- C27: for every `int64` value `n`, with `MaxStringLen` at least 20 (the length of the
longest such text), `Format("%d", n)` returns with a nil error the decimal representation
of `n`: the digits of its absolute value without a leading zero, after a `-` when `n` is
negative. When `strconv.FormatInt(n, 10)` is that representation, `n.String()` and
`Format("%v", n)` give the same text. -/
theorem c27_percent_d_decimal (E : FormatEnv) (pooled : pp) (n : Int) (hn : isInt64 n)
    (hmax : 20 ≤ E.MaxStringLen) (hlib : E.F.FormatInt n = decimalInt n) :
    Format E pooled (ascii "%d") [.int n] = .ret (decimalInt n, none) ∧
      Object.String E.F (.int n) = decimalInt n ∧
      Format E pooled (ascii "%v") [.int n] = .ret (decimalInt n, none) := by
  obtain ⟨hsigned, hlen⟩ := signed_decimal n hn
  have hfit : ¬ E.MaxStringLen < ((decimalInt n).length : Int) := by
    have : ((decimalInt n).length : Int) ≤ 20 := by exact_mod_cast hlen
    omega
  refine ⟨?_, ?_, ?_⟩
  · rw [ascii_percent_d, Format_one_verb E pooled 100 (.int n) (by decide) (by decide)]
    have hp : pp.printArg E
        { buf := [], fmt := { flags := noFlags, wid := pooled.fmt.wid, prec := pooled.fmt.prec },
          reordered := false, goodArgNum := true } (.int n) ((100 : Nat) : Int) =
        .ok { buf := decimalInt n,
              fmt := { flags := noFlags, wid := pooled.fmt.wid, prec := pooled.fmt.prec },
              reordered := false, goodArgNum := true } := by
      simp only [pp.printArg, pp.fmtInteger, Nat.cast_ofNat]
      norm_num
      rw [fmtInteger_plain E _ (toUint64 n) rfl, hsigned]
      simp [withoutZero, formatter.pad, fmtbuf.Write, Printed.bind, pp.setFlags, noFlags, hfit]
    rw [hp]
  · simp only [Object.String, hlib]
  · rw [ascii_percent_v]
    simp only [Format, pp.doFormat, formatLoop]
    simp [percentFrom, simpleFormat, newPrinter, formatter.clearFlags, pp.setFlags, noFlags,
      Printed.bind, formatExtra, pp.verbV, pp.printArg, formatter.fmtS,
      formatter.truncateString, formatter.padString, fmtbuf.WriteString, Object.String, hlib,
      hfit]

theorem c27_percent_d_decimal_witness :
    Format (decimalEnv 20) newPP (ascii "%d") [.int (-9223372036854775808)] =
        .ret (decimalInt (-9223372036854775808), none) ∧
      Object.String (decimalEnv 20).F (.int (-9223372036854775808)) =
        decimalInt (-9223372036854775808) ∧
      Format (decimalEnv 20) newPP (ascii "%v") [.int (-9223372036854775808)] =
        .ret (decimalInt (-9223372036854775808), none) :=
  c27_percent_d_decimal (decimalEnv 20) newPP (-9223372036854775808)
    (by unfold isInt64; norm_num) (by decide) rfl


/-- The model at the least `int64`: all twenty bytes of its decimal text. -/
theorem Format_d_min :
    Format (sampleEnv 20) newPP (ascii "%d") [.int (-9223372036854775808)] =
      .ret (ascii "-9223372036854775808", none) := by
  decide


/-! ## Theorems: keyword nodes of the AST -/

/-- A `dur` or `devam` statement without label spans the spelling of its token. -/
theorem branch_span (tok : Token) (pos : Int) :
    (BranchStmt.mk tok pos none).End - (BranchStmt.mk tok pos none).Pos =
      ((tokenString tok).length : Int) := by
  simp [BranchStmt.End, BranchStmt.Pos]

/-- C39 at its failing inputs: a `dön` statement without result spans 6 bytes while `dön`
has 4, and the literal `tanımsız` spans 9 bytes while `tanımsız` has 10; `dur` and `devam`
span their 3 and 5 bytes. -/
theorem c39_keyword_spans :
    (ReturnStmt.mk 1 none : ReturnStmt Ident).End Ident.End -
        (ReturnStmt.mk 1 none : ReturnStmt Ident).Pos = 6 ∧
      (tokenString .Return).length = 4 ∧
      (UndefinedLit.mk 1).End - (UndefinedLit.mk 1).Pos = 9 ∧
      (tokenString .Undefined).length = 10 ∧
      (BranchStmt.mk .Break 1 none).End - (BranchStmt.mk .Break 1 none).Pos = 3 ∧
      (tokenString .Break).length = 3 ∧
      (BranchStmt.mk .Continue 1 none).End - (BranchStmt.mk .Continue 1 none).Pos = 5 ∧
      (tokenString .Continue).length = 5 := by
  decide


/-! ## Theorems: the builtin `f` -/

/-- C40 fails: for the format `%d` the builtin `f` returns the format itself, while `Format`
without arguments prints `%!d(MISSING)`; and for a format longer than `MaxStringLen` (here
`abcd` under a limit of 3) `f` returns it while `Format` ends in `ErrStringLimit`. -/
theorem c40_counterexample :
    builtinF (sampleEnv 100) newPP [.string (ascii "%d")] = .ret (.string (ascii "%d")) ∧
      Format (sampleEnv 100) newPP (ascii "%d") [] = .ret (ascii "%!d(MISSING)", none) ∧
      ascii "%d" ≠ ascii "%!d(MISSING)" ∧
      builtinF (sampleEnv 3) newPP [.string (ascii "abcd")] = .ret (.string (ascii "abcd")) ∧
      Format (sampleEnv 3) newPP (ascii "abcd") [] = .ret ([], some .ErrStringLimit) := by
  decide

theorem percentFrom_none (cs : List Nat) (h : 37 ∉ cs) :
    ∀ i, percentFrom cs i = i + cs.length := by
  induction cs with
  | nil => intro i; rfl
  | cons c cs ih =>
    intro i
    have hc : c ≠ 37 := fun e => h (e ▸ List.mem_cons_self _ _)
    have hcs : 37 ∉ cs := fun hm => h (List.mem_cons_of_mem _ hm)
    simp only [percentFrom, hc, if_false, ih hcs, List.length_cons]
    omega

/-- C40, amended: for every format `s` without the byte `%` and of at most `MaxStringLen`
bytes, the builtin `f` called with the String `s` alone returns a String of value `s`, and
`Format(s)` with no argument returns the text `s` with a nil error. -/
theorem c40_f_agrees_without_verbs (E : FormatEnv) (pooled : pp) (s : GoString)
    (hs : 37 ∉ s) (hlen : (s.length : Int) ≤ E.MaxStringLen) :
    builtinF E pooled [.string s] = .ret (.string s) ∧
      Format E pooled s [] = .ret (s, none) := by
  refine ⟨by simp [builtinF], ?_⟩
  have hp := percentFrom_none s hs 0
  have hfit : ¬ E.MaxStringLen < (s.length : Int) := by omega
  cases s with
  | nil =>
    simp [Format, pp.doFormat, formatLoop, formatExtra, newPrinter, formatter.clearFlags,
      pp.setFlags]
  | cons c cs =>
    simp only [Format, pp.doFormat, formatLoop]
    simp only [List.drop_zero, hp]
    have hfit2 : ¬ E.MaxStringLen < (cs.length : Int) + 1 := by simpa using hfit
    simp [fmtbuf.WriteString, Printed.bind, formatExtra, newPrinter, formatter.clearFlags,
      pp.setFlags, hfit2]

theorem c40_f_agrees_without_verbs_witness :
    builtinF (sampleEnv 100) newPP [.string (ascii "merhaba")] =
        .ret (.string (ascii "merhaba")) ∧
      Format (sampleEnv 100) newPP (ascii "merhaba") [] = .ret (ascii "merhaba", none) :=
  c40_f_agrees_without_verbs (sampleEnv 100) newPP (ascii "merhaba") (by decide) (by decide)


/-! ## Theorems: `buildRange` at the top of the range of `int64` -/

/-- From an even `i`, with `stop = 2^63 - 1` and `step = 2`, the loop of `buildRange` never
ends: `i` stays even, so below `stop`, also after `i += step` has wrapped around. -/
theorem rangeUp_never (fuel : Nat) :
    ∀ (i : Int) (acc : List Object), isInt64 i → i % 2 = 0 →
      rangeUp fuel i (2 ^ 63 - 1) 2 acc = none := by
  induction fuel with
  | zero => intro i acc _ _; rfl
  | succ fuel ih =>
    intro i acc hi heven
    obtain ⟨hlo, hhi⟩ := hi
    have hlt : i < 2 ^ 63 - 1 := by omega
    simp only [rangeUp, hlt, if_true]
    apply ih
    · exact wrap64_isInt64 _
    · simp only [wrap64]
      omega

/-- C34 at its failing input: `aralık(9223372036854775806, 9223372036854775807, 2)`. The
arguments pass the checks of the builtin, and the loop of `buildRange` does not end with any
number of turns: after the first value `i += step` wraps around to `-2^63`, and `i` runs
through the even numbers for ever, each below `stop`. -/
theorem c34_range_never_ends (fuel : Nat) :
    buildRange fuel 9223372036854775806 9223372036854775807 2 = none ∧
      builtinAralik fuel [.int 9223372036854775806, .int 9223372036854775807, .int 2] = none ∧
      rangeArgsCheck 0 [.int 9223372036854775806, .int 9223372036854775807, .int 2] = none := by
  have h := rangeUp_never fuel 9223372036854775806 []
    (by unfold isInt64; norm_num) (by norm_num)
  have h2 : (2 : Int) ^ 63 - 1 = 9223372036854775807 := by norm_num
  rw [h2] at h
  have hb : buildRange fuel 9223372036854775806 9223372036854775807 2 = none := by
    simp only [buildRange]
    norm_num
    exact h
  refine ⟨hb, ?_, by decide⟩
  simp only [builtinAralik, List.length_cons, List.length_nil]
  norm_num
  have hc : rangeArgsCheck 0 [.int 9223372036854775806, .int 9223372036854775807, .int 2]
      = none := by decide
  rw [hc]
  simp only [hb, Option.map_none']


/-! ## Theorems: the builtin `birleştir` -/

/-- The builtin `birleştir` on an Array with a start index and a delete count in order. -/
theorem builtinBirlestir_run (a : ObjList) (rest : List Object) (start delCount : Int)
    (hs : spliceStart (a.length : Int) rest = .ret start)
    (hd : spliceCount (a.length : Int) rest = .ret delCount)
    (h0 : 0 ≤ start) (hn : start ≤ (a.length : Int)) (hc : 0 ≤ delCount)
    (hsum : start + delCount < 2 ^ 63) :
    builtinBirlestir (.array a :: rest) =
      (.ret (.array (ObjList.ofList ((a.toList.drop start.toNat).take
          ((min (start + delCount) (a.length : Int)).toNat - start.toNat)))),
        .array (ObjList.ofList (a.toList.take start.toNat ++
          (rest.drop 2 ++ a.toList.drop (min (start + delCount) (a.length : Int)).toNat))) ::
          rest) := by
  have hw : wrap64 (start + delCount) = start + delCount :=
    wrap64_of_isInt64 _ ⟨by omega, hsum⟩
  have hlen : (a.length : Int) < 2 ^ 63 → True := fun _ => trivial
  simp only [builtinBirlestir, hs, hd, hw]
  by_cases hgt : start + delCount > (a.length : Int)
  · have hw2 : wrap64 ((a.length : Int) - start) = (a.length : Int) - start :=
      wrap64_of_isInt64 _ ⟨by omega, by omega⟩
    have hw3 : wrap64 (start + ((a.length : Int) - start)) = (a.length : Int) := by
      have : start + ((a.length : Int) - start) = (a.length : Int) := by omega
      rw [this]
      exact wrap64_of_isInt64 _ ⟨by omega, by omega⟩
    have hmin : min (start + delCount) (a.length : Int) = (a.length : Int) := by omega
    simp only [if_pos hgt, hw2, hw3, hmin]
    rw [if_neg (by omega)]
  · have hmin : min (start + delCount) (a.length : Int) = start + delCount := by omega
    simp only [if_neg hgt, hw, hmin]
    rw [if_neg (by omega)]


/-- C32: the builtin `birleştir` on an Array `a` of length `n`, called with `a` alone (then
`start = 0` and `delCount = n`), with `a` and an Int `start` (then `delCount = n`), or with
`a`, Ints `start` and `delCount` and the items `xs`. With `0 ≤ start ≤ n`, `0 ≤ delCount`
and a sum `start + delCount` that an `int` holds, and `end = min(start + delCount, n)`, the
call returns the Array of `a[start:end]` and leaves in `a` the elements `a[0:start]`, then
`xs`, then `a[end:n]`, which are `n - (end - start) + len(xs)` elements. With `start < 0`,
`start > n` or `delCount < 0` it fails with `ErrIndexOutOfBounds` and `a` is as before. -/
theorem c32_splice_in_place (a : ObjList) (start delCount : Int) (xs rest : List Object)
    (hrest : (rest = [] ∧ start = 0 ∧ delCount = (a.length : Int) ∧ xs = []) ∨
      (rest = [.int start] ∧ delCount = (a.length : Int) ∧ xs = []) ∨
      rest = .int start :: .int delCount :: xs) :
    ((0 ≤ start ∧ start ≤ (a.length : Int) ∧ 0 ≤ delCount ∧ start + delCount < 2 ^ 63) →
      builtinBirlestir (.array a :: rest) =
        (.ret (.array (ObjList.ofList ((a.toList.drop start.toNat).take
            ((min (start + delCount) (a.length : Int)).toNat - start.toNat)))),
          .array (ObjList.ofList (a.toList.take start.toNat ++ xs ++
            a.toList.drop (min (start + delCount) (a.length : Int)).toNat)) :: rest) ∧
      ((a.toList.take start.toNat ++ xs ++
          a.toList.drop (min (start + delCount) (a.length : Int)).toNat).length : Int) =
        (a.length : Int) - (min (start + delCount) (a.length : Int) - start) +
          (xs.length : Int)) ∧
    ((start < 0 ∨ start > (a.length : Int) ∨ delCount < 0) →
      builtinBirlestir (.array a :: rest) = (.fail .ErrIndexOutOfBounds, .array a :: rest)) := by
  have hxs : rest.drop 2 = xs := by
    rcases hrest with ⟨h1, _, _, h4⟩ | ⟨h1, _, h4⟩ | h1 <;> subst h1
    · simp [h4]
    · simp [h4]
    · rfl
  constructor
  · rintro ⟨h0, hn, hc, hsum⟩
    have hs : spliceStart (a.length : Int) rest = .ret start := by
      rcases hrest with ⟨h1, h2, _, _⟩ | ⟨h1, _, _⟩ | h1 <;> subst h1
      · simp [spliceStart, h2]
      · simp only [spliceStart]
        rw [if_neg (by omega)]
      · simp only [spliceStart]
        rw [if_neg (by omega)]
    have hd : spliceCount (a.length : Int) rest = .ret delCount := by
      rcases hrest with ⟨h1, _, h3, _⟩ | ⟨h1, h3, _⟩ | h1 <;> subst h1
      · simp [spliceCount, h3]
      · simp [spliceCount, h3]
      · simp only [spliceCount]
        rw [if_neg (by omega)]
    refine ⟨?_, ?_⟩
    · rw [builtinBirlestir_run a rest start delCount hs hd h0 hn hc hsum, hxs,
        List.append_assoc]
    · have hl : a.toList.length = a.length := ObjList.length_toList a
      simp only [List.length_append, List.length_take, List.length_drop, hl]
      omega
  · intro hbad
    rcases hrest with ⟨h1, h2, h3, _⟩ | ⟨h1, h3, _⟩ | h1 <;> subst h1
    · omega
    · have hb : start < 0 ∨ start > (a.length : Int) := by omega
      simp [builtinBirlestir, spliceStart, hb]
    · by_cases hb : start < 0 ∨ start > (a.length : Int)
      · simp [builtinBirlestir, spliceStart, hb]
      · have hneg : delCount < 0 := by omega
        simp [builtinBirlestir, spliceStart, spliceCount, hb, hneg]

/-- C32 on `birleştir([1, 2, 3, 4], 1, 2, 9, 8, 7)`: the result is `[2, 3]` and the array
becomes `[1, 9, 8, 7, 4]`. -/
theorem c32_splice_in_place_witness :
    builtinBirlestir [.array (ObjList.ofList [.int 1, .int 2, .int 3, .int 4]), .int 1, .int 2,
        .int 9, .int 8, .int 7] =
      (.ret (.array (ObjList.ofList [.int 2, .int 3])),
        [.array (ObjList.ofList [.int 1, .int 9, .int 8, .int 7, .int 4]), .int 1, .int 2,
          .int 9, .int 8, .int 7]) :=
  ((c32_splice_in_place (ObjList.ofList [.int 1, .int 2, .int 3, .int 4]) 1 2
      [.int 9, .int 8, .int 7] [.int 1, .int 2, .int 9, .int 8, .int 7]
      (Or.inr (Or.inr rfl))).1 (by decide)).1.trans (by decide)

/-- C33 at its failing input: `birleştir([1, 2], 1, 9223372036854775807)`. The sum
`startIdx + delCount` wraps around to `-2^63`, which is not above the length, so the delete
count is not clamped and the slice expression `array.Value[1:-9223372036854775808]` panics;
the array is as before. With the delete count `9223372036854775806`, where the sum does not
wrap, the call returns `[2]` and leaves `[1]`, as with the clamped count 1. -/
theorem c33_oversized_count_panics :
    builtinBirlestir [.array (ObjList.ofList [.int 1, .int 2]), .int 1,
        .int 9223372036854775807] =
      (.panicked .sliceBoundsOutOfRange,
        [.array (ObjList.ofList [.int 1, .int 2]), .int 1, .int 9223372036854775807]) ∧
    wrap64 (1 + 9223372036854775807) = -9223372036854775808 ∧
    builtinBirlestir [.array (ObjList.ofList [.int 1, .int 2]), .int 1,
        .int 9223372036854775806] =
      (.ret (.array (ObjList.ofList [.int 2])),
        [.array (ObjList.ofList [.int 1]), .int 1, .int 9223372036854775806]) ∧
    builtinBirlestir [.array (ObjList.ofList [.int 1, .int 2]), .int 1, .int 1] =
      (.ret (.array (ObjList.ofList [.int 2])),
        [.array (ObjList.ofList [.int 1]), .int 1, .int 1]) := by
  decide


/-! ## Theorems: the builtin `uzunluk` on strings -/

/-- C31 fails: the String `é` has the two bytes `C3 A9`, so `uzunluk` is 2, but it has one
code point: `IndexGet` with the index 1, which is below 2, returns `UndefinedValue` and no
Char. -/
theorem c31_counterexample :
    builtinUzunluk [.string [195, 169]] = .ret (.int 2) ∧
      (String.IndexGet (StringObj.mk [195, 169] none) (.int 0)).1 = .ret (.char 233) ∧
      (String.IndexGet (StringObj.mk [195, 169] none) (.int 1)).1 = .ret UndefinedValue := by
  decide

theorem runesLoop_length_le (fuel : Nat) :
    ∀ s : List Nat, (runesLoop fuel s).length ≤ s.length := by
  induction fuel with
  | zero => intro s; simp [runesLoop]
  | succ fuel ih =>
    intro s
    cases s with
    | nil => simp [runesLoop]
    | cons p0 rest =>
      have hw := DecodeRune_width p0 rest
      have := ih ((p0 :: rest).drop (DecodeRune (p0 :: rest)).2)
      simp only [runesLoop, List.length_cons]
      simp only [List.length_drop, List.length_cons] at this
      omega

theorem runesLoop_ascii (fuel : Nat) :
    ∀ s : List Nat, (∀ b ∈ s, b < 0x80) → s.length ≤ fuel →
      (runesLoop fuel s).length = s.length := by
  induction fuel with
  | zero =>
    intro s _ hf
    have : s = [] := List.length_eq_zero.mp (by omega)
    subst this
    rfl
  | succ fuel ih =>
    intro s hs hf
    cases s with
    | nil => rfl
    | cons p0 rest =>
      have hp : p0 < 0x80 := hs p0 (List.mem_cons_self _ _)
      have hd : DecodeRune (p0 :: rest) = ((p0 : Int), 1) := by
        simp only [DecodeRune, if_pos hp]
      simp only [runesLoop, hd, List.drop_succ_cons, List.drop_zero, List.length_cons]
      rw [ih rest (fun b hb => hs b (List.mem_cons_of_mem _ hb))
        (by simp only [List.length_cons] at hf; omega)]

/-- C31, amended: for every String `s`, `uzunluk(s)` is the number of bytes of `s`, and
with `r` the number of code points of `s`, which is at most `uzunluk(s)`, `IndexGet` with an
Int `i` returns a Char for every `0 ≤ i < r` and `UndefinedValue` for every `i ≥ r`, so for
`i = uzunluk(s)`; when every byte of `s` is below `0x80`, `r` is `uzunluk(s)`. -/
theorem c31_length_bounds_index (o : StringObj) (hcache : o.coherent) :
    builtinUzunluk [.string o.Value] = .ret (.int (o.Value.length : Int)) ∧
      (runesOf o.Value).length ≤ o.Value.length ∧
      (∀ i : Int, 0 ≤ i → i < ((runesOf o.Value).length : Int) →
        ∃ r, (String.IndexGet o (.int i)).1 = .ret (.char r)) ∧
      (∀ i : Int, i ≥ ((runesOf o.Value).length : Int) →
        (String.IndexGet o (.int i)).1 = .ret UndefinedValue) ∧
      (String.IndexGet o (.int (o.Value.length : Int))).1 = .ret UndefinedValue ∧
      ((∀ b ∈ o.Value, b < 0x80) → (runesOf o.Value).length = o.Value.length) := by
  have hle : (runesOf o.Value).length ≤ o.Value.length := runesLoop_length_le _ _
  have hundef : ∀ i : Int, i ≥ ((runesOf o.Value).length : Int) →
      (String.IndexGet o (.int i)).1 = .ret UndefinedValue := by
    intro i hi
    simp only [String.IndexGet, StringObj.fill_of_coherent o hcache, Option.getD_some,
      if_pos (Or.inr hi)]
  refine ⟨rfl, hle, ?_, hundef, hundef _ (by exact_mod_cast hle), ?_⟩
  · intro i h0 hlt
    obtain ⟨r, _, hs⟩ := sliceGet_inside (runesOf o.Value) i h0 hlt
    have hn : ¬ (i < 0 ∨ i ≥ ((runesOf o.Value).length : Int)) := by omega
    exact ⟨r, by
      simp only [String.IndexGet, StringObj.fill_of_coherent o hcache, Option.getD_some,
        if_neg hn, hs]⟩
  · intro hascii
    exact runesLoop_ascii _ _ hascii (Nat.le_refl _)

/-- C31 on the String `ab`: two bytes, two code points, a Char at 0 and 1, `UndefinedValue`
at 2. -/
theorem c31_length_bounds_index_witness :
    builtinUzunluk [.string [97, 98]] = .ret (.int 2) ∧
      (runesOf [97, 98]).length = 2 ∧
      (String.IndexGet (StringObj.mk [97, 98] none) (.int 2)).1 = .ret UndefinedValue :=
  ⟨(c31_length_bounds_index (StringObj.mk [97, 98] none) (Or.inl rfl)).1,
    (c31_length_bounds_index (StringObj.mk [97, 98] none) (Or.inl rfl)).2.2.2.2.2 (by decide),
    (c31_length_bounds_index (StringObj.mk [97, 98] none) (Or.inl rfl)).2.2.2.2.1⟩


/-! ## Theorems: positions in a source file -/

theorem getD_mono (a : List Nat) (h : a.Pairwise (fun x y => x < y)) (k l : Nat) (hkl : k ≤ l)
    (hl : l < a.length) : a.getD k 0 ≤ a.getD l 0 := by
  rcases Nat.eq_or_lt_of_le hkl with rfl | hlt
  · exact Nat.le_refl _
  · have hk : k < a.length := by omega
    rw [List.getD_eq_getElem _ _ hk, List.getD_eq_getElem _ _ hl]
    exact Nat.le_of_lt (List.pairwise_iff_getElem.1 h k l hk hl hlt)

/-- The binary search ends with the entries up to `x` in front of its result and the
entries above `x` from it on. -/
theorem searchLoop_spec (a : List Nat) (x : Nat) (h : a.Pairwise (fun x y => x < y))
    (fuel : Nat) :
    ∀ i j : Nat, i ≤ j → j ≤ a.length → j - i ≤ fuel →
      (∀ k, k < i → a.getD k 0 ≤ x) → (∀ k, j ≤ k → k < a.length → x < a.getD k 0) →
      searchLoop a x fuel i j ≤ a.length ∧
        (∀ k, k < searchLoop a x fuel i j → a.getD k 0 ≤ x) ∧
        (∀ k, searchLoop a x fuel i j ≤ k → k < a.length → x < a.getD k 0) := by
  induction fuel with
  | zero =>
    intro i j hij hj hf hlo hhi
    have : i = j := by omega
    subst this
    exact ⟨hj, hlo, hhi⟩
  | succ fuel ih =>
    intro i j hij hj hf hlo hhi
    by_cases hlt : i < j
    · have hm1 : i ≤ i + (j - i) / 2 := Nat.le_add_right _ _
      have hm2 : i + (j - i) / 2 < j := by omega
      by_cases hle : a.getD (i + (j - i) / 2) 0 ≤ x
      · simp only [searchLoop, if_pos hlt, if_pos hle]
        apply ih _ _ (by omega) hj (by omega) _ hhi
        intro k hk
        exact Nat.le_trans (getD_mono a h k _ (by omega) (by omega)) hle
      · simp only [searchLoop, if_pos hlt, if_neg hle]
        apply ih _ _ hm1 (by omega) (by omega) hlo
        intro k hk hkl
        exact Nat.lt_of_lt_of_le (Nat.lt_of_not_le hle) (getD_mono a h _ k hk hkl)
    · have : i = j := by omega
      subst this
      simp only [searchLoop, if_neg hlt]
      exact ⟨hj, hlo, hhi⟩

/-- A list whose first `r` entries are at most `x` and whose other entries are above `x`
has `r` entries that are at most `x`. -/
theorem countP_split (a : List Nat) (x r : Nat) (hr : r ≤ a.length)
    (hlo : ∀ k, k < r → a.getD k 0 ≤ x) (hhi : ∀ k, r ≤ k → k < a.length → x < a.getD k 0) :
    a.countP (fun y => decide (y ≤ x)) = r := by
  induction a generalizing r with
  | nil =>
    simp only [List.length_nil] at hr
    simp only [List.countP_nil]
    omega
  | cons y ys ih =>
    cases r with
    | zero =>
      rw [List.countP_eq_zero]
      intro b hb
      obtain ⟨k, hk, hkb⟩ := List.getElem_of_mem hb
      have := hhi k (Nat.zero_le _) hk
      rw [List.getD_eq_getElem _ _ hk, hkb] at this
      simp only [decide_eq_true_eq]
      omega
    | succ r =>
      have hy : y ≤ x := by simpa using hlo 0 (Nat.succ_pos _)
      rw [List.countP_cons_of_pos _ _ (by simpa using hy)]
      rw [ih r (by simpa using hr)
        (fun k hk => by simpa using hlo (k + 1) (by omega))
        (fun k hk hkl => by simpa using hhi (k + 1) (by omega) (by simpa using hkl))]


/-- C38: a file whose table `Lines` is strictly increasing and starts with 0, and an offset
`off ≤ Size`. `FileSetPos(off)` is `Base + off`, and `position` reports for it the offset
`off`, the line `n`, the number of entries of `Lines` that are at most `off`, and the column
`off - Lines[n-1] + 1`; `searchInts` returns `n - 1`, the greatest index whose entry is at
most `off`; `LineStart(n) + Column - 1` is the position itself. The exported `Position`
gives the same when the position is not `NoPos`. -/
theorem c38_offset_line_column (f : SourceFile) (NoPos off : Nat)
    (hsorted : f.Lines.Pairwise (fun x y => x < y)) (h0 : f.Lines.head? = some 0)
    (hoff : off ≤ f.Size) :
    f.FileSetPos off = some (f.Base + off) ∧
      f.position (f.Base + off) =
        { Filename := f.Name, Offset := off, Line := lineOf f off,
          Column := off - f.Lines.getD (lineOf f off - 1) 0 + 1 } ∧
      (1 ≤ lineOf f off ∧ lineOf f off ≤ f.Lines.length ∧
        f.Lines.getD (lineOf f off - 1) 0 ≤ off) ∧
      (searchInts f.Lines off = (lineOf f off : Int) - 1 ∧
        ∀ k, k < f.Lines.length → (f.Lines.getD k 0 ≤ off ↔ k ≤ lineOf f off - 1)) ∧
      f.LineStart (lineOf f off) = some (f.Base + f.Lines.getD (lineOf f off - 1) 0) ∧
      f.Base + f.Lines.getD (lineOf f off - 1) 0 +
          (off - f.Lines.getD (lineOf f off - 1) 0 + 1) - 1 = f.Base + off ∧
      (f.Base + off ≠ NoPos →
        f.Position NoPos (f.Base + off) = some (f.position (f.Base + off))) := by
  obtain ⟨hlen, hlo, hhi⟩ := searchLoop_spec f.Lines off hsorted f.Lines.length 0 f.Lines.length
    (Nat.zero_le _) (Nat.le_refl _) (by omega) (fun k hk => absurd hk (Nat.not_lt_zero _))
    (fun k hk hkl => absurd hkl (by omega))
  have hcount : lineOf f off = searchLoop f.Lines off f.Lines.length 0 f.Lines.length :=
    countP_split f.Lines off _ hlen hlo hhi
  have hfirst : f.Lines.getD 0 0 = 0 := by
    cases hl : f.Lines with
    | nil => rfl
    | cons y ys =>
      rw [hl] at h0
      simp only [List.head?_cons, Option.some.injEq] at h0
      simp [h0]
  have hne : 0 < f.Lines.length := by
    cases hl : f.Lines with
    | nil => rw [hl] at h0; simp at h0
    | cons y ys => simp
  have hpos : 1 ≤ lineOf f off := by
    rw [hcount]
    by_contra hz
    have hz0 : searchLoop f.Lines off f.Lines.length 0 f.Lines.length = 0 := by omega
    have := hhi 0 (by omega) hne
    omega
  have hentry : f.Lines.getD (lineOf f off - 1) 0 ≤ off := by
    rw [hcount]
    exact hlo _ (by omega)
  have hsearch : searchInts f.Lines off = (lineOf f off : Int) - 1 := by
    simp only [searchInts, hcount]
  have hnat : (searchInts f.Lines off).toNat = lineOf f off - 1 := by
    rw [hsearch]
    omega
  have hge : searchInts f.Lines off ≥ 0 := by
    rw [hsearch]
    omega
  refine ⟨?_, ?_, ⟨hpos, hcount ▸ hlen, hentry⟩, ⟨hsearch, ?_⟩, ?_, by omega, ?_⟩
  · simp only [SourceFile.FileSetPos, if_neg (Nat.not_lt.mpr hoff)]
  · have hsub : f.Base + off - f.Base = off := by omega
    simp only [SourceFile.position, SourceFile.unpack, hsub, if_pos hge, hnat]
    congr 1
    omega
  · intro k hk
    constructor
    · intro hle
      by_contra hgt
      have := hhi k (by rw [← hcount]; omega) hk
      omega
    · intro hle
      exact hlo k (by rw [← hcount]; omega)
  · have h1 : ¬ ((lineOf f off : Int) < 1) := by omega
    have h2 : ¬ ((lineOf f off : Int) > (f.Lines.length : Int)) := by
      have := hcount ▸ hlen
      omega
    have h3 : ((lineOf f off : Int) - 1).toNat = lineOf f off - 1 := by omega
    simp only [SourceFile.LineStart, if_neg h1, if_neg h2, h3]
  · intro hnp
    have hr : ¬ (f.Base + off < f.Base ∨ f.Base + off > f.Base + f.Size) := by omega
    simp only [SourceFile.Position, ne_eq, hnp, not_false_eq_true, if_true, if_neg hr]

/-- C38 on a file of base 1 with lines at 0, 4 and 7: the offset 5 is line 2, column 2. -/
theorem c38_offset_line_column_witness :
    sampleLines.position (sampleLines.Base + 5) =
        { Filename := "a", Offset := 5, Line := 2, Column := 2 } ∧
      sampleLines.LineStart 2 = some 5 :=
  ⟨(c38_offset_line_column sampleLines 0 5 (by decide) rfl (by decide)).2.1.trans (by decide),
    (c38_offset_line_column sampleLines 0 5 (by decide) rfl (by decide)).2.2.2.2.1.trans
      (by decide)⟩


/-! ## Theorems: `Resolve` twice -/

theorem storeGet_name (t : SymbolTable) (h : ∀ kv ∈ t.store, kv.2.Name = kv.1) (n : String)
    (s : Symbol) (hs : storeGet t.store n = some s) : s.Name = n :=
  h (n, s) (mem_of_lookup _ _ _ hs)

theorem directHit_name (t : SymbolTable) (h : ∀ kv ∈ t.store, kv.2.Name = kv.1) (n : String)
    (recur : Bool) (s : Symbol) (hs : directHit t n recur = some s) : s.Name = n := by
  simp only [directHit] at hs
  cases hg : storeGet t.store n with
  | none => rw [hg] at hs; simp at hs
  | some s0 =>
    rw [hg] at hs
    simp only at hs
    split at hs
    · simp only [Option.some.injEq] at hs
      subst hs
      exact storeGet_name t h n s0 hg
    · simp at hs

/-- The symbol `Resolve` returns for a name has that name. -/
theorem Resolve_name (c : Chain) :
    ∀ (name : String) (recur : Bool) (s : Symbol) (d : Nat), namesOK c →
      (Resolve c name recur).2 = some (s, d) → s.Name = name := by
  induction c with
  | nil => intro name recur s d _ h; simp [Resolve] at h
  | cons t ps ih =>
    intro name recur s d hn h
    have ht : ∀ kv ∈ t.store, kv.2.Name = kv.1 := hn t (List.mem_cons_self _ _)
    have hps : namesOK ps := fun x hx => hn x (List.mem_cons_of_mem _ hx)
    cases hd : directHit t name recur with
    | some s0 =>
      rw [Resolve_hit t ps name recur s0 hd] at h
      simp only [Option.some.injEq, Prod.mk.injEq] at h
      rw [← h.1]
      exact directHit_name t ht name recur s0 hd
    | none =>
      cases ps with
      | nil =>
        rw [Resolve_root_miss t name recur hd] at h
        simp at h
      | cons p ps =>
        rcases hr : Resolve (p :: ps) name true with ⟨ps1, _ | ⟨s0, d0⟩⟩
        · rw [Resolve_miss t (p :: ps) ps1 name recur hd (by simp) hr] at h
          simp at h
        · have hs0 : s0.Name = name := ih name true s0 d0 hps (by rw [hr])
          rw [Resolve_found t (p :: ps) ps1 name recur s0 d0 hd (by simp) hr] at h
          split at h
          · simp only [Option.some.injEq, Prod.mk.injEq] at h
            rw [← h.1, defineFree_symbol]
            exact hs0
          · simp only [Option.some.injEq, Prod.mk.injEq] at h
            rw [← h.1]
            exact hs0

theorem Resolve_nonempty (c : Chain) (name : String) (recur : Bool) (h : c ≠ []) :
    (Resolve c name recur).1 ≠ [] :=
  fun he => h ((chainLe_shape _ _ (Resolve_le c name recur)).2.2.1 he)

theorem promotes_depth (t : SymbolTable) (d d2 : Nat) (s : Symbol) :
    promotes t (d + 1) s = promotes t (d2 + 1) s := by
  simp [promotes]

/-- A second `Resolve` of the same name on the same table returns the same symbol, or again
none, and changes no table. -/
theorem Resolve_twice (c : Chain) :
    ∀ (name : String) (recur : Bool), namesOK c →
      (Resolve (Resolve c name recur).1 name recur).1 = (Resolve c name recur).1 ∧
      ((Resolve c name recur).2 = none →
        (Resolve (Resolve c name recur).1 name recur).2 = none) ∧
      (∀ s d, (Resolve c name recur).2 = some (s, d) →
        ∃ d2, (Resolve (Resolve c name recur).1 name recur).2 = some (s, d2)) := by
  induction c with
  | nil => intro name recur _; simp [Resolve]
  | cons t ps ih =>
    intro name recur hn
    have hps : namesOK ps := fun x hx => hn x (List.mem_cons_of_mem _ hx)
    cases hd : directHit t name recur with
    | some s0 =>
      rw [Resolve_hit t ps name recur s0 hd]
      simp only [Resolve_hit t ps name recur s0 hd, true_and]
      refine ⟨fun h => by simp at h, fun s d h => ⟨0, ?_⟩⟩
      simp only [Option.some.injEq, Prod.mk.injEq] at h
      rw [h.1]
    | none =>
      cases ps with
      | nil =>
        rw [Resolve_root_miss t name recur hd]
        simp only [Resolve_root_miss t name recur hd, true_and]
        exact ⟨fun _ => trivial, fun s d h => by simp at h⟩
      | cons p ps =>
        obtain ⟨ih1, ih2, ih3⟩ := ih name true hps
        rcases hr : Resolve (p :: ps) name true with ⟨ps1, _ | ⟨s0, d0⟩⟩
        · rw [hr] at ih1 ih2
          have hne : ps1 ≠ [] := by
            have := Resolve_nonempty (p :: ps) name true (by simp)
            rwa [hr] at this
          have hr2 : Resolve ps1 name true = (ps1, none) :=
            Prod.ext ih1 (ih2 rfl)
          rw [Resolve_miss t (p :: ps) ps1 name recur hd (by simp) hr]
          simp only [Resolve_miss t ps1 ps1 name recur hd hne hr2, true_and]
          exact ⟨fun _ => trivial, fun s d h => by simp at h⟩
        · rw [hr] at ih1 ih3
          have hne : ps1 ≠ [] := by
            have := Resolve_nonempty (p :: ps) name true (by simp)
            rwa [hr] at this
          have hs0 : s0.Name = name := Resolve_name (p :: ps) name true s0 d0 hps (by rw [hr])
          obtain ⟨d2, hd2⟩ := ih3 s0 d0 rfl
          have hr2 : Resolve ps1 name true = (ps1, some (s0, d2)) := Prod.ext ih1 hd2
          rw [Resolve_found t (p :: ps) ps1 name recur s0 d0 hd (by simp) hr]
          by_cases hp : promotes t (d0 + 1) s0 = true
          · simp only [hp, if_true]
            have hget : storeGet (defineFree t s0).1.store name = some (defineFree t s0).2 := by
              rw [← hs0]
              exact defineFree_store_same t s0
            have hhit : directHit (defineFree t s0).1 name recur = some (defineFree t s0).2 := by
              simp only [directHit, hget, defineFree_symbol]
              simp
            simp only [Resolve_hit _ ps1 name recur _ hhit, true_and]
            exact ⟨fun h => by simp at h, fun s d h => ⟨0, by
              simp only [Option.some.injEq, Prod.mk.injEq] at h
              rw [h.1]⟩⟩
          · have hp1 : promotes t (d0 + 1) s0 = false := by simpa using hp
            have hp2 : promotes t (d2 + 1) s0 = false := by
              rw [← promotes_depth t d0 d2 s0]
              exact hp1
            simp only [hp1, Bool.false_eq_true, if_false]
            rw [Resolve_found t ps1 ps1 name recur s0 d2 hd hne hr2]
            simp only [hp2, Bool.false_eq_true, if_false, true_and]
            exact ⟨fun h => by simp at h, fun s d h => ⟨d2 + 1, by
              simp only [Option.some.injEq, Prod.mk.injEq] at h
              rw [h.1]⟩⟩


theorem names_storeSet (store : List (String × Symbol)) (name : String) (sym : Symbol)
    (hsym : sym.Name = name) (h : ∀ kv ∈ store, kv.2.Name = kv.1) :
    ∀ kv ∈ storeSet store name sym, kv.2.Name = kv.1 := by
  intro kv hkv
  rcases mem_storeSet store name kv.1 sym kv.2 hkv with ⟨h1, h2⟩ | ⟨h1, _⟩
  · rw [h1, h2]; exact hsym
  · exact h kv h1

theorem namesOK_cons (t : SymbolTable) (ps : Chain) :
    namesOK (t :: ps) ↔ (∀ kv ∈ t.store, kv.2.Name = kv.1) ∧ namesOK ps := by
  simp [namesOK]

theorem namesOK_updateMaxDefs (c : Chain) :
    ∀ (n : Nat) (c1 : Chain), updateMaxDefs c n = some c1 → namesOK c → namesOK c1 := by
  induction c with
  | nil => intro n c1 h; simp [updateMaxDefs] at h
  | cons t ps ih =>
    intro n c1 h hn
    rw [namesOK_cons] at hn
    simp only [updateMaxDefs] at h
    have hstore : (if n > t.maxDefinition then { t with maxDefinition := n } else t).store
        = t.store := by split <;> rfl
    generalize (if n > t.maxDefinition then { t with maxDefinition := n } else t) = t1
      at h hstore
    by_cases hb : t1.block = true
    · rw [if_pos hb] at h
      cases hu : updateMaxDefs ps n with
      | none => rw [hu] at h; simp at h
      | some ps1 =>
        rw [hu] at h
        simp only [Option.map_some', Option.some.injEq] at h
        rw [← h, namesOK_cons, hstore]
        exact ⟨hn.1, ih n ps1 hu hn.2⟩
    · rw [if_neg hb] at h
      simp only [Option.some.injEq] at h
      rw [← h, namesOK_cons, hstore]
      exact hn

theorem namesOK_bumpRoot (c : Chain) (h : namesOK c) : namesOK (bumpRoot c) := by
  intro t1 ht1
  obtain ⟨t, ht, hs, _⟩ := (bumpRoot_shape c).1 t1 ht1
  rw [hs]
  exact h t ht

theorem namesOK_Define (c : Chain) (name : String) (r : Chain × Symbol)
    (h : Define c name = some r) (hn : namesOK c) : namesOK r.1 := by
  cases c with
  | nil => simp [Define] at h
  | cons t ps =>
    rw [namesOK_cons] at hn
    simp only [Define] at h
    cases hi : nextIndex (t :: ps) with
    | none => rw [hi] at h; simp at h
    | some index =>
      rw [hi] at h
      simp only at h
      cases hp : Parent ({ t with numDefinition := t.numDefinition + 1 } :: ps) true with
      | none => rw [hp] at h; simp at h
      | some par =>
        rw [hp] at h
        simp only at h
        split at h
        · cases hu : updateMaxDefs _ _ with
          | none => rw [hu] at h; simp at h
          | some c3 =>
            rw [hu] at h
            simp only [Option.map_some', Option.some.injEq] at h
            rw [← h]
            refine namesOK_updateMaxDefs _ _ c3 hu ?_
            rw [namesOK_cons]
            refine ⟨?_, ?_⟩
            · refine names_storeSet _ name _ rfl ?_
              split <;> exact hn.1
            · split
              · exact hn.2
              · exact namesOK_bumpRoot ps hn.2
        · cases hu : updateMaxDefs _ _ with
          | none => rw [hu] at h; simp at h
          | some c3 =>
            rw [hu] at h
            simp only [Option.map_some', Option.some.injEq] at h
            rw [← h]
            refine namesOK_updateMaxDefs _ _ c3 hu ?_
            rw [namesOK_cons]
            exact ⟨names_storeSet _ name _ rfl hn.1, hn.2⟩

theorem namesOK_DefineBuiltin (c : Chain) :
    ∀ (index : Nat) (name : String) (r : Chain × Symbol),
      DefineBuiltin c index name = some r → namesOK c → namesOK r.1 := by
  induction c with
  | nil => intro index name r h; simp [DefineBuiltin] at h
  | cons t ps ih =>
    intro index name r h hn
    rw [namesOK_cons] at hn
    cases ps with
    | nil =>
      simp only [DefineBuiltin, Option.some.injEq] at h
      rw [← h, namesOK_cons]
      exact ⟨names_storeSet _ name _ rfl hn.1, hn.2⟩
    | cons p ps =>
      simp only [DefineBuiltin] at h
      cases hd : DefineBuiltin (p :: ps) index name with
      | none => rw [hd] at h; simp at h
      | some r0 =>
        rw [hd] at h
        simp only [Option.map_some', Option.some.injEq] at h
        rw [← h, namesOK_cons]
        exact ⟨hn.1, ih index name r0 hd hn.2⟩

theorem namesOK_Resolve (c : Chain) :
    ∀ (name : String) (recur : Bool), namesOK c → namesOK (Resolve c name recur).1 := by
  induction c with
  | nil => intro name recur h; simpa [Resolve] using h
  | cons t ps ih =>
    intro name recur hn
    have hn2 := (namesOK_cons t ps).1 hn
    cases hd : directHit t name recur with
    | some s0 => rw [Resolve_hit t ps name recur s0 hd]; exact hn
    | none =>
      cases ps with
      | nil => rw [Resolve_root_miss t name recur hd]; exact hn
      | cons p ps =>
        have hps := ih name true hn2.2
        rcases hr : Resolve (p :: ps) name true with ⟨ps1, _ | ⟨s0, d0⟩⟩
        · rw [hr] at hps
          rw [Resolve_miss t (p :: ps) ps1 name recur hd (by simp) hr, namesOK_cons]
          exact ⟨hn2.1, hps⟩
        · rw [hr] at hps
          rw [Resolve_found t (p :: ps) ps1 name recur s0 d0 hd (by simp) hr]
          split
          · rw [namesOK_cons]
            exact ⟨names_storeSet _ s0.Name _ rfl hn2.1, hps⟩
          · rw [namesOK_cons]
            exact ⟨hn2.1, hps⟩

theorem namesOK_assignLocal (c : Chain) (name : String) (hn : namesOK c) :
    namesOK (assignLocal c name) := by
  cases c with
  | nil => simpa [assignLocal] using hn
  | cons t ps =>
    rw [namesOK_cons] at hn
    simp only [assignLocal]
    rw [namesOK_cons]
    refine ⟨?_, hn.2⟩
    intro kv hkv
    simp only [List.mem_map] at hkv
    obtain ⟨kv0, hkv0, he⟩ := hkv
    have h0 := hn.1 kv0 hkv0
    split at he
    · rw [← he]; exact h0
    · rw [← he]; exact h0

theorem namesOK_step (c c1 : Chain) (op : ScopeOp) (h : scopeStep c op = some c1)
    (hn : namesOK c) : namesOK c1 := by
  cases c with
  | nil => simp [scopeStep] at h
  | cons t ps =>
    cases op with
    | fork block =>
      simp only [scopeStep, Fork, Option.some.injEq] at h
      rw [← h, namesOK_cons]
      exact ⟨by simp, hn⟩
    | define name =>
      simp only [scopeStep] at h
      cases hd : Define (t :: ps) name with
      | none => rw [hd] at h; simp at h
      | some r =>
        rw [hd] at h
        simp only [Option.map_some', Option.some.injEq] at h
        rw [← h]
        exact namesOK_Define _ name r hd hn
    | builtin index name =>
      simp only [scopeStep] at h
      cases hd : DefineBuiltin (t :: ps) index name with
      | none => rw [hd] at h; simp at h
      | some r =>
        rw [hd] at h
        simp only [Option.map_some', Option.some.injEq] at h
        rw [← h]
        exact namesOK_DefineBuiltin _ index name r hd hn
    | resolve name =>
      simp only [scopeStep, Option.some.injEq] at h
      rw [← h]
      exact namesOK_Resolve _ name false hn
    | assign name =>
      simp only [scopeStep, Option.some.injEq] at h
      rw [← h]
      exact namesOK_assignLocal _ name hn
    | leave =>
      simp only [scopeStep, Parent, Bool.false_and, Bool.false_eq_true, if_false,
        Option.some.injEq] at h
      rw [← h]
      exact ((namesOK_cons t ps).1 hn).2

/-- Nested use of a new symbol table stores every symbol under its own name. -/
theorem runScope_namesOK (ops : List ScopeOp) :
    ∀ (c c1 : Chain), runScope c ops = some c1 → namesOK c → namesOK c1 := by
  induction ops with
  | nil => intro c c1 h hn; simp only [runScope, Option.some.injEq] at h; rw [← h]; exact hn
  | cons op ops ih =>
    intro c c1 h hn
    simp only [runScope] at h
    cases hs : scopeStep c op with
    | none => rw [hs] at h; simp at h
    | some c2 =>
      rw [hs] at h
      exact ih c2 c1 h (namesOK_step c c2 op hs hn)

theorem namesOK_new : namesOK NewSymbolTable := by
  simp [namesOK, NewSymbolTable]

/-- C36: a second `Resolve(name, false)` on the same table, with no other call in between,
gives the answer of the first: the name is found again or is again not found, the symbol
found has the same scope and index (it is the same symbol), and the second call changes no
table, so it adds no entry to any `FreeSymbols()`. The tables are those that store every
symbol under its own name, which is all that `Define`, `DefineBuiltin` and `defineFree`
ever write (`runScope_namesOK`). -/
theorem c36_resolve_twice_same (c : Chain) (name : String) (hnames : namesOK c) :
    (Resolve (Resolve c name false).1 name false).1 = (Resolve c name false).1 ∧
    (Resolve (Resolve c name false).1 name false).1.map (fun t => t.freeSymbols)
      = (Resolve c name false).1.map (fun t => t.freeSymbols) ∧
    ((Resolve (Resolve c name false).1 name false).2.isSome
      = (Resolve c name false).2.isSome) ∧
    (∀ s d, (Resolve c name false).2 = some (s, d) →
      ∃ s2 d2, (Resolve (Resolve c name false).1 name false).2 = some (s2, d2) ∧
        s2.Scope = s.Scope ∧ s2.Index = s.Index ∧ s2 = s) := by
  obtain ⟨h1, h2, h3⟩ := Resolve_twice c name false hnames
  refine ⟨h1, by rw [h1], ?_, ?_⟩
  · cases hr : (Resolve c name false).2 with
    | none => rw [h2 hr]
    | some sd =>
      obtain ⟨d2, hd2⟩ := h3 sd.1 sd.2 hr
      rw [hd2]; rfl
  · intro s d hsd
    obtain ⟨d2, hd2⟩ := h3 s d hsd
    exact ⟨s, d2, hd2, rfl, rfl, rfl⟩

theorem c36_resolve_twice_same_witness :
    namesOK (sampleFunctionTable :: sampleAncestors) ∧
    (Resolve (sampleFunctionTable :: sampleAncestors) "x" false).2
      = some (Symbol.mk "x" SymbolScope.ScopeFree 0 false, 1) ∧
    (Resolve (Resolve (sampleFunctionTable :: sampleAncestors) "x" false).1 "x" false).2
      = some (Symbol.mk "x" SymbolScope.ScopeFree 0 false, 0) ∧
    (Resolve (Resolve (sampleFunctionTable :: sampleAncestors) "x" false).1 "x" false).1.map
        (fun t => t.freeSymbols)
      = [[Symbol.mk "x" SymbolScope.ScopeLocal 0 true], [], []] :=
  have hn : namesOK (sampleFunctionTable :: sampleAncestors) :=
    runScope_namesOK [.fork false, .define "x", .assign "x", .fork false] NewSymbolTable
      (sampleFunctionTable :: sampleAncestors) (by decide) namesOK_new
  have h := c36_resolve_twice_same (sampleFunctionTable :: sampleAncestors) "x" hn
  ⟨hn, by decide, by decide, by rw [h.2.1]; decide⟩


/-! ## Theorems: `RemoveDuplicates` twice -/

theorem ReadOperands_length (widths : List Nat) :
    ∀ (l1 l2 : List Nat), l1.length = l2.length →
      (ReadOperands widths l1).map Prod.snd = (ReadOperands widths l2).map Prod.snd := by
  induction widths with
  | nil => intro l1 l2 _; rfl
  | cons w ws ih =>
    intro l1 l2 hlen
    by_cases h1 : w = 1
    · subst h1
      cases l1 with
      | nil =>
        cases l2 with
        | nil => rfl
        | cons b l2 => simp at hlen
      | cons a l1 =>
        cases l2 with
        | nil => simp at hlen
        | cons b l2 =>
          have := ih l1 l2 (by simpa using hlen)
          simp only [ReadOperands, if_true, Option.map_map]
          have h3 : ∀ (a : Nat) (r : Option (List Nat × Nat)),
              Option.map (Prod.snd ∘ fun r => (a :: r.1, r.2 + 1)) r
                = (r.map Prod.snd).map (fun n => n + 1) := by
            intro a r; cases r <;> rfl
          rw [h3, h3, this]
    · by_cases h2 : w = 2
      · subst h2
        cases l1 with
        | nil =>
          cases l2 with
          | nil => rfl
          | cons b l2 => simp at hlen
        | cons a l1 =>
          cases l2 with
          | nil => simp at hlen
          | cons b l2 =>
            cases l1 with
            | nil =>
              cases l2 with
              | nil => rfl
              | cons b2 l2 => simp at hlen
            | cons a2 l1 =>
              cases l2 with
              | nil => simp at hlen
              | cons b2 l2 =>
                have := ih l1 l2 (by simpa using hlen)
                simp only [ReadOperands, Option.map_map]
                have h3 : ∀ (v : Nat) (r : Option (List Nat × Nat)),
                    Option.map (Prod.snd ∘ fun r => (v :: r.1, r.2 + 2)) r
                      = (r.map Prod.snd).map (fun n => n + 2) := by
                  intro v r; cases r <;> rfl
                simp only [show (2 : Nat) = 1 ↔ False from by decide, if_false, if_true,
                  Option.map_map]
                rw [h3, h3, this]
      · have := ih (l1.drop w) (l2.drop w) (by simp [hlen])
        simp only [ReadOperands, h1, h2, if_false, Option.map_map]
        have h3 : ∀ (r : Option (List Nat × Nat)),
            Option.map (Prod.snd ∘ fun r => (r.1, r.2 + w)) r
              = (r.map Prod.snd).map (fun n => n + w) := by
          intro r; cases r <;> rfl
        rw [h3, h3, this]

/-- One turn of `updateConstIndexes` on a CONST instruction. -/
theorem updateLoop_const (X : List (Nat × Nat)) (fuel : Nat) (pre tl : List Nat)
    (hi lo : Nat) :
    updateLoop X (fuel + 1) (pre ++ (OpConstant :: hi :: lo :: tl)) pre.length
      = match indexGet X (lo ||| hi <<< 8) with
        | none => .panicked (.explicit "sabit index bulunamadı")
        | some new =>
          updateLoop X fuel ((pre ++ [OpConstant, new / 256 % 256, new % 256]) ++ tl)
            (pre ++ [OpConstant, new / 256 % 256, new % 256]).length := by
  have hlt : pre.length < (pre ++ (OpConstant :: hi :: lo :: tl)).length := by simp
  have hop : (pre ++ (OpConstant :: hi :: lo :: tl)).getD pre.length 0 = OpConstant := by
    simpa using getD_append_offset pre (OpConstant :: hi :: lo :: tl) 0 0
  have hg1 : (pre ++ (OpConstant :: hi :: lo :: tl)).getD (pre.length + 1) 0 = hi := by
    simpa using getD_append_offset pre (OpConstant :: hi :: lo :: tl) 1 0
  have hg2 : (pre ++ (OpConstant :: hi :: lo :: tl)).getD (pre.length + 2) 0 = lo := by
    simpa using getD_append_offset pre (OpConstant :: hi :: lo :: tl) 2 0
  have hdrop : (pre ++ (OpConstant :: hi :: lo :: tl)).drop (pre.length + 1)
      = hi :: lo :: tl := by simp
  have hw : OpcodeOperands[OpConstant]? = some [2] := by decide
  rw [updateLoop, if_pos hlt]
  simp only [hop, hw, hdrop, hg1, hg2, ReadOperands, if_true]
  cases hget : indexGet X (lo ||| hi <<< 8) with
  | none => simp
  | some new =>
    have hmk : MakeInstruction OpConstant [new]
        = some [OpConstant, new / 256 % 256, new % 256] := by
      simp [MakeInstruction, OpcodeOperands, OpConstant, encodeOperands]
    have hcopy : copyAt (pre ++ (OpConstant :: hi :: lo :: tl)) pre.length
        [OpConstant, new / 256 % 256, new % 256]
        = (pre ++ [OpConstant, new / 256 % 256, new % 256]) ++ tl := by
      have := copyAt_append pre [OpConstant, hi, lo]
        [OpConstant, new / 256 % 256, new % 256] tl rfl
      simpa using this
    simp only [show ((2 : Nat) = 1) = False from by simp, if_false, Option.map_some',
      hmk, hcopy]
    simp


/-- One turn of `updateConstIndexes` on a CLOSURE instruction. -/
theorem updateLoop_closure (X : List (Nat × Nat)) (fuel : Nat) (pre tl : List Nat)
    (hi lo nf : Nat) :
    updateLoop X (fuel + 1) (pre ++ (OpClosure :: hi :: lo :: nf :: tl)) pre.length
      = match indexGet X (lo ||| hi <<< 8) with
        | none => .panicked (.explicit "index bulunamadı")
        | some new =>
          updateLoop X fuel
            ((pre ++ [OpClosure, new / 256 % 256, new % 256, nf % 256]) ++ tl)
            (pre ++ [OpClosure, new / 256 % 256, new % 256, nf % 256]).length := by
  have hlt : pre.length < (pre ++ (OpClosure :: hi :: lo :: nf :: tl)).length := by simp
  have hop : (pre ++ (OpClosure :: hi :: lo :: nf :: tl)).getD pre.length 0 = OpClosure := by
    simpa using getD_append_offset pre (OpClosure :: hi :: lo :: nf :: tl) 0 0
  have hg1 : (pre ++ (OpClosure :: hi :: lo :: nf :: tl)).getD (pre.length + 1) 0 = hi := by
    simpa using getD_append_offset pre (OpClosure :: hi :: lo :: nf :: tl) 1 0
  have hg2 : (pre ++ (OpClosure :: hi :: lo :: nf :: tl)).getD (pre.length + 2) 0 = lo := by
    simpa using getD_append_offset pre (OpClosure :: hi :: lo :: nf :: tl) 2 0
  have hg3 : (pre ++ (OpClosure :: hi :: lo :: nf :: tl)).getD (pre.length + 3) 0 = nf := by
    simpa using getD_append_offset pre (OpClosure :: hi :: lo :: nf :: tl) 3 0
  have hdrop : (pre ++ (OpClosure :: hi :: lo :: nf :: tl)).drop (pre.length + 1)
      = hi :: lo :: nf :: tl := by simp
  have hw : OpcodeOperands[OpClosure]? = some [2, 1] := by decide
  have hne : ¬ OpClosure = OpConstant := by decide
  rw [updateLoop, if_pos hlt]
  simp only [hop, hw, hdrop, hg1, hg2, hg3, ReadOperands, if_true, if_neg hne]
  cases hget : indexGet X (lo ||| hi <<< 8) with
  | none => simp
  | some new =>
    have hmk : MakeInstruction OpClosure [new, nf]
        = some [OpClosure, new / 256 % 256, new % 256, nf % 256] := by
      simp [MakeInstruction, OpcodeOperands, OpClosure, encodeOperands]
    have hcopy : copyAt (pre ++ (OpClosure :: hi :: lo :: nf :: tl)) pre.length
        [OpClosure, new / 256 % 256, new % 256, nf % 256]
        = (pre ++ [OpClosure, new / 256 % 256, new % 256, nf % 256]) ++ tl := by
      have := copyAt_append pre [OpClosure, hi, lo, nf]
        [OpClosure, new / 256 % 256, new % 256, nf % 256] tl rfl
      simpa using this
    simp only [show ((2 : Nat) = 1) = False from by simp, if_false, Option.map_some',
      hmk, hcopy]
    simp

/-- One turn of `updateConstIndexes` on an instruction that carries no constant index. -/
theorem updateLoop_other (X : List (Nat × Nat)) (fuel : Nat) (insts : List Nat) (i : Nat)
    (widths os : List Nat) (read : Nat) (hlt : i < insts.length)
    (hw : OpcodeOperands[insts.getD i 0]? = some widths)
    (hread : ReadOperands widths (insts.drop (i + 1)) = some (os, read))
    (h1 : insts.getD i 0 ≠ OpConstant) (h2 : insts.getD i 0 ≠ OpClosure) :
    updateLoop X (fuel + 1) insts i = updateLoop X fuel insts (i + 1 + read) := by
  rw [updateLoop, if_pos hlt]
  simp only [hw, hread, if_neg h1, if_neg h2]

theorem split_at (insts : List Nat) (i : Nat) (hlt : i < insts.length) :
    ∃ pre, insts = pre ++ (insts.getD i 0 :: insts.drop (i + 1)) ∧ pre.length = i := by
  refine ⟨insts.take i, ?_, by simp; omega⟩
  have h1 : insts.getD i 0 = insts[i] := by
    rw [List.getD_eq_getElem?_getD, List.getElem?_eq_getElem hlt]; rfl
  rw [h1, ← List.drop_eq_getElem_cons hlt, List.take_append_drop]

theorem or_shift_mod (new : Nat) :
    (new % 256) ||| (new / 256 % 256) <<< 8 = new % 65536 := by
  rw [or_shift_eq _ _ (Nat.mod_lt _ (by decide))]
  omega

/-- A second `updateConstIndexes` leaves the bytes a first one wrote as they are, when the
second map sends every index the first map wrote to itself. -/
theorem updateLoop_twice (M J : List (Nat × Nat))
    (hJ : ∀ k new, indexGet M k = some new →
      indexGet J (new % 65536) = some (new % 65536)) :
    ∀ (fuel : Nat) (insts : List Nat) (i : Nat) (out : List Nat),
      updateLoop M fuel insts i = .ret out →
      out.length = insts.length ∧ out.take i = insts.take i ∧
        updateLoop J fuel out i = .ret out := by
  intro fuel
  induction fuel with
  | zero =>
    intro insts i out h
    simp only [updateLoop, Outcome.ret.injEq] at h
    subst h
    exact ⟨rfl, rfl, rfl⟩
  | succ f ih =>
    intro insts i out h
    by_cases hlt : i < insts.length
    · cases hw : OpcodeOperands[insts.getD i 0]? with
      | none =>
        rw [updateLoop, if_pos hlt] at h
        simp only [hw] at h
        cases h
      | some widths =>
        cases hread : ReadOperands widths (insts.drop (i + 1)) with
        | none =>
          rw [updateLoop, if_pos hlt] at h
          simp only [hw, hread] at h
          cases h
        | some r =>
          obtain ⟨os, read⟩ := r
          obtain ⟨pre, hsplit, hpre⟩ := split_at insts i hlt
          by_cases hc : insts.getD i 0 = OpConstant
          · have hwd : widths = [2] := by
              rw [hc] at hw
              simpa [OpcodeOperands, OpConstant] using hw.symm
            subst hwd
            obtain ⟨hi, lo, tl, hd⟩ : ∃ hi lo tl, insts.drop (i + 1) = hi :: lo :: tl := by
              match hdd : insts.drop (i + 1), hread with
              | a :: b :: tl, _ => exact ⟨a, b, tl, rfl⟩
              | [], hr => simp [ReadOperands] at hr
              | [_], hr => simp [ReadOperands] at hr
            rw [hc, hd] at hsplit
            subst hpre
            rw [hsplit, updateLoop_const] at h
            cases hget : indexGet M (lo ||| hi <<< 8) with
            | none => rw [hget] at h; simp at h
            | some new =>
              rw [hget] at h
              simp only at h
              obtain ⟨e1, e2, e3⟩ := ih _ _ out h
              rw [List.take_left] at e2
              obtain ⟨tl2, hout⟩ : ∃ tl2,
                  out = (pre ++ [OpConstant, new / 256 % 256, new % 256]) ++ tl2 :=
                ⟨out.drop (pre ++ [OpConstant, new / 256 % 256, new % 256]).length, by
                  conv_lhs => rw [← List.take_append_drop
                    (pre ++ [OpConstant, new / 256 % 256, new % 256]).length out]
                  rw [e2]⟩
              subst hout
              have hassoc : (pre ++ [OpConstant, new / 256 % 256, new % 256]) ++ tl2
                  = pre ++ (OpConstant :: (new / 256 % 256) :: (new % 256) :: tl2) := by
                simp
              refine ⟨?_, ?_, ?_⟩
              · rw [hsplit]
                simp only [List.length_append, List.length_cons, List.length_nil] at e1 ⊢
                omega
              · rw [hsplit]; simp
              · have hJ1 := hJ _ new hget
                have hb1 : new % 65536 / 256 % 256 = new / 256 % 256 := by omega
                have hb2 : new % 65536 % 256 = new % 256 := by omega
                rw [hassoc, updateLoop_const, or_shift_mod, hJ1]
                simp only
                rw [hb1, hb2, hassoc]
                rw [hassoc] at e3
                exact e3
          · by_cases hcl : insts.getD i 0 = OpClosure
            · have hwd : widths = [2, 1] := by
                rw [hcl] at hw
                simpa [OpcodeOperands, OpClosure] using hw.symm
              subst hwd
              obtain ⟨hi, lo, nf, tl, hd⟩ :
                  ∃ hi lo nf tl, insts.drop (i + 1) = hi :: lo :: nf :: tl := by
                match hdd : insts.drop (i + 1), hread with
                | a :: b :: c :: tl, _ => exact ⟨a, b, c, tl, rfl⟩
                | [], hr => simp [ReadOperands] at hr
                | [_], hr => simp [ReadOperands] at hr
                | [_, _], hr => simp [ReadOperands] at hr
              rw [hcl, hd] at hsplit
              subst hpre
              rw [hsplit, updateLoop_closure] at h
              cases hget : indexGet M (lo ||| hi <<< 8) with
              | none => rw [hget] at h; simp at h
              | some new =>
                rw [hget] at h
                simp only at h
                obtain ⟨e1, e2, e3⟩ := ih _ _ out h
                rw [List.take_left] at e2
                obtain ⟨tl2, hout⟩ : ∃ tl2,
                    out = (pre ++ [OpClosure, new / 256 % 256, new % 256, nf % 256]) ++ tl2 :=
                  ⟨out.drop
                    (pre ++ [OpClosure, new / 256 % 256, new % 256, nf % 256]).length, by
                    conv_lhs => rw [← List.take_append_drop
                      (pre ++ [OpClosure, new / 256 % 256, new % 256, nf % 256]).length out]
                    rw [e2]⟩
                subst hout
                have hassoc :
                    (pre ++ [OpClosure, new / 256 % 256, new % 256, nf % 256]) ++ tl2
                    = pre ++ (OpClosure :: (new / 256 % 256) :: (new % 256) :: (nf % 256) ::
                        tl2) := by
                  simp
                refine ⟨?_, ?_, ?_⟩
                · rw [hsplit]
                  simp only [List.length_append, List.length_cons, List.length_nil] at e1 ⊢
                  omega
                · rw [hsplit]; simp
                · have hJ1 := hJ _ new hget
                  have hb1 : new % 65536 / 256 % 256 = new / 256 % 256 := by omega
                  have hb2 : new % 65536 % 256 = new % 256 := by omega
                  rw [hassoc, updateLoop_closure, or_shift_mod, hJ1]
                  simp only
                  rw [hb1, hb2, Nat.mod_mod, hassoc]
                  rw [hassoc] at e3
                  exact e3
            · rw [updateLoop_other M f insts i widths os read hlt hw hread hc hcl] at h
              obtain ⟨e1, e2, e3⟩ := ih _ _ out h
              have htake : ∀ j, j ≤ i + 1 + read → out.take j = insts.take j := by
                intro j hj
                have := congrArg (List.take j) e2
                simpa [List.take_take, Nat.min_eq_left hj] using this
              have hget : out.getD i 0 = insts.getD i 0 := by
                have h1 := htake (i + 1) (by omega)
                have h2 : (out.take (i + 1)).getD i 0 = out.getD i 0 := by
                  simp [List.getD_eq_getElem?_getD, List.getElem?_take]
                have h3 : (insts.take (i + 1)).getD i 0 = insts.getD i 0 := by
                  simp [List.getD_eq_getElem?_getD, List.getElem?_take]
                rw [← h2, ← h3, h1]
              have hread2 : ∃ os2, ReadOperands widths (out.drop (i + 1)) = some (os2, read) := by
                have := ReadOperands_length widths (out.drop (i + 1)) (insts.drop (i + 1))
                  (by simp [e1])
                rw [hread] at this
                cases hr : ReadOperands widths (out.drop (i + 1)) with
                | none => rw [hr] at this; simp at this
                | some r2 =>
                  rw [hr] at this
                  simp only [Option.map_some', Option.some.injEq] at this
                  exact ⟨r2.1, by rw [← this]⟩
              obtain ⟨os2, hread2⟩ := hread2
              refine ⟨e1, htake i (by omega), ?_⟩
              rw [updateLoop_other J f out i widths os2 read (by omega)
                (by rw [hget]; exact hw) hread2 (by rw [hget]; exact hc)
                (by rw [hget]; exact hcl)]
              exact e3
    · rw [updateLoop, if_neg hlt] at h
      simp only [Outcome.ret.injEq] at h
      subst h
      refine ⟨rfl, rfl, ?_⟩
      rw [updateLoop, if_neg hlt]

theorem updateConstIndexes_twice (M J : List (Nat × Nat))
    (hJ : ∀ k new, indexGet M k = some new →
      indexGet J (new % 65536) = some (new % 65536))
    (insts out : List Nat) (h : updateConstIndexes insts M = .ret out) :
    updateConstIndexes out J = .ret out := by
  obtain ⟨e1, _, e3⟩ := updateLoop_twice M J hJ _ _ _ _ h
  simp only [updateConstIndexes]
  rw [e1]
  exact e3


theorem dedupStep_allowed (st st1 : DedupState) (k : Nat) (c : Object)
    (h : dedupStep st k c = .ret st1) : allowedConstant c = true := by
  cases c <;> first | rfl | (simp [dedupStep] at h)

theorem dedupLoop_allowed (cs : List Object) :
    ∀ (st st1 : DedupState) (k : Nat), dedupLoop st k cs = .ret st1 →
      ∀ c ∈ cs, allowedConstant c = true := by
  induction cs with
  | nil => intro st st1 k _ c hc; simp at hc
  | cons c0 cs ih =>
    intro st st1 k h c hc
    simp only [dedupLoop] at h
    cases hs : dedupStep st k c0 with
    | ret st2 =>
      rw [hs] at h
      rcases List.mem_cons.1 hc with rfl | hc
      · exact dedupStep_allowed st st2 k c hs
      · exact ih st2 st1 (k + 1) h c hc
    | fail e => rw [hs] at h; cases h
    | panicked p => rw [hs] at h; cases h

theorem dedupStep_key (st st1 : DedupState) (k : Nat) (c : Object)
    (h : dedupStep st k c = .ret st1) : ∃ v, st1.indexMap = (k, v) :: st.indexMap := by
  cases c <;> simp only [dedupStep] at h <;> first
    | (cases h)
    | (split at h <;> first
        | (simp only [Outcome.ret.injEq] at h; subst h; exact ⟨_, rfl⟩)
        | (split at h <;> (simp only [Outcome.ret.injEq] at h; subst h; exact ⟨_, rfl⟩)))

theorem dedupLoop_keys (cs : List Object) :
    ∀ (st st1 : DedupState) (k : Nat), dedupLoop st k cs = .ret st1 →
      ∀ key, ¬ (k ≤ key ∧ key < k + cs.length) →
        indexGet st1.indexMap key = indexGet st.indexMap key := by
  induction cs with
  | nil =>
    intro st st1 k h key _
    simp only [dedupLoop, Outcome.ret.injEq] at h
    subst h
    rfl
  | cons c0 cs ih =>
    intro st st1 k h key hkey
    simp only [List.length_cons] at hkey
    simp only [dedupLoop] at h
    cases hs : dedupStep st k c0 with
    | ret st2 =>
      rw [hs] at h
      obtain ⟨w, hw⟩ := dedupStep_key st st2 k c0 hs
      rw [ih st2 st1 (k + 1) h key (by omega), hw]
      have : (key == k) = false := by
        simp only [beq_eq_false_iff_ne, ne_eq]
        omega
      simp only [indexGet, List.lookup_cons, this]
    | fail e => rw [hs] at h; cases h
    | panicked p => rw [hs] at h; cases h

theorem dedupStep_miss (st st1 : DedupState) (k : Nat) (c : Object)
    (hseen : st.seen c = false) (h : dedupStep st k c = .ret st1) :
    st1.indexMap = (k, st.deduped.length) :: st.indexMap := by
  cases c <;> simp only [dedupStep] at h <;> first
    | (cases h)
    | (simp only [DedupState.seen] at hseen
       split at h <;> first
        | (simp only [Outcome.ret.injEq] at h; subst h; rfl)
        | (split at h <;> first
            | (simp only [Outcome.ret.injEq] at h; subst h; rfl)
            | (exfalso; simp_all))
        | (exfalso; simp_all))

/-- On a pool without two constants of one key the first loop of `RemoveDuplicates` keeps
every constant and maps each index to itself. -/
theorem dedupLoop_fresh (cs : List Object) :
    ∀ (done : List Object) (st : DedupState) (k : Nat),
      (∀ c1, st.seen c1 = done.any (fun d => sameConstant d c1)) →
      (∀ c ∈ cs, allowedConstant c = true) →
      (∀ d ∈ done, ∀ c ∈ cs, sameConstant d c = false) →
      cs.Pairwise (fun c d => sameConstant c d = false) →
      ∃ st1, dedupLoop st k cs = .ret st1 ∧ st1.deduped = st.deduped ++ cs ∧
        ∀ key, k ≤ key → key < k + cs.length →
          indexGet st1.indexMap key = some (st.deduped.length + (key - k)) := by
  induction cs with
  | nil =>
    intro done st k _ _ _ _
    exact ⟨st, rfl, by simp, fun key h1 h2 => by simp at h2; omega⟩
  | cons c cs ih =>
    intro done st k hseen hall hdone hpair
    obtain ⟨st1, hstep, hded, hseen1⟩ :=
      dedupStep_first st k c (hall c (List.mem_cons_self _ _))
    have hnot : st.seen c = false := by
      rw [hseen c]
      rw [List.any_eq_false]
      intro d hd
      rw [hdone d hd c (List.mem_cons_self _ _)]
      simp
    have hmap := dedupStep_miss st st1 k c hnot hstep
    rw [hnot] at hded
    simp only [Bool.false_eq_true, if_false] at hded
    rw [List.pairwise_cons] at hpair
    have hseen2 : ∀ c1, st1.seen c1 = (done ++ [c]).any (fun d => sameConstant d c1) := by
      intro c1
      rw [hseen1 c1, hseen c1, hnot]
      simp
    obtain ⟨st2, hloop, hded2, hidx⟩ := ih (done ++ [c]) st1 (k + 1) hseen2
      (fun x hx => hall x (List.mem_cons_of_mem _ hx))
      (by
        intro d hd x hx
        rcases List.mem_append.1 hd with hd | hd
        · exact hdone d hd x (List.mem_cons_of_mem _ hx)
        · simp only [List.mem_singleton] at hd
          subst hd
          exact hpair.1 x hx)
      hpair.2
    refine ⟨st2, by simp only [dedupLoop, hstep]; exact hloop, by rw [hded2, hded]; simp, ?_⟩
    intro key h1 h2
    simp only [List.length_cons] at h2
    by_cases hk : key = k
    · subst hk
      rw [dedupLoop_keys cs st1 st2 (key + 1) hloop key (by omega), hmap]
      simp [indexGet]
    · rw [hidx key (by omega) (by omega), hded]
      simp only [List.length_append, List.length_cons, List.length_nil]
      congr 1
      omega


theorem updatePool_twice (M J : List (Nat × Nat))
    (hJ : ∀ k new, indexGet M k = some new →
      indexGet J (new % 65536) = some (new % 65536)) (cs : List Object) :
    ∀ cs1, updatePool M cs = .ret cs1 → updatePool J cs1 = .ret cs1 := by
  induction cs with
  | nil =>
    intro cs1 h
    simp only [updatePool, Outcome.ret.injEq] at h
    subst h
    rfl
  | cons c cs ih =>
    intro cs1 h
    cases hrest : updatePool M cs with
    | ret r =>
      have hr := ih r hrest
      cases c with
      | compiledFunction addr fn =>
        simp only [updatePool, hrest] at h
        cases hu : updateConstIndexes fn.Instructions M with
        | ret insts =>
          rw [hu] at h
          simp only [Outcome.ret.injEq] at h
          subst h
          simp only [updatePool, updateConstIndexes_twice M J hJ _ _ hu, hr]
        | fail e => rw [hu] at h; cases h
        | panicked p => rw [hu] at h; cases h
      | _ =>
        simp only [updatePool, hrest, Outcome.ret.injEq] at h
        subst h
        simp only [updatePool, hr]
    | fail e =>
      cases c with
      | compiledFunction addr fn =>
        simp only [updatePool, hrest] at h
        split at h <;> cases h
      | _ => simp only [updatePool, hrest] at h; cases h
    | panicked p =>
      cases c with
      | compiledFunction addr fn =>
        simp only [updatePool, hrest] at h
        split at h <;> cases h
      | _ => simp only [updatePool, hrest] at h; cases h

theorem allowedConstant_without (c : Object) :
    allowedConstant (withoutInstructions c) = allowedConstant c := by
  cases c <;> rfl

/-- C35: `RemoveDuplicates` is idempotent. For every bytecode on which it returns, a second
`RemoveDuplicates` on the result returns too and leaves the bytecode exactly as the first
left it: the constant pool with every function of it and its instruction bytes, and the
main function with its instruction bytes. -/
theorem c35_remove_duplicates_idempotent (b b1 : Bytecode)
    (h : RemoveDuplicates b = .ret b1) :
    RemoveDuplicates b1 = .ret b1 ∧
    (∀ b2, RemoveDuplicates b1 = .ret b2 →
      b2.Constants = b1.Constants ∧
      b2.MainFunction.Instructions = b1.MainFunction.Instructions) := by
  have key : RemoveDuplicates b1 = .ret b1 := by
    simp only [RemoveDuplicates] at h
    cases hloop : dedupLoop DedupState.empty 0 b.Constants with
    | fail e => rw [hloop] at h; cases h
    | panicked p => rw [hloop] at h; cases h
    | ret st =>
      rw [hloop] at h
      simp only at h
      cases hmain : updateConstIndexes b.MainFunction.Instructions st.indexMap with
      | fail e => rw [hmain] at h; cases h
      | panicked p => rw [hmain] at h; cases h
      | ret insts =>
        rw [hmain] at h
        simp only at h
        cases hpool : updatePool st.indexMap st.deduped with
        | fail e => rw [hpool] at h; cases h
        | panicked p => rw [hpool] at h; cases h
        | ret cs1 =>
          rw [hpool] at h
          simp only [Outcome.ret.injEq] at h
          subst h
          have hall := dedupLoop_allowed b.Constants DedupState.empty st 0 hloop
          obtain ⟨st0, hloop0, hfirst⟩ := dedupLoop_first b.Constants [] DedupState.empty 0
            (by intro c1; cases c1 <;> rfl) hall
          rw [hloop] at hloop0
          simp only [Outcome.ret.injEq] at hloop0
          subst hloop0
          simp only [DedupState.empty, List.nil_append] at hfirst
          obtain ⟨st0, hloop0, hinv⟩ :=
            dedupLoop_inv b.Constants [] DedupState.empty DedupInv_empty hall
          simp only [List.length_nil, List.nil_append] at hloop0 hinv
          rw [hloop] at hloop0
          simp only [Outcome.ret.injEq] at hloop0
          subst hloop0
          have hwo := updatePool_without st.indexMap st.deduped cs1 hpool
          have hlen : cs1.length = st.deduped.length := by
            have := congrArg List.length hwo
            simpa using this
          have hpair : cs1.Pairwise (fun c d => sameConstant c d = false) := by
            have hp : (st.deduped.map withoutInstructions).Pairwise
                (fun c d => sameConstant c d = false) := by
              rw [List.pairwise_map]
              simp only [sameConstant_withoutInstructions]
              rw [hfirst]
              exact firstOccurrencesFrom_pairwise b.Constants []
            rw [← hwo, List.pairwise_map] at hp
            simp only [sameConstant_withoutInstructions] at hp
            exact hp
          have hall1 : ∀ c ∈ cs1, allowedConstant c = true := by
            intro c hc
            have hm : withoutInstructions c ∈ st.deduped.map withoutInstructions := by
              rw [← hwo]
              exact List.mem_map_of_mem _ hc
            obtain ⟨d, hd, hdc⟩ := List.mem_map.1 hm
            rw [← allowedConstant_without c, ← hdc, allowedConstant_without]
            exact hall d (hinv.2.1 d hd)
          obtain ⟨st2, hloop2, hded2, hidx2⟩ := dedupLoop_fresh cs1 [] DedupState.empty 0
            (by intro c1; cases c1 <;> rfl) hall1 (by intro d hd; simp at hd) hpair
          simp only [DedupState.empty, List.nil_append, List.length_nil, Nat.zero_add,
            Nat.sub_zero] at hded2 hidx2
          have hJ : ∀ k new, indexGet st.indexMap k = some new →
              indexGet st2.indexMap (new % 65536) = some (new % 65536) := by
            intro k new hk
            have hkr : k < b.Constants.length := by
              by_contra hnot
              have := dedupLoop_keys b.Constants DedupState.empty st 0 hloop k (by omega)
              rw [hk] at this
              simp [DedupState.empty, indexGet] at this
            obtain ⟨i, d, hi, _, hd, _⟩ :=
              hinv.2.2.1 k (b.Constants[k]) (List.getElem?_eq_getElem hkr)
            rw [hk] at hi
            simp only [Option.some.injEq] at hi
            subst hi
            have hnew : new < st.deduped.length := getElem?_lt_of_some _ _ _ hd
            exact hidx2 (new % 65536) (Nat.zero_le _)
              (by have := Nat.mod_le new 65536; omega)
          simp only [RemoveDuplicates, hloop2, hded2,
            updateConstIndexes_twice st.indexMap st2.indexMap hJ _ _ hmain,
            updatePool_twice st.indexMap st2.indexMap hJ st.deduped cs1 hpool]
  refine ⟨key, ?_⟩
  intro b2 h2
  rw [key] at h2
  simp only [Outcome.ret.injEq] at h2
  subst h2
  exact ⟨rfl, rfl⟩

theorem c35_remove_duplicates_idempotent_witness :
    RemoveDuplicates sampleBytecode =
      .ret (Bytecode.mk
        (CompiledFunction.mk (encode [Instr.mk OpConstant [0, 0], Instr.mk OpConstant [0, 1],
          Instr.mk OpClosure [0, 2, 0], Instr.mk OpSuspend []]) 0 0 false [] [])
        [Object.int 5, Object.string (ascii "a"),
         Object.compiledFunction 1 (CompiledFunction.mk
           (encode [Instr.mk OpConstant [0, 1], Instr.mk OpReturn [1]]) 0 0 false [] [])]) ∧
    RemoveDuplicates (Bytecode.mk
        (CompiledFunction.mk (encode [Instr.mk OpConstant [0, 0], Instr.mk OpConstant [0, 1],
          Instr.mk OpClosure [0, 2, 0], Instr.mk OpSuspend []]) 0 0 false [] [])
        [Object.int 5, Object.string (ascii "a"),
         Object.compiledFunction 1 (CompiledFunction.mk
           (encode [Instr.mk OpConstant [0, 1], Instr.mk OpReturn [1]]) 0 0 false [] [])])
      = .ret (Bytecode.mk
        (CompiledFunction.mk (encode [Instr.mk OpConstant [0, 0], Instr.mk OpConstant [0, 1],
          Instr.mk OpClosure [0, 2, 0], Instr.mk OpSuspend []]) 0 0 false [] [])
        [Object.int 5, Object.string (ascii "a"),
         Object.compiledFunction 1 (CompiledFunction.mk
           (encode [Instr.mk OpConstant [0, 1], Instr.mk OpReturn [1]]) 0 0 false [] [])]) :=
  have h : RemoveDuplicates sampleBytecode = _ := by decide
  ⟨h, (c35_remove_duplicates_idempotent sampleBytecode _ h).1⟩


/-! ## Theorems: the scanner reaches the end of the input -/

theorem DecodeRune_bounds (p0 : Nat) (rest : List Nat) :
    (DecodeRune (p0 :: rest)).2 ≤ rest.length + 1 ∧ 0 ≤ (DecodeRune (p0 :: rest)).1 := by
  simp only [DecodeRune]
  repeat (first | split | simp [RuneError] | omega)

theorem Scanner.next_cases (s : Scanner) :
    (s.readOffset < s.src.length ∧ s.next.offset = s.readOffset ∧ s.next.ch ≠ -1 ∧
      s.readOffset < s.next.readOffset ∧ s.next.readOffset ≤ s.src.length) ∨
    (¬ s.readOffset < s.src.length ∧ s.next.ch = -1 ∧ s.next.offset = s.src.length ∧
      s.next.readOffset = s.readOffset) := by
  by_cases hlt : s.readOffset < s.src.length
  · left
    obtain ⟨p0, rest, hd⟩ : ∃ p0 rest, List.drop s.readOffset s.src = p0 :: rest := by
      cases hd : List.drop s.readOffset s.src with
      | nil =>
        have := congrArg List.length hd
        simp at this
        omega
      | cons p0 rest => exact ⟨p0, rest, rfl⟩
    have hlen : rest.length + 1 = s.src.length - s.readOffset := by
      have := congrArg List.length hd
      simp at this
      omega
    have hw := DecodeRune_width p0 rest
    obtain ⟨hb1, hb2⟩ := DecodeRune_bounds p0 rest
    have hr0 : (0 : Int) ≤ ((s.src.getD s.readOffset 0 : Nat) : Int) := Int.ofNat_nonneg _
    refine ⟨hlt, ?_, ?_, ?_, ?_⟩ <;>
      simp only [Scanner.next, Scanner.noteLine, Scanner.error, if_pos hlt] <;>
      split_ifs <;> simp [hd] <;> omega
  · right
    refine ⟨hlt, ?_, ?_, ?_⟩ <;>
      simp only [Scanner.next, Scanner.noteLine, if_neg hlt] <;> split_ifs <;> rfl

theorem Scanner.next_wf (s : Scanner) : s.next.wf := by
  rcases s.next_cases with ⟨h1, h2, h3, h4, h5⟩ | ⟨h1, h2, h3, h4⟩
  · refine ⟨fun _ => ?_, fun h => absurd h h3⟩
    rw [Scanner.next_src, h2]
    exact ⟨h4, h5⟩
  · refine ⟨fun h => absurd h2 h, fun _ => ?_⟩
    rw [Scanner.next_src, h3, h4]
    exact ⟨rfl, by omega⟩

theorem Scanner.next_rem (s : Scanner) : s.next.rem ≤ s.src.length - s.readOffset := by
  rcases s.next_cases with ⟨h1, h2, h3, h4, h5⟩ | ⟨h1, h2, h3, h4⟩
  · simp only [Scanner.rem, if_neg h3, Scanner.next_src, h2]
    exact Nat.le_refl _
  · simp only [Scanner.rem, if_pos h2]
    omega

/-- Reading a character takes a byte, unless the scanner is at the end marker. -/
theorem Scanner.next_lt (s : Scanner) (hwf : s.wf) (hch : s.ch ≠ -1) : s.next.rem < s.rem := by
  have := s.next_rem
  obtain ⟨h1, h2⟩ := hwf.1 hch
  simp only [Scanner.rem, if_neg hch] at *
  omega

theorem Scanner.fwd_refl (s : Scanner) : s.fwd s := fun h => ⟨rfl, h, Nat.le_refl _⟩

theorem Scanner.fwd_trans {s t u : Scanner} (h1 : s.fwd t) (h2 : t.fwd u) : s.fwd u := by
  intro hs
  obtain ⟨a1, a2, a3⟩ := h1 hs
  obtain ⟨b1, b2, b3⟩ := h2 a2
  exact ⟨b1.trans a1, b2, Nat.le_trans b3 a3⟩

theorem Scanner.fwd_next (s : Scanner) : s.fwd s.next := by
  intro hs
  refine ⟨s.next_src, s.next_wf, ?_⟩
  by_cases hch : s.ch = -1
  · have := s.next_rem
    obtain ⟨h1, h2⟩ := hs.2 hch
    simp only [Scanner.rem, if_pos hch] at *
    omega
  · exact Nat.le_of_lt (s.next_lt hs hch)

theorem Scanner.fwd_error (s : Scanner) (o : Nat) (m : String) : s.fwd (s.error o m) :=
  fun h => ⟨rfl, h, Nat.le_refl _⟩

theorem Scanner.fwd_next_of {s t : Scanner} (h : s.fwd t) : s.fwd t.next :=
  Scanner.fwd_trans h t.fwd_next

theorem Scanner.fwd_error_of {s t : Scanner} (h : s.fwd t) (o : Nat) (m : String) :
    s.fwd (t.error o m) :=
  Scanner.fwd_trans h (t.fwd_error o m)

/-- After a character that is not the end marker has been read, everything that follows
leaves less than before. -/
theorem Scanner.lt_of_next {s t : Scanner} (hwf : s.wf) (hch : s.ch ≠ -1)
    (h : s.next.fwd t) : t.wf ∧ t.rem < s.rem := by
  obtain ⟨_, a2, a3⟩ := h s.next_wf
  exact ⟨a2, Nat.lt_of_le_of_lt a3 (s.next_lt hwf hch)⟩


theorem Scanner.fwd_skipWhitespace (fuel : Nat) (s : Scanner) :
    s.fwd (Scanner.skipWhitespace fuel s) := by
  induction fuel generalizing s with
  | zero => exact s.fwd_refl
  | succ n ih =>
    simp only [Scanner.skipWhitespace]
    split_ifs
    · exact Scanner.fwd_trans s.fwd_next (ih _)
    · exact s.fwd_refl

theorem Scanner.fwd_identLoop (U : Unicode) (fuel : Nat) (s : Scanner) :
    s.fwd (Scanner.identLoop U fuel s) := by
  induction fuel generalizing s with
  | zero => exact s.fwd_refl
  | succ n ih =>
    simp only [Scanner.identLoop]
    split_ifs
    · exact Scanner.fwd_trans s.fwd_next (ih _)
    · exact s.fwd_refl

theorem Scanner.fwd_scanIdentifier (U : Unicode) (s : Scanner) :
    s.fwd (s.scanIdentifier U).2 := Scanner.fwd_identLoop U _ s

theorem Scanner.fwd_scanDigits (base : Int) (fuel : Nat) (s : Scanner) :
    s.fwd (Scanner.scanDigits base fuel s) := by
  induction fuel generalizing s with
  | zero => exact s.fwd_refl
  | succ n ih =>
    simp only [Scanner.scanDigits]
    split_ifs
    · exact Scanner.fwd_trans s.fwd_next (ih _)
    · exact s.fwd_refl

theorem Scanner.fwd_scanDigits_of {s t : Scanner} (h : s.fwd t) (base : Int) (fuel : Nat) :
    s.fwd (Scanner.scanDigits base fuel t) :=
  Scanner.fwd_trans h (Scanner.fwd_scanDigits base fuel t)

theorem Scanner.fwd_scanNumber (s : Scanner) : s.fwd s.scanNumber.2 := by
  simp only [Scanner.scanNumber]
  have hbs : s.fwd (if s.ch = 48 ∧ lower s.peek = 98 then ((2 : Int), s.next.next)
      else if s.ch = 48 ∧ lower s.peek = 111 then (8, s.next.next)
      else if s.ch = 48 ∧ lower s.peek = 120 then (16, s.next.next)
      else (10, s)).2 := by
    split_ifs
    · exact Scanner.fwd_next_of s.fwd_next
    · exact Scanner.fwd_next_of s.fwd_next
    · exact Scanner.fwd_next_of s.fwd_next
    · exact s.fwd_refl
  generalize (if s.ch = 48 ∧ lower s.peek = 98 then ((2 : Int), s.next.next)
      else if s.ch = 48 ∧ lower s.peek = 111 then (8, s.next.next)
      else if s.ch = 48 ∧ lower s.peek = 120 then (16, s.next.next)
      else (10, s)) = bs at hbs
  have h1 := Scanner.fwd_scanDigits_of hbs bs.1 (s.src.length + 1)
  generalize Scanner.scanDigits bs.1 (s.src.length + 1) bs.2 = s1 at h1
  split_ifs
  · exact Scanner.fwd_error_of (Scanner.fwd_scanDigits_of (Scanner.fwd_next_of
      (Scanner.fwd_next_of (Scanner.fwd_scanDigits_of (Scanner.fwd_next_of h1) _ _))) _ _) _ _
  · exact Scanner.fwd_scanDigits_of (Scanner.fwd_next_of
      (Scanner.fwd_next_of (Scanner.fwd_scanDigits_of (Scanner.fwd_next_of h1) _ _))) _ _
  · exact Scanner.fwd_error_of (Scanner.fwd_scanDigits_of
      (Scanner.fwd_next_of (Scanner.fwd_scanDigits_of (Scanner.fwd_next_of h1) _ _)) _ _) _ _
  · exact Scanner.fwd_scanDigits_of
      (Scanner.fwd_next_of (Scanner.fwd_scanDigits_of (Scanner.fwd_next_of h1) _ _)) _ _
  · exact Scanner.fwd_scanDigits_of (Scanner.fwd_next_of h1) _ _
  · exact Scanner.fwd_error_of (Scanner.fwd_scanDigits_of (Scanner.fwd_next_of
      (Scanner.fwd_next_of h1)) _ _) _ _
  · exact Scanner.fwd_scanDigits_of (Scanner.fwd_next_of (Scanner.fwd_next_of h1)) _ _
  · exact Scanner.fwd_error_of (Scanner.fwd_scanDigits_of (Scanner.fwd_next_of h1) _ _) _ _
  · exact Scanner.fwd_scanDigits_of (Scanner.fwd_next_of h1) _ _
  · exact h1

theorem Scanner.fwd_escapeDigits (base n x : Nat) (s : Scanner) :
    s.fwd (Scanner.escapeDigits base n x s).2 := by
  induction n generalizing s x with
  | zero => exact s.fwd_refl
  | succ n ih =>
    simp only [Scanner.escapeDigits]
    split_ifs <;> first
      | exact s.fwd_error _ _
      | exact Scanner.fwd_trans s.fwd_next (ih _ _)

theorem Scanner.fwd_scanEscape (s : Scanner) (quote : Int) : s.fwd (s.scanEscape quote).2 := by
  have hfin : ∀ (n base max o : Nat) (t : Scanner), s.fwd t →
      s.fwd (match Scanner.escapeDigits base n 0 t with
        | (none, s2) => (false, s2)
        | (some x, s2) =>
          if x > max ∨ (0xD800 ≤ x ∧ x < 0xE000) then
            (false, s2.error o "geçersiz Unicode kod noktası")
          else (true, s2)).2 := by
    intro n base max o t ht
    have h := Scanner.fwd_trans ht (Scanner.fwd_escapeDigits base n 0 t)
    generalize Scanner.escapeDigits base n 0 t = r at h
    obtain ⟨a, s2⟩ := r
    cases a with
    | none => exact h
    | some x =>
      simp only
      split_ifs
      · exact Scanner.fwd_error_of h _ _
      · exact h
  simp only [Scanner.scanEscape]
  split_ifs <;> first
    | exact s.fwd_next
    | exact hfin _ _ _ _ _ s.fwd_refl
    | exact hfin _ _ _ _ _ s.fwd_next
    | exact s.fwd_error _ _

theorem Scanner.fwd_runeLoop (offs fuel : Nat) (valid : Bool) (n : Nat) (s : Scanner) :
    s.fwd (Scanner.runeLoop offs fuel valid n s).2 := by
  induction fuel generalizing s valid n with
  | zero => exact s.fwd_refl
  | succ k ih =>
    simp only [Scanner.runeLoop]
    split_ifs <;> first
      | exact s.fwd_error _ _
      | exact s.fwd_refl
      | exact s.fwd_next
      | exact Scanner.fwd_trans (Scanner.fwd_trans s.fwd_next (Scanner.fwd_scanEscape _ _))
          (ih _ _ _)
      | exact Scanner.fwd_trans s.fwd_next (ih _ _ _)

theorem Scanner.fwd_scanRune (s : Scanner) : s.fwd s.scanRune.2 := by
  simp only [Scanner.scanRune]
  split_ifs
  · exact Scanner.fwd_error_of (Scanner.fwd_runeLoop _ _ _ _ _) _ _
  · exact Scanner.fwd_runeLoop _ _ _ _ _

theorem Scanner.fwd_stringLoop (offs fuel : Nat) (s : Scanner) :
    s.fwd (Scanner.stringLoop offs fuel s) := by
  induction fuel generalizing s with
  | zero => exact s.fwd_refl
  | succ k ih =>
    simp only [Scanner.stringLoop]
    split_ifs
    · exact s.fwd_error _ _
    · exact s.fwd_next
    · exact Scanner.fwd_trans (Scanner.fwd_trans s.fwd_next (Scanner.fwd_scanEscape _ _))
        (ih _)
    · exact Scanner.fwd_trans s.fwd_next (ih _)

theorem Scanner.fwd_scanString (s : Scanner) : s.fwd s.scanString.2 :=
  Scanner.fwd_stringLoop _ _ s

theorem Scanner.fwd_rawLoop (offs fuel : Nat) (hasCR : Bool) (s : Scanner) :
    s.fwd (Scanner.rawLoop offs fuel hasCR s).2 := by
  induction fuel generalizing s hasCR with
  | zero => exact s.fwd_refl
  | succ k ih =>
    simp only [Scanner.rawLoop]
    split_ifs
    · exact s.fwd_error _ _
    · exact s.fwd_next
    · exact Scanner.fwd_trans s.fwd_next (ih _ _)
    · exact Scanner.fwd_trans s.fwd_next (ih _ _)

theorem Scanner.fwd_scanRawString (s : Scanner) : s.fwd s.scanRawString.2 :=
  Scanner.fwd_rawLoop _ _ _ s

theorem Scanner.fwd_lineCommentLoop (fuel numCR : Nat) (s : Scanner) :
    s.fwd (Scanner.lineCommentLoop fuel numCR s).2 := by
  induction fuel generalizing s numCR with
  | zero => exact s.fwd_refl
  | succ k ih =>
    simp only [Scanner.lineCommentLoop]
    split_ifs
    · exact Scanner.fwd_trans s.fwd_next (ih _ _)
    · exact Scanner.fwd_trans s.fwd_next (ih _ _)
    · exact s.fwd_refl

theorem Scanner.fwd_blockCommentLoop (fuel numCR : Nat) (s : Scanner) :
    s.fwd (Scanner.blockCommentLoop fuel numCR s).2 := by
  induction fuel generalizing s numCR with
  | zero => exact s.fwd_refl
  | succ k ih =>
    simp only [Scanner.blockCommentLoop]
    split_ifs
    · exact Scanner.fwd_next_of s.fwd_next
    · exact Scanner.fwd_next_of s.fwd_next
    · exact Scanner.fwd_trans s.fwd_next (ih _ _)
    · exact Scanner.fwd_trans s.fwd_next (ih _ _)
    · exact s.fwd_refl

theorem Scanner.fwd_scanComment (s : Scanner) : s.fwd s.scanComment.2 := by
  simp only [Scanner.scanComment]
  split_ifs
  · exact Scanner.fwd_trans s.fwd_next (Scanner.fwd_lineCommentLoop _ _ _)
  · have h := Scanner.fwd_trans s.fwd_next (Scanner.fwd_blockCommentLoop (s.src.length + 1) 0 s.next)
    generalize Scanner.blockCommentLoop (s.src.length + 1) 0 s.next = r at h
    obtain ⟨⟨b, n⟩, s1⟩ := r
    cases b
    · exact Scanner.fwd_error_of h _ _
    · exact h

theorem Scanner.fwd_lineEndInner (fuel : Nat) (s : Scanner) :
    s.fwd (Scanner.lineEndInner fuel s).2 := by
  induction fuel generalizing s with
  | zero => exact s.fwd_refl
  | succ k ih =>
    simp only [Scanner.lineEndInner]
    split_ifs <;> first
      | exact s.fwd_refl
      | exact Scanner.fwd_next_of s.fwd_next
      | exact Scanner.fwd_trans s.fwd_next (ih _)

theorem Scanner.fwd_lineEndOuter (fuel : Nat) (s : Scanner) :
    s.fwd (Scanner.lineEndOuter fuel s).2 := by
  induction fuel generalizing s with
  | zero => exact s.fwd_refl
  | succ k ih =>
    simp only [Scanner.lineEndOuter]
    split_ifs
    · exact s.fwd_refl
    · have h := Scanner.fwd_trans s.fwd_next (Scanner.fwd_lineEndInner (s.src.length + 1) s.next)
      generalize Scanner.lineEndInner (s.src.length + 1) s.next = r at h
      obtain ⟨a, s1⟩ := r
      cases a with
      | some b => exact h
      | none =>
        have h2 := Scanner.fwd_trans h (Scanner.fwd_skipWhitespace (s1.src.length + 1) s1)
        simp only
        split_ifs <;> first
          | exact h2
          | exact Scanner.fwd_trans (Scanner.fwd_next_of h2) (ih _)
    · exact s.fwd_refl


theorem Scanner.fwd_findLineEnd (s : Scanner) : s.fwd s.findLineEnd.2 := by
  intro hs
  have hsrc : (Scanner.lineEndOuter (s.src.length + 1) s).2.src = s.src :=
    (Scanner.keep_lineEndOuter _ s).1.1
  simp only [Scanner.findLineEnd]
  refine ⟨by rw [Scanner.next_src]; exact hsrc, Scanner.next_wf _, ?_⟩
  refine Nat.le_trans (Scanner.next_rem _) ?_
  simp only [hsrc]
  by_cases hch : s.ch = -1
  · obtain ⟨h1, _⟩ := hs.2 hch
    simp only [Scanner.rem, if_pos hch]
    omega
  · simp only [Scanner.rem, if_neg hch]
    omega

theorem Scanner.fwd_switch2 (s : Scanner) (t0 t1 : Token) : s.fwd (s.switch2 t0 t1).2 := by
  simp only [Scanner.switch2]
  split_ifs <;> first | exact s.fwd_next | exact s.fwd_refl

theorem Scanner.fwd_switch3 (s : Scanner) (t0 t1 : Token) (c : Int) (t2 : Token) :
    s.fwd (s.switch3 t0 t1 c t2).2 := by
  simp only [Scanner.switch3]
  split_ifs <;> first | exact s.fwd_next | exact s.fwd_refl

theorem Scanner.fwd_switch4 (s : Scanner) (t0 t1 : Token) (c : Int) (t2 t3 : Token) :
    s.fwd (s.switch4 t0 t1 c t2 t3).2 := by
  simp only [Scanner.switch4]
  split_ifs <;> first
    | exact s.fwd_next
    | exact s.fwd_refl
    | exact Scanner.fwd_next_of s.fwd_next

/-! ### The loops end before their fuel -/

theorem Scanner.rem_le (s : Scanner) : s.rem ≤ s.src.length := by
  simp only [Scanner.rem]
  split_ifs <;> omega

theorem Scanner.skipWhitespace_fuel (fuel : Nat) :
    ∀ (s : Scanner) (k : Nat), s.wf → s.rem < fuel →
      Scanner.skipWhitespace (fuel + k) s = Scanner.skipWhitespace fuel s := by
  induction fuel with
  | zero => intro s k _ h; omega
  | succ n ih =>
    intro s k hwf hrem
    rw [Nat.add_right_comm]
    simp only [Scanner.skipWhitespace]
    split_ifs with hc
    · have hch : s.ch ≠ -1 := by rcases hc with h | h | h | h <;> omega
      exact ih s.next k s.next_wf (by have := s.next_lt hwf hch; omega)
    · rfl

theorem Scanner.identLoop_fuel (U : Unicode) (fuel : Nat) :
    ∀ (s : Scanner) (k : Nat), s.wf → s.rem < fuel →
      Scanner.identLoop U (fuel + k) s = Scanner.identLoop U fuel s := by
  induction fuel with
  | zero => intro s k _ h; omega
  | succ n ih =>
    intro s k hwf hrem
    rw [Nat.add_right_comm]
    simp only [Scanner.identLoop]
    split_ifs with hc
    · have hch : s.ch ≠ -1 := by
        intro h
        rw [h] at hc
        simp [isLetter, isDigit, RuneSelf] at hc
      exact ih s.next k s.next_wf (by have := s.next_lt hwf hch; omega)
    · rfl

theorem Scanner.scanDigits_fuel (base : Int) (hbase : base ≤ 16) (fuel : Nat) :
    ∀ (s : Scanner) (k : Nat), s.wf → s.rem < fuel →
      Scanner.scanDigits base (fuel + k) s = Scanner.scanDigits base fuel s := by
  induction fuel with
  | zero => intro s k _ h; omega
  | succ n ih =>
    intro s k hwf hrem
    rw [Nat.add_right_comm]
    simp only [Scanner.scanDigits]
    split_ifs with hc
    · have hch : s.ch ≠ -1 := by
        intro h
        rw [h] at hc
        simp [digitVal] at hc
        omega
      exact ih s.next k s.next_wf (by have := s.next_lt hwf hch; omega)
    · rfl

theorem Scanner.runeLoop_fuel (offs : Nat) (fuel : Nat) :
    ∀ (s : Scanner) (k : Nat) (valid : Bool) (n : Nat), s.wf → s.rem < fuel →
      Scanner.runeLoop offs (fuel + k) valid n s = Scanner.runeLoop offs fuel valid n s := by
  induction fuel with
  | zero => intro s k _ _ _ h; omega
  | succ m ih =>
    intro s k valid n hwf hrem
    rw [Nat.add_right_comm]
    simp only [Scanner.runeLoop]
    split_ifs <;> first
      | rfl
      | (have hch : s.ch ≠ -1 := by omega
         obtain ⟨hw, hr⟩ := Scanner.lt_of_next hwf hch (Scanner.fwd_scanEscape s.next 39)
         exact ih _ k _ _ hw (by omega))
      | (have hch : s.ch ≠ -1 := by omega
         exact ih s.next k _ _ s.next_wf (by have := s.next_lt hwf hch; omega))

theorem Scanner.stringLoop_fuel (offs : Nat) (fuel : Nat) :
    ∀ (s : Scanner) (k : Nat), s.wf → s.rem < fuel →
      Scanner.stringLoop offs (fuel + k) s = Scanner.stringLoop offs fuel s := by
  induction fuel with
  | zero => intro s k _ h; omega
  | succ m ih =>
    intro s k hwf hrem
    rw [Nat.add_right_comm]
    simp only [Scanner.stringLoop]
    split_ifs with h1 h2 h3
    · rfl
    · rfl
    · have hch : s.ch ≠ -1 := by omega
      obtain ⟨hw, hr⟩ := Scanner.lt_of_next hwf hch (Scanner.fwd_scanEscape s.next 34)
      exact ih _ k hw (by omega)
    · have hch : s.ch ≠ -1 := by omega
      exact ih s.next k s.next_wf (by have := s.next_lt hwf hch; omega)

theorem Scanner.rawLoop_fuel (offs : Nat) (fuel : Nat) :
    ∀ (s : Scanner) (k : Nat) (hasCR : Bool), s.wf → s.rem < fuel →
      Scanner.rawLoop offs (fuel + k) hasCR s = Scanner.rawLoop offs fuel hasCR s := by
  induction fuel with
  | zero => intro s k _ _ h; omega
  | succ m ih =>
    intro s k hasCR hwf hrem
    rw [Nat.add_right_comm]
    simp only [Scanner.rawLoop]
    split_ifs with h1 h2 h3
    · rfl
    · rfl
    · have hch : s.ch ≠ -1 := by omega
      exact ih s.next k _ s.next_wf (by have := s.next_lt hwf hch; omega)
    · have hch : s.ch ≠ -1 := by omega
      exact ih s.next k _ s.next_wf (by have := s.next_lt hwf hch; omega)

theorem Scanner.lineCommentLoop_fuel (fuel : Nat) :
    ∀ (s : Scanner) (k : Nat) (numCR : Nat), s.wf → s.rem < fuel →
      Scanner.lineCommentLoop (fuel + k) numCR s = Scanner.lineCommentLoop fuel numCR s := by
  induction fuel with
  | zero => intro s k _ _ h; omega
  | succ m ih =>
    intro s k numCR hwf hrem
    rw [Nat.add_right_comm]
    simp only [Scanner.lineCommentLoop]
    split_ifs with h1 h2
    · have hch : s.ch ≠ -1 := by omega
      exact ih s.next k _ s.next_wf (by have := s.next_lt hwf hch; omega)
    · have hch : s.ch ≠ -1 := by omega
      exact ih s.next k _ s.next_wf (by have := s.next_lt hwf hch; omega)
    · rfl

theorem Scanner.blockCommentLoop_fuel (fuel : Nat) :
    ∀ (s : Scanner) (k : Nat) (numCR : Nat), s.wf → s.rem < fuel →
      Scanner.blockCommentLoop (fuel + k) numCR s = Scanner.blockCommentLoop fuel numCR s := by
  induction fuel with
  | zero => intro s k _ _ h; omega
  | succ m ih =>
    intro s k numCR hwf hrem
    rw [Nat.add_right_comm]
    simp only [Scanner.blockCommentLoop]
    split_ifs with h1 h2 h3 h4
    · rfl
    · rfl
    · have hch : s.ch ≠ -1 := by omega
      exact ih s.next k _ s.next_wf (by have := s.next_lt hwf hch; omega)
    · have hch : s.ch ≠ -1 := by omega
      exact ih s.next k _ s.next_wf (by have := s.next_lt hwf hch; omega)
    · rfl

theorem Scanner.lineEndInner_fuel (fuel : Nat) :
    ∀ (s : Scanner) (k : Nat), s.wf → s.rem < fuel →
      Scanner.lineEndInner (fuel + k) s = Scanner.lineEndInner fuel s := by
  induction fuel with
  | zero => intro s k _ h; omega
  | succ m ih =>
    intro s k hwf hrem
    rw [Nat.add_right_comm]
    simp only [Scanner.lineEndInner]
    split_ifs with h1 h2 h3
    · rfl
    · rfl
    · have hch : s.ch ≠ -1 := by omega
      exact ih s.next k s.next_wf (by have := s.next_lt hwf hch; omega)
    · rfl

theorem Scanner.lineEndOuter_fuel (fuel : Nat) :
    ∀ (s : Scanner) (k : Nat), s.wf → s.rem < fuel →
      Scanner.lineEndOuter (fuel + k) s = Scanner.lineEndOuter fuel s := by
  induction fuel with
  | zero => intro s k _ h; omega
  | succ m ih =>
    intro s k hwf hrem
    rw [Nat.add_right_comm]
    simp only [Scanner.lineEndOuter]
    split_ifs with h1 h2
    · rfl
    · have hch : s.ch ≠ -1 := by omega
      have hf := Scanner.fwd_lineEndInner (s.src.length + 1) s.next
      generalize Scanner.lineEndInner (s.src.length + 1) s.next = r at hf
      obtain ⟨a, s1⟩ := r
      cases a with
      | some b => rfl
      | none =>
        have hf2 := Scanner.fwd_trans hf (Scanner.fwd_skipWhitespace (s1.src.length + 1) s1)
        simp only
        split_ifs
        · rfl
        · rfl
        · obtain ⟨hw, hr⟩ := Scanner.lt_of_next hwf hch (Scanner.fwd_next_of hf2)
          exact ih _ k hw (by omega)
    · rfl


theorem Scanner.after_fwd {s t u : Scanner} (h : t.wf ∧ t.rem < s.rem) (hf : t.fwd u) :
    u.wf ∧ u.rem < s.rem := by
  obtain ⟨_, a2, a3⟩ := hf h.1
  exact ⟨a2, Nat.lt_of_le_of_lt a3 h.2⟩

/-- An identifier takes at least its first letter. -/
theorem Scanner.scanIdentifier_lt (U : Unicode) (s : Scanner) (hwf : s.wf)
    (hl : isLetter U s.ch = true) :
    (s.scanIdentifier U).2.wf ∧ (s.scanIdentifier U).2.rem < s.rem := by
  have hch : s.ch ≠ -1 := by
    intro h
    rw [h] at hl
    simp [isLetter, RuneSelf] at hl
  simp only [Scanner.scanIdentifier, Scanner.identLoop, hl, Bool.true_or, if_true]
  exact Scanner.lt_of_next hwf hch (Scanner.fwd_identLoop U _ s.next)

/-- A number takes at least its first digit, or its point. -/
theorem Scanner.scanNumber_lt (s : Scanner) (hwf : s.wf)
    (hc : (48 ≤ s.ch ∧ s.ch ≤ 57) ∨ (s.ch = 46 ∧ 48 ≤ s.peek ∧ s.peek ≤ 57)) :
    s.scanNumber.2.wf ∧ s.scanNumber.2.rem < s.rem := by
  have hch : s.ch ≠ -1 := by omega
  have hnn : s.next.next.wf ∧ s.next.next.rem < s.rem :=
    Scanner.lt_of_next hwf hch s.next.fwd_next
  simp only [Scanner.scanNumber]
  have hbs : ((if s.ch = 48 ∧ lower s.peek = 98 then ((2 : Int), s.next.next)
      else if s.ch = 48 ∧ lower s.peek = 111 then (8, s.next.next)
      else if s.ch = 48 ∧ lower s.peek = 120 then (16, s.next.next)
      else (10, s)).2.wf ∧
      (if s.ch = 48 ∧ lower s.peek = 98 then ((2 : Int), s.next.next)
      else if s.ch = 48 ∧ lower s.peek = 111 then (8, s.next.next)
      else if s.ch = 48 ∧ lower s.peek = 120 then (16, s.next.next)
      else (10, s)).2.rem < s.rem) ∨
      (if s.ch = 48 ∧ lower s.peek = 98 then ((2 : Int), s.next.next)
      else if s.ch = 48 ∧ lower s.peek = 111 then (8, s.next.next)
      else if s.ch = 48 ∧ lower s.peek = 120 then (16, s.next.next)
      else (10, s)) = (10, s) := by
    split_ifs
    · exact Or.inl hnn
    · exact Or.inl hnn
    · exact Or.inl hnn
    · exact Or.inr rfl
  generalize (if s.ch = 48 ∧ lower s.peek = 98 then ((2 : Int), s.next.next)
      else if s.ch = 48 ∧ lower s.peek = 111 then (8, s.next.next)
      else if s.ch = 48 ∧ lower s.peek = 120 then (16, s.next.next)
      else (10, s)) = bs at hbs
  have h1 : ((Scanner.scanDigits bs.1 (s.src.length + 1) bs.2).wf ∧
      (Scanner.scanDigits bs.1 (s.src.length + 1) bs.2).rem < s.rem) ∨
      (Scanner.scanDigits bs.1 (s.src.length + 1) bs.2 = s ∧ bs.1 = 10 ∧ s.ch = 46) := by
    rcases hbs with hp | rfl
    · exact Or.inl (Scanner.after_fwd hp (Scanner.fwd_scanDigits _ _ _))
    · rcases hc with hd | hd
      · left
        have hcond : s.ch = 95 ∨ digitVal s.ch < 10 := by
          right
          simp only [digitVal, if_pos hd]
          omega
        simp only [Scanner.scanDigits, if_pos hcond]
        exact Scanner.lt_of_next hwf hch (Scanner.fwd_scanDigits _ _ _)
      · right
        have hcond : ¬ (s.ch = 95 ∨ digitVal s.ch < 10) := by
          rw [hd.1]
          simp [digitVal]
        rw [Scanner.scanDigits, if_neg hcond]
        exact ⟨rfl, rfl, hd.1⟩
  generalize Scanner.scanDigits bs.1 (s.src.length + 1) bs.2 = s1 at h1
  have h2 : ((if s1.ch = 46 ∧ (bs.1 = 10 ∨ bs.1 = 16) then
        (Token.Float, Scanner.scanDigits bs.1 (s.src.length + 1) s1.next)
      else (Token.Int, s1)).2.wf ∧
      (if s1.ch = 46 ∧ (bs.1 = 10 ∨ bs.1 = 16) then
        (Token.Float, Scanner.scanDigits bs.1 (s.src.length + 1) s1.next)
      else (Token.Int, s1)).2.rem < s.rem) := by
    rcases h1 with hp | ⟨rfl, hb, h46⟩
    · split_ifs
      · exact Scanner.after_fwd hp (Scanner.fwd_trans s1.fwd_next (Scanner.fwd_scanDigits _ _ _))
      · exact hp
    · rw [if_pos ⟨h46, Or.inl hb⟩]
      exact Scanner.lt_of_next hwf hch (Scanner.fwd_scanDigits _ _ _)
  generalize (if s1.ch = 46 ∧ (bs.1 = 10 ∨ bs.1 = 16) then
        (Token.Float, Scanner.scanDigits bs.1 (s.src.length + 1) s1.next)
      else (Token.Int, s1)) = ts at h2
  split_ifs
  · exact Scanner.after_fwd h2 (Scanner.fwd_error_of (Scanner.fwd_trans
      (Scanner.fwd_next_of ts.2.fwd_next) (Scanner.fwd_scanDigits _ _ _)) _ _)
  · exact Scanner.after_fwd h2 (Scanner.fwd_trans
      (Scanner.fwd_next_of ts.2.fwd_next) (Scanner.fwd_scanDigits _ _ _))
  · exact Scanner.after_fwd h2 (Scanner.fwd_error_of (Scanner.fwd_trans
      ts.2.fwd_next (Scanner.fwd_scanDigits _ _ _)) _ _)
  · exact Scanner.after_fwd h2 (Scanner.fwd_trans
      ts.2.fwd_next (Scanner.fwd_scanDigits _ _ _))
  · exact h2


/-! ### Every answer of the switch of `Scan` takes a byte or the pending flag -/

theorem Scanned.prog_normal {s s1 : Scanner} {tok : Token} {lit : GoString} {ins : Bool}
    (hp : s1.wf ∧ s1.rem < s.rem) (ht : tok ≠ .EOF) : (Scanned.normal tok lit ins s1).prog s :=
  ⟨hp.1, Or.inr ⟨ht, hp.2⟩⟩

theorem Scanned.prog_two {s s1 : Scanner} {tok t0 t1 : Token} {lit : GoString} {ins : Bool}
    (hp : s1.wf ∧ s1.rem < s.rem) (ht : tok = t0 ∨ tok = t1)
    (h : ∀ t ∈ [t0, t1], t ≠ Token.EOF) : (Scanned.normal tok lit ins s1).prog s :=
  Scanned.prog_normal hp (h tok (by rcases ht with h | h <;> simp [h]))

theorem Scanned.prog_three {s s1 : Scanner} {tok t0 t1 t2 : Token} {lit : GoString}
    {ins : Bool} (hp : s1.wf ∧ s1.rem < s.rem) (ht : tok = t0 ∨ tok = t1 ∨ tok = t2)
    (h : ∀ t ∈ [t0, t1, t2], t ≠ Token.EOF) : (Scanned.normal tok lit ins s1).prog s :=
  Scanned.prog_normal hp (h tok (by rcases ht with h | h | h <;> simp [h]))

theorem Scanned.prog_four {s s1 : Scanner} {tok t0 t1 t2 t3 : Token} {lit : GoString}
    {ins : Bool} (hp : s1.wf ∧ s1.rem < s.rem) (ht : tok = t0 ∨ tok = t1 ∨ tok = t2 ∨ tok = t3)
    (h : ∀ t ∈ [t0, t1, t2, t3], t ≠ Token.EOF) : (Scanned.normal tok lit ins s1).prog s :=
  Scanned.prog_normal hp (h tok (by rcases ht with h | h | h | h <;> simp [h]))

theorem Scanned.prog_afterComment {s t : Scanner} (hp : t.wf ∧ t.rem < s.rem) :
    t.afterComment.prog s := by
  simp only [Scanner.afterComment]
  have hc := Scanner.after_fwd hp t.fwd_scanComment
  split_ifs
  · exact hc
  · exact Scanned.prog_normal hc (by decide)

theorem Scanner.advances_ite {s : Scanner} {c : Prop} [Decidable c] {a b : Option Scanned}
    (ha : c → s.advances a) (hb : ¬ c → s.advances b) : s.advances (if c then a else b) := by
  by_cases h : c
  · rw [if_pos h]
    exact ha h
  · rw [if_neg h]
    exact hb h

theorem Scanner.advances_some {s : Scanner} {r : Scanned} (h : r.prog s) :
    s.advances (some r) := ⟨r, rfl, h⟩

theorem SourceFile.Offset_ok (f : SourceFile) (o : Nat) (h : o ≤ f.Size) :
    f.Offset (f.Base + o) = some o := by
  simp only [SourceFile.Offset]
  rw [if_neg (by omega)]
  simp

theorem Scanner.wf.offset_le {s : Scanner} (hwf : s.wf) : s.offset ≤ s.src.length := by
  by_cases h : s.ch = -1
  · have := (hwf.2 h).1
    omega
  · have := hwf.1 h
    omega

theorem Scanner.scanSlash_advances (s s1 : Scanner) (pos : Nat)
    (hwf : s.wf) (hsize : s.file.Size = s.src.length)
    (hk : s.keep s1) (hp : s1.wf ∧ s1.rem < s.rem) (hch : s.ch = 47)
    (hpos : pos = s.file.Base + s.offset) :
    s.advances (s1.scanSlash pos) := by
  have hne : s.ch ≠ -1 := by omega
  obtain ⟨hw1, hw2⟩ := hwf.1 hne
  unfold Scanner.scanSlash
  refine Scanner.advances_ite (fun _ => Scanner.advances_ite (fun hsemi => ?_)
    (fun _ => Scanner.advances_some (Scanned.prog_afterComment hp)))
    (fun _ => Scanner.advances_some (Scanned.prog_two
      (Scanner.after_fwd hp (Scanner.fwd_switch2 _ _ _)) (Scanner.switch2_tok _ _ _)
      (by decide)))
  have hk2 := Scanner.keep_trans hk (Scanner.keep_findLineEnd s1)
  have hp2 := Scanner.after_fwd hp (Scanner.fwd_findLineEnd s1)
  refine Scanner.advances_ite (fun _ => ?_)
    (fun _ => Scanner.advances_some (Scanned.prog_afterComment hp2))
  have ho : s1.findLineEnd.2.file.Offset pos = some s.offset := by
    rw [hpos, ← hk2.1.2.2.1]
    apply SourceFile.Offset_ok
    rw [hk2.1.2.1, hsize]
    omega
  rw [ho]
  apply Scanner.advances_some
  refine ⟨by decide, ⟨fun _ => ?_, fun h => ?_⟩, rfl, ?_, Or.inl ?_⟩
  · show s.offset < s.offset + 1 ∧ s.offset + 1 ≤ s1.findLineEnd.2.src.length
    rw [hk2.1.1]
    omega
  · exact absurd h (by show ¬ ((47 : Int) = -1); decide)
  · show (if (47 : Int) = -1 then 0 else s1.findLineEnd.2.src.length - s.offset) ≤ s.rem
    rw [hk2.1.1]
    simp [Scanner.rem, hne]
  · rw [← hk.2]
    exact hsemi

theorem Scanner.scanOperator_advances (s s1 : Scanner) (ch : Int) (pos : Nat)
    (hwf : s.wf) (hsize : s.file.Size = s.src.length)
    (hk : s.keep s1) (hp : s1.wf ∧ s1.rem < s.rem) (hch : s.ch = ch)
    (hpos : pos = s.file.Base + s.offset) :
    s.advances (s1.scanOperator ch pos) := by
  have h2 : ∀ (t0 t1 : Token) (lit : GoString) (ins : Bool), (∀ t ∈ [t0, t1], t ≠ Token.EOF) →
      (Scanned.normal (s1.switch2 t0 t1).1 lit ins (s1.switch2 t0 t1).2).prog s :=
    fun t0 t1 lit ins h => Scanned.prog_two (Scanner.after_fwd hp (Scanner.fwd_switch2 _ _ _))
      (Scanner.switch2_tok _ _ _) h
  have h3 : ∀ (t0 t1 : Token) (c : Int) (t2 : Token) (lit : GoString) (ins : Bool),
      (∀ t ∈ [t0, t1, t2], t ≠ Token.EOF) →
      (Scanned.normal (s1.switch3 t0 t1 c t2).1 lit ins (s1.switch3 t0 t1 c t2).2).prog s :=
    fun t0 t1 c t2 lit ins h =>
      Scanned.prog_three (Scanner.after_fwd hp (Scanner.fwd_switch3 _ _ _ _ _))
        (Scanner.switch3_tok _ _ _ _ _) h
  have h4 : ∀ (t0 t1 : Token) (c : Int) (t2 t3 : Token) (lit : GoString) (ins : Bool),
      (∀ t ∈ [t0, t1, t2, t3], t ≠ Token.EOF) →
      (Scanned.normal (s1.switch4 t0 t1 c t2 t3).1 lit ins (s1.switch4 t0 t1 c t2 t3).2).prog
        s :=
    fun t0 t1 c t2 t3 lit ins h =>
      Scanned.prog_four (Scanner.after_fwd hp (Scanner.fwd_switch4 _ _ _ _ _ _))
        (Scanner.switch4_tok _ _ _ _ _ _) h
  unfold Scanner.scanOperator
  refine Scanner.advances_ite (fun _ => Scanner.advances_some (h3 _ _ _ _ _ _ (by decide)))
    (fun _ => ?_)
  refine Scanner.advances_ite (fun _ => Scanner.advances_some (h3 _ _ _ _ _ _ (by decide)))
    (fun _ => ?_)
  refine Scanner.advances_ite (fun _ => Scanner.advances_some (h2 _ _ _ _ (by decide)))
    (fun _ => ?_)
  refine Scanner.advances_ite
    (fun h47 => Scanner.scanSlash_advances s s1 pos hwf hsize hk hp (hch.trans h47) hpos)
    (fun _ => ?_)
  refine Scanner.advances_ite (fun _ => Scanner.advances_some (h2 _ _ _ _ (by decide)))
    (fun _ => ?_)
  refine Scanner.advances_ite (fun _ => Scanner.advances_some (h2 _ _ _ _ (by decide)))
    (fun _ => ?_)
  refine Scanner.advances_ite (fun _ => Scanner.advances_some (h4 _ _ _ _ _ _ _ (by decide)))
    (fun _ => ?_)
  refine Scanner.advances_ite (fun _ => Scanner.advances_some (h4 _ _ _ _ _ _ _ (by decide)))
    (fun _ => ?_)
  refine Scanner.advances_ite (fun _ => Scanner.advances_some (h2 _ _ _ _ (by decide)))
    (fun _ => ?_)
  refine Scanner.advances_ite (fun _ => Scanner.advances_some (h2 _ _ _ _ (by decide)))
    (fun _ => ?_)
  refine Scanner.advances_ite (fun _ => Scanner.advances_ite
    (fun _ => Scanner.advances_some ?_)
    (fun _ => Scanner.advances_some (h3 _ _ _ _ _ _ (by decide)))) (fun _ => ?_)
  · exact Scanned.prog_two
      (Scanner.after_fwd hp (Scanner.fwd_trans s1.fwd_next (Scanner.fwd_switch2 _ _ _)))
      (Scanner.switch2_tok _ _ _) (by decide)
  refine Scanner.advances_ite (fun _ => Scanner.advances_some (h3 _ _ _ _ _ _ (by decide)))
    (fun _ => ?_)
  refine Scanner.advances_ite (fun _ => ?_) (fun _ => Scanner.advances_some ?_)
  · have ho : s1.file.Offset pos = some s.offset := by
      rw [hpos, ← hk.1.2.2.1]
      apply SourceFile.Offset_ok
      rw [hk.1.2.1, hsize]
      exact hwf.offset_le
    rw [ho]
    exact Scanner.advances_some
      (Scanned.prog_normal (Scanner.after_fwd hp (s1.fwd_error _ _)) (by decide))
  · exact Scanned.prog_normal hp (by decide)


theorem Scanner.scanPunct_advances (s : Scanner) (pos : Nat)
    (hwf : s.wf) (hsize : s.file.Size = s.src.length)
    (hpos : pos = s.file.Base + s.offset) :
    s.advances (s.next.scanPunct s.ch pos) := by
  have hk : s.keep s.next := s.keep_next
  have hf := s.fwd_next hwf
  have hp : s.ch ≠ -1 → s.next.wf ∧ s.next.rem < s.rem :=
    fun h => ⟨s.next_wf, s.next_lt hwf h⟩
  have hearly : (s.insertSemi = true ∨ s.ch ≠ -1) →
      (Scanned.early .Semicolon [10] { s.next with insertSemi := false }).prog s := by
    intro h
    refine ⟨by decide, hf.2.1, rfl, hf.2.2, ?_⟩
    rcases h with h | h
    · exact Or.inl h
    · exact Or.inr (s.next_lt hwf h)
  have hn : ∀ (tok : Token) (lit : GoString) (ins : Bool) (t : Scanner), s.ch ≠ -1 →
      s.next.fwd t → tok ≠ .EOF → (Scanned.normal tok lit ins t).prog s :=
    fun tok lit ins t h1 h2 h3 => Scanned.prog_normal (Scanner.after_fwd (hp h1) h2) h3
  unfold Scanner.scanPunct
  refine Scanner.advances_ite (fun hend => Scanner.advances_ite
    (fun h1 => Scanner.advances_some (hearly (Or.inl (hk.2.symm.trans h1))))
    (fun h1 => Scanner.advances_some ?_)) (fun hne => ?_)
  · refine ⟨s.next_wf, Or.inl ⟨rfl, rfl, by simpa using h1, ?_⟩⟩
    rcases s.next_cases with ⟨c1, _⟩ | ⟨_, c2, _⟩
    · have := (hwf.2 hend).2
      omega
    · exact c2
  refine Scanner.advances_ite (fun h10 => Scanner.advances_some
    (hearly (Or.inr hne))) (fun _ => ?_)
  refine Scanner.advances_ite (fun _ => Scanner.advances_some
    (hn _ _ _ _ hne (Scanner.fwd_scanString _) (by decide))) (fun _ => ?_)
  refine Scanner.advances_ite (fun _ => Scanner.advances_some
    (hn _ _ _ _ hne (Scanner.fwd_scanRune _) (by decide))) (fun _ => ?_)
  refine Scanner.advances_ite (fun _ => Scanner.advances_some
    (hn _ _ _ _ hne (Scanner.fwd_scanRawString _) (by decide))) (fun _ => ?_)
  refine Scanner.advances_ite (fun _ => Scanner.advances_some
    (Scanned.prog_two (Scanner.after_fwd (hp hne) (Scanner.fwd_switch2 _ _ _))
      (Scanner.switch2_tok _ _ _) (by decide))) (fun _ => ?_)
  refine Scanner.advances_ite (fun _ => Scanner.advances_ite
    (fun _ => Scanner.advances_some
      (hn _ _ _ _ hne (Scanner.fwd_next_of s.next.fwd_next) (by decide)))
    (fun _ => Scanner.advances_some (hn _ _ _ _ hne s.next.fwd_refl (by decide))))
    (fun _ => ?_)
  refine Scanner.advances_ite (fun _ => Scanner.advances_some
    (hn _ _ _ _ hne s.next.fwd_refl (by decide))) (fun _ => ?_)
  refine Scanner.advances_ite (fun _ => Scanner.advances_some
    (hn _ _ _ _ hne s.next.fwd_refl (by decide))) (fun _ => ?_)
  refine Scanner.advances_ite (fun _ => Scanner.advances_some
    (hn _ _ _ _ hne s.next.fwd_refl (by decide))) (fun _ => ?_)
  refine Scanner.advances_ite (fun _ => Scanner.advances_some
    (hn _ _ _ _ hne s.next.fwd_refl (by decide))) (fun _ => ?_)
  refine Scanner.advances_ite (fun _ => Scanner.advances_some
    (hn _ _ _ _ hne s.next.fwd_refl (by decide))) (fun _ => ?_)
  refine Scanner.advances_ite (fun _ => Scanner.advances_some
    (hn _ _ _ _ hne s.next.fwd_refl (by decide))) (fun _ => ?_)
  refine Scanner.advances_ite (fun _ => Scanner.advances_some
    (hn _ _ _ _ hne s.next.fwd_refl (by decide))) (fun _ => ?_)
  refine Scanner.advances_ite (fun _ => Scanner.advances_some
    (hn _ _ _ _ hne s.next.fwd_refl (by decide))) (fun _ => ?_)
  refine Scanner.advances_ite (fun _ => Scanner.advances_some
    (hn _ _ _ _ hne s.next.fwd_refl (by decide))) (fun _ => ?_)
  exact Scanner.scanOperator_advances s s.next s.ch pos hwf hsize hk (hp hne) rfl hpos

/-- The switch of `Scan` answers from every state between two calls, and its answer is
`Scanned.prog`. -/
theorem Scanner.scanSwitch_advances (U : Unicode) (s : Scanner)
    (hwf : s.wf) (hsize : s.file.Size = s.src.length) :
    s.advances (s.scanSwitch U (s.file.Base + s.offset)) := by
  unfold Scanner.scanSwitch
  refine Scanner.advances_ite (fun hl => Scanner.advances_some ?_) (fun _ => ?_)
  · have hne := (Lookup_flags (s.scanIdentifier U).1)
    have hmem := Lookup_mem (s.scanIdentifier U).1
    refine Scanned.prog_normal (s.scanIdentifier_lt U hwf hl) ?_
    have hall : ∀ t ∈ Token.Ident :: keywords.map Prod.snd, t ≠ Token.EOF := by
      simp only [keywords, List.map]
      decide
    exact hall _ hmem
  refine Scanner.advances_ite (fun hc => Scanner.advances_some ?_) (fun _ => ?_)
  · exact Scanned.prog_two (s.scanNumber_lt hwf hc) s.scanNumber_tok (by decide)
  exact Scanner.scanPunct_advances s _ hwf hsize rfl


theorem Scanner.potential_bounds (s : Scanner) :
    2 * s.rem ≤ s.potential ∧ s.potential ≤ 2 * s.rem + 1 ∧
      (s.insertSemi = false → s.potential = 2 * s.rem) ∧
      (s.insertSemi = true → s.potential = 2 * s.rem + 1) := by
  simp only [Scanner.potential]
  cases s.insertSemi <;> simp

theorem Scanner.FileSetPos_ok (s : Scanner) (hr : s.ready) :
    s.file.FileSetPos s.offset = some (s.file.Base + s.offset) := by
  simp only [SourceFile.FileSetPos]
  rw [if_neg]
  rw [hr.1]
  have := hr.2.offset_le
  omega

/-- One call of `Scan` from a state between two calls: it returns, and either it returns
the end of the input and leaves the scanner at the end marker with nothing pending, or it
returns another token and the measure is smaller afterwards. -/
theorem Scanner.scanFuel_step (U : Unicode) (fuel : Nat) :
    ∀ s : Scanner, s.ready → s.rem < fuel →
      ∃ tok lit pos s1, Scanner.scanFuel U fuel s = some (tok, lit, pos, s1) ∧
        s1.ready ∧ s1.src = s.src ∧
        ((tok = .EOF ∧ s1.ch = -1 ∧ s1.insertSemi = false) ∨
          (tok ≠ .EOF ∧ s1.potential < s.potential)) := by
  induction fuel with
  | zero => intro s _ h; omega
  | succ n ih =>
    intro s hr hrem
    have hk0 := Scanner.keep_skipWhitespace (s.src.length + 1) s
    have hf0 := Scanner.fwd_skipWhitespace (s.src.length + 1) s hr.2
    have hnb := s.skipWhitespace_atEnd
    have hpot := s.potential_bounds
    simp only [Scanner.scanFuel]
    generalize Scanner.skipWhitespace (s.src.length + 1) s = s0 at hk0 hf0 hnb
    have hr0 : s0.ready := ⟨by rw [hk0.1.2.1, hk0.1.1]; exact hr.1, hf0.2.1⟩
    rw [s0.FileSetPos_ok hr0]
    simp only
    obtain ⟨r, hsw, hprog⟩ := Scanner.scanSwitch_advances U s0 hr0.2 hr0.1
    have hg := Scanner.scanSwitch_good U s0 _ r hr0.2.offset_le rfl hnb hsw
    rw [hsw]
    cases r with
    | early tok1 lit1 s2 =>
      obtain ⟨p1, p2, p3, p4, p5⟩ := hprog
      obtain ⟨_, _, _, _, g5⟩ := hg
      have hp2 := s2.potential_bounds
      refine ⟨tok1, lit1, _, s2, rfl, ⟨?_, p2⟩, g5.1.trans hk0.1.1, Or.inr ⟨p1, ?_⟩⟩
      · rw [g5.2.1, g5.1]
        exact hr0.1
      · have h2 := hp2.2.2.1 p3
        rcases p5 with p5 | p5
        · have := hpot.2.2.2 (hk0.2 ▸ p5)
          omega
        · omega
    | normal tok1 lit1 ins s2 =>
      obtain ⟨p1, p2⟩ := hprog
      obtain ⟨g1, _, _, g4⟩ := hg
      have hsz : s2.file.Size = s2.src.length := by
        rw [g4.2.1, g4.1]
        exact hr0.1
      by_cases hmode : s2.mode &&& DontInsertSemis = 0
      · simp only [hmode, if_true]
        refine ⟨tok1, lit1, _, _, rfl, ⟨hsz, p1⟩, g4.1.trans hk0.1.1, ?_⟩
        rcases p2 with ⟨q1, q2, q3, q4⟩ | ⟨q1, q2⟩
        · exact Or.inl ⟨q1, q4, q2⟩
        · refine Or.inr ⟨q1, ?_⟩
          have := (Scanner.potential_bounds { s2 with insertSemi := ins }).2.1
          have hrem2 : (Scanner.rem { s2 with insertSemi := ins }) = s2.rem := rfl
          omega
      · simp only [hmode, if_false]
        refine ⟨tok1, lit1, _, _, rfl, ⟨hsz, p1⟩, g4.1.trans hk0.1.1, ?_⟩
        rcases p2 with ⟨q1, q2, q3, q4⟩ | ⟨q1, q2⟩
        · exact Or.inl ⟨q1, q4, q3⟩
        · refine Or.inr ⟨q1, ?_⟩
          have := s2.potential_bounds.2.1
          omega
    | again s2 =>
      obtain ⟨p1, p2⟩ := hprog
      obtain ⟨_, _, g3⟩ := hg
      have hsz : s2.file.Size = s2.src.length := by
        rw [g3.2.1, g3.1]
        exact hr0.1
      obtain ⟨tok, lit, pos, s3, e1, e2, e3, e4⟩ := ih s2 ⟨hsz, p1⟩ (by omega)
      refine ⟨tok, lit, pos, s3, e1, e2, e3.trans (g3.1.trans hk0.1.1), ?_⟩
      rcases e4 with e4 | ⟨q1, q2⟩
      · exact Or.inl e4
      · refine Or.inr ⟨q1, ?_⟩
        have := s2.potential_bounds.2.1
        omega

/-- The call `return s.Scan()` after a comment comes back before the fuel is used up. -/
theorem Scanner.scanFuel_fuel (U : Unicode) (fuel : Nat) :
    ∀ (s : Scanner) (k : Nat), s.ready → s.rem < fuel →
      Scanner.scanFuel U (fuel + k) s = Scanner.scanFuel U fuel s := by
  induction fuel with
  | zero => intro s k _ h; omega
  | succ n ih =>
    intro s k hr hrem
    have hk0 := Scanner.keep_skipWhitespace (s.src.length + 1) s
    have hf0 := Scanner.fwd_skipWhitespace (s.src.length + 1) s hr.2
    have hnb := s.skipWhitespace_atEnd
    rw [Nat.add_right_comm]
    simp only [Scanner.scanFuel]
    generalize Scanner.skipWhitespace (s.src.length + 1) s = s0 at hk0 hf0 hnb
    have hr0 : s0.ready := ⟨by rw [hk0.1.2.1, hk0.1.1]; exact hr.1, hf0.2.1⟩
    rw [s0.FileSetPos_ok hr0]
    simp only
    obtain ⟨r, hsw, hprog⟩ := Scanner.scanSwitch_advances U s0 hr0.2 hr0.1
    have hg := Scanner.scanSwitch_good U s0 _ r hr0.2.offset_le rfl hnb hsw
    rw [hsw]
    cases r with
    | early tok1 lit1 s2 => rfl
    | normal tok1 lit1 ins s2 => rfl
    | again s2 =>
      obtain ⟨p1, p2⟩ := hprog
      obtain ⟨_, _, g3⟩ := hg
      have hsz : s2.file.Size = s2.src.length := by
        rw [g3.2.1, g3.1]
        exact hr0.1
      exact ih s2 k ⟨hsz, p1⟩ (by omega)

/-- At the end marker with nothing pending `Scan` returns the end of the input and leaves
the scanner as it is. -/
theorem Scanner.Scan_atEnd (U : Unicode) (s : Scanner) (hr : s.ready) (hch : s.ch = -1)
    (hsemi : s.insertSemi = false) :
    s.Scan U = some (.EOF, [], s.file.Base + s.src.length, s) := by
  obtain ⟨h1, h2⟩ := hr.2.2 hch
  have hsz := hr.1
  cases s with
  | mk file src ch offset readOffset lineOffset insertSemi errors errorCount mode =>
    simp only at hch hsemi h1 h2 hsz
    subst hch hsemi h1
    have hlt : ¬ readOffset < src.length := by omega
    have hletter : isLetter U (-1) = false := by simp [isLetter, RuneSelf]
    simp only [Scanner.Scan, Scanner.scanFuel, Scanner.skipWhitespace]
    rw [if_neg (by simp)]
    simp only [SourceFile.FileSetPos, hsz, Nat.lt_irrefl, gt_iff_lt, if_false,
      Scanner.scanSwitch, hletter, Bool.false_eq_true]
    rw [if_neg (by omega)]
    have h10 : ¬ ((-1 : Int) = 10) := by decide
    simp only [Scanner.scanPunct, if_true, Scanner.next, if_neg hlt, Scanner.noteLine,
      if_neg h10, Bool.false_eq_true, if_false]
    split_ifs <;> rfl


theorem Scanner.loopsEnd_of_wf (U : Unicode) (s : Scanner) (hwf : s.wf) : s.loopsEnd U := by
  intro k
  have hrem : s.rem < s.src.length + 1 := Nat.lt_succ_of_le s.rem_le
  exact ⟨Scanner.skipWhitespace_fuel _ s k hwf hrem,
    Scanner.identLoop_fuel U _ s k hwf hrem,
    fun base hb => Scanner.scanDigits_fuel base hb _ s k hwf hrem,
    fun offs valid n => Scanner.runeLoop_fuel offs _ s k valid n hwf hrem,
    fun offs => Scanner.stringLoop_fuel offs _ s k hwf hrem,
    fun offs hasCR => Scanner.rawLoop_fuel offs _ s k hasCR hwf hrem,
    fun numCR => Scanner.lineCommentLoop_fuel _ s k numCR hwf hrem,
    fun numCR => Scanner.blockCommentLoop_fuel _ s k numCR hwf hrem,
    Scanner.lineEndInner_fuel _ s k hwf hrem,
    Scanner.lineEndOuter_fuel _ s k hwf hrem,
    fun hsz => Scanner.scanFuel_fuel U _ s k ⟨hsz, hwf⟩ hrem⟩

theorem Scanner.Scan_step (U : Unicode) (s : Scanner) (hr : s.ready) :
    ∃ tok lit pos s1, s.Scan U = some (tok, lit, pos, s1) ∧ s1.ready ∧ s1.src = s.src ∧
      ((tok = .EOF ∧ s1.ch = -1 ∧ s1.insertSemi = false) ∨
        (tok ≠ .EOF ∧ s1.potential < s.potential)) :=
  Scanner.scanFuel_step U _ s hr (Nat.lt_succ_of_le s.rem_le)

theorem NewScanner_ready (file : SourceFile) (src : List Nat) (mode : Nat) (s0 : Scanner)
    (h : NewScanner file src mode = some s0) :
    s0.ready ∧ s0.src = src ∧ s0.insertSemi = false := by
  simp only [NewScanner] at h
  split_ifs at h with hsz hb
  · simp only [Option.some.injEq] at h
    subst h
    have h1 := (Scanner.next_fields (Scanner.mk file src 32 0 0 0 false [] 0 mode))
    have h2 := (Scanner.next_fields (Scanner.mk file src 32 0 0 0 false [] 0 mode).next)
    refine ⟨⟨?_, Scanner.next_wf _⟩, h2.1.trans h1.1, h2.2.1.trans h1.2.1⟩
    rw [h2.2.2.2.1, h1.2.2.2.1, h2.1, h1.1]
    simpa using hsz
  · simp only [Option.some.injEq] at h
    subst h
    have h1 := (Scanner.next_fields (Scanner.mk file src 32 0 0 0 false [] 0 mode))
    refine ⟨⟨?_, Scanner.next_wf _⟩, h1.1, h1.2.1⟩
    rw [h1.2.2.2.1, h1.1]
    simpa using hsz

theorem scanStates_ready (U : Unicode) (n : Nat) :
    ∀ s : Scanner, s.ready → ∃ sn, scanStates U n s = some sn ∧ sn.ready ∧ sn.src = s.src := by
  induction n with
  | zero => intro s hr; exact ⟨s, rfl, hr, rfl⟩
  | succ m ih =>
    intro s hr
    obtain ⟨tok, lit, pos, s1, e1, e2, e3, _⟩ := s.Scan_step U hr
    obtain ⟨sn, f1, f2, f3⟩ := ih s1 e2
    exact ⟨sn, by simp only [scanStates, e1]; exact f1, f2, f3.trans e3⟩

/-- From a state between two calls of measure at most `p`, the end of the input is returned
by one of the first `p + 1` calls. -/
theorem scanStates_reach (U : Unicode) (p : Nat) :
    ∀ s : Scanner, s.ready → s.potential ≤ p →
      ∃ n sn lit pos s1, n ≤ p ∧ scanStates U n s = some sn ∧
        sn.Scan U = some (.EOF, lit, pos, s1) := by
  induction p with
  | zero =>
    intro s hr hp
    obtain ⟨tok, lit, pos, s1, e1, _, _, e4⟩ := s.Scan_step U hr
    rcases e4 with ⟨q1, _, _⟩ | ⟨_, q2⟩
    · subst q1
      exact ⟨0, s, lit, pos, s1, Nat.le_refl _, rfl, e1⟩
    · omega
  | succ m ih =>
    intro s hr hp
    obtain ⟨tok, lit, pos, s1, e1, e2, _, e4⟩ := s.Scan_step U hr
    rcases e4 with ⟨q1, _, _⟩ | ⟨_, q2⟩
    · subst q1
      exact ⟨0, s, lit, pos, s1, Nat.zero_le _, rfl, e1⟩
    · obtain ⟨n, sn, lit2, pos2, s2, f1, f2, f3⟩ := ih s1 e2 (by omega)
      exact ⟨n + 1, sn, lit2, pos2, s2, by omega, by simp only [scanStates, e1]; exact f2, f3⟩

theorem scanStates_atEnd (U : Unicode) (s : Scanner)
    (h : s.Scan U = some (.EOF, [], s.file.Base + s.src.length, s)) (k : Nat) :
    scanStates U k s = some s := by
  induction k with
  | zero => rfl
  | succ m ih => simp only [scanStates, h]; exact ih

/-- C37: scanning always reaches the end. For the scanner `NewScanner` makes of any source
`src`, in any mode: one of the first `2 * len(src) + 2` calls of `Scan` returns the EOF
token; every call, after any number of calls, returns (no panic, and the call
`return s.Scan()` after a comment comes back); once a call has returned EOF the scanner
stays as it is and every later call returns EOF again; and every loop of the scanner,
started in a state with coherent offsets, ends by its own condition before the fuel of the
model is used up. -/
theorem c37_scan_reaches_eof (U : Unicode) (file : SourceFile) (src : List Nat) (mode : Nat)
    (s0 : Scanner) (hnew : NewScanner file src mode = some s0) :
    (∃ n sn lit pos s1, n + 1 ≤ 2 * src.length + 2 ∧ scanStates U n s0 = some sn ∧
      sn.Scan U = some (.EOF, lit, pos, s1)) ∧
    (∀ n, ∃ sn, scanStates U n s0 = some sn ∧ (sn.Scan U).isSome = true) ∧
    (∀ n sn lit pos s1, scanStates U n s0 = some sn →
      sn.Scan U = some (.EOF, lit, pos, s1) →
      ∀ k, scanStates U k s1 = some s1 ∧
        s1.Scan U = some (.EOF, [], s1.file.Base + src.length, s1)) ∧
    (∀ s : Scanner, s.wf → s.loopsEnd U) := by
  obtain ⟨hr, hsrc, hsemi⟩ := NewScanner_ready file src mode s0 hnew
  refine ⟨?_, ?_, ?_, fun s hwf => Scanner.loopsEnd_of_wf U s hwf⟩
  · have hpot : s0.potential ≤ 2 * src.length := by
      rw [(s0.potential_bounds).2.2.1 hsemi, ← hsrc]
      have := s0.rem_le
      omega
    obtain ⟨n, sn, lit, pos, s1, f1, f2, f3⟩ := scanStates_reach U _ s0 hr hpot
    exact ⟨n, sn, lit, pos, s1, by omega, f2, f3⟩
  · intro n
    obtain ⟨sn, f1, f2, _⟩ := scanStates_ready U n s0 hr
    obtain ⟨tok, lit, pos, s1, e1, _⟩ := sn.Scan_step U f2
    exact ⟨sn, f1, by rw [e1]; rfl⟩
  · intro n sn lit pos s1 hn hscan k
    obtain ⟨sn2, f1, f2, f3⟩ := scanStates_ready U n s0 hr
    rw [hn] at f1
    simp only [Option.some.injEq] at f1
    subst f1
    obtain ⟨tok, lit2, pos2, s2, e1, e2, e3, e4⟩ := sn.Scan_step U f2
    rw [hscan] at e1
    simp only [Option.some.injEq, Prod.mk.injEq] at e1
    obtain ⟨rfl, rfl, rfl, rfl⟩ := e1
    rcases e4 with ⟨_, q2, q3⟩ | ⟨q1, _⟩
    · have hend := s1.Scan_atEnd U e2 q2 q3
      have hlen : s1.src.length = src.length := by rw [e3, f3, hsrc]
      rw [hlen] at hend
      refine ⟨scanStates_atEnd U s1 (by rw [hlen]; exact hend) k, hend⟩
    · exact absurd rfl q1

theorem c37_scan_reaches_eof_witness :
    NewScanner (sampleFile 2) [97, 10] 0 = some (sampleScanner [97, 10]) ∧
    ∃ n sn lit pos s1, n + 1 ≤ 2 * [97, 10].length + 2 ∧
      scanStates latinUnicode n (sampleScanner [97, 10]) = some sn ∧
      sn.Scan latinUnicode = some (.EOF, lit, pos, s1) :=
  ⟨by decide,
   (c37_scan_reaches_eof latinUnicode (sampleFile 2) [97, 10] 0 (sampleScanner [97, 10])
      (by decide)).1⟩

end Lokum
